import Mathlib

/-!
# Octree construction and cell assembly of `TreeStructure.hpp`

A shallow embedding of the class `TreeStructure` (spatial keys, twig formation, the level-wise
assembly `twigs2cells` with `unique` and `linkParent`, and `addChild` of the top-down octree),
followed by the properties proved about it.

Conventions of the embedding:
* `int` and `bigint` values are unbounded integers; `getLevelChecked` is the run of `getLevel`
  with every `int` operation checked for overflow.
* vectors are lists; a read or write outside a vector, and a loop that does not end, give `none`.
* `real` values are exact rationals.
-/

namespace TreeStructure

/-- Spec side of the spatial key: `offset(d) = (8^d - 1)/7`, the number of cells at depths
shallower than `d` (section 3). -/
def offset (d : Nat) : Int := ((8 : Int) ^ d - 1) / 7

/-- The C++ shift `x << n` on unbounded integers. A negative count is undefined in C++; it is
taken as a shift by zero, and no property below depends on that choice. -/
def shl (x n : Int) : Int := x * 2 ^ n.toNat

/-- The loop `while( i >= 0 ) { level++; i -= 1 << 3*level; }` of getLevel. Each pass lowers
`i` by at least one, so `fuel` above `i` is never used up. -/
def getLevelLoop : Nat → Int → Int → Int
  | 0, _, level => level
  | fuel + 1, i, level =>
    if 0 ≤ i then getLevelLoop fuel (i - shl 1 (3 * (level + 1))) (level + 1) else level

/-- The function `getLevel(index)`. -/
def getLevel (index : Int) : Int := getLevelLoop (index.toNat + 1) index (-1)

/-- The value `x` is representable in the 32-bit C++ type `int`. -/
def fitsInt (x : Int) : Bool := decide (-2147483648 ≤ x) && decide (x ≤ 2147483647)

/-- The loop of getLevel with every `int` operation checked: `none` when the shift count
`3*level` reaches 31, when the subtraction leaves the `int` range, or when the fuel is used
up. -/
def getLevelCheckedLoop : Nat → Int → Int → Option Int
  | 0, _, _ => none
  | fuel + 1, i, level =>
    if 0 ≤ i then
      if 3 * (level + 1) < 31 && fitsInt (i - shl 1 (3 * (level + 1))) then
        getLevelCheckedLoop fuel (i - shl 1 (3 * (level + 1))) (level + 1)
      else none
    else some level

/-- The function `getLevel(index)` with `int` overflow checked; the narrowing `int i = index`
needs `index` to fit. -/
def getLevelChecked (index : Int) : Option Int :=
  if fitsInt index then getLevelCheckedLoop (index.toNat + 2) index (-1) else none

/-- The function `getParent(index)`; `/` is the truncating division of C++ and `>> 3` the
arithmetic right shift. -/
def getParent (index : Int) : Int :=
  let level := getLevel index
  let cOff := Int.tdiv (shl 1 (3 * level) - 1) 7
  let pOff := Int.tdiv (shl 1 (3 * (level - 1)) - 1) 7
  Int.shiftRight (index - cOff) 3 + pOff

/-- Node of the top-down octree (`struct Node`). `CHILD` has 8 slots and `LEAF` has `NCRIT`
slots holding body positions; `X` holds the three centre coordinates and `R` the radius, the
`real` type being taken as exact rationals. -/
structure Node where
  LEVEL : Int
  ICHILD : Nat
  NLEAF : Nat
  I : Int
  CHILD : List Nat
  LEAF : List Nat
  X : List Rat
  R : Rat
deriving DecidableEq, Inhabited

/-- The statement `x[d] += r * (((octant & 1 << d) >> d) * 2 - 1)` of addChild for one axis. -/
def childCoord (x r : Rat) (octant d : Nat) : Rat :=
  x + r * ((((octant &&& (1 <<< d)) >>> d : Nat) : Rat) * 2 - 1)

/-- The function `addChild(octant, i)`: appends the child of `nodes[i]` in `octant` and links it.
The freshly declared `Node node` has unset `CHILD` and `LEAF` slots, taken as zeros. -/
def addChild (NCRIT : Nat) (octant : Nat) (i : Nat) (nodes : List Node) : List Node :=
  let ni := nodes.getD i default
  let pOff := Int.tdiv (shl 1 (3 * ni.LEVEL) - 1) 7
  let cOff := Int.tdiv (shl 1 (3 * (ni.LEVEL + 1)) - 1) 7
  let r := ni.R / 2
  let x := (List.range 3).map (fun d => childCoord (ni.X.getD d 0) r octant d)
  let node : Node :=
    { LEVEL := ni.LEVEL + 1, ICHILD := 0, NLEAF := 0,
      I := shl (ni.I - pOff) 3 + (octant : Int) + cOff,
      CHILD := List.replicate 8 0, LEAF := List.replicate NCRIT 0, X := x, R := r }
  let ni' : Node :=
    { ni with ICHILD := ni.ICHILD ||| (1 <<< octant), CHILD := ni.CHILD.set octant nodes.length }
  nodes.set i ni' ++ [node]

/-- The root node pushed at the start of `grow`: all counters zero, centre `X0`, radius `R0`. -/
def rootNode (NCRIT : Nat) (X0 : List Rat) (R0 : Rat) : Node :=
  { LEVEL := 0, ICHILD := 0, NLEAF := 0, I := 0, CHILD := List.replicate 8 0,
    LEAF := List.replicate NCRIT 0, X := X0, R := R0 }

/-- Modelled from the spec: the `Body` record of the missing `Types.hpp`: a position and the
mutable cell index `ICELL` (section 3, Point). -/
structure Body where
  X : List Rat
  ICELL : Int
deriving DecidableEq, Inhabited

/-- Modelled from the spec: the `Cell` record of the missing `Types.hpp` (section 3, Cell): cell
index, child count, directly owned and descendant leaf counts, parent position, position of the
first child, position of the first leaf body, centre and radius. Counters and positions are
natural numbers; the expansion coefficients are not part of the tree core. -/
structure Cell where
  ICELL : Int
  NCHILD : Nat
  NCLEAF : Nat
  NDLEAF : Nat
  PARENT : Nat
  CHILD : Nat
  LEAF : Nat
  X : List Rat
  R : Rat
deriving DecidableEq, Inhabited

/-- The value-initialised `Cell()`. -/
def Cell.init : Cell :=
  { ICELL := 0, NCHILD := 0, NCLEAF := 0, NDLEAF := 0, PARENT := 0, CHILD := 0, LEAF := 0,
    X := [0, 0, 0], R := 0 }

/-- The de-interleaving `while( index != 0 )` loop of getCenter. The loop does not end on a
negative index; `none` is returned when the fuel is used up before `index` reaches zero. -/
def deinterleaveLoop : Nat → Int → Nat → Int → List Int → Option (List Int)
  | 0, _, _, _, _ => none
  | fuel + 1, index, d, level, nx =>
    if index ≠ 0 then
      deinterleaveLoop fuel (Int.shiftRight index 1) ((d + 1) % 3)
        (if (d + 1) % 3 = 0 then level + 1 else level)
        (nx.set d (nx.getD d 0 + Int.tmod index 2 * shl 1 level))
    else some nx

/-- The integer coordinates `nx` that getCenter de-interleaves from a cell index. -/
def getCenterNx (ICELL : Int) : Option (List Int) :=
  let level := getLevel ICELL
  let index := ICELL - Int.tdiv (shl 1 (3 * level) - 1) 7
  deinterleaveLoop (index.toNat + 1) index 0 0 [0, 0, 0]

/-- The function `getCenter(cell)`: sets the radius and centre of a cell from its index, for the
root cube of centre `X0` and radius `R0`. -/
def getCenter (X0 : List Rat) (R0 : Rat) (cell : Cell) : Option Cell := do
  let level := getLevel cell.ICELL
  let R : Rat := R0 / ((shl 1 level : Int) : Rat)
  let nx ← getCenterNx cell.ICELL
  some { cell with
    R := R,
    X := (List.range 3).map (fun d => (X0.getD d 0 - R0) + (2 * ((nx.getD d 0 : Int) : Rat) + 1) * R) }

/-- The body loop of bodies2twigs; `b` is the position of the next body. -/
def bodies2twigsLoop (X0 : List Rat) (R0 : Rat) :
    List Body → Nat → Nat → Int → Nat → Cell → List Cell → Option (List Cell × Nat × Int × Nat × Cell)
  | [], _, nleaf, index, firstLeaf, cell, twigs => some (twigs, nleaf, index, firstLeaf, cell)
  | B :: rest, b, nleaf, index, firstLeaf, cell, twigs =>
    if B.ICELL ≠ index then do
      let cell1 ← getCenter X0 R0
        { cell with NCLEAF := nleaf, NDLEAF := nleaf, CHILD := 0, NCHILD := 0, ICELL := index,
                    LEAF := firstLeaf }
      bodies2twigsLoop X0 R0 rest (b + 1) 1 B.ICELL b cell1 (twigs ++ [cell1])
    else bodies2twigsLoop X0 R0 rest (b + 1) (nleaf + 1) index firstLeaf cell twigs

/-- The function `bodies2twigs(bodies, twigs)`; reading `bodies[0]` of an empty sequence is
undefined and gives `none`. -/
def bodies2twigs (X0 : List Rat) (R0 : Rat) (bodies : List Body) (twigs : List Cell) :
    Option (List Cell) := do
  let B0 ← bodies.head?
  let (twigs1, nleaf, index, firstLeaf, cell) ←
    bodies2twigsLoop X0 R0 bodies 0 0 B0.ICELL 0 Cell.init twigs
  let cell1 ← getCenter X0 R0
    { cell with NCLEAF := nleaf, NDLEAF := nleaf, CHILD := 0, NCHILD := 0, ICELL := index,
                LEAF := firstLeaf }
  some (twigs1 ++ [cell1])

/-- The field copies of the stick-cell collision branch of unique: every field of `cc` except
the index, centre and radius is copied onto `co`. -/
def Cell.takeLinks (co cc : Cell) : Cell :=
  { co with NCHILD := cc.NCHILD, NCLEAF := cc.NCLEAF, NDLEAF := cc.NDLEAF, PARENT := cc.PARENT,
            CHILD := cc.CHILD, LEAF := cc.LEAF }

/-- The loop `for( int c=begin; c!=end; ++c )` of unique. Each pass lowers `end - c` by one;
`none` is returned when the fuel is used up before `c` meets `end`, or on a read outside the
cell array. -/
def uniqueLoop : Nat → List Cell → List Cell → Nat → Nat → Nat →
    Option (List Cell × List Cell × Nat)
  | 0, cells, sticks, _, c, end_ => if c = end_ then some (cells, sticks, end_) else none
  | fuel + 1, cells, sticks, c_old, c, end_ =>
    if c = end_ then some (cells, sticks, end_) else do
      let cc ← cells[c]?
      let co ← cells[c_old]?
      if cc.ICELL ≠ co.ICELL then
        uniqueLoop fuel cells sticks c (c + 1) end_
      else if c ≠ c_old then
        if cc.NCHILD ≠ 0 then
          uniqueLoop fuel ((cells.set c_old (co.takeLinks cc)).eraseIdx c)
            (sticks ++ [co.takeLinks cc]) c_old c (end_ - 1)
        else
          uniqueLoop fuel (cells.eraseIdx c) sticks c_old c (end_ - 1)
      else
        uniqueLoop fuel cells sticks c_old (c + 1) end_

/-- The function `unique(cells, sticks, begin, end)`; returns the cells, the sticks and the
updated `end`. -/
def unique (cells sticks : List Cell) (begin end_ : Nat) : Option (List Cell × List Cell × Nat) :=
  uniqueLoop (end_ - begin) cells sticks begin begin end_

/-- The inner loop `for( int c=0; c!=cells[i].NCHILD; ++c )` of linkParent, with `n` the number
of children still to link and `pos` the position `cells[i].CHILD + c`. -/
def linkChildren (i : Nat) : Nat → Nat → List Cell → Option (List Cell)
  | 0, _, cells => some cells
  | n + 1, pos, cells => do
    let ch ← cells[pos]?
    linkChildren i n (pos + 1) (cells.set pos { ch with PARENT := i })

/-- The loop `for( int i=begin; i!=oldend; ++i )` of linkParent. -/
def linkParentLoop (X0 : List Rat) (R0 : Rat) :
    Nat → List Cell → Cell → Nat → Nat → Nat → Option (List Cell × Cell × Nat)
  | 0, cells, parent, i, oldend, end_ => if i = oldend then some (cells, parent, end_) else none
  | fuel + 1, cells, parent, i, oldend, end_ =>
    if i = oldend then some (cells, parent, end_) else do
      let ci ← cells[i]?
      let (cells1, parent1, end1) ←
        (if getParent ci.ICELL ≠ parent.ICELL then do
          let p ← getCenter X0 R0
            { parent with ICELL := getParent ci.ICELL, NCLEAF := 0, NDLEAF := 0, NCHILD := 0,
                          LEAF := ci.LEAF, CHILD := i }
          some (cells ++ [parent], p, end_ + 1)
        else some (cells, parent, end_))
      let ci1 ← cells1[i]?
      let cells2 ← linkChildren i ci1.NCHILD ci1.CHILD cells1
      let ci2 ← cells2[i]?
      let cells3 := cells2.set i { ci2 with PARENT := end1 }
      let ci3 ← cells3[i]?
      let parent2 := { parent1 with NDLEAF := parent1.NDLEAF + ci3.NDLEAF }
      linkParentLoop X0 R0 fuel cells3 { parent2 with NCHILD := parent2.NCHILD + 1 }
        (i + 1) oldend end1

/-- The function `linkParent(cells, begin, end)`; returns the cells and the updated `begin` and
`end`. -/
def linkParent (X0 : List Rat) (R0 : Rat) (cells : List Cell) (begin end_ : Nat) :
    Option (List Cell × Nat × Nat) := do
  let cb ← cells[begin]?
  let parent ← getCenter X0 R0
    { Cell.init with ICELL := getParent cb.ICELL, NCLEAF := 0, NDLEAF := 0, NCHILD := 0,
                     LEAF := cb.LEAF, CHILD := begin }
  let (cells1, parent1, end1) ← linkParentLoop X0 R0 (end_ - begin) cells parent begin end_ end_
  some (cells1 ++ [parent1], end_, end1 + 1)

/-- Modelled from the spec: `sortCells` of the missing `Sorter.hpp`, restricted to the range
`[begin, end)`: a stable ascending sort by `ICELL` (section 4.4 step 2a, section 6). -/
def sortCells (cells : List Cell) (begin end_ : Nat) : List Cell :=
  cells.take begin ++
    List.insertionSort (fun a b => a.ICELL ≤ b.ICELL) ((cells.drop begin).take (end_ - begin)) ++
    cells.drop end_

/-- State of twigs2cells: the cell array, the sticks, and the range `[begin, end)`. -/
structure AsmState where
  cells : List Cell
  sticks : List Cell
  begin : Nat
  end_ : Nat
deriving DecidableEq, Inhabited

/-- One level pass of twigs2cells: sortCells, unique, linkParent. -/
def levelStep (X0 : List Rat) (R0 : Rat) (st : AsmState) : Option AsmState := do
  let cells1 := sortCells st.cells st.begin st.end_
  let (cells2, sticks2, end2) ← unique cells1 st.sticks st.begin st.end_
  let (cells3, begin3, end3) ← linkParent X0 R0 cells2 st.begin end2
  some { cells := cells3, sticks := sticks2, begin := begin3, end_ := end3 }

/-- The loop `while( getLevel(twigs.back().ICELL) != level )` of twigs2cells, for the level
`tl` of the last twig. The loop does not end when `level` starts below `tl`; `none` is
returned when the fuel is used up first. -/
def climbLoop (X0 : List Rat) (R0 : Rat) : Nat → Int → AsmState → Int → Option (AsmState × Int)
  | 0, tl, st, level => if tl ≠ level then none else some (st, level)
  | fuel + 1, tl, st, level =>
    if tl ≠ level then do
      let st1 ← levelStep X0 R0 st
      climbLoop X0 R0 fuel tl st1 (level - 1)
    else some (st, level)

/-- The loop `while( !twigs.empty() )` of twigs2cells over the twigs taken from the back
(the argument is the twig vector reversed). -/
def twigsLoop (X0 : List Rat) (R0 : Rat) : List Cell → AsmState → Int → Option (AsmState × Int)
  | [], st, level => some (st, level)
  | t :: rest, st, level => do
    let (st1, level1) ←
      climbLoop X0 R0 (level - getLevel t.ICELL).toNat (getLevel t.ICELL) st level
    twigsLoop X0 R0 rest { st1 with cells := st1.cells ++ [t], end_ := st1.end_ + 1 } level1

/-- The loop `for( int l=level; l>0; --l )` of twigs2cells, with `l` passes left. -/
def finalLoop (X0 : List Rat) (R0 : Rat) : Nat → AsmState → Option AsmState
  | 0, st => some st
  | l + 1, st => do
    let st1 ← levelStep X0 R0 st
    finalLoop X0 R0 l st1

/-- The function `twigs2cells(twigs, cells, sticks)`; returns the cells and the sticks. Reading
`twigs.back()` of an empty vector is undefined and gives `none`. -/
def twigs2cells (X0 : List Rat) (R0 : Rat) (twigs cells sticks : List Cell) :
    Option (List Cell × List Cell) := do
  let last ← twigs.getLast?
  let level := getLevel last.ICELL
  let (st1, level1) ←
    twigsLoop X0 R0 twigs.reverse { cells := cells, sticks := sticks, begin := 0, end_ := 0 } level
  let st2 ← finalLoop X0 R0 level1.toNat st1
  let (cells3, sticks3, _) ← unique st2.cells st2.sticks st2.begin st2.end_
  some (cells3, sticks3)

/-- Spec side of twig formation: `runs` splits `bodies` into its maximal runs of consecutive
bodies with equal `ICELL`: the runs are non-empty, concatenate to `bodies`, each run has one
index, and neighbouring runs have different indices. -/
def IsMaximalRuns (runs : List (List Body)) (bodies : List Body) : Prop :=
  runs.flatten = bodies ∧ (∀ r ∈ runs, r ≠ []) ∧
    (∀ r ∈ runs, ∀ a ∈ r, ∀ b ∈ r, a.ICELL = b.ICELL) ∧
    List.Chain' (fun r s => ∀ a ∈ r, ∀ b ∈ s, a.ICELL ≠ b.ICELL) runs

/-- Spec side of twig formation: `twigs` lists one twig per run of `runs`, in order, the first
run starting at body position `start`: index of the run, leaf counts equal to the run length, no
children, and `LEAF` at the first body of the run. -/
def TwigsOfRuns : Nat → List Cell → List (List Body) → Prop
  | _, [], [] => True
  | start, t :: ts, r :: rs =>
    (∀ b ∈ r, t.ICELL = b.ICELL) ∧ t.NCLEAF = r.length ∧ t.NDLEAF = r.length ∧ t.NCHILD = 0 ∧
      t.CHILD = 0 ∧ t.LEAF = start ∧ TwigsOfRuns (start + r.length) ts rs
  | _, _, _ => False

/-- Pure description of what unique does to the cells `todo` that follow a kept cell `co` in the
range: the first component lists the kept cells, starting with the final form of `co`; the
second lists the sticks pushed. -/
def uniqueSpec : Cell → List Cell → List Cell × List Cell
  | co, [] => ([co], [])
  | co, cc :: rest =>
    if cc.ICELL ≠ co.ICELL then
      (co :: (uniqueSpec cc rest).1, (uniqueSpec cc rest).2)
    else if cc.NCHILD ≠ 0 then
      ((uniqueSpec (co.takeLinks cc) rest).1,
        co.takeLinks cc :: (uniqueSpec (co.takeLinks cc) rest).2)
    else uniqueSpec co rest

/-- Spec side of stick recording: the indices of the cells of a range that repeat the `ICELL`
of the cell just before them and have children (`NCHILD ≠ 0`), in range order. -/
def lateParents : List Cell → List Int
  | a :: b :: rest =>
    (if b.ICELL = a.ICELL ∧ b.NCHILD ≠ 0 then [b.ICELL] else []) ++ lateParents (b :: rest)
  | _ => []

/-- A synthesized parent cell with index 1 and two children, and a twig with the same index. -/
def parentOne : Cell := { Cell.init with ICELL := 1, NCHILD := 2, NDLEAF := 5, CHILD := 7 }

/-- A twig with index 1 holding three leaves. -/
def twigOne : Cell := { Cell.init with ICELL := 1, NCLEAF := 3, NDLEAF := 3, LEAF := 4 }

/-- The result of getCenter as a total function; the cell is returned as it is where getCenter
does not return (negative index). -/
def withCenter (X0 : List Rat) (R0 : Rat) (c : Cell) : Cell := (getCenter X0 R0 c).getD c

/-- Pure description of linkChildren: `PARENT := i` on the `n` cells from position `pos`. -/
def setParentBlock (i : Nat) : Nat → Nat → List Cell → List Cell
  | 0, _, cells => cells
  | n + 1, pos, cells =>
    setParentBlock i n (pos + 1) (cells.set pos { cells.getD pos default with PARENT := i })

/-- Pure description of the child-link writes of linkParent on the cells `pre` below the range:
the members `range`, the first of them at position `i`, link their child blocks in turn. -/
def linkBlocks : Nat → List Cell → List Cell → List Cell
  | _, [], pre => pre
  | i, m :: rest, pre => linkBlocks (i + 1) rest (setParentBlock i m.NCHILD m.CHILD pre)

/-- Progress of the linkParent loop over the range: the members handled so far (with their new
`PARENT`), the parents pushed so far, and the parent under construction. -/
structure LinkState where
  done : List Cell
  pushed : List Cell
  parent : Cell

/-- Pure description of one pass of the linkParent loop for the member `m`; the range starts at
position `B` and the cell array had length `E` when linkParent was entered. -/
def linkStep (X0 : List Rat) (R0 : Rat) (B E : Nat) (st : LinkState) (m : Cell) : LinkState :=
  let isNew := getParent m.ICELL ≠ st.parent.ICELL
  let pushed1 := if isNew then st.pushed ++ [st.parent] else st.pushed
  let parent1 := if isNew then
      withCenter X0 R0 { st.parent with ICELL := getParent m.ICELL, NCLEAF := 0, NDLEAF := 0,
                                        NCHILD := 0, LEAF := m.LEAF, CHILD := B + st.done.length }
    else st.parent
  { done := st.done ++ [{ m with PARENT := E + pushed1.length }],
    pushed := pushed1,
    parent := { parent1 with NDLEAF := parent1.NDLEAF + m.NDLEAF, NCHILD := parent1.NCHILD + 1 } }

/-- The first parent under construction in linkParent, for a range starting with `m` at
position `B`. -/
def firstParent (X0 : List Rat) (R0 : Rat) (B : Nat) (m : Cell) : Cell :=
  withCenter X0 R0 { Cell.init with ICELL := getParent m.ICELL, NCLEAF := 0, NDLEAF := 0,
                                    NCHILD := 0, LEAF := m.LEAF, CHILD := B }

/-- Pure description of linkParent on the range `range` at position `B` that ends the cell
array: the final loop state. -/
def linkSpec (X0 : List Rat) (R0 : Rat) (B : Nat) (range : List Cell) : LinkState :=
  range.foldl (linkStep X0 R0 B (B + range.length))
    { done := [], pushed := [], parent := firstParent X0 R0 B (range.headD default) }

/-- Spec side of parent synthesis: `groups` splits the range into its maximal runs of
consecutive members with the same parent index: non-empty groups that concatenate to the range,
one parent index per group, different parent indices in neighbouring groups. -/
def IsParentGroups (groups : List (List Cell)) (range : List Cell) : Prop :=
  groups.flatten = range ∧ (∀ g ∈ groups, g ≠ []) ∧
    (∀ g ∈ groups, ∀ a ∈ g, ∀ b ∈ g, getParent a.ICELL = getParent b.ICELL) ∧
    List.Chain' (fun g h => ∀ a ∈ g, ∀ b ∈ h, getParent a.ICELL ≠ getParent b.ICELL) groups

/-- Spec side of parent synthesis: `parents` lists one parent per group of `groups`, in order,
and `done` lists the members with their new `PARENT`. The first group starts at position `start`
and its parent sits at position `pos`. Each parent has the parent index of its group, `CHILD` at
the first member, `NCHILD` the group size, `NDLEAF` the sum of the members' `NDLEAF`, no own
leaves and the `LEAF` of the first member; each member differs from the original only in
`PARENT`, which is the position of the parent of its group. -/
def ParentsOfGroups : Nat → Nat → List Cell → List Cell → List (List Cell) → Prop
  | _, _, [], [], [] => True
  | start, pos, P :: Ps, done, g :: gs =>
    (∀ a ∈ g, P.ICELL = getParent a.ICELL) ∧ P.CHILD = start ∧ P.NCHILD = g.length ∧
      P.NDLEAF = (g.map Cell.NDLEAF).sum ∧ P.NCLEAF = 0 ∧ P.LEAF = (g.headD default).LEAF ∧
      done.take g.length = g.map (fun m => { m with PARENT := pos }) ∧
      ParentsOfGroups (start + g.length) (pos + 1) Ps (done.drop g.length) gs
  | _, _, _, _, _ => False

/-- A depth-1 cell with index 1 and no children. -/
def memberA : Cell := { Cell.init with ICELL := 1, NCLEAF := 3, NDLEAF := 3 }

/-- A depth-1 cell with index 2 whose child block is position 0. -/
def memberB : Cell := { Cell.init with ICELL := 2, NCHILD := 1, NDLEAF := 5, CHILD := 0 }

/-- Pure description of one level pass (sortCells, unique, linkParent) on a state whose range
ends the cell array. -/
def levelSpec (X0 : List Rat) (R0 : Rat) (st : AsmState) : AsmState :=
  let lower := st.cells.take st.begin
  let s := List.insertionSort (fun a b => a.ICELL ≤ b.ICELL) (st.cells.drop st.begin)
  let u := uniqueSpec (s.headD default) s.tail
  let ls := linkSpec X0 R0 st.begin u.1
  { cells := linkBlocks st.begin u.1 lower ++ (ls.done ++ (ls.pushed ++ [ls.parent])),
    sticks := st.sticks ++ u.2,
    begin := st.begin + u.1.length,
    end_ := st.begin + u.1.length + ls.pushed.length + 1 }

/-- Two cells of a range, the second after the first, do not collide as stick and cell: when
they share an index the later one has no children. -/
def cellRdup (a b : Cell) : Prop := a.ICELL = b.ICELL → b.NCHILD = 0

/-- Parent/child links of a cell array are consistent, with every child block below `begin`:
for every cell `P` at position `p` and every `c < NCHILD`, position `CHILD + c` is below `begin`
and below `p`, and holds a cell whose `PARENT` is `p` and whose parent index is the index of
`P`. -/
def Linked (cells : List Cell) (begin : Nat) : Prop :=
  ∀ p P, cells[p]? = some P → ∀ c, c < P.NCHILD →
    P.CHILD + c < begin ∧ P.CHILD + c < p ∧
      ∃ y, cells[P.CHILD + c]? = some y ∧ y.PARENT = p ∧ getParent y.ICELL = P.ICELL

/-- Structural invariant of twigs2cells between level passes, at level `L`: the range
`[begin, end)` is non-empty and ends the array, holds cells of level `L` that do not collide as
stick and cell, the cells below it are deeper, and the links are consistent. -/
def InvBase (st : AsmState) (L : Int) : Prop :=
  st.end_ = st.cells.length ∧ st.begin < st.cells.length ∧
    (∀ c ∈ st.cells.drop st.begin, 0 ≤ c.ICELL ∧ getLevel c.ICELL = L) ∧
    (∀ c ∈ st.cells.take st.begin, L < getLevel c.ICELL) ∧
    List.Pairwise cellRdup (st.cells.drop st.begin) ∧
    Linked st.cells st.begin

/-- The cells of the range that a level pass keeps: the range sorted and deduplicated. -/
def keptCells (st : AsmState) : List Cell :=
  (uniqueSpec
    ((List.insertionSort (fun a b => a.ICELL ≤ b.ICELL) (st.cells.drop st.begin)).headD default)
    (List.insertionSort (fun a b => a.ICELL ≤ b.ICELL) (st.cells.drop st.begin)).tail).1

/-- Spec side of the leaf-count invariant: the sum of `NCLEAF` over the leaf-only cells
(`NCHILD = 0`) of the subtree of the cell at position `p`, the children of a cell being the
cells at positions `CHILD .. CHILD + NCHILD - 1`. The recursion depth is bounded by `fuel`. -/
def leafSum : Nat → List Cell → Nat → Nat
  | 0, _, _ => 0
  | fuel + 1, cells, p =>
    if (cells.getD p default).NCHILD = 0 then (cells.getD p default).NCLEAF
    else ((List.range (cells.getD p default).NCHILD).map
      (fun c => leafSum fuel cells ((cells.getD p default).CHILD + c))).sum

/-- Leaf counts of a cell array are consistent: a cell without children has
`NDLEAF = NCLEAF`, and a cell with children has `NDLEAF` equal to the sum of the `NDLEAF` of
the cells of its child block. -/
def LeafInv (cells : List Cell) : Prop :=
  ∀ (p : Nat) (P : Cell), cells[p]? = some P →
    (P.NCHILD = 0 → P.NDLEAF = P.NCLEAF) ∧
    (P.NCHILD ≠ 0 →
      P.NDLEAF = (((cells.drop P.CHILD).take P.NCHILD).map Cell.NDLEAF).sum)

/-- Index `a` is a proper ancestor of index `b`: `a` is reached from `b` by at least one and at
most `getLevel b` applications of getParent. -/
def IsProperAncestor (a b : Int) : Prop :=
  ∃ j : Nat, 1 ≤ j ∧ (j : Int) ≤ getLevel b ∧ getParent^[j] b = a

/-- Invariant of twigs2cells used for the leaf total, for the twigs `pushed` so far: every cell
of the range is a pushed twig or a cell with children whose index is a proper ancestor of a
pushed twig, the indices in the range are pairwise different, and the `NDLEAF` of the range add
up to the `NDLEAF` of the pushed twigs. -/
def RootInv (st : AsmState) (pushed : List Cell) : Prop :=
  (∀ c ∈ st.cells.drop st.begin,
    c ∈ pushed ∨ (c.NCHILD ≠ 0 ∧ ∃ t ∈ pushed, IsProperAncestor c.ICELL t.ICELL)) ∧
  ((st.cells.drop st.begin).map Cell.ICELL).Nodup ∧
  ((st.cells.drop st.begin).map Cell.NDLEAF).sum = (pushed.map Cell.NDLEAF).sum

/-- The floor of the base-8 logarithm of `n`, by repeated division; `fuel` bounds the number of
divisions. -/
def floorLog8Loop : Nat → Nat → Nat
  | 0, _ => 0
  | fuel + 1, n => if 8 ≤ n then floorLog8Loop fuel (n / 8) + 1 else 0

/-- The expression `int(log(x) / M_LN2 / 3)` for an integer `x`, the floating-point logarithm
being taken as the exact base-8 logarithm: the floor of `log8 x` for `1 ≤ x`. The logarithm of
zero or of a negative number is not a number an `int` can hold; the value is taken as 0. -/
def log8Trunc (x : Int) : Int := (floorLog8Loop x.toNat x.toNat : Nat)

/-- The function `getMaxLevel(bodies)` for the leaf capacity `NCRIT` (a positive constant) and
the partition count `MPISIZE`. -/
def getMaxLevel (NCRIT MPISIZE : Nat) (bodies : List Body) : Int :=
  let N : Int := (bodies.length : Int) * (MPISIZE : Int)
  let level : Int := if N ≥ (NCRIT : Int) then 1 + log8Trunc (Int.tdiv N (NCRIT : Int)) else 0
  let MPIlevel : Int := log8Trunc ((MPISIZE : Int) - 1) + 1
  let MPIlevel : Int := if MPISIZE = 1 then 0 else MPIlevel
  if MPIlevel > level then MPIlevel else level

/-- The conversion `int(x)` of a `real` value: truncation towards zero. -/
def truncToInt (q : Rat) : Int := Int.tdiv q.num (q.den : Int)

/-- The statements `i += nx[d] % 2 << (3 * l + d); nx[d] >>= 1;` of setIndex_bottomup for the
level `l` and the axis `d`, on the pair of `i` and `nx`. -/
def interleaveStep (l : Nat) (s : Int × List Int) (d : Nat) : Int × List Int :=
  (s.1 + shl (Int.tmod (s.2.getD d 0) 2) ((3 * l + d : Nat) : Int),
    s.2.set d (Int.shiftRight (s.2.getD d 0) 1))

/-- The loop nest `for( int l=0; l!=level; ++l ) for( int d=0; d!=3; ++d )` of
setIndex_bottomup, with `n` levels left and `l` the current level. -/
def interleaveLoop : Nat → Nat → Int × List Int → Int × List Int
  | 0, _, s => s
  | n + 1, l, s => interleaveLoop n (l + 1) ((List.range 3).foldl (interleaveStep l) s)

/-- The key `i + off` that setIndex_bottomup computes for a body at position `X` and the level
`level`. The level loop does not end for a negative `level`, which gives `none`. -/
def bottomupKey (X0 : List Rat) (R0 : Rat) (level : Int) (X : List Rat) : Option Int :=
  let off := Int.tdiv (shl 1 (3 * level) - 1) 7
  let r : Rat := R0 / ((shl 1 (level - 1) : Int) : Rat)
  let nx := (List.range 3).map (fun d => truncToInt ((X.getD d 0 - (X0.getD d 0 - R0)) / r))
  if level < 0 then none
  else some ((interleaveLoop level.toNat 0 (0, nx)).1 + off)

/-- The loop `for( int b=begin; b!=end; ++b )` of setIndex_bottomup. The loop does not end when
`begin` is above `end`; `none` is returned when the fuel is used up before `b` meets `end`, or
on a read outside the body array. -/
def setIndexLoop (X0 : List Rat) (R0 : Rat) (level : Int) (update : Bool) :
    Nat → Nat → Nat → List Body → Option (List Body)
  | 0, b, end_, bodies => if b = end_ then some bodies else none
  | fuel + 1, b, end_, bodies =>
    if b = end_ then some bodies else do
      let B ← bodies[b]?
      let key ← bottomupKey X0 R0 level B.X
      let B1 : Body :=
        if !update then { B with ICELL := key }
        else if key > B.ICELL then { B with ICELL := key }
        else B
      setIndexLoop X0 R0 level update fuel (b + 1) end_ (bodies.set b B1)

/-- The function `setIndex_bottomup(bodies, level, begin, end, update)`. -/
def setIndex_bottomup (NCRIT MPISIZE : Nat) (X0 : List Rat) (R0 : Rat) (bodies : List Body)
    (level : Int) (begin end_ : Nat) (update : Bool) : Option (List Body) :=
  let level1 := if level = -1 then getMaxLevel NCRIT MPISIZE bodies else level
  let end1 := if end_ = 0 then bodies.length else end_
  setIndexLoop X0 R0 level1 update (end1 - begin) begin end1 bodies

/-- The function `getOctant(X, i)`: bit `d` of the octant is set when `X[d]` is above the centre
of node `i`. -/
def getOctant (X : List Rat) (i : Nat) (nodes : List Node) : Nat :=
  (List.range 3).foldl
    (fun octant d =>
      octant + ((if X.getD d 0 > (nodes.getD i default).X.getD d 0 then 1 else 0) <<< d)) 0

/-- The function `addLeaf(b, i)`, the body being given by its position `b`; a write outside the
`NCRIT` leaf slots of the node gives `none`. -/
def addLeaf (b i : Nat) (nodes : List Node) : Option (List Node) := do
  let ni ← nodes[i]?
  if ni.NLEAF < ni.LEAF.length then
    some (nodes.set i { ni with LEAF := ni.LEAF.set ni.NLEAF b, NLEAF := ni.NLEAF + 1 })
  else none

/-- The loop `for( int l=0; l!=NCRIT; ++l )` of splitNode for the node `i`, from the leaf slot
`l`, with the recursive call of splitNode on the child. Nothing bounds the recursion depth;
`none` is returned when the fuel is used up, or on a read or write outside a vector. -/
def splitNodeLoop (NCRIT : Nat) (bodies : List Body) : Nat → Nat → Nat → List Node →
    Option (List Node)
  | 0, _, _, _ => none
  | fuel + 1, i, l, nodes =>
    if l = NCRIT then some nodes else do
      let ni ← nodes[i]?
      let b ← ni.LEAF[l]?
      let B ← bodies[b]?
      let octant := getOctant B.X i nodes
      let nodes1 :=
        if ni.ICHILD &&& (1 <<< octant) = 0 then addChild NCRIT octant i nodes else nodes
      let ni1 ← nodes1[i]?
      let c ← ni1.CHILD[octant]?
      let b1 ← ni1.LEAF[l]?
      let nodes2 ← addLeaf b1 c nodes1
      let nc ← nodes2[c]?
      let nodes3 ← if nc.NLEAF ≥ NCRIT then splitNodeLoop NCRIT bodies fuel c 0 nodes2
        else some nodes2
      splitNodeLoop NCRIT bodies fuel i (l + 1) nodes3

/-- The function `splitNode(i)`. -/
def splitNode (NCRIT : Nat) (bodies : List Body) (fuel i : Nat) (nodes : List Node) :
    Option (List Node) :=
  splitNodeLoop NCRIT bodies fuel i 0 nodes

/-- The loop `while( nodes[i].NLEAF >= NCRIT )` of grow for a body at position `X`; returns the
node reached and the nodes. -/
def descendLoop (NCRIT : Nat) (X : List Rat) : Nat → Nat → List Node → Option (Nat × List Node)
  | 0, _, _ => none
  | fuel + 1, i, nodes => do
    let ni ← nodes[i]?
    if ni.NLEAF ≥ NCRIT then
      let nodes1 := nodes.set i { ni with NLEAF := ni.NLEAF + 1 }
      let octant := getOctant X i nodes1
      let nodes2 :=
        if ni.ICHILD &&& (1 <<< octant) = 0 then addChild NCRIT octant i nodes1 else nodes1
      let ni2 ← nodes2[i]?
      let c ← ni2.CHILD[octant]?
      descendLoop NCRIT X fuel c nodes2
    else some (i, nodes)

/-- One pass of the body loop of grow, for the body at position `b`. -/
def growStep (NCRIT : Nat) (bodies : List Body) (fuel : Nat) (nodes : List Node) (b : Nat) :
    Option (List Node) := do
  let B ← bodies[b]?
  let (i, nodes1) ← descendLoop NCRIT B.X fuel 0 nodes
  let nodes2 ← addLeaf b i nodes1
  let ni ← nodes2[i]?
  if ni.NLEAF ≥ NCRIT then splitNode NCRIT bodies fuel i nodes2 else some nodes2

/-- The body loop of grow over the body positions `bs`. -/
def growLoop (NCRIT : Nat) (bodies : List Body) (fuel : Nat) :
    List Nat → List Node → Option (List Node)
  | [], nodes => some nodes
  | b :: bs, nodes => do
    let nodes1 ← growStep NCRIT bodies fuel nodes b
    growLoop NCRIT bodies fuel bs nodes1

/-- The function `grow(bodies)` on an empty node vector: pushes the root and inserts the bodies
in order. Each loop and the recursion of splitNode may use up to `fuel` steps. -/
def grow (NCRIT : Nat) (X0 : List Rat) (R0 : Rat) (bodies : List Body) (fuel : Nat) :
    Option (List Node) :=
  growLoop NCRIT bodies fuel (List.range bodies.length) [rootNode NCRIT X0 R0]

/-- The loop `for( int i=0; i!=N->NLEAF; ++i ) N->LEAF[i]->ICELL = N->I` of traverse. -/
def writeLeafs (N : Node) : List Nat → List Body → Option (List Body)
  | [], bodies => some bodies
  | i :: is, bodies => do
    let b ← N.LEAF[i]?
    let B ← bodies[b]?
    writeLeafs N is (bodies.set b { B with ICELL := N.I })

/-- The function `traverse(N)` for the node at position `n`, with the loop over the children
`os` still to visit. Returns the bodies with their new `ICELL`. -/
def traverse (NCRIT : Nat) (nodes : List Node) : Nat → Nat → List Body → Option (List Body)
  | 0, _, _ => none
  | fuel + 1, n, bodies => do
    let N ← nodes[n]?
    if N.NLEAF ≥ NCRIT then
      (List.range 8).foldlM
        (fun bs i =>
          if N.ICHILD &&& (1 <<< i) ≠ 0 then do
            let c ← N.CHILD[i]?
            traverse NCRIT nodes fuel c bs
          else some bs) bodies
    else writeLeafs N (List.range N.NLEAF) bodies

/-- The function `setIndex_topdown()`: traverse from the root. -/
def setIndex_topdown (NCRIT : Nat) (nodes : List Node) (fuel : Nat) (bodies : List Body) :
    Option (List Body) :=
  traverse NCRIT nodes fuel 0 bodies

/-- Spec side of the maximum depth (section 4.2): `ceil(log8(N/C)) + 1` when `N ≥ C`, else 0.
The ceiling of the base-8 logarithm of a ratio `q ≥ 1` is the least `k` with `q ≤ 8^k`, which is
`Nat.clog 8` of the ratio rounded up. -/
def maxLevelSpec (C N : Nat) : Int :=
  if C ≤ N then (Nat.clog 8 ((N + C - 1) / C) : Int) + 1 else 0

/-- Spec side of the bottom-up key (section 4.3): the sum over the levels `l < L` and the axes
`d < 3` of bit `l` of `nx[d]`, shifted to position `3 * l + d`. -/
def keySum (L : Nat) (nx : List Int) : Int :=
  ((List.range L).map (fun l =>
    ((List.range 3).map (fun d => (nx.getD d 0 / 2 ^ l % 2) * 2 ^ (3 * l + d))).sum)).sum

/-- The interleaved bits of three coordinates over `n` levels, lowest level first: one octant
digit per level. -/
def interleaveKey : Nat → Int → Int → Int → Int
  | 0, _, _, _ => 0
  | n + 1, a, b, c =>
    a % 2 + 2 * (b % 2) + 4 * (c % 2) + 8 * interleaveKey n (a / 2) (b / 2) (c / 2)

/-- The node that `addChild(octant, i)` pushes for the parent node `ni`: the `Node node` built
in the body of addChild. -/
def childNode (NCRIT : Nat) (ni : Node) (octant : Nat) : Node :=
  { LEVEL := ni.LEVEL + 1, ICHILD := 0, NLEAF := 0,
    I := shl (ni.I - Int.tdiv (shl 1 (3 * ni.LEVEL) - 1) 7) 3 + (octant : Int)
      + Int.tdiv (shl 1 (3 * (ni.LEVEL + 1)) - 1) 7,
    CHILD := List.replicate 8 0, LEAF := List.replicate NCRIT 0,
    X := (List.range 3).map (fun d => childCoord (ni.X.getD d 0) (ni.R / 2) octant d),
    R := ni.R / 2 }

/-- Spec side of the top-down key: `L` successive descents from node `i` towards the point `X`,
each one a getOctant and an addChild followed by the step to the new child, as in the body
loop of grow on a tree without children; returns the position of the node reached and the
nodes. -/
def descendTo (NCRIT : Nat) (X : List Rat) : Nat → Nat → List Node → Option (Nat × List Node)
  | 0, i, nodes => some (i, nodes)
  | L + 1, i, nodes => do
    let octant := getOctant X i nodes
    let nodes1 := addChild NCRIT octant i nodes
    let ni ← nodes1[i]?
    let c ← ni.CHILD[octant]?
    descendTo NCRIT X L c nodes1

/-- Spec side of the top-down key: the index `I` of the depth-`L` node reached from the root by
`L` descents towards the point `X`. -/
def topdownKey (NCRIT : Nat) (X0 : List Rat) (R0 : Rat) (L : Nat) (X : List Rat) : Option Int := do
  let (i, nodes) ← descendTo NCRIT X L 0 [rootNode NCRIT X0 R0]
  let N ← nodes[i]?
  some N.I

/-- Geometry of a node of the tree over the root cube of centre `X0` and radius `R0`: the node
has depth `l` and integer cell coordinates `n` with `0 ≤ n d < 2^l`; its radius is `R0 / 2^l`,
its centre is `X0[d] - R0 + (2 * n d + 1) * R` on each axis, and its index is `offset l` plus
the interleaved bits of the coordinates. -/
def NodeGeo (X0 : List Rat) (R0 : Rat) (N : Node) (l : Nat) (n : Nat → Int) : Prop :=
  N.LEVEL = (l : Int) ∧ N.R = R0 / 2 ^ l ∧
    N.I = offset l + interleaveKey l (n 0) (n 1) (n 2) ∧
    ∀ d : Nat, d < 3 → 0 ≤ n d ∧ n d < 2 ^ l ∧
      N.X.getD d 0 = X0.getD d 0 - R0 + (2 * (n d : Rat) + 1) * N.R

/-- The point `X` lies in the closed cube of the node `N`: `|X[d] - N.X[d]| ≤ N.R` on each
axis. -/
def InCube (N : Node) (X : List Rat) : Prop :=
  ∀ d : Nat, d < 3 → |X.getD d 0 - N.X.getD d 0| ≤ N.R

/-- The node `N` is a leaf node (`NLEAF < NCRIT`) whose leaf buffer, the first `NLEAF` slots of
`LEAF`, holds the body at position `b`. -/
def Holds (NCRIT : Nat) (N : Node) (b : Nat) : Prop :=
  N.NLEAF < NCRIT ∧ b ∈ N.LEAF.take N.NLEAF

/-- The number of times the body at position `b` occurs in the leaf buffers of the leaf nodes
(`NLEAF < NCRIT`) of the tree. -/
def holdCount (NCRIT : Nat) (nodes : List Node) (b : Nat) : Nat :=
  (nodes.map (fun N => if N.NLEAF < NCRIT then (N.LEAF.take N.NLEAF).count b else 0)).sum

/-- Every body lies in the closed root cube of centre `X0` and radius `R0`. -/
def InRoot (X0 : List Rat) (R0 : Rat) (bodies : List Body) : Prop :=
  ∀ B ∈ bodies, ∀ d : Nat, d < 3 → |B.X.getD d 0 - X0.getD d 0| ≤ R0

/-- Structural invariant of the node vector during grow, for the root cube of centre `X0` and
radius `R0`: every node has 8 child slots and `NCRIT` leaf slots and the geometry of some cell;
a node with a child is full (`NLEAF ≥ NCRIT`); the bodies in the used leaf slots exist and, when
all bodies lie in the root cube, lie in the cube of the node; a set child bit links to a later
node whose cell is the octant of the parent cell; every node but the first is the child of an
earlier full node; and the first node has the root cube. -/
def TreeInv (NCRIT : Nat) (X0 : List Rat) (R0 : Rat) (bodies : List Body) (nodes : List Node) :
    Prop :=
  (∀ (j : Nat) (N : Node), nodes[j]? = some N →
    N.CHILD.length = 8 ∧ N.LEAF.length = NCRIT ∧
    (N.ICHILD ≠ 0 → NCRIT ≤ N.NLEAF) ∧
    (∀ (m b : Nat), m < N.NLEAF → N.LEAF[m]? = some b →
      ∃ B : Body, bodies[b]? = some B ∧ (InRoot X0 R0 bodies → InCube N B.X)) ∧
    ∃ (l : Nat) (n : Nat → Int), NodeGeo X0 R0 N l n ∧
      ∀ o : Nat, o < 8 → N.ICHILD &&& (1 <<< o) ≠ 0 →
        ∃ (c : Nat) (C : Node), N.CHILD[o]? = some c ∧ j < c ∧ nodes[c]? = some C ∧
          NodeGeo X0 R0 C (l + 1) (fun d => 2 * n d + ((o / 2 ^ d % 2 : Nat) : Int))) ∧
  (∀ j : Nat, 0 < j → j < nodes.length →
    ∃ (p : Nat) (P : Node) (o : Nat), p < j ∧ nodes[p]? = some P ∧ NCRIT ≤ P.NLEAF ∧ o < 8 ∧
      P.ICHILD &&& (1 <<< o) ≠ 0 ∧ P.CHILD[o]? = some j) ∧
  ∃ root : Node, nodes[0]? = some root ∧ NodeGeo X0 R0 root 0 (fun _ => 0)

/-- What the steps of grow keep of a node vector: it does not shrink, and every node keeps its
place, does not lose leaves from its counter, and keeps its leaf slots once it is full. -/
def Frame (NCRIT : Nat) (nodes nodes1 : List Node) : Prop :=
  nodes.length ≤ nodes1.length ∧
  ∀ (j : Nat) (N : Node), nodes[j]? = some N →
    ∃ N1 : Node, nodes1[j]? = some N1 ∧ N.NLEAF ≤ N1.NLEAF ∧
      (NCRIT ≤ N.NLEAF → N1.LEAF = N.LEAF)

/-- The node at position `j` is visited by traverse started at the node at position `n`: it is
that node, or it is visited from a child of that node that traverse descends to (the node is
full and the child bit is set). -/
inductive Reach (NCRIT : Nat) (nodes : List Node) : Nat → Nat → Prop
  | refl (n : Nat) : Reach NCRIT nodes n n
  | step (n : Nat) (N : Node) (o c j : Nat) : nodes[n]? = some N → NCRIT ≤ N.NLEAF → o < 8 →
      N.ICHILD &&& (1 <<< o) ≠ 0 → N.CHILD[o]? = some c → Reach NCRIT nodes c j →
      Reach NCRIT nodes n j

/-- The body at position `b` carries the index of a leaf node of the tree that holds it. -/
def Written (NCRIT : Nat) (nodes : List Node) (b : Nat) (B : Body) : Prop :=
  ∃ (j : Nat) (N : Node), nodes[j]? = some N ∧ Holds NCRIT N b ∧ B.ICELL = N.I

/-- What traverse keeps of the bodies: their number and positions; a changed `ICELL` is the
index of a leaf node holding the body. -/
def WriteOk (NCRIT : Nat) (nodes : List Node) (bodies bodies1 : List Body) : Prop :=
  bodies1.length = bodies.length ∧
  ∀ (b : Nat) (B : Body), bodies[b]? = some B →
    ∃ B1 : Body, bodies1[b]? = some B1 ∧ B1.X = B.X ∧
      (B1.ICELL = B.ICELL ∨ Written NCRIT nodes b B1)

/-- Three points in the cube of centre `(0, 0, 0)` and radius 1, two of them in one octant. -/
def threePoints : List Body :=
  [⟨[1 / 2, 1 / 2, 1 / 2], 0⟩, ⟨[-1 / 2, 1 / 2, 1 / 2], 0⟩, ⟨[1 / 2, 1 / 2, 1 / 4], 0⟩]

/-- Two of the bodies listed in `leafs` are apart on some axis by more than the width
`2 * R0 / 2^D` of a cell of depth `D`. -/
def Sep (bodies : List Body) (R0 : Rat) (D : Nat) (leafs : List Nat) : Prop :=
  ∃ b ∈ leafs, ∃ b' ∈ leafs, ∃ (B B' : Body), bodies[b]? = some B ∧ bodies[b']? = some B' ∧
    ∃ d : Nat, d < 3 ∧ 2 * R0 < |B.X.getD d 0 - B'.X.getD d 0| * 2 ^ D

/-- State of the children of node `i` while splitNode moves its leaves, before the leaf slot
`l`: the leaf buffer of every child is a sublist of the first `l` leaf slots of node `i`. -/
def ChildSub (nodes : List Node) (i l : Nat) : Prop :=
  ∀ (ni : Node), nodes[i]? = some ni → ∀ o : Nat, o < 8 → ni.ICHILD &&& (1 <<< o) ≠ 0 →
    ∃ (c : Nat) (C : Node), ni.CHILD[o]? = some c ∧ nodes[c]? = some C ∧
      (C.LEAF.take C.NLEAF).Sublist (ni.LEAF.take l)

/-- Two bodies at the same point of the cube of centre `(0, 0, 0)` and radius 1. -/
def twoPoints : List Body := [⟨[1 / 2, 1 / 2, 1 / 2], 0⟩, ⟨[1 / 2, 1 / 2, 1 / 2], 0⟩]

/-- State of splitNode at node `i` before the leaf slot `l`, when all `NCRIT` leaf slots of the
node hold bodies at the one position `p`: no child exists before the first slot, and afterwards
the only child used is the one in the octant of `p`, a node without children that holds the
first `l` leaves. -/
def CoSplit (NCRIT : Nat) (bodies : List Body) (p : List Rat) (nodes : List Node) (i l : Nat) :
    Prop :=
  ∃ ni : Node, nodes[i]? = some ni ∧ ni.LEAF.length = NCRIT ∧ ni.CHILD.length = 8 ∧
    (∀ m : Nat, m < NCRIT →
      ∃ (b : Nat) (B : Body), ni.LEAF[m]? = some b ∧ bodies[b]? = some B ∧ B.X = p) ∧
    (l = 0 → ni.ICHILD = 0) ∧
    (0 < l → ni.ICHILD &&& (1 <<< getOctant p i nodes) ≠ 0 ∧
      ∃ (c : Nat) (C : Node), ni.CHILD[getOctant p i nodes]? = some c ∧ c ≠ i ∧
        nodes[c]? = some C ∧ C.NLEAF = l ∧ C.LEAF.length = NCRIT ∧ C.CHILD.length = 8 ∧
        C.ICHILD = 0 ∧ ∀ m : Nat, m < l → C.LEAF[m]? = ni.LEAF[m]?)

/-- The expression `((ICELL - cOff) >> 3*(level-l+1)) + pOff` of prune for the pass `l`: the
index of the cell of depth `l - 1` above the cell `ICELL`. A negative shift count is undefined
and gives `none`. -/
def pruneParent (l : Int) (ICELL : Int) : Option Int :=
  let level := getLevel ICELL
  let cOff := Int.tdiv (shl 1 (3 * level) - 1) 7
  let pOff := Int.tdiv (shl 1 (3 * (l - 1)) - 1) 7
  if 3 * (level - l + 1) < 0 then none
  else some (Int.shiftRight (ICELL - cOff) (3 * (level - l + 1)).toNat + pOff)

/-- The loop `for( int i=begin; i!=begin+size; ++i ) bodies[i].ICELL = index` of prune, with
`n` bodies left to renumber from position `i`. -/
def relabelLoop (index : Int) : Nat → Nat → List Body → Option (List Body)
  | 0, _, bodies => some bodies
  | n + 1, i, bodies => do
    let B ← bodies[i]?
    relabelLoop index n (i + 1) (bodies.set i { B with ICELL := index })

/-- The block `if( size < NCRIT ) { for ... bodies[i].ICELL = index; }` of prune. -/
def mergeGroup (NCRIT : Nat) (index : Int) (begin size : Nat) (bodies : List Body) :
    Option (List Body) :=
  if size < NCRIT then relabelLoop index size begin bodies else some bodies

/-- The body loop of one pass of prune, with `n` bodies left and `b` the position of the next
body; returns the bodies and the final `begin`, `size` and `index`. -/
def pruneLoop (NCRIT : Nat) (l : Int) :
    Nat → Nat → Nat → Nat → Int → List Body → Option (List Body × Nat × Nat × Int)
  | 0, _, begin, size, index, bodies => some (bodies, begin, size, index)
  | n + 1, b, begin, size, index, bodies =>
    (bodies[b]?).bind fun B =>
    (pruneParent l B.ICELL).bind fun p =>
    if p ≠ index then
      (mergeGroup NCRIT index begin size bodies).bind fun bodies1 =>
        pruneLoop NCRIT l n (b + 1) b 1 p bodies1
    else pruneLoop NCRIT l n (b + 1) begin (size + 1) index bodies

/-- One pass of the loop `for( int l=maxLevel; l>0; --l )` of prune. -/
def prunePass (NCRIT : Nat) (l : Int) (bodies : List Body) : Option (List Body) :=
  (bodies[0]?).bind fun B0 =>
  (pruneParent l B0.ICELL).bind fun index =>
  (pruneLoop NCRIT l bodies.length 0 0 0 index bodies).bind fun r =>
    mergeGroup NCRIT r.2.2.2 r.2.1 r.2.2.1 r.1

/-- The loop `for( int l=maxLevel; l>0; --l )` of prune, from the pass `l = n` down to 1. -/
def pruneLevels (NCRIT : Nat) : Nat → List Body → Option (List Body)
  | 0, bodies => some bodies
  | n + 1, bodies => (prunePass NCRIT ((n + 1 : Nat) : Int) bodies).bind (pruneLevels NCRIT n)

/-- The function `prune(bodies)` for the leaf capacity `NCRIT` and the partition count
`MPISIZE`. -/
def prune (NCRIT MPISIZE : Nat) (bodies : List Body) : Option (List Body) :=
  pruneLevels NCRIT (getMaxLevel NCRIT MPISIZE bodies).toNat bodies

/-- Spec side of pruning: the index of the depth-`d` ancestor of the cell `index`, reached by
applying getParent once per level between `d` and the depth of `index`. -/
def ancestorAt (d : Nat) (index : Int) : Int := getParent^[(getLevel index).toNat - d] index

/-- Spec side of pruning: the positions `i .. j - 1` of `bodies` hold a non-empty contiguous
group of bodies that share the value of `key`. -/
def IsGroup (key : Body → Int) (bodies : List Body) (i j : Nat) : Prop :=
  i < j ∧ j ≤ bodies.length ∧
    ∀ (x y : Nat) (Bx By : Body), i ≤ x → x < j → i ≤ y → y < j →
      bodies[x]? = some Bx → bodies[y]? = some By → key Bx = key By

/-- Spec side of pruning: the group at the positions `i .. j - 1` is maximal: the body before
it and the body after it, if any, have another value of `key`. -/
def IsMaximalGroup (key : Body → Int) (bodies : List Body) (i j : Nat) : Prop :=
  IsGroup key bodies i j ∧
    (∀ (Ba Bb : Body), 0 < i → bodies[i - 1]? = some Ba → bodies[i]? = some Bb →
      key Ba ≠ key Bb) ∧
    (∀ (Ba Bb : Body), bodies[j - 1]? = some Ba → bodies[j]? = some Bb → key Ba ≠ key Bb)

/-- What prune does to a group of `run` bodies with the index `index` of their common ancestor:
renumbered when the group is smaller than `NCRIT`, else left as it is. -/
def flushRun (NCRIT : Nat) (index : Int) (run : List Body) : List Body :=
  if run.length < NCRIT then run.map (fun B => { B with ICELL := index }) else run

/-- Pure description of one pass of prune on the bodies `rest` that follow the current group
`run` with the index `index`: the bodies of the pass, the groups being formed by `key`. -/
def pruneSpec (NCRIT : Nat) (key : Body → Int) : List Body → Int → List Body → List Body
  | run, index, [] => flushRun NCRIT index run
  | run, index, B :: rest =>
    if key B ≠ index then flushRun NCRIT index run ++ pruneSpec NCRIT key [B] (key B) rest
    else pruneSpec NCRIT key (run ++ [B]) index rest

/-- Spec side of pruning: what one pass does to the bodies, the groups being formed by `key`:
the order and number of bodies are kept; a body stays as it is or is renumbered to its key; the
bodies of a group of at least `NCRIT` bodies stay as they are; the bodies of a maximal group of
fewer than `NCRIT` bodies are renumbered to their key; and a body that stays as it is with an
index other than its key lies in a group of at least `NCRIT` bodies. -/
def PassOk (NCRIT : Nat) (key : Body → Int) (bodies out : List Body) : Prop :=
  out.length = bodies.length ∧
  (∀ (b : Nat) (B : Body), bodies[b]? = some B →
    out[b]? = some B ∨ out[b]? = some { B with ICELL := key B }) ∧
  (∀ i j : Nat, IsGroup key bodies i j → NCRIT ≤ j - i →
    ∀ x : Nat, i ≤ x → x < j → out[x]? = bodies[x]?) ∧
  (∀ i j : Nat, IsMaximalGroup key bodies i j → j - i < NCRIT →
    ∀ (x : Nat) (B : Body), i ≤ x → x < j → bodies[x]? = some B →
      out[x]? = some { B with ICELL := key B }) ∧
  (∀ (b : Nat) (B : Body), bodies[b]? = some B → out[b]? = some B → B.ICELL ≠ key B →
    ∃ i j : Nat, IsGroup key bodies i j ∧ i ≤ b ∧ b < j ∧ NCRIT ≤ j - i)

/-- Index `a` is the index `b` or one of its ancestors: `a` is reached from `b` by at most
`getLevel b` applications of getParent. -/
def IsAncestorOrSelf (a b : Int) : Prop :=
  ∃ j : Nat, (j : Int) ≤ getLevel b ∧ getParent^[j] b = a

/-- Invariant of twigs2cells used for the ancestor closure, at level `L` and for the twigs
`pushed` so far: the indices of the cells below the range are pairwise different, and the
indices in the cell array are the indices of the pushed twigs and of their ancestors of depth at
least `L`. -/
def ClosInv (st : AsmState) (L : Int) (pushed : List Cell) : Prop :=
  ((st.cells.take st.begin).map Cell.ICELL).Nodup ∧
  ∀ x : Int, x ∈ st.cells.map Cell.ICELL ↔
    ∃ t ∈ pushed, IsAncestorOrSelf x t.ICELL ∧ L ≤ getLevel x

/-- Modelled from the spec: `sortBodies` of the missing `Sorter.hpp`: a stable ascending sort of
the bodies by `ICELL` (section 4.4, section 6). -/
def sortBodies (bodies : List Body) : List Body :=
  List.insertionSort (fun a b => a.ICELL ≤ b.ICELL) bodies

/-- The function `topdown(bodies, cells)` on a tree with an empty node vector: grow,
setIndex_topdown, sortBodies, bodies2twigs and twigs2cells. Returns the sorted bodies, the cells,
and the local vectors `twigs` and `sticks`. Every loop may use up to `fuel` steps. -/
def topdown (NCRIT : Nat) (X0 : List Rat) (R0 : Rat) (fuel : Nat) (bodies : List Body)
    (cells : List Cell) : Option (List Body × List Cell × List Cell × List Cell) :=
  (grow NCRIT X0 R0 bodies fuel).bind fun nodes =>
  (setIndex_topdown NCRIT nodes fuel bodies).bind fun bodies1 =>
  (bodies2twigs X0 R0 (sortBodies bodies1) []).bind fun twigs =>
  (twigs2cells X0 R0 twigs cells []).bind fun r =>
    some (sortBodies bodies1, r.1, twigs, r.2)

/-- The function `bottomup(bodies, cells)`: setIndex_bottomup with its default arguments,
sortBodies, bodies2twigs and twigs2cells. Returns the sorted bodies, the cells, and the local
vectors `twigs` and `sticks`. -/
def bottomup (NCRIT MPISIZE : Nat) (X0 : List Rat) (R0 : Rat) (bodies : List Body)
    (cells : List Cell) : Option (List Body × List Cell × List Cell × List Cell) :=
  (setIndex_bottomup NCRIT MPISIZE X0 R0 bodies (-1) 0 0 false).bind fun bodies1 =>
  (bodies2twigs X0 R0 (sortBodies bodies1) []).bind fun twigs =>
  (twigs2cells X0 R0 twigs cells []).bind fun r =>
    some (sortBodies bodies1, r.1, twigs, r.2)

/-- Spec side of the assembly without collisions: one level pass of twigs2cells with the call
of unique left out: sortCells and linkParent. -/
def levelStepPlain (X0 : List Rat) (R0 : Rat) (st : AsmState) : Option AsmState :=
  (linkParent X0 R0 (sortCells st.cells st.begin st.end_) st.begin st.end_).bind fun r =>
    some { cells := r.1, sticks := st.sticks, begin := r.2.1, end_ := r.2.2 }

/-- Spec side of the assembly without collisions: the loop
`while( getLevel(twigs.back().ICELL) != level )` with the call of unique left out. -/
def climbLoopPlain (X0 : List Rat) (R0 : Rat) :
    Nat → Int → AsmState → Int → Option (AsmState × Int)
  | 0, tl, st, level => if tl ≠ level then none else some (st, level)
  | fuel + 1, tl, st, level =>
    if tl ≠ level then
      (levelStepPlain X0 R0 st).bind fun st1 => climbLoopPlain X0 R0 fuel tl st1 (level - 1)
    else some (st, level)

/-- Spec side of the assembly without collisions: the loop `while( !twigs.empty() )` with the
calls of unique left out. -/
def twigsLoopPlain (X0 : List Rat) (R0 : Rat) :
    List Cell → AsmState → Int → Option (AsmState × Int)
  | [], st, level => some (st, level)
  | t :: rest, st, level =>
    (climbLoopPlain X0 R0 (level - getLevel t.ICELL).toNat (getLevel t.ICELL) st level).bind
      fun r =>
        twigsLoopPlain X0 R0 rest
          { r.1 with cells := r.1.cells ++ [t], end_ := r.1.end_ + 1 } r.2

/-- Spec side of the assembly without collisions: the loop `for( int l=level; l>0; --l )` with
the call of unique left out. -/
def finalLoopPlain (X0 : List Rat) (R0 : Rat) : Nat → AsmState → Option AsmState
  | 0, st => some st
  | l + 1, st => (levelStepPlain X0 R0 st).bind fun st1 => finalLoopPlain X0 R0 l st1

/-- Spec side of the assembly without collisions: twigs2cells with every call of unique left
out; returns the cells. -/
def twigs2cellsPlain (X0 : List Rat) (R0 : Rat) (twigs cells : List Cell) :
    Option (List Cell) :=
  (twigs.getLast?).bind fun last =>
  (twigsLoopPlain X0 R0 twigs.reverse
      { cells := cells, sticks := [], begin := 0, end_ := 0 } (getLevel last.ICELL)).bind fun r =>
  (finalLoopPlain X0 R0 r.2.toNat r.1).bind fun st2 => some st2.cells

/-- Why a checked run of grow stops without a result: the fuel is used up; a vector is read
outside its range; addLeaf is called on a node whose `NLEAF` is not below `NCRIT`, a write past
the leaf slots; or, in splitNode, a child is found full before the last leaf slot of the split
node was moved. -/
inductive Fault where
  | fuel
  | read
  | overflow
  | early
deriving DecidableEq

/-- A read of a vector in a checked run: a read outside the range stops the run. -/
def readC {α : Type} (o : Option α) : Except Fault α :=
  match o with
  | some a => Except.ok a
  | none => Except.error Fault.read

/-- The result of a checked run that has no other way to stop than to use up its fuel, for the
result of the unchecked run. -/
def fuelOnly {α : Type} (o : Option α) : Except Fault α :=
  match o with
  | some a => Except.ok a
  | none => Except.error Fault.fuel

/-- The function `addLeaf(b, i)`, checked: the call stops with `Fault.overflow` unless the
counter `NLEAF` of the node is below `NCRIT` and inside the leaf slots. -/
def addLeafC (NCRIT : Nat) (b i : Nat) (nodes : List Node) : Except Fault (List Node) := do
  let ni ← readC nodes[i]?
  if ni.NLEAF < NCRIT ∧ ni.NLEAF < ni.LEAF.length then
    Except.ok (nodes.set i { ni with LEAF := ni.LEAF.set ni.NLEAF b, NLEAF := ni.NLEAF + 1 })
  else Except.error Fault.overflow

/-- The loop of splitNode, checked: the statements of `splitNodeLoop` with the causes of a stop
told apart, and with the test that a child found full (`NLEAF ≥ NCRIT`) is found so at the last
leaf slot `l = NCRIT - 1`. -/
def splitNodeLoopC (NCRIT : Nat) (bodies : List Body) : Nat → Nat → Nat → List Node →
    Except Fault (List Node)
  | 0, _, _, _ => Except.error Fault.fuel
  | fuel + 1, i, l, nodes =>
    if l = NCRIT then Except.ok nodes else do
      let ni ← readC nodes[i]?
      let b ← readC ni.LEAF[l]?
      let B ← readC bodies[b]?
      let octant := getOctant B.X i nodes
      let nodes1 :=
        if ni.ICHILD &&& (1 <<< octant) = 0 then addChild NCRIT octant i nodes else nodes
      let ni1 ← readC nodes1[i]?
      let c ← readC ni1.CHILD[octant]?
      let b1 ← readC ni1.LEAF[l]?
      let nodes2 ← addLeafC NCRIT b1 c nodes1
      let nc ← readC nodes2[c]?
      let nodes3 ← if nc.NLEAF ≥ NCRIT then
          (if l + 1 = NCRIT then splitNodeLoopC NCRIT bodies fuel c 0 nodes2
            else Except.error Fault.early)
        else Except.ok nodes2
      splitNodeLoopC NCRIT bodies fuel i (l + 1) nodes3

/-- The function `splitNode(i)`, checked. -/
def splitNodeC (NCRIT : Nat) (bodies : List Body) (fuel i : Nat) (nodes : List Node) :
    Except Fault (List Node) :=
  splitNodeLoopC NCRIT bodies fuel i 0 nodes

/-- The loop `while( nodes[i].NLEAF >= NCRIT )` of grow, checked. -/
def descendLoopC (NCRIT : Nat) (X : List Rat) :
    Nat → Nat → List Node → Except Fault (Nat × List Node)
  | 0, _, _ => Except.error Fault.fuel
  | fuel + 1, i, nodes => do
    let ni ← readC nodes[i]?
    if ni.NLEAF ≥ NCRIT then
      let nodes1 := nodes.set i { ni with NLEAF := ni.NLEAF + 1 }
      let octant := getOctant X i nodes1
      let nodes2 :=
        if ni.ICHILD &&& (1 <<< octant) = 0 then addChild NCRIT octant i nodes1 else nodes1
      let ni2 ← readC nodes2[i]?
      let c ← readC ni2.CHILD[octant]?
      descendLoopC NCRIT X fuel c nodes2
    else Except.ok (i, nodes)

/-- One pass of the body loop of grow, checked. -/
def growStepC (NCRIT : Nat) (bodies : List Body) (fuel : Nat) (nodes : List Node) (b : Nat) :
    Except Fault (List Node) := do
  let B ← readC bodies[b]?
  let (i, nodes1) ← descendLoopC NCRIT B.X fuel 0 nodes
  let nodes2 ← addLeafC NCRIT b i nodes1
  let ni ← readC nodes2[i]?
  if ni.NLEAF ≥ NCRIT then splitNodeC NCRIT bodies fuel i nodes2 else Except.ok nodes2

/-- The body loop of grow, checked. -/
def growLoopC (NCRIT : Nat) (bodies : List Body) (fuel : Nat) :
    List Nat → List Node → Except Fault (List Node)
  | [], nodes => Except.ok nodes
  | b :: bs, nodes => do
    let nodes1 ← growStepC NCRIT bodies fuel nodes b
    growLoopC NCRIT bodies fuel bs nodes1

/-- The function `grow(bodies)`, checked: the run of `grow` with every call of addLeaf tested
for a write past the leaf slots. -/
def growC (NCRIT : Nat) (X0 : List Rat) (R0 : Rat) (bodies : List Body) (fuel : Nat) :
    Except Fault (List Node) :=
  growLoopC NCRIT bodies fuel (List.range bodies.length) [rootNode NCRIT X0 R0]

/-- State of the node vector of grow while all bodies stay in the children of the root: the
vector holds the root and `k` children of it, the child at position `j + 1` being the child in
octant `o j`, with index `1 + o j` and the leaf buffer `lf j`; the root has the centre `X0`, the
leaf counter `nl`, the leaf slots `lfr`, and exactly the child bits `o j`, `j < k`, set. -/
def RootKids (NCRIT : Nat) (X0 : List Rat) (o : Nat → Nat) (lf : Nat → List Nat) (k nl : Nat)
    (lfr : List Nat) (nodes : List Node) : Prop :=
  nodes.length = k + 1 ∧
  (∃ root : Node, nodes[0]? = some root ∧ root.X = X0 ∧ root.LEVEL = 0 ∧ root.I = 0 ∧
    root.NLEAF = nl ∧ root.LEAF = lfr ∧ root.CHILD.length = 8 ∧
    (∀ q : Nat, root.ICHILD &&& (1 <<< q) ≠ 0 ↔ ∃ j : Nat, j < k ∧ o j = q) ∧
    ∀ j : Nat, j < k → root.CHILD[o j]? = some (j + 1)) ∧
  ∀ j : Nat, j < k → ∃ C : Node, nodes[j + 1]? = some C ∧ C.I = 1 + (o j : Int) ∧
    C.LEAF.length = NCRIT ∧ C.NLEAF = (lf j).length ∧ C.LEAF.take C.NLEAF = lf j

/-- Spec side of twig formation on the index list alone: the index and the length of every run
of equal consecutive indices, for a run of index `index` that has `n` members so far. -/
def runLengths : List Int → Nat → Int → List (Int × Nat)
  | [], n, index => [(index, n)]
  | k :: ks, n, index =>
    if k ≠ index then (index, n) :: runLengths ks 1 k else runLengths ks (n + 1) index

/-- Nine points of the cube of centre `(0, 0, 0)` and radius 1: one in every octant, and a ninth
where the first one lies. -/
def ninePoints : List Body :=
  [⟨[-1 / 2, -1 / 2, -1 / 2], 0⟩, ⟨[1 / 2, -1 / 2, -1 / 2], 0⟩, ⟨[-1 / 2, 1 / 2, -1 / 2], 0⟩,
   ⟨[1 / 2, 1 / 2, -1 / 2], 0⟩, ⟨[-1 / 2, -1 / 2, 1 / 2], 0⟩, ⟨[1 / 2, -1 / 2, 1 / 2], 0⟩,
   ⟨[-1 / 2, 1 / 2, 1 / 2], 0⟩, ⟨[1 / 2, 1 / 2, 1 / 2], 0⟩, ⟨[-1 / 2, -1 / 2, -1 / 2], 0⟩]

theorem pow8_eq (d : Nat) : (8 : Int) ^ d = 7 * offset d + 1 := by
  induction d with
  | zero => simp [offset]
  | succ n ih =>
    have h : (8 : Int) ^ (n + 1) = 8 * 8 ^ n := by ring
    unfold offset at ih ⊢
    rw [h]
    omega

theorem offset_zero : offset 0 = 0 := by simp [offset]

theorem offset_succ (d : Nat) : offset (d + 1) = offset d + 8 ^ d := by
  have h1 := pow8_eq d
  have h2 := pow8_eq (d + 1)
  have h : (8 : Int) ^ (d + 1) = 8 * 8 ^ d := by ring
  omega

theorem offset_succ_mul (d : Nat) : offset (d + 1) = 8 * offset d + 1 := by
  have h1 := pow8_eq d
  have h2 := offset_succ d
  omega

theorem offset_nonneg (d : Nat) : 0 ≤ offset d := by
  induction d with
  | zero => simp [offset]
  | succ n ih => rw [offset_succ_mul]; omega

theorem pow8_pos (d : Nat) : 0 < (8 : Int) ^ d := by positivity

theorem offset_lt_succ (d : Nat) : offset d < offset (d + 1) := by
  have := pow8_pos d
  rw [offset_succ]; omega

theorem offset_mono {a b : Nat} (h : a ≤ b) : offset a ≤ offset b := by
  induction h with
  | refl => exact le_refl _
  | step _ ih => exact le_trans ih (le_of_lt (offset_lt_succ _))

theorem offset_unique {a b : Nat} {x : Int} (ha : offset a ≤ x) (ha' : x < offset (a + 1))
    (hb : offset b ≤ x) (hb' : x < offset (b + 1)) : a = b := by
  by_contra hne
  rcases Nat.lt_or_gt_of_ne hne with h | h
  · have := offset_mono (show a + 1 ≤ b from h); omega
  · have := offset_mono (show b + 1 ≤ a from h); omega

theorem shl_one_three (k : Nat) : shl 1 (3 * (k : Int)) = 8 ^ k := by
  unfold shl
  have : (3 * (k : Int)).toNat = 3 * k := by omega
  rw [this, pow_mul]; norm_num

theorem getLevelLoop_spec (fuel : Nat) : ∀ (k : Nat) (i : Int), i < fuel →
    ∃ d : Nat, getLevelLoop fuel i ((k : Int) - 1) = (d : Int) - 1 ∧ k ≤ d ∧
      i + offset k < offset d ∧ (k < d → offset (d - 1) ≤ i + offset k) := by
  induction fuel with
  | zero =>
    intro k i hi
    refine ⟨k, rfl, le_refl _, ?_, fun h => absurd h (lt_irrefl _)⟩
    simp at hi; omega
  | succ n ih =>
    intro k i hi
    unfold getLevelLoop
    by_cases h0 : 0 ≤ i
    · rw [if_pos h0]
      have hk : ((k : Int) - 1 + 1) = k := by ring
      rw [hk, shl_one_three]
      have hp := pow8_pos k
      have hlt : i - 8 ^ k < (n : Int) := by push_cast at hi; omega
      obtain ⟨d, hd, hkd, h1, h2⟩ := ih (k + 1) (i - 8 ^ k) hlt
      have hs := offset_succ k
      refine ⟨d, ?_, by omega, by omega, ?_⟩
      · rw [← hd]; push_cast; congr 1; ring
      · intro _
        rcases Nat.eq_or_lt_of_le hkd with h | h
        · subst h; simp; omega
        · have := h2 h; omega
    · rw [if_neg h0]
      exact ⟨k, rfl, le_refl _, by omega, fun h => absurd h (lt_irrefl _)⟩

theorem getLevel_bounds (index : Int) (h0 : 0 ≤ index) :
    ∃ d : Nat, getLevel index = (d : Int) ∧ offset d ≤ index ∧ index < offset (d + 1) := by
  have hlt : index < ((index.toNat + 1 : Nat) : Int) := by push_cast; omega
  obtain ⟨d, hd, _, h1, h2⟩ := getLevelLoop_spec (index.toNat + 1) 0 index hlt
  rw [offset_zero] at h1 h2
  have hpos : 0 < d := by
    rcases Nat.eq_zero_or_pos d with h | h
    · subst h; rw [offset_zero] at h1; omega
    · exact h
  obtain ⟨e, rfl⟩ : ∃ e, d = e + 1 := ⟨d - 1, by omega⟩
  refine ⟨e, ?_, ?_, by simpa using h1⟩
  · unfold getLevel
    have : ((0 : Nat) : Int) - 1 = -1 := by norm_num
    rw [this] at hd
    rw [hd]; push_cast; ring
  · have := h2 hpos; simpa using this

theorem offset_eleven : offset 11 = 1227133513 := by norm_num [offset]

theorem getLevelCheckedLoop_spec (fuel : Nat) : ∀ (k : Nat) (i : Int), i + 1 < fuel → 0 < fuel →
    -1073741824 ≤ i → i + offset k < offset 11 →
    ∃ d : Nat, getLevelCheckedLoop fuel i ((k : Int) - 1) = some ((d : Int) - 1) ∧ k ≤ d ∧
      i + offset k < offset d ∧ (k < d → offset (d - 1) ≤ i + offset k) := by
  induction fuel with
  | zero => intro k i _ h; exact absurd h (lt_irrefl _)
  | succ n ih =>
    intro k i hi _ hlo hhi
    unfold getLevelCheckedLoop
    by_cases h0 : 0 ≤ i
    · rw [if_pos h0]
      have hk : ((k : Int) - 1 + 1) = k := by ring
      rw [hk, shl_one_three]
      have hp := pow8_pos k
      have hk10 : k ≤ 10 := by
        by_contra hc
        have := offset_mono (show 11 ≤ k by omega)
        omega
      have hp10 : (8 : Int) ^ k ≤ 8 ^ 10 := pow_le_pow_right₀ (by norm_num) hk10
      have h810 : (8 : Int) ^ 10 = 1073741824 := by norm_num
      have hok := offset_nonneg k
      have h11 := offset_eleven
      have hcond : (decide (3 * (k : Int) < 31) && fitsInt (i - 8 ^ k)) = true := by
        simp only [fitsInt, Bool.and_eq_true, decide_eq_true_eq]
        omega
      rw [if_pos hcond]
      have hn : 0 < n := by push_cast at hi; omega
      have hlt : i - 8 ^ k + 1 < (n : Int) := by push_cast at hi; omega
      have hs := offset_succ k
      obtain ⟨d, hd, hkd, h1, h2⟩ := ih (k + 1) (i - 8 ^ k) hlt hn (by omega) (by omega)
      refine ⟨d, ?_, by omega, by omega, ?_⟩
      · rw [← hd]; push_cast; congr 1; ring
      · intro _
        rcases Nat.eq_or_lt_of_le hkd with h | h
        · subst h; simp; omega
        · have := h2 h; omega
    · rw [if_neg h0]
      exact ⟨k, rfl, le_refl _, by omega, fun h => absurd h (lt_irrefl _)⟩

/-- C1: for every index with 0 ≤ index < offset 11 (the range in which no shift count reaches 31
and no `int` value overflows) the overflow-checked run of getLevel returns a depth d, the
unbounded-integer model returns the same d, offset d ≤ index < offset (d+1), and d is the only
depth with that property. -/
theorem getLevel_spec (index : Int) (h0 : 0 ≤ index) (hlt : index < offset 11) :
    ∃ d : Nat, getLevelChecked index = some (d : Int) ∧ getLevel index = (d : Int) ∧
      offset d ≤ index ∧ index < offset (d + 1) ∧
      ∀ d' : Nat, offset d' ≤ index → index < offset (d' + 1) → d' = d := by
  obtain ⟨d, hd, hlo, hhi⟩ := getLevel_bounds index h0
  have h11 := offset_eleven
  have hfit : fitsInt index = true := by
    simp only [fitsInt, Bool.and_eq_true, decide_eq_true_eq]; omega
  have hfuel : index + 1 < ((index.toNat + 2 : Nat) : Int) := by push_cast; omega
  obtain ⟨e, he, _, h1, h2⟩ := getLevelCheckedLoop_spec (index.toNat + 2) 0 index hfuel
    (by omega) (by omega) (by rw [offset_zero]; omega)
  rw [offset_zero] at h1 h2
  have hpos : 0 < e := by
    rcases Nat.eq_zero_or_pos e with h | h
    · subst h; rw [offset_zero] at h1; omega
    · exact h
  have h2' := h2 hpos
  have hed : e - 1 = d := by
    apply offset_unique (x := index) (by omega) _ hlo hhi
    have : e - 1 + 1 = e := by omega
    rw [this]; omega
  refine ⟨d, ?_, hd, hlo, hhi, fun d' a b => offset_unique a b hlo hhi⟩
  unfold getLevelChecked
  rw [if_pos hfit]
  have : ((0 : Nat) : Int) - 1 = -1 := by norm_num
  rw [this] at he
  rw [he]; congr 1; omega

theorem getLevel_spec_witness :
    ∃ d : Nat, getLevelChecked 73 = some (d : Int) ∧ getLevel 73 = (d : Int) ∧
      offset d ≤ 73 ∧ (73 : Int) < offset (d + 1) ∧
      ∀ d' : Nat, offset d' ≤ 73 → (73 : Int) < offset (d' + 1) → d' = d :=
  getLevel_spec 73 (by decide) (by decide)

theorem cellOffset_eq (d : Nat) : Int.tdiv (shl 1 (3 * (d : Int)) - 1) 7 = offset d := by
  rw [shl_one_three]
  have hp := pow8_pos d
  rw [Int.tdiv_eq_ediv (by omega) (by norm_num)]
  rfl

theorem getParent_eq (index : Int) (d : Nat) (hd : getLevel index = ((d + 1 : Nat) : Int)) :
    getParent index = (index - offset (d + 1)) / 8 + offset d := by
  unfold getParent
  simp only [hd]
  have h1 : ((d + 1 : Nat) : Int) - 1 = (d : Int) := by push_cast; ring
  rw [h1, cellOffset_eq, cellOffset_eq]
  have := Int.shiftRight_eq_div_pow (index - offset (d + 1)) 3
  simp only [HShiftRight.hShiftRight] at this
  rw [this]; norm_num

theorem getLevel_eq_of_bounds {index : Int} {d : Nat} (h1 : offset d ≤ index)
    (h2 : index < offset (d + 1)) : getLevel index = (d : Int) := by
  have h0 : 0 ≤ index := le_trans (offset_nonneg d) h1
  obtain ⟨e, he, a, b⟩ := getLevel_bounds index h0
  rw [he, offset_unique a b h1 h2]

theorem getParent_bounds (index : Int) (d : Nat) (h1 : offset (d + 1) ≤ index)
    (h2 : index < offset (d + 1 + 1)) :
    offset d ≤ getParent index ∧ getParent index < offset (d + 1) := by
  rw [getParent_eq index d (getLevel_eq_of_bounds h1 h2)]
  have hs := offset_succ d
  have hs2 := offset_succ (d + 1)
  have hp : (8 : Int) ^ (d + 1) = 8 * 8 ^ d := by ring
  have := pow8_pos d
  constructor <;> omega

theorem getLevel_getParent (index : Int) (d : Nat) (hd : getLevel index = ((d + 1 : Nat) : Int))
    (h0 : 0 ≤ index) : getLevel (getParent index) = (d : Int) ∧ 0 ≤ getParent index := by
  obtain ⟨e, he, a, b⟩ := getLevel_bounds index h0
  have : e = d + 1 := by rw [he] at hd; exact_mod_cast hd
  subst this
  have hb := getParent_bounds index d a b
  exact ⟨getLevel_eq_of_bounds hb.1 hb.2, le_trans (offset_nonneg d) hb.1⟩

theorem getParent_iterate (d : Nat) : ∀ index : Int, 0 ≤ index → getLevel index = (d : Int) →
    getParent^[d] index = 0 := by
  induction d with
  | zero =>
    intro index h0 hd
    obtain ⟨e, he, a, b⟩ := getLevel_bounds index h0
    have : e = 0 := by rw [he] at hd; exact_mod_cast hd
    subst this
    have h1 : offset 1 = 1 := by norm_num [offset]
    rw [offset_zero] at a; simp at b; rw [h1] at b
    simp; omega
  | succ n ih =>
    intro index h0 hd
    rw [Function.iterate_succ_apply]
    obtain ⟨hl, hp⟩ := getLevel_getParent index n hd h0
    exact ih _ hp hl

theorem getLevel_iterate (k : Nat) : ∀ (d : Nat) (index : Int), 0 ≤ index →
    getLevel index = ((d + k : Nat) : Int) →
    getLevel (getParent^[k] index) = (d : Int) ∧ 0 ≤ getParent^[k] index := by
  induction k with
  | zero => intro d index h0 hd; exact ⟨by simpa using hd, by simpa using h0⟩
  | succ n ih =>
    intro d index h0 hd
    rw [Function.iterate_succ_apply]
    have hd' : getLevel index = (((d + n) + 1 : Nat) : Int) := by rw [hd]; rfl
    obtain ⟨hl, hp⟩ := getLevel_getParent index (d + n) hd' h0
    exact ih d _ hp hl

/-- C2: for every index i ≥ 0, getLevel i is non-negative, applying getParent getLevel(i) times
to i gives 0, and each of these applications lowers getLevel by exactly one. -/
theorem getParent_roundtrip (i : Int) (h0 : 0 ≤ i) :
    0 ≤ getLevel i ∧ getParent^[(getLevel i).toNat] i = 0 ∧
      ∀ k : Nat, (k : Int) < getLevel i →
        getLevel (getParent^[k + 1] i) = getLevel (getParent^[k] i) - 1 := by
  obtain ⟨d, hd, _, _⟩ := getLevel_bounds i h0
  refine ⟨by omega, ?_, ?_⟩
  · rw [hd]; exact getParent_iterate d i h0 hd
  · intro k hk
    rw [hd] at hk
    have hk' : k < d := by exact_mod_cast hk
    have e1 : getLevel i = (((d - k) + k : Nat) : Int) := by rw [hd]; congr 1; omega
    have e2 : getLevel i = (((d - (k + 1)) + (k + 1) : Nat) : Int) := by rw [hd]; congr 1; omega
    rw [(getLevel_iterate k (d - k) i h0 e1).1, (getLevel_iterate (k + 1) (d - (k + 1)) i h0 e2).1]
    omega

theorem getParent_roundtrip_witness :
    0 ≤ getLevel 600 ∧ getParent^[(getLevel 600).toNat] 600 = 0 ∧
      ∀ k : Nat, (k : Int) < getLevel 600 →
        getLevel (getParent^[k + 1] 600) = getLevel (getParent^[k] 600) - 1 :=
  getParent_roundtrip 600 (by decide)

/- def root4 : Node := { LEVEL := 0, ICHILD := 0, NLEAF := 0, I := 0, CHILD := List.replicate 8 0, LEAF := List.replicate 4 0, X := [0,0,0], R := 1 }
#eval (addChild 4 5 0 [root4]).map (fun n => (n.LEVEL, n.ICHILD, n.I, n.CHILD, n.X, n.R))
#eval (addChild 4 3 1 (addChild 4 5 0 [root4])).map (fun n => (n.LEVEL, n.ICHILD, n.I, n.CHILD, n.X, n.R)) -/

theorem shl_three (x : Int) : shl x 3 = 8 * x := by
  unfold shl
  have : Int.toNat 3 = 3 := rfl
  rw [this]; ring

theorem childIndex_bounds (I : Int) (d : Nat) (o : Int) (h1 : offset d ≤ I)
    (h2 : I < offset (d + 1)) (ho : 0 ≤ o) (ho' : o < 8) :
    offset (d + 1) ≤ 8 * (I - offset d) + o + offset (d + 1) ∧
      8 * (I - offset d) + o + offset (d + 1) < offset (d + 1 + 1) := by
  have hs := offset_succ d
  have hs2 := offset_succ (d + 1)
  have hp : (8 : Int) ^ (d + 1) = 8 * 8 ^ d := by ring
  constructor <;> omega

theorem getParent_childIndex (I : Int) (d : Nat) (o : Int) (h1 : offset d ≤ I)
    (h2 : I < offset (d + 1)) (ho : 0 ≤ o) (ho' : o < 8) :
    getParent (8 * (I - offset d) + o + offset (d + 1)) = I := by
  obtain ⟨a, b⟩ := childIndex_bounds I d o h1 h2 ho ho'
  rw [getParent_eq _ d (getLevel_eq_of_bounds a b)]
  omega

/-- C3: for every node list and every node at a position i whose index I is non-negative with
LEVEL = getLevel I, and every octant < 8, addChild sets the child bit and child slot of that node
and appends a node with level LEVEL + 1 and index
c = ((I - offset LEVEL) << 3) + octant + offset (LEVEL + 1); getLevel c = LEVEL + 1,
getParent c = I, and a different octant < 8 yields a different child index. -/
theorem addChild_getParent (NCRIT : Nat) (nodes : List Node) (i octant : Nat) (ni : Node)
    (hi : nodes[i]? = some ni) (h0 : 0 ≤ ni.I) (hL : ni.LEVEL = getLevel ni.I)
    (ho : octant < 8) :
    ∃ (child : Node) (d : Nat),
      addChild NCRIT octant i nodes = nodes.set i
        { ni with
          ICHILD := ni.ICHILD ||| (1 <<< octant),
          CHILD := ni.CHILD.set octant nodes.length } ++ [child] ∧
      getLevel ni.I = (d : Int) ∧
      child.I = shl (ni.I - offset d) 3 + (octant : Int) + offset (d + 1) ∧
      child.LEVEL = (d : Int) + 1 ∧ getLevel child.I = (d : Int) + 1 ∧
      getParent child.I = ni.I ∧
      ∀ octant' : Nat, octant' < 8 → octant' ≠ octant →
        ((addChild NCRIT octant' i nodes).getLast?.map Node.I) ≠ some child.I := by
  have hg : nodes.getD i default = ni := by
    rw [List.getD_eq_getElem?_getD, hi]; rfl
  subst hg
  obtain ⟨d, hd, hlo, hhi⟩ := getLevel_bounds _ h0
  have hc1 : Int.tdiv (shl 1 (3 * (nodes.getD i default).LEVEL) - 1) 7 = offset d := by
    rw [hL, hd, cellOffset_eq]
  have hc2 : Int.tdiv (shl 1 (3 * ((nodes.getD i default).LEVEL + 1)) - 1) 7 = offset (d + 1) := by
    rw [hL, hd]
    have : (d : Int) + 1 = ((d + 1 : Nat) : Int) := by push_cast; ring
    rw [this, cellOffset_eq]
  have hb := childIndex_bounds _ d (octant : Int) hlo hhi (by omega) (by omega)
  refine ⟨_, d, rfl, hd, ?_, ?_, ?_, ?_, ?_⟩
  · simp only [hc1, hc2]
  · simp only [hL, hd]
  · simp only [hc1, hc2, shl_three]
    rw [getLevel_eq_of_bounds hb.1 hb.2]; push_cast; ring
  · simp only [hc1, hc2, shl_three]
    exact getParent_childIndex _ d _ hlo hhi (by omega) (by omega)
  · intro o' _ hne
    simp only [addChild, hc1, hc2, List.getLast?_concat, Option.map_some', ne_eq,
      Option.some.injEq, shl_three]
    omega

theorem addChild_getParent_witness :
    ∃ child : Node, (addChild 4 5 0 [rootNode 4 [0, 0, 0] 1]).getLast? = some child ∧
      child.I = 6 ∧ getLevel child.I = 1 ∧ getParent child.I = 0 := by
  obtain ⟨child, d, h1, h2, h3, _, h5, h6, _⟩ :=
    addChild_getParent 4 [rootNode 4 [0, 0, 0] 1] 0 5 (rootNode 4 [0, 0, 0] 1) rfl (by decide)
      (by decide) (by decide)
  have hd : d = 0 := by
    have : getLevel (rootNode 4 [0, 0, 0] 1).I = 0 := by decide
    rw [this] at h2; exact_mod_cast h2.symm
  subst hd
  refine ⟨child, by rw [h1]; simp, ?_, ?_, h6⟩
  · rw [h3]; decide
  · rw [h5]; rfl

theorem deinterleaveLoop_isSome (fuel : Nat) : ∀ (index : Int) (d : Nat) (level : Int)
    (nx : List Int), 0 ≤ index → index < fuel → ∃ r, deinterleaveLoop fuel index d level nx = some r := by
  induction fuel with
  | zero => intro index d level nx h0 h1; simp at h1; omega
  | succ n ih =>
    intro index d level nx h0 h1
    unfold deinterleaveLoop
    by_cases hz : index = 0
    · simp [hz]
    · rw [if_pos hz]
      have hs : Int.shiftRight index 1 = index / 2 := by
        have := Int.shiftRight_eq_div_pow index 1
        simp only [HShiftRight.hShiftRight] at this
        rw [this]; norm_num
      rw [hs]
      apply ih
      · omega
      · push_cast at h1; omega

theorem getCenterNx_isSome (ICELL : Int) (h0 : 0 ≤ ICELL) : ∃ nx, getCenterNx ICELL = some nx := by
  obtain ⟨d, hd, hlo, _⟩ := getLevel_bounds ICELL h0
  unfold getCenterNx
  simp only [hd, cellOffset_eq]
  apply deinterleaveLoop_isSome
  · omega
  · push_cast; omega

theorem getCenter_eq (X0 : List Rat) (R0 : Rat) (cell : Cell) (h0 : 0 ≤ cell.ICELL) :
    ∃ c, getCenter X0 R0 cell = some c ∧ c.ICELL = cell.ICELL ∧ c.NCHILD = cell.NCHILD ∧
      c.NCLEAF = cell.NCLEAF ∧ c.NDLEAF = cell.NDLEAF ∧ c.PARENT = cell.PARENT ∧
      c.CHILD = cell.CHILD ∧ c.LEAF = cell.LEAF := by
  obtain ⟨nx, hnx⟩ := getCenterNx_isSome cell.ICELL h0
  unfold getCenter
  rw [hnx]
  exact ⟨_, rfl, rfl, rfl, rfl, rfl, rfl, rfl, rfl⟩

theorem bodies2twigsLoop_spec (X0 : List Rat) (R0 : Rat) : ∀ (rest cur : List Body)
    (b nleaf : Nat) (index : Int) (firstLeaf : Nat) (cell : Cell) (twigs : List Cell),
    cur ≠ [] → (∀ a ∈ cur, a.ICELL = index) → nleaf = cur.length → b = firstLeaf + nleaf →
    0 ≤ index → (∀ a ∈ rest, 0 ≤ a.ICELL) →
    ∃ (out : List Cell) (r0 : List Body) (rs : List (List Body)) (nleaf1 : Nat) (index1 : Int)
      (firstLeaf1 : Nat) (cell1 last : Cell),
      bodies2twigsLoop X0 R0 rest b nleaf index firstLeaf cell twigs
        = some (twigs ++ out, nleaf1, index1, firstLeaf1, cell1) ∧
      getCenter X0 R0 { cell1 with NCLEAF := nleaf1, NDLEAF := nleaf1, CHILD := 0, NCHILD := 0,
                                   ICELL := index1, LEAF := firstLeaf1 } = some last ∧
      IsMaximalRuns ((cur ++ r0) :: rs) (cur ++ rest) ∧
      TwigsOfRuns firstLeaf (out ++ [last]) ((cur ++ r0) :: rs) := by
  intro rest
  induction rest with
  | nil =>
    intro cur b nleaf index firstLeaf cell twigs hne hc hn hb h0 _
    obtain ⟨g, hg, g1, g2, g3, g4, _, g6, g7⟩ := getCenter_eq X0 R0
      { cell with NCLEAF := nleaf, NDLEAF := nleaf, CHILD := 0, NCHILD := 0,
                  ICELL := index, LEAF := firstLeaf } h0
    refine ⟨[], [], [], nleaf, index, firstLeaf, cell, g, by simp [bodies2twigsLoop], hg, ?_, ?_⟩
    · refine ⟨by simp, ?_, ?_, by simp⟩
      · intro r hr; simp at hr; subst hr; exact hne
      · intro r hr a ha b hb; simp at hr; subst hr; rw [hc a ha, hc b hb]
    · simp only [List.nil_append, List.append_nil, TwigsOfRuns]
      exact ⟨fun b hb => g1.trans (hc b hb).symm, g3.trans hn, g4.trans hn, g2, g6, g7, trivial⟩
  | cons B rest ih =>
    intro cur b nleaf index firstLeaf cell twigs hne hc hn hb h0 hrest
    have hB0 : 0 ≤ B.ICELL := hrest B (List.mem_cons_self _ _)
    have hrest' : ∀ a ∈ rest, 0 ≤ a.ICELL := fun a ha => hrest a (List.mem_cons_of_mem _ ha)
    by_cases hBi : B.ICELL = index
    · obtain ⟨out, r0, rs, n1, i1, f1, c1, last, h1, h2, h3, h4⟩ :=
        ih (cur ++ [B]) (b + 1) (nleaf + 1) index firstLeaf cell twigs (by simp)
          (by intro a ha; simp at ha; rcases ha with ha | ha
              · exact hc a ha
              · rw [ha]; exact hBi)
          (by simp [hn]) (by omega) h0 hrest'
      refine ⟨out, B :: r0, rs, n1, i1, f1, c1, last, ?_, h2, ?_, ?_⟩
      · simp only [bodies2twigsLoop, hBi, ne_eq, not_true_eq_false, if_false]
        exact h1
      · simpa [List.append_assoc] using h3
      · simpa [List.append_assoc] using h4
    · obtain ⟨g, hg, g1, g2, g3, g4, _, g6, g7⟩ := getCenter_eq X0 R0
        { cell with NCLEAF := nleaf, NDLEAF := nleaf, CHILD := 0, NCHILD := 0,
                    ICELL := index, LEAF := firstLeaf } h0
      obtain ⟨out, r0, rs, n1, i1, f1, c1, last, h1, h2, h3, h4⟩ :=
        ih [B] (b + 1) 1 B.ICELL b g (twigs ++ [g]) (by simp)
          (by intro a ha; simp at ha; rw [ha]) rfl rfl hB0 hrest'
      refine ⟨g :: out, [], ([B] ++ r0) :: rs, n1, i1, f1, c1, last, ?_, h2, ?_, ?_⟩
      · simp only [bodies2twigsLoop, ne_eq, hBi, not_false_eq_true, if_true, hg, Option.bind_eq_bind,
          Option.some_bind]
        rw [h1]; simp
      · obtain ⟨j, ne, cst, ch⟩ := h3
        refine ⟨?_, ?_, ?_, ?_⟩
        · simp only [List.flatten_cons, List.append_nil] at j ⊢
          rw [j]; simp
        · intro r hr
          rcases List.mem_cons.1 hr with h | h
          · rw [h]; simpa using hne
          · exact ne r h
        · intro r hr
          rcases List.mem_cons.1 hr with h | h
          · rw [h]; intro a ha b hb
            simp only [List.append_nil] at ha hb
            rw [hc a ha, hc b hb]
          · exact cst r h
        · refine List.Chain'.cons ?_ ch
          intro a ha b' hb'
          simp only [List.append_nil] at ha
          rw [hc a ha, cst ([B] ++ r0) (List.mem_cons_self _ _) b' hb' B (by simp)]
          exact fun h => hBi h.symm
      · simp only [List.append_nil, List.cons_append, TwigsOfRuns]
        refine ⟨fun a ha => g1.trans (hc a ha).symm, g3.trans hn, g4.trans hn, g2, g6, g7, ?_⟩
        rw [← hn, ← hb]; exact h4

theorem bodies2twigs_spec (X0 : List Rat) (R0 : Rat) (bodies : List Body) (twigs0 : List Cell)
    (hne : bodies ≠ []) (h0 : ∀ b ∈ bodies, 0 ≤ b.ICELL) :
    ∃ (out : List Cell) (runs : List (List Body)),
      bodies2twigs X0 R0 bodies twigs0 = some (twigs0 ++ out) ∧ IsMaximalRuns runs bodies ∧
      TwigsOfRuns 0 out runs := by
  obtain ⟨B0, rest, rfl⟩ := List.exists_cons_of_ne_nil hne
  obtain ⟨out, r0, rs, n1, i1, f1, c1, last, h1, h2, h3, h4⟩ :=
    bodies2twigsLoop_spec X0 R0 rest [B0] 1 1 B0.ICELL 0 Cell.init twigs0 (by simp)
      (by intro a ha; simp at ha; rw [ha]) rfl rfl (h0 B0 (List.mem_cons_self _ _))
      (fun a ha => h0 a (List.mem_cons_of_mem _ ha))
  refine ⟨out ++ [last], ([B0] ++ r0) :: rs, ?_, h3, h4⟩
  simp only [bodies2twigs, List.head?_cons, Option.bind_eq_bind, Option.some_bind,
    bodies2twigsLoop, ne_eq, not_true_eq_false, if_false, Nat.zero_add, h1, h2, List.append_assoc]

/-- C4: for every non-empty body sequence with non-negative cell indices, bodies2twigs appends
to the twig vector exactly one twig per maximal run of consecutive bodies with equal ICELL, in run
order; each twig has the ICELL of its run, NCLEAF = NDLEAF = the length of the run, NCHILD = 0,
and LEAF at the position of the first body of the run. -/
theorem bodies2twigs_runs (X0 : List Rat) (R0 : Rat) (bodies : List Body) (twigs0 : List Cell)
    (hne : bodies ≠ []) (h0 : ∀ b ∈ bodies, 0 ≤ b.ICELL) :
    ∃ (out : List Cell) (runs : List (List Body)),
      bodies2twigs X0 R0 bodies twigs0 = some (twigs0 ++ out) ∧ IsMaximalRuns runs bodies ∧
      TwigsOfRuns 0 out runs := by
  obtain ⟨B0, rest, rfl⟩ := List.exists_cons_of_ne_nil hne
  obtain ⟨out, r0, rs, n1, i1, f1, c1, last, h1, h2, h3, h4⟩ :=
    bodies2twigsLoop_spec X0 R0 rest [B0] 1 1 B0.ICELL 0 Cell.init twigs0 (by simp)
      (by intro a ha; simp at ha; rw [ha]) rfl rfl (h0 B0 (List.mem_cons_self _ _))
      (fun a ha => h0 a (List.mem_cons_of_mem _ ha))
  refine ⟨out ++ [last], ([B0] ++ r0) :: rs, ?_, h3, h4⟩
  simp only [bodies2twigs, List.head?_cons, Option.bind_eq_bind, Option.some_bind,
    bodies2twigsLoop, ne_eq, not_true_eq_false, if_false, Nat.zero_add, h1, h2, List.append_assoc]

theorem bodies2twigs_runs_witness :
    ∃ (out : List Cell) (runs : List (List Body)),
      bodies2twigs [0, 0, 0] 1 [⟨[0, 0, 0], 1⟩, ⟨[0, 0, 0], 1⟩, ⟨[0, 0, 0], 3⟩] [] = some ([] ++ out) ∧
      IsMaximalRuns runs [⟨[0, 0, 0], 1⟩, ⟨[0, 0, 0], 1⟩, ⟨[0, 0, 0], 3⟩] ∧
      TwigsOfRuns 0 out runs :=
  bodies2twigs_runs [0, 0, 0] 1 [⟨[0, 0, 0], 1⟩, ⟨[0, 0, 0], 1⟩, ⟨[0, 0, 0], 3⟩] [] (by simp)
    (by decide)

theorem getElem?_mid {α : Type} (pre : List α) (x : α) (t : List α) :
    (pre ++ x :: t)[pre.length]? = some x := by
  rw [List.getElem?_append_right (le_refl _)]
  simp

theorem getElem?_mid_succ {α : Type} (pre : List α) (x y : α) (t : List α) :
    (pre ++ x :: y :: t)[pre.length + 1]? = some y := by
  have : pre ++ x :: y :: t = (pre ++ [x]) ++ y :: t := by simp
  rw [this]
  have h := getElem?_mid (pre ++ [x]) y t
  simpa using h

theorem set_mid {α : Type} (pre : List α) (x z : α) (t : List α) :
    (pre ++ x :: t).set pre.length z = pre ++ z :: t := by
  simp

theorem eraseIdx_mid {α : Type} (pre : List α) (x : α) (t : List α) :
    (pre ++ x :: t).eraseIdx pre.length = pre ++ t := by
  rw [List.eraseIdx_append_of_length_le (le_refl _)]
  simp

theorem eraseIdx_mid_succ {α : Type} (pre : List α) (x y : α) (t : List α) :
    (pre ++ x :: y :: t).eraseIdx (pre.length + 1) = pre ++ x :: t := by
  have : pre ++ x :: y :: t = (pre ++ [x]) ++ y :: t := by simp
  rw [this]
  have h := eraseIdx_mid (pre ++ [x]) y t
  simpa using h

theorem uniqueLoop_eq : ∀ (todo pre : List Cell) (co : Cell) (post sticks : List Cell),
    uniqueLoop todo.length (pre ++ co :: (todo ++ post)) sticks pre.length (pre.length + 1)
        (pre.length + 1 + todo.length)
      = some (pre ++ (uniqueSpec co todo).1 ++ post, sticks ++ (uniqueSpec co todo).2,
          pre.length + (uniqueSpec co todo).1.length) := by
  intro todo
  induction todo with
  | nil => intro pre co post sticks; simp [uniqueLoop, uniqueSpec]
  | cons cc rest ih =>
    intro pre co post sticks
    have hne : ¬ (pre.length + 1 = pre.length + 1 + (rest.length + 1)) := by omega
    have hc : (pre ++ co :: (cc :: rest ++ post))[pre.length + 1]? = some cc :=
      getElem?_mid_succ pre co cc (rest ++ post)
    have ho : (pre ++ co :: (cc :: rest ++ post))[pre.length]? = some co :=
      getElem?_mid pre co _
    simp only [List.length_cons, uniqueLoop, hne, if_false, hc, ho, Option.bind_eq_bind,
      Option.some_bind]
    by_cases hk : cc.ICELL = co.ICELL
    · have h2 : ¬ (pre.length + 1 = pre.length) := by omega
      simp only [hk, ne_eq, not_true_eq_false, if_false, h2, not_false_eq_true, if_true]
      have he : pre.length + 1 + (rest.length + 1) - 1 = pre.length + 1 + rest.length := by omega
      by_cases hn : cc.NCHILD = 0
      · simp only [hn, not_true_eq_false, if_false, uniqueSpec, hk, ne_eq]
        rw [he]
        have := eraseIdx_mid_succ pre co cc (rest ++ post)
        simp only [List.cons_append] at this ⊢
        rw [this]
        exact ih pre co post sticks
      · simp only [hn, not_false_eq_true, if_true, uniqueSpec, hk, ne_eq, not_true_eq_false,
          if_false]
        rw [he]
        have h1 := set_mid pre co (co.takeLinks cc) (cc :: (rest ++ post))
        have h3 := eraseIdx_mid_succ pre (co.takeLinks cc) cc (rest ++ post)
        simp only [List.cons_append] at h1 h3 ⊢
        rw [h1, h3]
        have := ih pre (co.takeLinks cc) post (sticks ++ [co.takeLinks cc])
        rw [this]; simp
    · simp only [ne_eq, hk, not_false_eq_true, if_true, uniqueSpec]
      have := ih (pre ++ [co]) cc post sticks
      simp only [List.length_append, List.length_singleton, List.append_assoc,
        List.singleton_append] at this
      have e : pre.length + 1 + (rest.length + 1) = pre.length + 1 + 1 + rest.length := by omega
      simp only [List.cons_append]
      rw [e, this]
      simp
      omega

theorem unique_nil_range (cells sticks : List Cell) (b : Nat) :
    unique cells sticks b b = some (cells, sticks, b) := by
  simp [unique, uniqueLoop]

theorem unique_append (pre : List Cell) (co : Cell) (todo post sticks : List Cell) :
    unique (pre ++ co :: (todo ++ post)) sticks pre.length (pre.length + 1 + todo.length)
      = some (pre ++ (uniqueSpec co todo).1 ++ post, sticks ++ (uniqueSpec co todo).2,
          pre.length + (uniqueSpec co todo).1.length) := by
  unfold unique
  have hf : pre.length + 1 + todo.length - pre.length = todo.length + 1 := by omega
  have hne : ¬ (pre.length = pre.length + 1 + todo.length) := by omega
  rw [hf]
  simp only [uniqueLoop, hne, if_false, getElem?_mid, Option.bind_eq_bind, Option.some_bind,
    ne_eq, not_true_eq_false]
  exact uniqueLoop_eq todo pre co post sticks

theorem takeLinks_ICELL (co cc : Cell) : (co.takeLinks cc).ICELL = co.ICELL := rfl

theorem uniqueSpec_head : ∀ (todo : List Cell) (co : Cell),
    ∃ k ks, (uniqueSpec co todo).1 = k :: ks ∧ k.ICELL = co.ICELL := by
  intro todo
  induction todo with
  | nil => intro co; exact ⟨co, [], rfl, rfl⟩
  | cons cc rest ih =>
    intro co
    unfold uniqueSpec
    by_cases hk : cc.ICELL = co.ICELL
    · by_cases hn : cc.NCHILD = 0
      · simp only [hk, hn, ne_eq, not_true_eq_false, if_false]; exact ih co
      · simp only [hk, hn, ne_eq, not_true_eq_false, if_false, not_false_eq_true, if_true]
        obtain ⟨k, ks, h1, h2⟩ := ih (co.takeLinks cc)
        exact ⟨k, ks, h1, h2⟩
    · simp only [hk, ne_eq, not_false_eq_true, if_true]
      exact ⟨co, _, rfl, rfl⟩

theorem uniqueSpec_length : ∀ (todo : List Cell) (co : Cell),
    (uniqueSpec co todo).1.length ≤ todo.length + 1 := by
  intro todo
  induction todo with
  | nil => intro co; simp [uniqueSpec]
  | cons cc rest ih =>
    intro co
    unfold uniqueSpec
    by_cases hk : cc.ICELL = co.ICELL
    · by_cases hn : cc.NCHILD = 0
      · simp only [hk, hn, ne_eq, not_true_eq_false, if_false]
        have := ih co; simp only [List.length_cons]; omega
      · simp only [hk, hn, ne_eq, not_true_eq_false, if_false, not_false_eq_true, if_true]
        have := ih (co.takeLinks cc); simp only [List.length_cons]; omega
    · simp only [hk, ne_eq, not_false_eq_true, if_true, List.length_cons]
      have := ih cc; omega

theorem uniqueSpec_mem : ∀ (todo : List Cell) (co : Cell) (x : Int),
    x ∈ (uniqueSpec co todo).1.map Cell.ICELL ↔ x ∈ (co :: todo).map Cell.ICELL := by
  intro todo
  induction todo with
  | nil => intro co x; simp [uniqueSpec]
  | cons cc rest ih =>
    intro co x
    unfold uniqueSpec
    by_cases hk : cc.ICELL = co.ICELL
    · by_cases hn : cc.NCHILD = 0
      · simp only [hk, hn, ne_eq, not_true_eq_false, if_false]
        rw [ih co x]; simp only [List.map_cons, List.mem_cons, hk]; tauto
      · simp only [hk, hn, ne_eq, not_true_eq_false, if_false, not_false_eq_true, if_true]
        rw [ih (co.takeLinks cc) x]
        simp only [List.map_cons, List.mem_cons, hk, takeLinks_ICELL]; tauto
    · simp only [hk, ne_eq, not_false_eq_true, if_true, List.map_cons, List.mem_cons]
      rw [ih cc x]; simp only [List.map_cons, List.mem_cons]

theorem uniqueSpec_chain : ∀ (todo : List Cell) (co : Cell),
    List.Sorted (· ≤ ·) ((co :: todo).map Cell.ICELL) →
    List.Chain' (· < ·) ((uniqueSpec co todo).1.map Cell.ICELL) := by
  intro todo
  induction todo with
  | nil => intro co _; simp [uniqueSpec]
  | cons cc rest ih =>
    intro co hs
    have hs' : List.Sorted (· ≤ ·) ((cc :: rest).map Cell.ICELL) := by
      simp only [List.map_cons] at hs ⊢; exact hs.of_cons
    have hle : co.ICELL ≤ cc.ICELL := by
      simp only [List.map_cons] at hs
      exact List.rel_of_sorted_cons hs _ (List.mem_cons_self _ _)
    unfold uniqueSpec
    by_cases hk : cc.ICELL = co.ICELL
    · have hs2 : ∀ c : Cell, c.ICELL = co.ICELL →
          List.Sorted (· ≤ ·) ((c :: rest).map Cell.ICELL) := by
        intro c hc
        simp only [List.map_cons] at hs' ⊢
        rw [hc, ← hk]; exact hs'
      by_cases hn : cc.NCHILD = 0
      · simp only [hk, hn, ne_eq, not_true_eq_false, if_false]; exact ih co (hs2 co rfl)
      · simp only [hk, hn, ne_eq, not_true_eq_false, if_false, not_false_eq_true, if_true]
        exact ih _ (hs2 _ rfl)
    · simp only [hk, ne_eq, not_false_eq_true, if_true, List.map_cons]
      obtain ⟨k, ks, h1, h2⟩ := uniqueSpec_head rest cc
      have := ih cc hs'
      rw [h1] at this ⊢
      simp only [List.map_cons] at this ⊢
      refine List.Chain'.cons ?_ this
      rw [h2]; omega

theorem exists_split (cells : List Cell) (begin end_ : Nat) (hbe : begin ≤ end_)
    (hel : end_ ≤ cells.length) :
    ∃ pre range post, cells = pre ++ (range ++ post) ∧ begin = pre.length ∧
      end_ = pre.length + range.length ∧ range = (cells.drop begin).take (end_ - begin) ∧
      pre = cells.take begin ∧ post = cells.drop end_ := by
  refine ⟨cells.take begin, (cells.drop begin).take (end_ - begin), cells.drop end_, ?_, ?_, ?_,
    rfl, rfl, rfl⟩
  · have h1 : cells.drop end_ = (cells.drop begin).drop (end_ - begin) := by
      rw [List.drop_drop]; congr 1; omega
    rw [h1, List.take_append_drop, List.take_append_drop]
  · simp; omega
  · simp; omega

theorem range_of_append (pre range post : List Cell) (n : Nat) (hn : n = range.length) :
    ((pre ++ (range ++ post)).drop pre.length).take (pre.length + n - pre.length) = range := by
  subst hn
  simp

/-- C9: for every cell array and range [begin,end) inside it that is sorted ascending by ICELL,
unique returns; afterwards the range [begin,end') is strictly ascending in ICELL and holds exactly
the ICELL values of the original range, end' is end minus the number of cells removed, and the
cells before begin (and those after the range) are unchanged. -/
theorem unique_sorted (cells sticks : List Cell) (begin end_ : Nat) (hbe : begin ≤ end_)
    (hel : end_ ≤ cells.length)
    (hs : List.Sorted (· ≤ ·) (((cells.drop begin).take (end_ - begin)).map Cell.ICELL)) :
    ∃ (cells1 sticks1 : List Cell) (end1 : Nat),
      unique cells sticks begin end_ = some (cells1, sticks1, end1) ∧
      begin ≤ end1 ∧ end1 ≤ end_ ∧
      List.Sorted (· < ·) (((cells1.drop begin).take (end1 - begin)).map Cell.ICELL) ∧
      (∀ x, x ∈ ((cells1.drop begin).take (end1 - begin)).map Cell.ICELL ↔
            x ∈ ((cells.drop begin).take (end_ - begin)).map Cell.ICELL) ∧
      cells1.length + (end_ - end1) = cells.length ∧
      cells1.take begin = cells.take begin ∧ cells1.drop end1 = cells.drop end_ := by
  obtain ⟨pre, range, post, hc, hb, he, hr, -, -⟩ := exists_split cells begin end_ hbe hel
  rw [← hr] at hs
  rw [← hr]
  subst hc hb he
  clear hr
  cases range with
  | nil =>
    refine ⟨_, _, _, unique_nil_range _ _ _, le_refl _, le_refl _, ?_, ?_, by simp, rfl, rfl⟩
    · simp
    · intro x; simp
  | cons co todo =>
    have hu := unique_append pre co todo post sticks
    have hlen := uniqueSpec_length todo co
    have e : pre.length + (co :: todo).length = pre.length + 1 + todo.length := by
      simp only [List.length_cons]; omega
    have hk : ((pre ++ ((uniqueSpec co todo).1 ++ post)).drop pre.length).take
        (pre.length + (uniqueSpec co todo).1.length - pre.length) = (uniqueSpec co todo).1 :=
      range_of_append pre _ post _ rfl
    refine ⟨pre ++ (uniqueSpec co todo).1 ++ post, sticks ++ (uniqueSpec co todo).2,
      pre.length + (uniqueSpec co todo).1.length, ?_, by omega, ?_, ?_, ?_, ?_, ?_, ?_⟩
    · rw [e]; exact hu
    · simp only [List.length_cons]; omega
    · rw [List.append_assoc, hk]
      exact (List.chain'_iff_pairwise).1 (uniqueSpec_chain todo co hs)
    · intro x
      rw [List.append_assoc, hk]
      exact uniqueSpec_mem todo co x
    · simp only [List.length_append, List.length_cons]; omega
    · simp
    · simp

theorem unique_sorted_witness :
    ∃ (cells1 sticks1 : List Cell) (end1 : Nat),
      unique [{ Cell.init with ICELL := 9 }, { Cell.init with ICELL := 1 },
          { Cell.init with ICELL := 1, NCHILD := 2 }, { Cell.init with ICELL := 3 }] [] 1 4
        = some (cells1, sticks1, end1) ∧ cells1.map Cell.ICELL = [9, 1, 3] ∧ end1 = 3 := by
  obtain ⟨c1, s1, e1, h, -⟩ := unique_sorted
    [{ Cell.init with ICELL := 9 }, { Cell.init with ICELL := 1 },
      { Cell.init with ICELL := 1, NCHILD := 2 }, { Cell.init with ICELL := 3 }] [] 1 4
    (by decide) (by decide) (by decide)
  refine ⟨c1, s1, e1, h, ?_, ?_⟩
  · have h2 : unique [{ Cell.init with ICELL := 9 }, { Cell.init with ICELL := 1 },
        { Cell.init with ICELL := 1, NCHILD := 2 }, { Cell.init with ICELL := 3 }] [] 1 4
        = some ([{ Cell.init with ICELL := 9 }, { Cell.init with ICELL := 1, NCHILD := 2 },
            { Cell.init with ICELL := 3 }],
          [{ Cell.init with ICELL := 1, NCHILD := 2 }], 3) := by
      rfl
    rw [h2] at h
    cases h; rfl
  · have h2 : (unique [{ Cell.init with ICELL := 9 }, { Cell.init with ICELL := 1 },
        { Cell.init with ICELL := 1, NCHILD := 2 }, { Cell.init with ICELL := 3 }] [] 1 4).map
          (fun r => r.2.2) = some 3 := by
      rfl
    rw [h] at h2
    simpa using h2

theorem uniqueSpec_sticks : ∀ (todo : List Cell) (co pred : Cell), pred.ICELL = co.ICELL →
    (uniqueSpec co todo).2.map Cell.ICELL = lateParents (pred :: todo) := by
  intro todo
  induction todo with
  | nil => intro co pred _; rfl
  | cons cc rest ih =>
    intro co pred hp
    unfold uniqueSpec lateParents
    by_cases hk : cc.ICELL = co.ICELL
    · by_cases hn : cc.NCHILD = 0
      · simp only [hk, hn, hp, ne_eq, not_true_eq_false, if_false, and_false, List.nil_append]
        exact ih co cc hk
      · simp only [hk, hn, hp, ne_eq, not_true_eq_false, if_false, not_false_eq_true, if_true,
          and_self, List.map_cons, List.singleton_append, takeLinks_ICELL]
        rw [ih (co.takeLinks cc) cc hk]
    · simp only [hk, hp, ne_eq, not_false_eq_true, if_true, false_and, if_false, List.nil_append]
      exact ih cc cc rfl

theorem uniqueSpec_sticks_NCHILD : ∀ (todo : List Cell) (co : Cell),
    ∀ s ∈ (uniqueSpec co todo).2, s.NCHILD ≠ 0 := by
  intro todo
  induction todo with
  | nil => intro co s hs; simp [uniqueSpec] at hs
  | cons cc rest ih =>
    intro co s hs
    unfold uniqueSpec at hs
    by_cases hk : cc.ICELL = co.ICELL
    · by_cases hn : cc.NCHILD = 0
      · simp only [hk, hn, ne_eq, not_true_eq_false, if_false] at hs
        exact ih co s hs
      · simp only [hk, hn, ne_eq, not_true_eq_false, if_false, not_false_eq_true, if_true,
          List.mem_cons] at hs
        rcases hs with h | h
        · rw [h]; exact hn
        · exact ih _ s h
    · simp only [hk, ne_eq, not_false_eq_true, if_true] at hs
      exact ih cc s hs

/-- C10 (as stated, refuted): on the range holding the synthesized parent `parentOne` followed by
the twig `twigOne` with the same index, unique removes the twig and appends no stick. -/
theorem unique_parent_first_no_stick :
    unique [parentOne, twigOne] [] 0 2 = some ([parentOne], [], 1) ∧
      parentOne.ICELL = twigOne.ICELL ∧ parentOne.NCHILD ≠ 0 ∧ twigOne.NCHILD = 0 := by
  refine ⟨rfl, rfl, by decide, rfl⟩

/-- C10 (amended): for every cell array and range [begin,end) inside it, unique returns and
appends to the stick list exactly one entry per cell of the range that repeats the ICELL of the
cell just before it and has NCHILD ≠ 0, in range order and with that ICELL; every appended stick
has NCHILD ≠ 0. A repeating cell with NCHILD = 0 is erased without a stick. -/
theorem unique_sticks (cells sticks : List Cell) (begin end_ : Nat) (hbe : begin ≤ end_)
    (hel : end_ ≤ cells.length) :
    ∃ (cells1 new : List Cell) (end1 : Nat),
      unique cells sticks begin end_ = some (cells1, sticks ++ new, end1) ∧
      new.map Cell.ICELL = lateParents ((cells.drop begin).take (end_ - begin)) ∧
      ∀ s ∈ new, s.NCHILD ≠ 0 := by
  obtain ⟨pre, range, post, hc, hb, he, hr, -, -⟩ := exists_split cells begin end_ hbe hel
  rw [← hr]
  subst hc hb he
  clear hr
  cases range with
  | nil => exact ⟨_, [], _, by simpa using unique_nil_range _ _ _, rfl, by simp⟩
  | cons co todo =>
    have e : pre.length + (co :: todo).length = pre.length + 1 + todo.length := by
      simp only [List.length_cons]; omega
    refine ⟨pre ++ (uniqueSpec co todo).1 ++ post, (uniqueSpec co todo).2,
      pre.length + (uniqueSpec co todo).1.length, ?_, uniqueSpec_sticks todo co co rfl,
      uniqueSpec_sticks_NCHILD todo co⟩
    rw [e]; exact unique_append pre co todo post sticks

theorem unique_sticks_witness :
    ∃ (cells1 new : List Cell) (end1 : Nat),
      unique [twigOne, parentOne] [] 0 2 = some (cells1, [] ++ new, end1) ∧
      new.map Cell.ICELL = lateParents (([twigOne, parentOne].drop 0).take (2 - 0)) ∧
      ∀ s ∈ new, s.NCHILD ≠ 0 :=
  unique_sticks [twigOne, parentOne] [] 0 2 (by decide) (by decide)

theorem setParentBlock_length (i : Nat) : ∀ (n pos : Nat) (cells : List Cell),
    (setParentBlock i n pos cells).length = cells.length := by
  intro n
  induction n with
  | zero => intro pos cells; rfl
  | succ k ih => intro pos cells; simp [setParentBlock, ih]

theorem linkChildren_append (i : Nat) : ∀ (n pos : Nat) (pre suf : List Cell),
    (n ≠ 0 → pos + n ≤ pre.length) →
    linkChildren i n pos (pre ++ suf) = some (setParentBlock i n pos pre ++ suf) := by
  intro n
  induction n with
  | zero => intro pos pre suf _; rfl
  | succ k ih =>
    intro pos pre suf h0
    have h := h0 (by omega)
    have hlt : pos < pre.length := by omega
    have h1 : (pre ++ suf)[pos]? = some (pre.getD pos default) := by
      rw [List.getElem?_append_left hlt, List.getD_eq_getElem?_getD, List.getElem?_eq_getElem hlt]
      rfl
    have h2 : (pre ++ suf).set pos { pre.getD pos default with PARENT := i }
        = pre.set pos { pre.getD pos default with PARENT := i } ++ suf := by
      rw [List.set_append_left _ _ hlt]
    simp only [linkChildren, h1, Option.bind_eq_bind, Option.some_bind, h2, setParentBlock]
    apply ih
    intro _
    simp; omega

theorem linkBlocks_length : ∀ (range : List Cell) (i : Nat) (pre : List Cell),
    (linkBlocks i range pre).length = pre.length := by
  intro range
  induction range with
  | nil => intro i pre; rfl
  | cons m rest ih => intro i pre; simp [linkBlocks, ih, setParentBlock_length]

theorem getCenter_withCenter (X0 : List Rat) (R0 : Rat) (c : Cell) (h0 : 0 ≤ c.ICELL) :
    getCenter X0 R0 c = some (withCenter X0 R0 c) := by
  obtain ⟨g, hg, _⟩ := getCenter_eq X0 R0 c h0
  simp [withCenter, hg]

theorem getElem?_mid2 {α : Type} (pre done : List α) (m : α) (t : List α) :
    (pre ++ (done ++ m :: t))[pre.length + done.length]? = some m := by
  have h := getElem?_mid (pre ++ done) m t
  simpa using h

theorem set_mid2 {α : Type} (pre done : List α) (m z : α) (t : List α) :
    (pre ++ (done ++ m :: t)).set (pre.length + done.length) z = pre ++ (done ++ z :: t) := by
  have h := set_mid (pre ++ done) m z t
  simp only [List.length_append, List.append_assoc] at h
  exact h

theorem linkParentLoop_step (X0 : List Rat) (R0 : Rat) (pre done rest pushed : List Cell)
    (m parent : Cell) (n E : Nat) (hE : E = pre.length + done.length + (rest.length + 1))
    (hblk : m.NCHILD ≠ 0 → m.CHILD + m.NCHILD ≤ pre.length) (h0 : 0 ≤ getParent m.ICELL) :
    linkParentLoop X0 R0 (n + 1) (pre ++ (done ++ (m :: rest ++ pushed))) parent
        (pre.length + done.length) E (E + pushed.length)
      = linkParentLoop X0 R0 n
          (setParentBlock (pre.length + done.length) m.NCHILD m.CHILD pre ++
            ((linkStep X0 R0 pre.length E ⟨done, pushed, parent⟩ m).done ++
              (rest ++ (linkStep X0 R0 pre.length E ⟨done, pushed, parent⟩ m).pushed)))
          (linkStep X0 R0 pre.length E ⟨done, pushed, parent⟩ m).parent
          (pre.length + done.length + 1) E
          (E + (linkStep X0 R0 pre.length E ⟨done, pushed, parent⟩ m).pushed.length) := by
  have hne : ¬ (pre.length + done.length = E) := by omega
  have hpl := setParentBlock_length (pre.length + done.length) m.NCHILD m.CHILD pre
  have hci : ∀ t : List Cell, (pre ++ (done ++ (m :: rest ++ t)))[pre.length + done.length]?
      = some m := fun t => getElem?_mid2 pre done m (rest ++ t)
  have hlc : ∀ t : List Cell,
      linkChildren (pre.length + done.length) m.NCHILD m.CHILD (pre ++ (done ++ (m :: rest ++ t)))
        = some (setParentBlock (pre.length + done.length) m.NCHILD m.CHILD pre ++
            (done ++ (m :: rest ++ t))) :=
    fun t => linkChildren_append _ _ _ pre _ (fun h => by have := hblk h; omega)
  have hci2 : ∀ t : List Cell,
      (setParentBlock (pre.length + done.length) m.NCHILD m.CHILD pre ++
        (done ++ (m :: rest ++ t)))[pre.length + done.length]? = some m := by
    intro t
    have := getElem?_mid2 (setParentBlock (pre.length + done.length) m.NCHILD m.CHILD pre) done m
      (rest ++ t)
    rw [hpl] at this; exact this
  have hset : ∀ (t : List Cell) (z : Cell),
      (setParentBlock (pre.length + done.length) m.NCHILD m.CHILD pre ++
        (done ++ (m :: rest ++ t))).set (pre.length + done.length) z
      = setParentBlock (pre.length + done.length) m.NCHILD m.CHILD pre ++
        (done ++ (z :: rest ++ t)) := by
    intro t z
    have := set_mid2 (setParentBlock (pre.length + done.length) m.NCHILD m.CHILD pre) done m z
      (rest ++ t)
    rw [hpl] at this; exact this
  have hci3 : ∀ (t : List Cell) (z : Cell),
      (setParentBlock (pre.length + done.length) m.NCHILD m.CHILD pre ++
        (done ++ (z :: rest ++ t)))[pre.length + done.length]? = some z := by
    intro t z
    have := getElem?_mid2 (setParentBlock (pre.length + done.length) m.NCHILD m.CHILD pre) done z
      (rest ++ t)
    rw [hpl] at this; exact this
  by_cases hnew : getParent m.ICELL = parent.ICELL
  · simp only [linkParentLoop, hne, if_false, hci, Option.bind_eq_bind, Option.some_bind, hnew,
      ne_eq, not_true_eq_false, hlc, hci2, hset, hci3, linkStep]
    simp
  · have hg := getCenter_withCenter X0 R0
      { parent with ICELL := getParent m.ICELL, NCLEAF := 0, NDLEAF := 0, NCHILD := 0,
                    LEAF := m.LEAF, CHILD := pre.length + done.length } h0
    have happ : pre ++ (done ++ (m :: rest ++ pushed)) ++ [parent]
        = pre ++ (done ++ (m :: rest ++ (pushed ++ [parent]))) := by simp
    simp only [linkParentLoop, hne, if_false, hci, Option.bind_eq_bind, Option.some_bind, hnew,
      ne_eq, not_false_eq_true, if_true, hg, happ, hlc, hci2, hset, hci3, linkStep]
    simp
    rfl

theorem linkParentLoop_eq (X0 : List Rat) (R0 : Rat) : ∀ (todo pre : List Cell) (st : LinkState)
    (E : Nat), E = pre.length + st.done.length + todo.length →
    (∀ m ∈ todo, m.NCHILD ≠ 0 → m.CHILD + m.NCHILD ≤ pre.length) →
    (∀ m ∈ todo, 0 ≤ getParent m.ICELL) →
    linkParentLoop X0 R0 todo.length (pre ++ (st.done ++ (todo ++ st.pushed))) st.parent
        (pre.length + st.done.length) E (E + st.pushed.length)
      = some (linkBlocks (pre.length + st.done.length) todo pre ++
            ((todo.foldl (linkStep X0 R0 pre.length E) st).done ++
              (todo.foldl (linkStep X0 R0 pre.length E) st).pushed),
          (todo.foldl (linkStep X0 R0 pre.length E) st).parent,
          E + (todo.foldl (linkStep X0 R0 pre.length E) st).pushed.length) := by
  intro todo
  induction todo with
  | nil =>
    intro pre st E hE _ _
    simp only [List.length_nil, Nat.add_zero] at hE
    simp [linkParentLoop, hE, linkBlocks]
  | cons m rest ih =>
    intro pre st E hE hblk h0
    simp only [List.length_cons] at hE ⊢
    rw [
      linkParentLoop_step X0 R0 pre st.done rest st.pushed m st.parent rest.length E hE
        (hblk m (List.mem_cons_self _ _)) (h0 m (List.mem_cons_self _ _))]
    have hpl := setParentBlock_length (pre.length + st.done.length) m.NCHILD m.CHILD pre
    have hd : (linkStep X0 R0 pre.length E st m).done.length = st.done.length + 1 := by
      simp [linkStep]
    have := ih (setParentBlock (pre.length + st.done.length) m.NCHILD m.CHILD pre)
      (linkStep X0 R0 pre.length E st m) E (by rw [hpl, hd]; omega)
      (fun m' hm' => by rw [hpl]; exact hblk m' (List.mem_cons_of_mem _ hm'))
      (fun m' hm' => h0 m' (List.mem_cons_of_mem _ hm'))
    rw [hpl, hd] at this
    rw [← Nat.add_assoc] at this
    rw [this]
    simp only [List.foldl_cons, linkBlocks]

theorem linkParent_eq (X0 : List Rat) (R0 : Rat) (pre range : List Cell) (hne : range ≠ [])
    (hblk : ∀ m ∈ range, m.NCHILD ≠ 0 → m.CHILD + m.NCHILD ≤ pre.length)
    (h0 : ∀ m ∈ range, 0 ≤ getParent m.ICELL) :
    linkParent X0 R0 (pre ++ range) pre.length (pre.length + range.length)
      = some (linkBlocks pre.length range pre ++
            ((linkSpec X0 R0 pre.length range).done ++
              ((linkSpec X0 R0 pre.length range).pushed ++
                [(linkSpec X0 R0 pre.length range).parent])),
          pre.length + range.length,
          pre.length + range.length + (linkSpec X0 R0 pre.length range).pushed.length + 1) := by
  obtain ⟨m, rest, rfl⟩ := List.exists_cons_of_ne_nil hne
  have hcb : (pre ++ m :: rest)[pre.length]? = some m := getElem?_mid pre m rest
  have hg := getCenter_withCenter X0 R0
    { Cell.init with ICELL := getParent m.ICELL, NCLEAF := 0, NDLEAF := 0, NCHILD := 0,
                     LEAF := m.LEAF, CHILD := pre.length } (h0 m (List.mem_cons_self _ _))
  have hf : pre.length + (m :: rest).length - pre.length = (m :: rest).length := by omega
  have hl := linkParentLoop_eq X0 R0 (m :: rest) pre
    { done := [], pushed := [], parent := firstParent X0 R0 pre.length m }
    (pre.length + (m :: rest).length) (by simp) hblk h0
  simp only [List.nil_append, List.append_nil, List.length_nil, Nat.add_zero] at hl
  simp only [linkParent, hcb, Option.bind_eq_bind, Option.some_bind, hg, hf]
  unfold firstParent at hl
  rw [hl]
  simp [linkSpec, firstParent]

theorem withCenter_fields (X0 : List Rat) (R0 : Rat) (c : Cell) :
    (withCenter X0 R0 c).ICELL = c.ICELL ∧ (withCenter X0 R0 c).NCHILD = c.NCHILD ∧
      (withCenter X0 R0 c).NCLEAF = c.NCLEAF ∧ (withCenter X0 R0 c).NDLEAF = c.NDLEAF ∧
      (withCenter X0 R0 c).PARENT = c.PARENT ∧ (withCenter X0 R0 c).CHILD = c.CHILD ∧
      (withCenter X0 R0 c).LEAF = c.LEAF := by
  unfold withCenter getCenter
  cases getCenterNx c.ICELL with
  | none => simp
  | some nx => simp

theorem linkFold_spec (X0 : List Rat) (R0 : Rat) (B E : Nat) : ∀ (todo cur D : List Cell)
    (st : LinkState) (s : Nat), cur ≠ [] →
    (∀ a ∈ cur, st.parent.ICELL = getParent a.ICELL) → st.parent.CHILD = s →
    st.parent.NCHILD = cur.length → st.parent.NDLEAF = (cur.map Cell.NDLEAF).sum →
    st.parent.NCLEAF = 0 → st.parent.LEAF = (cur.headD default).LEAF →
    st.done = D ++ cur.map (fun m => { m with PARENT := E + st.pushed.length }) →
    B + D.length = s →
    ∃ (r0 : List Cell) (rs : List (List Cell)) (done1 newPushed : List Cell),
      IsParentGroups ((cur ++ r0) :: rs) (cur ++ todo) ∧
      (todo.foldl (linkStep X0 R0 B E) st).done = D ++ done1 ∧
      (todo.foldl (linkStep X0 R0 B E) st).pushed = st.pushed ++ newPushed ∧
      ParentsOfGroups s (E + st.pushed.length)
        (newPushed ++ [(todo.foldl (linkStep X0 R0 B E) st).parent]) done1
        ((cur ++ r0) :: rs) := by
  intro todo
  induction todo with
  | nil =>
    intro cur D st s hne hk hc hn hs hl hlf hd _
    refine ⟨[], [], cur.map (fun m => { m with PARENT := E + st.pushed.length }), [], ?_, ?_, ?_,
      ?_⟩
    · refine ⟨by simp, ?_, ?_, by simp⟩
      · intro g hg; simp at hg; subst hg; exact hne
      · intro g hg a ha b hb; simp at hg; subst hg; rw [← hk a ha, ← hk b hb]
    · simpa using hd
    · simp
    · simp only [List.foldl_nil, List.nil_append, List.append_nil, ParentsOfGroups]
      have hdr : List.drop cur.length
          (cur.map (fun m => { m with PARENT := E + st.pushed.length })) = [] := by
        rw [List.drop_eq_nil_iff]; simp
      refine ⟨hk, hc, hn, hs, hl, hlf, ?_, ?_⟩
      · simp
      · rw [hdr]; trivial
  | cons m rest ih =>
    intro cur D st s hne hk hc hn hs hl hlf hd hB
    by_cases hnew : getParent m.ICELL = st.parent.ICELL
    · have hst : linkStep X0 R0 B E st m =
          { done := st.done ++ [{ m with PARENT := E + st.pushed.length }], pushed := st.pushed,
            parent := { st.parent with NDLEAF := st.parent.NDLEAF + m.NDLEAF,
                                        NCHILD := st.parent.NCHILD + 1 } } := by
        simp [linkStep, hnew]
      obtain ⟨r0, rs, done1, np, h1, h2, h3, h4⟩ := ih (cur ++ [m]) D (linkStep X0 R0 B E st m) s
        (by simp)
        (by intro a ha; rw [hst]; simp at ha; rcases ha with ha | ha
            · exact hk a ha
            · rw [ha]; exact hnew.symm)
        (by rw [hst]; exact hc) (by rw [hst]; simp [hn])
        (by rw [hst]; simp [hs]) (by rw [hst]; exact hl)
        (by rw [hst]; cases cur with
            | nil => exact absurd rfl hne
            | cons a t => exact hlf)
        (by rw [hst]; simp [hd]) hB
      have hpu : (linkStep X0 R0 B E st m).pushed = st.pushed := by rw [hst]
      rw [hpu] at h3 h4
      simp only [List.append_assoc, List.singleton_append] at h1 h4
      exact ⟨m :: r0, rs, done1, np, h1, h2, h3, h4⟩
    · obtain ⟨w1, w2, w3, w4, w5, w6, w7⟩ := withCenter_fields X0 R0
        { st.parent with ICELL := getParent m.ICELL, NCLEAF := 0, NDLEAF := 0, NCHILD := 0,
                         LEAF := m.LEAF, CHILD := B + st.done.length }
      have hp : (linkStep X0 R0 B E st m).pushed = st.pushed ++ [st.parent] := by
        simp [linkStep, hnew]
      have hdn : (linkStep X0 R0 B E st m).done
          = st.done ++ [{ m with PARENT := E + (st.pushed.length + 1) }] := by
        simp [linkStep, hnew]
      have hpar : (linkStep X0 R0 B E st m).parent =
          { withCenter X0 R0
              { st.parent with ICELL := getParent m.ICELL, NCLEAF := 0, NDLEAF := 0, NCHILD := 0,
                               LEAF := m.LEAF, CHILD := B + st.done.length } with
            NDLEAF := (withCenter X0 R0
              { st.parent with ICELL := getParent m.ICELL, NCLEAF := 0, NDLEAF := 0, NCHILD := 0,
                               LEAF := m.LEAF, CHILD := B + st.done.length }).NDLEAF + m.NDLEAF,
            NCHILD := (withCenter X0 R0
              { st.parent with ICELL := getParent m.ICELL, NCLEAF := 0, NDLEAF := 0, NCHILD := 0,
                               LEAF := m.LEAF, CHILD := B + st.done.length }).NCHILD + 1 } := by
        simp [linkStep, hnew]
      have hlen : st.done.length = D.length + cur.length := by rw [hd]; simp
      obtain ⟨r0, rs, done1, np, h1, h2, h3, h4⟩ := ih [m] st.done (linkStep X0 R0 B E st m)
        (s + cur.length) (by simp)
        (by intro a ha; simp at ha; rw [ha, hpar]; exact w1)
        (by rw [hpar]; show _ = s + cur.length; rw [w6]; show B + st.done.length = _; omega)
        (by rw [hpar]; show _ + 1 = _; rw [w2]; rfl)
        (by rw [hpar]; show _ + m.NDLEAF = _; rw [w4]; simp)
        (by rw [hpar]; exact w3)
        (by rw [hpar]; exact w7)
        (by rw [hdn, hp]; simp)
        (by omega)
      rw [hp] at h3 h4
      obtain ⟨j, ne, cst, ch⟩ := h1
      refine ⟨[], ([m] ++ r0) :: rs,
        cur.map (fun m => { m with PARENT := E + st.pushed.length }) ++ done1, st.parent :: np,
        ?_, ?_, ?_, ?_⟩
      · refine ⟨?_, ?_, ?_, ?_⟩
        · simp only [List.flatten_cons, List.append_nil] at j ⊢
          rw [j]; simp
        · intro g hg
          rcases List.mem_cons.1 hg with h | h
          · rw [h]; simpa using hne
          · exact ne g h
        · intro g hg
          rcases List.mem_cons.1 hg with h | h
          · rw [h]; intro a ha b hb
            simp only [List.append_nil] at ha hb
            rw [← hk a ha, ← hk b hb]
          · exact cst g h
        · refine List.Chain'.cons ?_ ch
          intro a ha b hb
          simp only [List.append_nil] at ha
          rw [← hk a ha, cst ([m] ++ r0) (List.mem_cons_self _ _) b hb m (by simp)]
          exact fun h => hnew h.symm
      · simp only [List.foldl_cons]; rw [h2, hd]; simp
      · simp only [List.foldl_cons]; rw [h3]; simp
      · simp only [List.foldl_cons, List.append_nil, List.cons_append, ParentsOfGroups]
        refine ⟨hk, hc, hn, hs, hl, hlf, by simp, ?_⟩
        simp only [List.length_append, List.length_singleton, Nat.add_assoc] at h4
        simpa using h4

theorem linkFold_done_length (X0 : List Rat) (R0 : Rat) (B E : Nat) : ∀ (todo : List Cell)
    (st : LinkState),
    (todo.foldl (linkStep X0 R0 B E) st).done.length = st.done.length + todo.length := by
  intro todo
  induction todo with
  | nil => intro st; rfl
  | cons m rest ih =>
    intro st
    simp only [List.foldl_cons, List.length_cons]
    rw [ih]
    simp [linkStep]; omega

theorem linkSpec_done_length (X0 : List Rat) (R0 : Rat) (B : Nat) (range : List Cell) :
    (linkSpec X0 R0 B range).done.length = range.length := by
  unfold linkSpec
  rw [linkFold_done_length]; simp

theorem firstParent_fields (X0 : List Rat) (R0 : Rat) (B : Nat) (m : Cell) :
    (firstParent X0 R0 B m).ICELL = getParent m.ICELL ∧ (firstParent X0 R0 B m).NCHILD = 0 ∧
      (firstParent X0 R0 B m).NCLEAF = 0 ∧ (firstParent X0 R0 B m).NDLEAF = 0 ∧
      (firstParent X0 R0 B m).CHILD = B ∧ (firstParent X0 R0 B m).LEAF = m.LEAF := by
  obtain ⟨w1, w2, w3, w4, _, w6, w7⟩ := withCenter_fields X0 R0
    { Cell.init with ICELL := getParent m.ICELL, NCLEAF := 0, NDLEAF := 0, NCHILD := 0,
                     LEAF := m.LEAF, CHILD := B }
  exact ⟨w1, w2, w3, w4, w6, w7⟩

theorem linkSpec_groups (X0 : List Rat) (R0 : Rat) (B : Nat) (range : List Cell)
    (hne : range ≠ []) :
    ∃ groups : List (List Cell), IsParentGroups groups range ∧
      ParentsOfGroups B (B + range.length)
        ((linkSpec X0 R0 B range).pushed ++ [(linkSpec X0 R0 B range).parent])
        (linkSpec X0 R0 B range).done groups := by
  obtain ⟨m, rest, rfl⟩ := List.exists_cons_of_ne_nil hne
  obtain ⟨w1, w2, w3, w4, w6, w7⟩ := firstParent_fields X0 R0 B m
  have hnew : getParent m.ICELL = (firstParent X0 R0 B m).ICELL := w1.symm
  have hst : linkStep X0 R0 B (B + (m :: rest).length)
      { done := [], pushed := [], parent := firstParent X0 R0 B m } m =
      { done := [{ m with PARENT := B + (m :: rest).length }], pushed := [],
        parent := { firstParent X0 R0 B m with
          NDLEAF := (firstParent X0 R0 B m).NDLEAF + m.NDLEAF,
          NCHILD := (firstParent X0 R0 B m).NCHILD + 1 } } := by
    simp [linkStep, hnew]
  obtain ⟨r0, rs, done1, np, h1, h2, h3, h4⟩ := linkFold_spec X0 R0 B (B + (m :: rest).length)
    rest [m] []
    (linkStep X0 R0 B (B + (m :: rest).length)
      { done := [], pushed := [], parent := firstParent X0 R0 B m } m) B
    (by simp)
    (by intro a ha; simp at ha; rw [ha, hst]; exact w1)
    (by rw [hst]; exact w6)
    (by rw [hst]; show (firstParent X0 R0 B m).NCHILD + 1 = _; rw [w2]; rfl)
    (by rw [hst]; show (firstParent X0 R0 B m).NDLEAF + m.NDLEAF = _; rw [w4]; simp)
    (by rw [hst]; exact w3) (by rw [hst]; exact w7) (by rw [hst]; simp) (by simp)
  have hpu : (linkStep X0 R0 B (B + (m :: rest).length)
      { done := [], pushed := [], parent := firstParent X0 R0 B m } m).pushed = [] := by
    rw [hst]
  rw [hpu] at h3 h4
  simp only [List.nil_append, List.length_nil, Nat.add_zero] at h2 h3 h4
  refine ⟨([m] ++ r0) :: rs, h1, ?_⟩
  simp only [linkSpec, List.headD_cons, List.foldl_cons]
  rw [h2, h3]
  exact h4

theorem parents_mem (gs : List (List Cell)) : ∀ (Ps done : List Cell) (s p : Nat),
    ParentsOfGroups s p Ps done gs → (∀ g ∈ gs, g ≠ []) →
    ∀ x, x ∈ Ps.map Cell.ICELL ↔ x ∈ gs.flatten.map (fun m => getParent m.ICELL) := by
  induction gs with
  | nil =>
    intro Ps done s p h _ x
    cases Ps with
    | nil => simp
    | cons P Ps => cases done <;> simp [ParentsOfGroups] at h
  | cons g gs ih =>
    intro Ps done s p h hne x
    cases Ps with
    | nil => cases done <;> simp [ParentsOfGroups] at h
    | cons P Ps =>
      simp only [ParentsOfGroups] at h
      obtain ⟨hk, -, -, -, -, -, -, hrest⟩ := h
      have ihx := ih Ps _ _ _ hrest (fun g' hg' => hne g' (List.mem_cons_of_mem _ hg')) x
      obtain ⟨a, t, hg⟩ := List.exists_cons_of_ne_nil (hne g (List.mem_cons_self _ _))
      simp only [List.map_cons, List.mem_cons, List.flatten_cons, List.map_append,
        List.mem_append, ihx]
      constructor
      · rintro (h | h)
        · left; rw [hg]; simp only [List.map_cons, List.mem_cons]; left
          rw [h]; exact hk a (by rw [hg]; exact List.mem_cons_self _ _)
        · right; exact h
      · rintro (h | h)
        · left
          obtain ⟨b, hb, rfl⟩ := List.mem_map.1 h
          exact (hk b hb).symm
        · right; exact h

theorem getParent_mono (d : Nat) (a b : Int) (ha : offset (d + 1) ≤ a) (hab : a ≤ b)
    (hb : b < offset (d + 1 + 1)) : getParent a ≤ getParent b := by
  rw [getParent_eq a d (getLevel_eq_of_bounds ha (by omega)),
    getParent_eq b d (getLevel_eq_of_bounds (by omega) hb)]
  omega

theorem level_bounds (x : Int) (d : Nat) (h0 : 0 ≤ x) (hl : getLevel x = (d : Int)) :
    offset d ≤ x ∧ x < offset (d + 1) := by
  obtain ⟨e, he, a, b⟩ := getLevel_bounds x h0
  have : e = d := by rw [he] at hl; exact_mod_cast hl
  subst this
  exact ⟨a, b⟩

theorem parentKeys_sorted (range : List Cell) (d : Nat)
    (hlev : ∀ m ∈ range, 0 ≤ m.ICELL ∧ getLevel m.ICELL = ((d + 1 : Nat) : Int))
    (hsort : List.Sorted (· < ·) (range.map Cell.ICELL)) :
    List.Pairwise (fun a b : Cell => getParent a.ICELL ≤ getParent b.ICELL) range := by
  have h1 : List.Pairwise (fun a b : Cell => a.ICELL < b.ICELL) range :=
    List.pairwise_map.1 hsort
  refine List.Pairwise.imp_of_mem ?_ h1
  intro a b ha hb hab
  obtain ⟨a1, a2⟩ := level_bounds a.ICELL (d + 1) (hlev a ha).1 (hlev a ha).2
  obtain ⟨b1, b2⟩ := level_bounds b.ICELL (d + 1) (hlev b hb).1 (hlev b hb).2
  exact getParent_mono d _ _ a1 (le_of_lt hab) b2

theorem parents_chain (gs : List (List Cell)) : ∀ (Ps done : List Cell) (s p : Nat),
    ParentsOfGroups s p Ps done gs → (∀ g ∈ gs, g ≠ []) →
    List.Chain' (fun g h => ∀ a ∈ g, ∀ b ∈ h, getParent a.ICELL ≠ getParent b.ICELL) gs →
    List.Pairwise (fun a b : Cell => getParent a.ICELL ≤ getParent b.ICELL) gs.flatten →
    List.Chain' (· < ·) (Ps.map Cell.ICELL) := by
  induction gs with
  | nil =>
    intro Ps done s p h _ _ _
    cases Ps with
    | nil => simp
    | cons P Ps => cases done <;> simp [ParentsOfGroups] at h
  | cons g gs ih =>
    intro Ps done s p h hne hch hpw
    cases Ps with
    | nil => cases done <;> simp [ParentsOfGroups] at h
    | cons P Ps =>
      simp only [ParentsOfGroups] at h
      obtain ⟨hk, -, -, -, -, -, -, hrest⟩ := h
      have hne' : ∀ g' ∈ gs, g' ≠ [] := fun g' hg' => hne g' (List.mem_cons_of_mem _ hg')
      simp only [List.flatten_cons] at hpw
      have hpw' := (List.pairwise_append.1 hpw).2.1
      have hcross := (List.pairwise_append.1 hpw).2.2
      have ihc := ih Ps _ _ _ hrest hne' hch.tail hpw'
      cases gs with
      | nil =>
        cases Ps with
        | nil => simp
        | cons P' Ps' =>
          cases hd : List.drop g.length done <;> rw [hd] at hrest <;>
            simp [ParentsOfGroups] at hrest
      | cons h gs' =>
        cases Ps with
        | nil =>
          cases hd : List.drop g.length done <;> rw [hd] at hrest <;>
            simp [ParentsOfGroups] at hrest
        | cons P' Ps' =>
          simp only [ParentsOfGroups] at hrest
          obtain ⟨hk', -⟩ := hrest
          obtain ⟨a, t, hg⟩ := List.exists_cons_of_ne_nil (hne g (List.mem_cons_self _ _))
          obtain ⟨b, u, hh⟩ := List.exists_cons_of_ne_nil
            (hne h (List.mem_cons_of_mem _ (List.mem_cons_self _ _)))
          have ha : a ∈ g := by rw [hg]; exact List.mem_cons_self _ _
          have hb : b ∈ h := by rw [hh]; exact List.mem_cons_self _ _
          have hneq := (List.chain'_cons.1 hch).1 a ha b hb
          have hle := hcross a ha b (by simp [hb])
          simp only [List.map_cons] at ihc ⊢
          refine List.Chain'.cons ?_ ihc
          rw [hk a ha, hk' b hb]
          exact lt_of_le_of_ne hle hneq

/-- C6 (as stated, refuted): on the array holding `memberA` and `memberB`, two depth-1 cells in
strictly ascending ICELL order, with the range the whole array, linkParent appends one parent
(index 0) at position 2, but leaves `memberA` with PARENT = 1, the position of `memberB`, whose
child block covers position 0. -/
theorem linkParent_clobbers_member :
    (linkParent [0, 0, 0] 1 [memberA, memberB] 0 2).map
        (fun r => (r.1.map (fun c => (c.ICELL, c.PARENT)), r.2))
      = some ([(1, 1), (2, 2), (0, 0)], 2, 3) ∧
    getLevel memberA.ICELL = 1 ∧ getLevel memberB.ICELL = 1 ∧ memberA.ICELL < memberB.ICELL := by
  refine ⟨by rfl, by decide, by decide, by decide⟩

/-- C6 (amended): for every cell array with end equal to its length whose non-empty range
[begin,end) holds cells of one depth d+1 ≥ 1 in strictly ascending ICELL order, each with its
child block [CHILD, CHILD+NCHILD), when not empty, below begin, linkParent returns; it keeps the length of the
part below begin, appends exactly one parent per maximal group of members with equal
getParent(ICELL), the parent indices being strictly ascending and exactly the values of
getParent(ICELL) over the range; each parent has that index, CHILD at the first member of its
group, NCHILD the group size and NDLEAF the sum of the members' NDLEAF; each member is changed
only in PARENT, set to the position of its parent; begin becomes the old end and end the new
length. -/
theorem linkParent_groups (X0 : List Rat) (R0 : Rat) (cells : List Cell) (begin end_ d : Nat)
    (hbe : begin < end_) (hel : end_ = cells.length)
    (hlev : ∀ m ∈ cells.drop begin, 0 ≤ m.ICELL ∧ getLevel m.ICELL = ((d + 1 : Nat) : Int))
    (hsort : List.Sorted (· < ·) ((cells.drop begin).map Cell.ICELL))
    (hblk : ∀ m ∈ cells.drop begin, m.NCHILD ≠ 0 → m.CHILD + m.NCHILD ≤ begin) :
    ∃ (lower members parents : List Cell) (groups : List (List Cell)),
      linkParent X0 R0 cells begin end_
        = some (lower ++ (members ++ parents), end_, end_ + parents.length) ∧
      lower.length = begin ∧ members.length = end_ - begin ∧
      IsParentGroups groups (cells.drop begin) ∧
      ParentsOfGroups begin end_ parents members groups ∧
      List.Sorted (· < ·) (parents.map Cell.ICELL) ∧
      ∀ x, x ∈ parents.map Cell.ICELL ↔
        x ∈ (cells.drop begin).map (fun m => getParent m.ICELL) := by
  have hsplit : cells = cells.take begin ++ cells.drop begin := (List.take_append_drop _ _).symm
  have hpl : (cells.take begin).length = begin := by
    rw [List.length_take]; omega
  have hrl : (cells.drop begin).length = end_ - begin := by
    rw [List.length_drop]; omega
  have hne : cells.drop begin ≠ [] := by
    intro h; rw [h] at hrl; simp at hrl; omega
  have h0 : ∀ m ∈ cells.drop begin, 0 ≤ getParent m.ICELL := by
    intro m hm
    obtain ⟨a, b⟩ := level_bounds m.ICELL (d + 1) (hlev m hm).1 (hlev m hm).2
    exact le_trans (offset_nonneg d) (getParent_bounds m.ICELL d a b).1
  have heq := linkParent_eq X0 R0 (cells.take begin) (cells.drop begin) hne
    (by rw [hpl]; exact hblk) h0
  rw [← hsplit, hpl, hrl] at heq
  have hE : begin + (end_ - begin) = end_ := by omega
  rw [hE] at heq
  obtain ⟨groups, hg1, hg2⟩ := linkSpec_groups X0 R0 begin (cells.drop begin) hne
  rw [hrl, hE] at hg2
  refine ⟨linkBlocks begin (cells.drop begin) (cells.take begin),
    (linkSpec X0 R0 begin (cells.drop begin)).done,
    (linkSpec X0 R0 begin (cells.drop begin)).pushed ++
      [(linkSpec X0 R0 begin (cells.drop begin)).parent], groups, ?_, ?_, ?_, hg1, hg2, ?_, ?_⟩
  · rw [heq]; simp; omega
  · rw [linkBlocks_length, hpl]
  · rw [linkSpec_done_length, hrl]
  · refine (List.chain'_iff_pairwise).1 (parents_chain groups _ _ _ _ hg2 hg1.2.1 hg1.2.2.2 ?_)
    rw [hg1.1]
    exact parentKeys_sorted _ d hlev hsort
  · intro x
    rw [parents_mem groups _ _ _ _ hg2 hg1.2.1 x, hg1.1]

theorem linkParent_groups_witness :
    ∃ (lower members parents : List Cell) (groups : List (List Cell)),
      linkParent [0, 0, 0] 1 [memberB, memberA, memberB] 1 3
        = some (lower ++ (members ++ parents), 3, 3 + parents.length) ∧
      lower.length = 1 ∧ members.length = 3 - 1 ∧
      IsParentGroups groups ([memberB, memberA, memberB].drop 1) ∧
      ParentsOfGroups 1 3 parents members groups ∧
      List.Sorted (· < ·) (parents.map Cell.ICELL) ∧
      ∀ x, x ∈ parents.map Cell.ICELL ↔
        x ∈ ([memberB, memberA, memberB].drop 1).map (fun m => getParent m.ICELL) :=
  linkParent_groups [0, 0, 0] 1 [memberB, memberA, memberB] 1 3 0 (by decide) (by decide)
    (by decide) (by decide) (by decide)

theorem climbLoop_inv (X0 : List Rat) (R0 : Rat) (P : AsmState → Int → Prop)
    (hstep : ∀ st L, P st L → 1 ≤ L → ∃ st1, levelStep X0 R0 st = some st1 ∧ P st1 (L - 1))
    (tl : Int) (h0 : 0 ≤ tl) : ∀ (n : Nat) (st : AsmState) (L : Int), P st L → L = tl + n →
    ∃ st1, climbLoop X0 R0 n tl st L = some (st1, tl) ∧ P st1 tl := by
  intro n
  induction n with
  | zero =>
    intro st L hP hL
    simp only [Nat.cast_zero, add_zero] at hL
    subst hL
    exact ⟨st, by simp [climbLoop], hP⟩
  | succ k ih =>
    intro st L hP hL
    have hne : tl ≠ L := by push_cast at hL; omega
    obtain ⟨st1, hs, hP1⟩ := hstep st L hP (by push_cast at hL; omega)
    obtain ⟨st2, hc, hP2⟩ := ih st1 (L - 1) hP1 (by push_cast at hL; omega)
    refine ⟨st2, ?_, hP2⟩
    simp only [climbLoop, hne, ne_eq, not_false_eq_true, if_true, hs, Option.bind_eq_bind,
      Option.some_bind]
    exact hc

theorem finalLoop_inv (X0 : List Rat) (R0 : Rat) (P : AsmState → Int → Prop)
    (hstep : ∀ st L, P st L → 1 ≤ L → ∃ st1, levelStep X0 R0 st = some st1 ∧ P st1 (L - 1)) :
    ∀ (n : Nat) (st : AsmState), P st (n : Int) →
    ∃ st1, finalLoop X0 R0 n st = some st1 ∧ P st1 0 := by
  intro n
  induction n with
  | zero => intro st hP; exact ⟨st, rfl, by simpa using hP⟩
  | succ k ih =>
    intro st hP
    obtain ⟨st1, hs, hP1⟩ := hstep st _ hP (by push_cast; omega)
    have e : ((k + 1 : Nat) : Int) - 1 = (k : Int) := by push_cast; ring
    rw [e] at hP1
    obtain ⟨st2, hf, hP2⟩ := ih st1 hP1
    exact ⟨st2, by simp only [finalLoop, hs, Option.bind_eq_bind, Option.some_bind]; exact hf, hP2⟩

theorem twigsLoop_inv (X0 : List Rat) (R0 : Rat) (P : AsmState → Int → List Cell → Prop)
    (good : Cell → Prop) (tw : List Cell)
    (hpush : ∀ st L pushed t pre, P st L pushed → getLevel t.ICELL = L → good t →
      tw = pre ++ t :: pushed →
      P { st with cells := st.cells ++ [t], end_ := st.end_ + 1 } L (t :: pushed))
    (hstep : ∀ st L pushed, P st L pushed → 1 ≤ L →
      ∃ st1, levelStep X0 R0 st = some st1 ∧ P st1 (L - 1) pushed) :
    ∀ (rest : List Cell) (st : AsmState) (L : Int) (pushed : List Cell), P st L pushed →
      tw = rest.reverse ++ pushed → 0 ≤ L → (∀ t ∈ rest, good t ∧ 0 ≤ getLevel t.ICELL ∧ getLevel t.ICELL ≤ L) →
      List.Pairwise (fun a b => getLevel b.ICELL ≤ getLevel a.ICELL) rest →
      ∃ st1 L1, twigsLoop X0 R0 rest st L = some (st1, L1) ∧ P st1 L1 (rest.reverse ++ pushed) ∧
        0 ≤ L1 ∧ L1 ≤ L ∧ (∀ t ∈ rest, L1 ≤ getLevel t.ICELL) := by
  intro rest
  induction rest with
  | nil =>
    intro st L pushed hP _ hL0 _ _
    exact ⟨st, L, rfl, by simpa using hP, hL0, le_refl _, by simp⟩
  | cons t rest ih =>
    intro st L pushed hP htw _ hall hpw
    have htw' : tw = rest.reverse ++ t :: pushed := by rw [htw]; simp
    obtain ⟨hg, h0, hle⟩ := hall t (List.mem_cons_self _ _)
    obtain ⟨n, hn⟩ : ∃ n : Nat, L = getLevel t.ICELL + n := ⟨(L - getLevel t.ICELL).toNat, by omega⟩
    have hfuel : (L - getLevel t.ICELL).toNat = n := by omega
    obtain ⟨st1, hc, hP1⟩ := climbLoop_inv X0 R0 (fun s l => P s l pushed)
      (fun s l h1 h2 => hstep s l pushed h1 h2) (getLevel t.ICELL) h0 n st L hP hn
    have hP2 := hpush st1 _ pushed t rest.reverse hP1 rfl hg htw'
    obtain ⟨st3, L3, hl, hP3, h03, hle3, hall3⟩ := ih _ (getLevel t.ICELL) (t :: pushed) hP2 htw'
      h0
      (fun u hu => ⟨(hall u (List.mem_cons_of_mem _ hu)).1, (hall u (List.mem_cons_of_mem _ hu)).2.1,
        List.rel_of_pairwise_cons hpw hu⟩)
      hpw.of_cons
    refine ⟨st3, L3, ?_, ?_, h03, by omega, ?_⟩
    · simp only [twigsLoop, hfuel, hc, Option.bind_eq_bind, Option.some_bind]
      exact hl
    · simpa using hP3
    · intro u hu
      rcases List.mem_cons.1 hu with h | h
      · rw [h]; exact hle3
      · exact hall3 u h

theorem twigs2cells_skeleton (X0 : List Rat) (R0 : Rat) (P : AsmState → Int → List Cell → Prop)
    (Q : List Cell → List Cell → Prop) (good : Cell → Prop) (tw cells0 sticks0 : List Cell)
    (hne : tw ≠ []) (hgood : ∀ t ∈ tw, good t ∧ 0 ≤ getLevel t.ICELL)
    (hlev : List.Pairwise (fun a b => getLevel a.ICELL ≤ getLevel b.ICELL) tw)
    (hinit : ∀ t, tw.getLast? = some t →
      P { cells := cells0 ++ [t], sticks := sticks0, begin := 0, end_ := 1 } (getLevel t.ICELL) [t])
    (hpush : ∀ st L pushed t pre, P st L pushed → getLevel t.ICELL = L → good t →
      tw = pre ++ t :: pushed →
      P { st with cells := st.cells ++ [t], end_ := st.end_ + 1 } L (t :: pushed))
    (hstep : ∀ st L pushed, P st L pushed → 1 ≤ L →
      ∃ st1, levelStep X0 R0 st = some st1 ∧ P st1 (L - 1) pushed)
    (hfinal : ∀ st, P st 0 tw →
      ∃ c s e, unique st.cells st.sticks st.begin st.end_ = some (c, s, e) ∧ Q c s) :
    ∃ c s, twigs2cells X0 R0 tw cells0 sticks0 = some (c, s) ∧ Q c s := by
  obtain ⟨ini, t, rfl⟩ : ∃ ini t, tw = ini ++ [t] :=
    ⟨tw.dropLast, tw.getLast hne, (List.dropLast_append_getLast hne).symm⟩
  have hlast : (ini ++ [t]).getLast? = some t := by simp
  have hrev : (ini ++ [t]).reverse = t :: ini.reverse := by simp
  have hP1 := hinit t hlast
  have ht0 : 0 ≤ getLevel t.ICELL := (hgood t (by simp)).2
  have hpw := List.pairwise_append.1 hlev
  obtain ⟨st1, L1, hl, hP2, h01, _, _⟩ := twigsLoop_inv X0 R0 P good (ini ++ [t]) hpush hstep
    ini.reverse
    { cells := cells0 ++ [t], sticks := sticks0, begin := 0, end_ := 1 } (getLevel t.ICELL) [t]
    hP1 (by simp) ht0
    (fun u hu => by
      have hu' : u ∈ ini := List.mem_reverse.1 hu
      exact ⟨(hgood u (by simp [hu'])).1, (hgood u (by simp [hu'])).2, hpw.2.2 u hu' t (by simp)⟩)
    (List.pairwise_reverse.2 hpw.1)
  simp only [List.reverse_reverse] at hP2
  obtain ⟨n, hn⟩ : ∃ n : Nat, L1 = n := ⟨L1.toNat, by omega⟩
  have hn' : L1.toNat = n := by omega
  rw [hn] at hP2
  obtain ⟨st2, hf, hP3⟩ := finalLoop_inv X0 R0 (fun s l => P s l (ini ++ [t]))
    (fun s l h1 h2 => hstep s l _ h1 h2) n st1 hP2
  obtain ⟨c, s, e, hu, hQ⟩ := hfinal st2 hP3
  refine ⟨c, s, ?_, hQ⟩
  simp only [twigs2cells, hlast, hrev, Option.bind_eq_bind, Option.some_bind, twigsLoop,
    Int.sub_self, Int.toNat_zero, climbLoop, ne_eq, not_true_eq_false, if_false, hl, hn', hf, hu]

theorem orderedInsert_cellRdup (a : Cell) : ∀ l : List Cell, List.Pairwise cellRdup l →
    (∀ x ∈ l, cellRdup a x) →
    List.Pairwise cellRdup (List.orderedInsert (fun a b : Cell => a.ICELL ≤ b.ICELL) a l) := by
  intro l
  induction l with
  | nil => intro _ _; simp
  | cons b t ih =>
    intro hp ha
    simp only [List.orderedInsert]
    by_cases hab : a.ICELL ≤ b.ICELL
    · rw [if_pos hab]
      exact List.Pairwise.cons ha hp
    · rw [if_neg hab]
      refine List.Pairwise.cons ?_ (ih hp.of_cons (fun x hx => ha x (List.mem_cons_of_mem _ hx)))
      intro y hy
      rcases (List.mem_orderedInsert _).1 hy with h | h
      · subst h; intro he; omega
      · exact List.rel_of_pairwise_cons hp h

theorem insertionSort_cellRdup : ∀ l : List Cell, List.Pairwise cellRdup l →
    List.Pairwise cellRdup (List.insertionSort (fun a b : Cell => a.ICELL ≤ b.ICELL) l) := by
  intro l
  induction l with
  | nil => intro _; simp
  | cons a t ih =>
    intro hp
    simp only [List.insertionSort]
    refine orderedInsert_cellRdup a _ (ih hp.of_cons) ?_
    intro x hx
    have : x ∈ t := (List.perm_insertionSort _ t).mem_iff.1 hx
    exact List.rel_of_pairwise_cons hp this

theorem uniqueSpec_noMerge : ∀ (todo : List Cell) (co : Cell),
    List.Pairwise cellRdup (co :: todo) →
    (uniqueSpec co todo).2 = [] ∧ List.Sublist (uniqueSpec co todo).1 (co :: todo) := by
  intro todo
  induction todo with
  | nil => intro co _; simp [uniqueSpec]
  | cons cc rest ih =>
    intro co hp
    unfold uniqueSpec
    by_cases hk : cc.ICELL = co.ICELL
    · have hn : cc.NCHILD = 0 := List.rel_of_pairwise_cons hp (List.mem_cons_self _ _) hk.symm
      simp only [hk, hn, ne_eq, not_true_eq_false, if_false]
      have hp' : List.Pairwise cellRdup (co :: rest) := by
        have h1 := List.pairwise_cons.1 hp
        exact List.Pairwise.cons (fun x hx => h1.1 x (List.mem_cons_of_mem _ hx)) h1.2.of_cons
      obtain ⟨h1, h2⟩ := ih co hp'
      refine ⟨h1, h2.trans ?_⟩
      exact List.Sublist.cons₂ _ (List.sublist_cons_self _ _)
    · simp only [hk, ne_eq, not_false_eq_true, if_true]
      obtain ⟨h1, h2⟩ := ih cc hp.of_cons
      exact ⟨h1, List.Sublist.cons₂ _ h2⟩

theorem sorted_insertionSort_ICELL (l : List Cell) :
    List.Sorted (· ≤ ·) ((List.insertionSort (fun a b : Cell => a.ICELL ≤ b.ICELL) l).map
      Cell.ICELL) := by
  have h : List.Sorted (fun a b : Cell => a.ICELL ≤ b.ICELL)
      (List.insertionSort (fun a b : Cell => a.ICELL ≤ b.ICELL) l) := by
    haveI : IsTotal Cell (fun a b : Cell => a.ICELL ≤ b.ICELL) := ⟨fun a b => le_total _ _⟩
    haveI : IsTrans Cell (fun a b : Cell => a.ICELL ≤ b.ICELL) :=
      ⟨fun a b c h1 h2 => le_trans h1 h2⟩
    exact List.sorted_insertionSort _ l
  exact List.pairwise_map.2 h

theorem sortCells_eq (cells : List Cell) (begin : Nat) :
    sortCells cells begin cells.length
      = cells.take begin ++
          List.insertionSort (fun a b => a.ICELL ≤ b.ICELL) (cells.drop begin) := by
  unfold sortCells
  have h1 : (cells.drop begin).take (cells.length - begin) = cells.drop begin := by
    rw [List.take_of_length_le]; simp
  rw [h1]; simp

theorem headD_cons_tail (l : List Cell) (h : l ≠ []) : l.headD default :: l.tail = l := by
  cases l with
  | nil => exact absurd rfl h
  | cons a t => rfl

theorem sorted_ne_nil (st : AsmState) (hb : st.begin < st.cells.length) :
    List.insertionSort (fun a b : Cell => a.ICELL ≤ b.ICELL) (st.cells.drop st.begin) ≠ [] := by
  intro h
  have := (List.perm_insertionSort (fun a b : Cell => a.ICELL ≤ b.ICELL)
    (st.cells.drop st.begin)).length_eq
  rw [h] at this
  simp at this
  omega

theorem keptCells_ne_nil (st : AsmState) : keptCells st ≠ [] := by
  unfold keptCells
  obtain ⟨k, ks, h, -⟩ := uniqueSpec_head
    (List.insertionSort (fun a b => a.ICELL ≤ b.ICELL) (st.cells.drop st.begin)).tail
    ((List.insertionSort (fun a b => a.ICELL ≤ b.ICELL) (st.cells.drop st.begin)).headD default)
  rw [h]; simp

theorem levelStep_eq (X0 : List Rat) (R0 : Rat) (st : AsmState) (he : st.end_ = st.cells.length)
    (hb : st.begin < st.cells.length)
    (hblk : ∀ m ∈ keptCells st, m.NCHILD ≠ 0 → m.CHILD + m.NCHILD ≤ st.begin)
    (h0 : ∀ m ∈ keptCells st, 0 ≤ getParent m.ICELL) :
    levelStep X0 R0 st = some (levelSpec X0 R0 st) := by
  have hpl : (st.cells.take st.begin).length = st.begin := by
    rw [List.length_take]; omega
  have hsne := sorted_ne_nil st hb
  have hs := headD_cons_tail _ hsne
  have hu := unique_append (st.cells.take st.begin)
    ((List.insertionSort (fun a b => a.ICELL ≤ b.ICELL) (st.cells.drop st.begin)).headD default)
    (List.insertionSort (fun a b => a.ICELL ≤ b.ICELL) (st.cells.drop st.begin)).tail [] st.sticks
  have hlen : (st.cells.take st.begin).length + 1 +
      (List.insertionSort (fun a b => a.ICELL ≤ b.ICELL) (st.cells.drop st.begin)).tail.length
      = st.cells.length := by
    have h1 := (List.perm_insertionSort (fun a b : Cell => a.ICELL ≤ b.ICELL)
      (st.cells.drop st.begin)).length_eq
    have h2 : (List.insertionSort (fun a b => a.ICELL ≤ b.ICELL)
        (st.cells.drop st.begin)).tail.length + 1
        = (List.insertionSort (fun a b => a.ICELL ≤ b.ICELL) (st.cells.drop st.begin)).length := by
      conv_rhs => rw [← hs]
      simp
    rw [List.length_drop] at h1
    omega
  simp only [List.append_nil, hs, hpl] at hu
  rw [hpl] at hlen
  rw [hlen] at hu
  have hl := linkParent_eq X0 R0 (st.cells.take st.begin) (keptCells st) (keptCells_ne_nil st)
    (by rw [hpl]; exact hblk) h0
  rw [hpl] at hl
  unfold keptCells at hl
  simp only [levelStep, he, sortCells_eq, hu, Option.bind_eq_bind, Option.some_bind, hl]
  rfl

theorem setParentBlock_getElem? (i : Nat) : ∀ (n pos : Nat) (cells : List Cell) (x : Nat),
    (setParentBlock i n pos cells)[x]?
      = (cells[x]?).map (fun c => if pos ≤ x ∧ x < pos + n then { c with PARENT := i } else c) := by
  intro n
  induction n with
  | zero =>
    intro pos cells x
    have : ¬ (pos ≤ x ∧ x < pos) := by omega
    simp only [setParentBlock, Nat.add_zero, this, if_false]
    cases cells[x]? <;> rfl
  | succ k ih =>
    intro pos cells x
    simp only [setParentBlock]
    rw [ih]
    by_cases hx : x = pos
    · subst hx
      have h1 : ¬ (x + 1 ≤ x ∧ x < x + 1 + k) := by omega
      have h2 : x ≤ x ∧ x < x + (k + 1) := by omega
      simp only [h1, h2, if_false, if_true]
      by_cases hl : x < cells.length
      · rw [List.getElem?_set_self hl, List.getElem?_eq_getElem hl]
        simp [List.getD_eq_getElem?_getD, List.getElem?_eq_getElem hl]
      · have h3 : cells[x]? = none := List.getElem?_eq_none (by omega)
        rw [h3]
        simp
        omega
    · rw [List.getElem?_set_ne (Ne.symm hx)]
      have h3 : (pos + 1 ≤ x ∧ x < pos + 1 + k) ↔ (pos ≤ x ∧ x < pos + (k + 1)) := by omega
      simp only [h3]

theorem linkBlocks_append : ∀ (r1 r2 : List Cell) (i : Nat) (pre : List Cell),
    linkBlocks i (r1 ++ r2) pre = linkBlocks (i + r1.length) r2 (linkBlocks i r1 pre) := by
  intro r1
  induction r1 with
  | nil => intro r2 i pre; rfl
  | cons m t ih =>
    intro r2 i pre
    simp only [List.cons_append, linkBlocks, List.length_cons]
    show linkBlocks (i + 1) (t ++ r2) _ = _
    rw [ih]
    congr 1
    omega

theorem linkBlocks_outside : ∀ (range : List Cell) (i : Nat) (pre : List Cell) (x : Nat),
    (∀ m ∈ range, ¬ (m.CHILD ≤ x ∧ x < m.CHILD + m.NCHILD)) →
    (linkBlocks i range pre)[x]? = pre[x]? := by
  intro range
  induction range with
  | nil => intro i pre x _; rfl
  | cons m t ih =>
    intro i pre x h
    simp only [linkBlocks]
    rw [ih _ _ _ (fun m' hm' => h m' (List.mem_cons_of_mem _ hm')), setParentBlock_getElem?]
    have := h m (List.mem_cons_self _ _)
    simp only [this, if_false]
    simp

theorem linkBlocks_fields : ∀ (range : List Cell) (i : Nat) (pre : List Cell) (x : Nat),
    ((linkBlocks i range pre)[x]?).map (fun c => { c with PARENT := 0 })
      = (pre[x]?).map (fun c => { c with PARENT := 0 }) := by
  intro range
  induction range with
  | nil => intro i pre x; rfl
  | cons m t ih =>
    intro i pre x
    simp only [linkBlocks]
    rw [ih, setParentBlock_getElem?]
    cases pre[x]? with
    | none => rfl
    | some y =>
      simp only [Option.map_some']
      split <;> rfl

theorem linkBlocks_inside (r1 : List Cell) (m : Cell) (r2 : List Cell) (i : Nat) (pre : List Cell)
    (x : Nat) (hx : m.CHILD ≤ x ∧ x < m.CHILD + m.NCHILD)
    (h2 : ∀ m' ∈ r2, ¬ (m'.CHILD ≤ x ∧ x < m'.CHILD + m'.NCHILD)) :
    ∀ y, pre[x]? = some y →
      (linkBlocks i (r1 ++ m :: r2) pre)[x]? = some { y with PARENT := i + r1.length } := by
  intro y hy
  rw [linkBlocks_append]
  simp only [linkBlocks]
  rw [linkBlocks_outside _ _ _ _ h2, setParentBlock_getElem?]
  have hf := linkBlocks_fields r1 i pre x
  rw [hy] at hf
  cases hz : (linkBlocks i r1 pre)[x]? with
  | none => rw [hz] at hf; simp at hf
  | some z =>
    rw [hz] at hf
    simp only [Option.map_some', Option.some.injEq, hx, and_self, if_true] at hf ⊢
    have e : ({ z with PARENT := i + r1.length } : Cell)
        = { ({ z with PARENT := 0 } : Cell) with PARENT := i + r1.length } := rfl
    rw [e, hf]

theorem linkFold_done (X0 : List Rat) (R0 : Rat) (B E : Nat) : ∀ (todo : List Cell)
    (st : LinkState), ∃ tail : List Cell,
      (todo.foldl (linkStep X0 R0 B E) st).done = st.done ++ tail ∧
      List.Forall₂ (fun m d : Cell => ∃ q, d = { m with PARENT := q }) todo tail := by
  intro todo
  induction todo with
  | nil => intro st; exact ⟨[], by simp, List.Forall₂.nil⟩
  | cons m rest ih =>
    intro st
    obtain ⟨tail, h1, h2⟩ := ih (linkStep X0 R0 B E st m)
    have hd : (linkStep X0 R0 B E st m).done
        = st.done ++ [{ m with PARENT := E + (if getParent m.ICELL ≠ st.parent.ICELL
            then st.pushed ++ [st.parent] else st.pushed).length }] := rfl
    refine ⟨{ m with PARENT := E + (if getParent m.ICELL ≠ st.parent.ICELL
            then st.pushed ++ [st.parent] else st.pushed).length } :: tail, ?_,
      List.Forall₂.cons ⟨_, rfl⟩ h2⟩
    simp only [List.foldl_cons]
    rw [h1, hd]
    simp

theorem forall₂_getElem? {α β : Type} (R : α → β → Prop) : ∀ (l1 : List α) (l2 : List β),
    List.Forall₂ R l1 l2 → ∀ (j : Nat) (a : α), l1[j]? = some a → ∃ b, l2[j]? = some b ∧ R a b := by
  intro l1 l2 h
  induction h with
  | nil => intro j a ha; simp at ha
  | cons hab _ ih =>
    intro j a ha
    cases j with
    | zero => simp at ha; subst ha; exact ⟨_, by simp, hab⟩
    | succ k => simp at ha; obtain ⟨b, hb, hr⟩ := ih k a ha; exact ⟨b, by simpa using hb, hr⟩

theorem linkSpec_done_getElem? (X0 : List Rat) (R0 : Rat) (B : Nat) (k : List Cell) (j : Nat)
    (m : Cell) (hm : k[j]? = some m) :
    ∃ q, (linkSpec X0 R0 B k).done[j]? = some { m with PARENT := q } := by
  obtain ⟨tail, h1, h2⟩ := linkFold_done X0 R0 B (B + k.length) k
    { done := [], pushed := [], parent := firstParent X0 R0 B (k.headD default) }
  obtain ⟨d, hd, q, hq⟩ := forall₂_getElem? _ _ _ h2 j m hm
  refine ⟨q, ?_⟩
  unfold linkSpec
  rw [h1, ← hq]
  simpa using hd

theorem parents_pointwise (gs : List (List Cell)) : ∀ (Ps done : List Cell) (s pos : Nat),
    ParentsOfGroups s pos Ps done gs → (∀ g ∈ gs, g ≠ []) → ∀ (g : Nat) (P : Cell),
    Ps[g]? = some P →
    s ≤ P.CHILD ∧ P.CHILD + P.NCHILD ≤ s + done.length ∧ 1 ≤ P.NCHILD ∧ P.NCLEAF = 0 ∧
      P.NDLEAF = (((done.drop (P.CHILD - s)).take P.NCHILD).map Cell.NDLEAF).sum ∧
      ∀ c, c < P.NCHILD →
        ∃ m : Cell, done[P.CHILD - s + c]? = some { m with PARENT := pos + g } ∧
          getParent m.ICELL = P.ICELL := by
  induction gs with
  | nil =>
    intro Ps done s pos h _ g P hP
    cases Ps with
    | nil => simp at hP
    | cons P0 Ps => cases done <;> simp [ParentsOfGroups] at h
  | cons g0 gs ih =>
    intro Ps done s pos h hne g P hP
    cases Ps with
    | nil => cases done <;> simp [ParentsOfGroups] at h
    | cons P0 Ps =>
      simp only [ParentsOfGroups] at h
      obtain ⟨hk, hc, hn, hs, hl, -, htake, hrest⟩ := h
      have hg0 : g0.length ≤ done.length := by
        have := congrArg List.length htake
        simp only [List.length_take, List.length_map] at this
        omega
      have hg0pos : 1 ≤ g0.length := by
        have := hne g0 (List.mem_cons_self _ _)
        cases g0 with
        | nil => exact absurd rfl this
        | cons a t => simp
      cases g with
      | zero =>
        simp only [List.getElem?_cons_zero, Option.some.injEq] at hP
        subst hP
        refine ⟨by omega, by omega, by omega, hl, ?_, ?_⟩
        · rw [hc, hn, hs]
          simp only [Nat.sub_self, List.drop_zero, htake, List.map_map]
          rfl
        · intro c hcn
          rw [hn] at hcn
          have h1 : done[c]? = (done.take g0.length)[c]? := by
            rw [List.getElem?_take_of_lt hcn]
          rw [hc, Nat.sub_self, Nat.zero_add, h1, htake, List.getElem?_map,
            List.getElem?_eq_getElem hcn]
          exact ⟨g0[c], rfl, (hk _ (List.getElem_mem _)).symm⟩
      | succ g =>
        simp only [List.getElem?_cons_succ] at hP
        obtain ⟨i1, i2, i3, i4, i5, i6⟩ := ih Ps _ _ _ hrest
          (fun g' hg' => hne g' (List.mem_cons_of_mem _ hg')) g P hP
        simp only [List.length_drop] at i2
        have e : P.CHILD - s = g0.length + (P.CHILD - (s + g0.length)) := by omega
        refine ⟨by omega, by omega, i3, i4, ?_, ?_⟩
        · have hdd : List.drop (P.CHILD - (s + g0.length)) (List.drop g0.length done)
              = List.drop (P.CHILD - s) done := by
            rw [List.drop_drop]; congr 1; omega
          rw [i5, hdd]
        · intro c hcn
          obtain ⟨m, hm, hkey⟩ := i6 c hcn
          refine ⟨m, ?_, hkey⟩
          rw [List.getElem?_drop] at hm
          have e2 : pos + 1 + g = pos + (g + 1) := by omega
          have e3 : P.CHILD - s + c = g0.length + (P.CHILD - (s + g0.length) + c) := by omega
          rw [e2] at hm
          rw [e3]
          exact hm

theorem keptCells_sublist (st : AsmState) (hb : st.begin < st.cells.length)
    (hp : List.Pairwise cellRdup (st.cells.drop st.begin)) :
    List.Sublist (keptCells st)
      (List.insertionSort (fun a b : Cell => a.ICELL ≤ b.ICELL) (st.cells.drop st.begin)) ∧
    (uniqueSpec
      ((List.insertionSort (fun a b => a.ICELL ≤ b.ICELL) (st.cells.drop st.begin)).headD default)
      (List.insertionSort (fun a b => a.ICELL ≤ b.ICELL) (st.cells.drop st.begin)).tail).2 = [] := by
  have hs := headD_cons_tail _ (sorted_ne_nil st hb)
  have hps := insertionSort_cellRdup _ hp
  rw [← hs] at hps
  obtain ⟨h1, h2⟩ := uniqueSpec_noMerge _ _ hps
  rw [hs] at h2
  exact ⟨h2, h1⟩

theorem keptCells_mem (st : AsmState) (hb : st.begin < st.cells.length)
    (hp : List.Pairwise cellRdup (st.cells.drop st.begin)) :
    ∀ m ∈ keptCells st, m ∈ st.cells.drop st.begin := by
  intro m hm
  have h1 := (keptCells_sublist st hb hp).1.subset hm
  exact (List.perm_insertionSort _ _).mem_iff.1 h1

theorem keptCells_sorted (st : AsmState) (hb : st.begin < st.cells.length) :
    List.Sorted (· < ·) ((keptCells st).map Cell.ICELL) := by
  have hs := headD_cons_tail _ (sorted_ne_nil st hb)
  have h1 := sorted_insertionSort_ICELL (st.cells.drop st.begin)
  rw [← hs] at h1
  exact (List.chain'_iff_pairwise).1 (uniqueSpec_chain _ _ h1)

theorem keptCells_keys (st : AsmState) (hb : st.begin < st.cells.length) (x : Int) :
    x ∈ (keptCells st).map Cell.ICELL ↔ x ∈ (st.cells.drop st.begin).map Cell.ICELL := by
  have hs := headD_cons_tail _ (sorted_ne_nil st hb)
  unfold keptCells
  rw [uniqueSpec_mem, hs]
  exact (List.perm_insertionSort _ _).map Cell.ICELL |>.mem_iff

theorem mem_drop_getElem? (cells : List Cell) (B : Nat) (m : Cell) (hm : m ∈ cells.drop B) :
    ∃ q, B ≤ q ∧ cells[q]? = some m := by
  obtain ⟨n, hn⟩ := List.mem_iff_getElem?.1 hm
  rw [List.getElem?_drop] at hn
  exact ⟨B + n, by omega, hn⟩

theorem member_ok (st : AsmState) (L : Int) (hinv : InvBase st L) :
    ∀ m ∈ keptCells st, (0 ≤ m.ICELL ∧ getLevel m.ICELL = L) ∧
      (m.NCHILD ≠ 0 → m.CHILD + m.NCHILD ≤ st.begin) ∧
      ∀ c, c < m.NCHILD → ∃ y, (st.cells.take st.begin)[m.CHILD + c]? = some y ∧
        getParent y.ICELL = m.ICELL := by
  obtain ⟨_, hb, hlev, _, hpw, hlink⟩ := hinv
  intro m hm
  have hmc := keptCells_mem st hb hpw m hm
  obtain ⟨q, _, hq⟩ := mem_drop_getElem? _ _ _ hmc
  refine ⟨hlev m hmc, ?_, ?_⟩
  · intro hz
    have := (hlink q m hq (m.NCHILD - 1) (by omega)).1
    omega
  · intro c hc
    obtain ⟨h1, _, y, hy, _, hk⟩ := hlink q m hq c hc
    refine ⟨y, ?_, hk⟩
    rw [List.getElem?_take_of_lt h1]; exact hy

theorem levelSpec_lengths (X0 : List Rat) (R0 : Rat) (st : AsmState)
    (hb : st.begin < st.cells.length) :
    (linkBlocks st.begin (keptCells st) (st.cells.take st.begin)).length = st.begin ∧
    (linkSpec X0 R0 st.begin (keptCells st)).done.length = (keptCells st).length ∧
    (levelSpec X0 R0 st).cells.length = (levelSpec X0 R0 st).end_ ∧
    (levelSpec X0 R0 st).begin = st.begin + (keptCells st).length ∧
    (levelSpec X0 R0 st).begin < (levelSpec X0 R0 st).cells.length := by
  have h1 : (linkBlocks st.begin (keptCells st) (st.cells.take st.begin)).length = st.begin := by
    rw [linkBlocks_length, List.length_take]; omega
  have h2 := linkSpec_done_length X0 R0 st.begin (keptCells st)
  refine ⟨h1, h2, ?_, rfl, ?_⟩
  · show (linkBlocks st.begin (keptCells st) (st.cells.take st.begin) ++
        ((linkSpec X0 R0 st.begin (keptCells st)).done ++
          ((linkSpec X0 R0 st.begin (keptCells st)).pushed ++
            [(linkSpec X0 R0 st.begin (keptCells st)).parent]))).length
        = st.begin + (keptCells st).length +
            (linkSpec X0 R0 st.begin (keptCells st)).pushed.length + 1
    simp only [List.length_append, h1, h2, List.length_singleton]
    omega
  · show st.begin + (keptCells st).length <
        (linkBlocks st.begin (keptCells st) (st.cells.take st.begin) ++
        ((linkSpec X0 R0 st.begin (keptCells st)).done ++
          ((linkSpec X0 R0 st.begin (keptCells st)).pushed ++
            [(linkSpec X0 R0 st.begin (keptCells st)).parent]))).length
    simp only [List.length_append, h1, h2, List.length_singleton]
    omega

theorem levelSpec_get (X0 : List Rat) (R0 : Rat) (st : AsmState)
    (hb : st.begin < st.cells.length) :
    (∀ p, p < st.begin → (levelSpec X0 R0 st).cells[p]?
        = (linkBlocks st.begin (keptCells st) (st.cells.take st.begin))[p]?) ∧
    (∀ j, j < (keptCells st).length → (levelSpec X0 R0 st).cells[st.begin + j]?
        = (linkSpec X0 R0 st.begin (keptCells st)).done[j]?) ∧
    (∀ g, (levelSpec X0 R0 st).cells[st.begin + (keptCells st).length + g]?
        = ((linkSpec X0 R0 st.begin (keptCells st)).pushed ++
            [(linkSpec X0 R0 st.begin (keptCells st)).parent])[g]?) := by
  obtain ⟨h1, h2, -, -, -⟩ := levelSpec_lengths X0 R0 st hb
  have hc : (levelSpec X0 R0 st).cells
      = linkBlocks st.begin (keptCells st) (st.cells.take st.begin) ++
        ((linkSpec X0 R0 st.begin (keptCells st)).done ++
          ((linkSpec X0 R0 st.begin (keptCells st)).pushed ++
            [(linkSpec X0 R0 st.begin (keptCells st)).parent])) := rfl
  refine ⟨?_, ?_, ?_⟩
  · intro p hp
    rw [hc, List.getElem?_append_left (by omega)]
  · intro j hj
    rw [hc, List.getElem?_append_right (by omega), h1, Nat.add_sub_cancel_left,
      List.getElem?_append_left (by omega)]
  · intro g
    rw [hc, List.getElem?_append_right (by omega), h1,
      List.getElem?_append_right (by omega), h2]
    congr 1
    omega

theorem levelSpec_drop (X0 : List Rat) (R0 : Rat) (st : AsmState)
    (hb : st.begin < st.cells.length) :
    (levelSpec X0 R0 st).cells.drop (levelSpec X0 R0 st).begin
      = (linkSpec X0 R0 st.begin (keptCells st)).pushed ++
          [(linkSpec X0 R0 st.begin (keptCells st)).parent] ∧
    (levelSpec X0 R0 st).cells.take (levelSpec X0 R0 st).begin
      = linkBlocks st.begin (keptCells st) (st.cells.take st.begin) ++
          (linkSpec X0 R0 st.begin (keptCells st)).done := by
  obtain ⟨h1, h2, -, -, -⟩ := levelSpec_lengths X0 R0 st hb
  have hc0 : (levelSpec X0 R0 st).cells
      = linkBlocks st.begin (keptCells st) (st.cells.take st.begin) ++
        ((linkSpec X0 R0 st.begin (keptCells st)).done ++
          ((linkSpec X0 R0 st.begin (keptCells st)).pushed ++
            [(linkSpec X0 R0 st.begin (keptCells st)).parent])) := rfl
  have hc : (levelSpec X0 R0 st).cells
      = (linkBlocks st.begin (keptCells st) (st.cells.take st.begin) ++
        (linkSpec X0 R0 st.begin (keptCells st)).done) ++
          ((linkSpec X0 R0 st.begin (keptCells st)).pushed ++
            [(linkSpec X0 R0 st.begin (keptCells st)).parent]) := by
    rw [hc0, List.append_assoc]
  have hl : (linkBlocks st.begin (keptCells st) (st.cells.take st.begin) ++
        (linkSpec X0 R0 st.begin (keptCells st)).done).length = (levelSpec X0 R0 st).begin := by
    rw [List.length_append, h1, h2]; rfl
  constructor
  · rw [hc, ← hl, List.drop_left]
  · rw [hc, ← hl, List.take_left]

theorem linkBlocks_get_some (range : List Cell) (i : Nat) (pre : List Cell) (x : Nat) (c : Cell)
    (h : (linkBlocks i range pre)[x]? = some c) :
    ∃ c0, pre[x]? = some c0 ∧ c.ICELL = c0.ICELL ∧ c.NCHILD = c0.NCHILD ∧
      c.NCLEAF = c0.NCLEAF ∧ c.NDLEAF = c0.NDLEAF ∧ c.CHILD = c0.CHILD ∧ c.LEAF = c0.LEAF := by
  have hf := linkBlocks_fields range i pre x
  rw [h] at hf
  cases hp : pre[x]? with
  | none => rw [hp] at hf; simp at hf
  | some c0 =>
    rw [hp] at hf
    simp only [Option.map_some', Option.some.injEq] at hf
    injection hf with a1 a2 a3 a4 _ a6 a7
    exact ⟨c0, rfl, a1, a2, a3, a4, a6, a7⟩

theorem getElem?_split {α : Type} (l : List α) (j : Nat) (a : α) (h : l[j]? = some a) :
    ∃ r1 r2, l = r1 ++ a :: r2 ∧ r1.length = j := by
  have hj : j < l.length := by
    by_contra hc
    rw [List.getElem?_eq_none (by omega)] at h
    exact absurd h (by simp)
  refine ⟨l.take j, l.drop (j + 1), ?_, by rw [List.length_take]; omega⟩
  have h1 : l.drop j = a :: l.drop (j + 1) := by
    rw [List.drop_eq_getElem_cons hj]
    congr 1
    rw [List.getElem?_eq_getElem hj] at h
    exact Option.some.inj h
  rw [← h1, List.take_append_drop]

theorem levelSpec_parents_level (X0 : List Rat) (R0 : Rat) (st : AsmState) (d : Nat)
    (hk : ∀ m ∈ keptCells st, 0 ≤ m.ICELL ∧ getLevel m.ICELL = ((d + 1 : Nat) : Int)) :
    ∀ c ∈ (linkSpec X0 R0 st.begin (keptCells st)).pushed ++
        [(linkSpec X0 R0 st.begin (keptCells st)).parent],
      (0 ≤ c.ICELL ∧ getLevel c.ICELL = (d : Int)) ∧
        ∃ m ∈ keptCells st, getParent m.ICELL = c.ICELL := by
  intro c hc
  obtain ⟨groups, hg1, hg2⟩ := linkSpec_groups X0 R0 st.begin (keptCells st) (keptCells_ne_nil st)
  have h1 := (parents_mem groups _ _ _ _ hg2 hg1.2.1 c.ICELL).1 (List.mem_map_of_mem _ hc)
  rw [hg1.1] at h1
  obtain ⟨m, hm, hmc⟩ := List.mem_map.1 h1
  obtain ⟨a, b⟩ := getLevel_getParent m.ICELL d (hk m hm).2 (hk m hm).1
  rw [hmc] at a b
  exact ⟨⟨b, a⟩, m, hm, hmc⟩

theorem levelStep_invBase (X0 : List Rat) (R0 : Rat) (st : AsmState) (L : Int)
    (hinv : InvBase st L) (hL : 1 ≤ L) :
    levelStep X0 R0 st = some (levelSpec X0 R0 st) ∧ InvBase (levelSpec X0 R0 st) (L - 1) ∧
      (levelSpec X0 R0 st).sticks = st.sticks := by
  have hmem := member_ok st L hinv
  obtain ⟨hend, hb, hlev, hlow, hpw, hlink⟩ := hinv
  obtain ⟨d, hd⟩ : ∃ d : Nat, L = ((d + 1 : Nat) : Int) := ⟨(L - 1).toNat, by push_cast; omega⟩
  have hk : ∀ m ∈ keptCells st, 0 ≤ m.ICELL ∧ getLevel m.ICELL = ((d + 1 : Nat) : Int) := by
    intro m hm; rw [← hd]; exact (hmem m hm).1
  have h0 : ∀ m ∈ keptCells st, 0 ≤ getParent m.ICELL :=
    fun m hm => (getLevel_getParent m.ICELL d (hk m hm).2 (hk m hm).1).2
  have hstep := levelStep_eq X0 R0 st hend hb (fun m hm => (hmem m hm).2.1) h0
  obtain ⟨l1, l2, l3, l4, l5⟩ := levelSpec_lengths X0 R0 st hb
  obtain ⟨g1, g2, g3⟩ := levelSpec_get X0 R0 st hb
  obtain ⟨hdrop, htake⟩ := levelSpec_drop X0 R0 st hb
  have hpl := levelSpec_parents_level X0 R0 st d hk
  have hLd : L - 1 = (d : Int) := by rw [hd]; push_cast; ring
  obtain ⟨groups, hg1, hg2⟩ := linkSpec_groups X0 R0 st.begin (keptCells st) (keptCells_ne_nil st)
  have hksort := keptCells_sorted st hb
  have hkpw : List.Pairwise (fun a b : Cell => a.ICELL < b.ICELL) (keptCells st) :=
    List.pairwise_map.1 hksort
  refine ⟨hstep, ⟨l3.symm, l5, ?_, ?_, ?_, ?_⟩, ?_⟩
  · -- the new range holds the parents, one level up
    rw [hdrop, hLd]
    exact fun c hc => (hpl c hc).1
  · -- the cells below the new range are deeper
    rw [htake]
    intro c hc
    rcases List.mem_append.1 hc with h | h
    · obtain ⟨x, hx⟩ := List.mem_iff_getElem?.1 h
      obtain ⟨c0, hc0, e1, -⟩ := linkBlocks_get_some _ _ _ _ _ hx
      have := hlow c0 (List.mem_iff_getElem?.2 ⟨x, hc0⟩)
      rw [e1]; omega
    · obtain ⟨j, hj⟩ := List.mem_iff_getElem?.1 h
      have hjl : j < (keptCells st).length := by
        rw [← l2]
        by_contra hc'
        rw [List.getElem?_eq_none (by omega)] at hj
        exact absurd hj (by simp)
      obtain ⟨q, hq⟩ := linkSpec_done_getElem? X0 R0 st.begin (keptCells st) j _
        (List.getElem?_eq_getElem hjl)
      rw [hq] at hj
      have e : c.ICELL = ((keptCells st)[j]).ICELL := by
        rw [← Option.some.inj hj]
      rw [e, (hmem _ (List.getElem_mem _)).1.2]
      omega
  · -- the parents have pairwise different indices
    rw [hdrop]
    have hch := parents_chain groups _ _ _ _ hg2 hg1.2.1 hg1.2.2.2
      (by rw [hg1.1]; exact parentKeys_sorted _ d hk hksort)
    have hp2 : List.Pairwise (fun a b : Cell => a.ICELL < b.ICELL)
        ((linkSpec X0 R0 st.begin (keptCells st)).pushed ++
          [(linkSpec X0 R0 st.begin (keptCells st)).parent]) :=
      List.pairwise_map.1 ((List.chain'_iff_pairwise).1 hch)
    refine hp2.imp ?_
    intro a b hab he
    omega
  · -- the links
    intro p P hP c hc
    rw [l4]
    by_cases hp1 : p < st.begin
    · -- a cell below the old range
      rw [g1 p hp1] at hP
      obtain ⟨P0, hP0, e1, e2, -, -, e5, -⟩ := linkBlocks_get_some _ _ _ _ _ hP
      have hP0' : st.cells[p]? = some P0 := by
        rw [List.getElem?_take_of_lt hp1] at hP0; exact hP0
      rw [e2] at hc
      obtain ⟨a1, a2, y, hy, a3, a4⟩ := hlink p P0 hP0' c hc
      rw [e5, e1]
      refine ⟨by omega, a2, y, ?_, a3, a4⟩
      rw [g1 _ a1, linkBlocks_outside]
      · rw [List.getElem?_take_of_lt a1]; exact hy
      · intro m hm hx
        obtain ⟨⟨-, ml⟩, -, mk⟩ := hmem m hm
        obtain ⟨y', hy', hk'⟩ := mk (P0.CHILD + c - m.CHILD) (by omega)
        have e : m.CHILD + (P0.CHILD + c - m.CHILD) = P0.CHILD + c := by omega
        rw [e, List.getElem?_take_of_lt a1, hy] at hy'
        have hyy : y = y' := Option.some.inj hy'
        have hlv := hlow P0 (List.mem_iff_getElem?.2 ⟨p, hP0⟩)
        rw [← hyy, a4] at hk'
        rw [hk', ml] at hlv
        omega
    · by_cases hp2 : p < st.begin + (keptCells st).length
      · -- a member of the old range
        obtain ⟨j, rfl⟩ : ∃ j, p = st.begin + j := ⟨p - st.begin, by omega⟩
        have hjl : j < (keptCells st).length := by omega
        rw [g2 j hjl] at hP
        obtain ⟨q, hq⟩ := linkSpec_done_getElem? X0 R0 st.begin (keptCells st) j _
          (List.getElem?_eq_getElem hjl)
        rw [hq] at hP
        have hPe := Option.some.inj hP
        have hm : (keptCells st)[j] ∈ keptCells st := List.getElem_mem _
        obtain ⟨-, mb, mk⟩ := hmem _ hm
        have hcn : c < ((keptCells st)[j]).NCHILD := by rw [← hPe] at hc; exact hc
        have eC : P.CHILD = ((keptCells st)[j]).CHILD := by rw [← hPe]
        have eI : P.ICELL = ((keptCells st)[j]).ICELL := by rw [← hPe]
        obtain ⟨y, hy, hky⟩ := mk c hcn
        have hblk := mb (by omega)
        have hxB : ((keptCells st)[j]).CHILD + c < st.begin := by omega
        rw [eC, eI]
        refine ⟨by omega, by omega, { y with PARENT := st.begin + j }, ?_, rfl, hky⟩
        rw [g1 _ hxB]
        obtain ⟨r1, r2, hsplit, hr1⟩ := getElem?_split (keptCells st) j _
          (List.getElem?_eq_getElem hjl)
        have hli := linkBlocks_inside r1 ((keptCells st)[j]) r2 st.begin
          (st.cells.take st.begin) (((keptCells st)[j]).CHILD + c) (by omega) ?_ y hy
        · rw [← hsplit, hr1] at hli
          exact hli
        · intro m' hm' hx
          have hm'k : m' ∈ keptCells st := by rw [hsplit]; simp [hm']
          obtain ⟨-, -, mk'⟩ := hmem m' hm'k
          obtain ⟨y', hy', hk'⟩ := mk' (((keptCells st)[j]).CHILD + c - m'.CHILD) (by omega)
          have e : m'.CHILD + (((keptCells st)[j]).CHILD + c - m'.CHILD)
              = ((keptCells st)[j]).CHILD + c := by omega
          rw [e, hy] at hy'
          have hyy : y = y' := Option.some.inj hy'
          rw [← hyy, hky] at hk'
          rw [hsplit] at hkpw
          have hlt := (List.pairwise_append.1 hkpw).2.1
          have := List.rel_of_pairwise_cons hlt hm'
          omega
      · -- a new parent
        obtain ⟨g, rfl⟩ : ∃ g, p = st.begin + (keptCells st).length + g :=
          ⟨p - (st.begin + (keptCells st).length), by omega⟩
        rw [g3 g] at hP
        obtain ⟨b1, b2, -, -, -, b6⟩ := parents_pointwise groups _ _ _ _ hg2 hg1.2.1 g P hP
        rw [l2] at b2
        obtain ⟨m, hm, hkm⟩ := b6 c hc
        have e : P.CHILD + c = st.begin + (P.CHILD - st.begin + c) := by omega
        refine ⟨by omega, by omega,
          { m with PARENT := st.begin + (keptCells st).length + g }, ?_, rfl, hkm⟩
        rw [e, g2 _ (by omega)]
        exact hm
  · -- no stick is pushed
    show st.sticks ++ _ = st.sticks
    rw [(keptCells_sublist st hb hpw).2]
    simp

theorem push_invBase (st : AsmState) (L : Int) (t : Cell) (hinv : InvBase st L)
    (ht : getLevel t.ICELL = L) (h0 : 0 ≤ t.ICELL) (hn : t.NCHILD = 0) :
    InvBase { st with cells := st.cells ++ [t], end_ := st.end_ + 1 } L := by
  obtain ⟨hend, hb, hlev, hlow, hpw, hlink⟩ := hinv
  have hdrop : (st.cells ++ [t]).drop st.begin = st.cells.drop st.begin ++ [t] := by
    rw [List.drop_append_of_le_length (by omega)]
  have htake : (st.cells ++ [t]).take st.begin = st.cells.take st.begin := by
    rw [List.take_append_of_le_length (by omega)]
  refine ⟨by simp [hend], by simp; omega, ?_, ?_, ?_, ?_⟩
  · show ∀ c ∈ (st.cells ++ [t]).drop st.begin, _
    rw [hdrop]
    intro c hc
    rcases List.mem_append.1 hc with h | h
    · exact hlev c h
    · simp at h; subst h; exact ⟨h0, ht⟩
  · show ∀ c ∈ (st.cells ++ [t]).take st.begin, _
    rw [htake]; exact hlow
  · show List.Pairwise cellRdup ((st.cells ++ [t]).drop st.begin)
    rw [hdrop]
    refine List.pairwise_append.2 ⟨hpw, by simp, ?_⟩
    intro a _ b hb'
    simp at hb'; subst hb'
    exact fun _ => hn
  · intro p P hP c hc
    show _ < st.begin ∧ _
    by_cases hp : p < st.cells.length
    · have hP' : st.cells[p]? = some P := by
        rw [List.getElem?_append_left hp] at hP; exact hP
      obtain ⟨a1, a2, y, hy, a3, a4⟩ := hlink p P hP' c hc
      refine ⟨a1, a2, y, ?_, a3, a4⟩
      show (st.cells ++ [t])[P.CHILD + c]? = some y
      rw [List.getElem?_append_left (by omega)]; exact hy
    · have hP' : (st.cells ++ [t])[p]? = some P := hP
      rw [List.getElem?_append_right (by omega)] at hP'
      have : p - st.cells.length = 0 := by
        by_contra hne
        rw [List.getElem?_eq_none (by simp; omega)] at hP'
        exact absurd hP' (by simp)
      rw [this] at hP'
      simp at hP'
      subst hP'
      omega

theorem init_invBase (t : Cell) (h0 : 0 ≤ t.ICELL) (hn : t.NCHILD = 0) (sticks : List Cell) :
    InvBase { cells := [] ++ [t], sticks := sticks, begin := 0, end_ := 1 } (getLevel t.ICELL) := by
  refine ⟨rfl, by simp, ?_, ?_, ?_, ?_⟩
  · intro c hc
    simp at hc; subst hc; exact ⟨h0, rfl⟩
  · intro c hc; simp at hc
  · simp
  · intro p P hP c hc
    have hP' : ([t] : List Cell)[p]? = some P := hP
    cases p with
    | zero => simp at hP'; subst hP'; omega
    | succ n => simp at hP'

theorem uniqueSpec_same : ∀ (todo : List Cell) (co : Cell),
    (∀ cc ∈ todo, cc.ICELL = co.ICELL ∧ cc.NCHILD = 0) → uniqueSpec co todo = ([co], []) := by
  intro todo
  induction todo with
  | nil => intro co _; rfl
  | cons cc rest ih =>
    intro co h
    obtain ⟨h1, h2⟩ := h cc (List.mem_cons_self _ _)
    unfold uniqueSpec
    simp only [h1, h2, ne_eq, not_true_eq_false, if_false]
    exact ih co (fun x hx => h x (List.mem_cons_of_mem _ hx))

theorem level_zero (x : Int) (h0 : 0 ≤ x) (hl : getLevel x = 0) : x = 0 := by
  obtain ⟨a, b⟩ := level_bounds x 0 h0 (by simpa using hl)
  have h1 : offset 1 = 1 := by norm_num [offset]
  rw [offset_zero] at a
  simp only [Nat.zero_add] at b
  rw [h1] at b
  omega

theorem final_unique (st : AsmState) (hinv : InvBase st 0) :
    ∃ root, st.cells[st.begin]? = some root ∧ root.ICELL = 0 ∧
      unique st.cells st.sticks st.begin st.end_
        = some (st.cells.take (st.begin + 1), st.sticks, st.begin + 1) ∧
      Linked (st.cells.take (st.begin + 1)) st.begin := by
  obtain ⟨hend, hb, hlev, hlow, hpw, hlink⟩ := hinv
  have hsplit : st.cells = st.cells.take st.begin ++ st.cells.drop st.begin :=
    (List.take_append_drop _ _).symm
  have hpl : (st.cells.take st.begin).length = st.begin := by
    rw [List.length_take]; omega
  obtain ⟨co, todo, hct⟩ : ∃ co todo, st.cells.drop st.begin = co :: todo := by
    cases h : st.cells.drop st.begin with
    | nil =>
      have := congrArg List.length h
      simp at this; omega
    | cons a t => exact ⟨a, t, rfl⟩
  have hco : st.cells[st.begin]? = some co := by
    have := List.getElem?_drop st.cells st.begin 0
    rw [hct] at this
    simpa using this.symm
  have hco0 : co.ICELL = 0 := by
    have := hlev co (by rw [hct]; exact List.mem_cons_self _ _)
    exact level_zero _ this.1 this.2
  have hsame : ∀ cc ∈ todo, cc.ICELL = co.ICELL ∧ cc.NCHILD = 0 := by
    intro cc hcc
    have h1 := hlev cc (by rw [hct]; exact List.mem_cons_of_mem _ hcc)
    have h2 : cc.ICELL = co.ICELL := by rw [hco0]; exact level_zero _ h1.1 h1.2
    rw [hct] at hpw
    exact ⟨h2, List.rel_of_pairwise_cons hpw hcc h2.symm⟩
  have hu := unique_append (st.cells.take st.begin) co todo [] st.sticks
  rw [uniqueSpec_same todo co hsame] at hu
  simp only [List.append_nil, List.length_singleton] at hu
  rw [← hct, ← hsplit, hpl] at hu
  have hlen : st.begin + 1 + todo.length = st.end_ := by
    have := congrArg List.length hct
    simp at this
    omega
  rw [hlen] at hu
  have htk : st.cells.take (st.begin + 1) = st.cells.take st.begin ++ [co] := by
    rw [List.take_succ, hco]; rfl
  refine ⟨co, hco, hco0, by rw [hu, htk], ?_⟩
  intro p P hP c hc
  have hp : p < st.begin + 1 := by
    by_contra hc'
    rw [List.getElem?_eq_none (by rw [List.length_take]; omega)] at hP
    exact absurd hP (by simp)
  rw [List.getElem?_take_of_lt hp] at hP
  obtain ⟨a1, a2, y, hy, a3, a4⟩ := hlink p P hP c hc
  refine ⟨a1, a2, y, ?_, a3, a4⟩
  rw [List.getElem?_take_of_lt (by omega)]; exact hy

theorem getLevel_mono (a b : Int) (ha : 0 ≤ a) (hab : a ≤ b) : getLevel a ≤ getLevel b := by
  obtain ⟨da, ea, a1, a2⟩ := getLevel_bounds a ha
  obtain ⟨db, eb, b1, b2⟩ := getLevel_bounds b (by omega)
  rw [ea, eb]
  by_contra hc
  have hlt : db + 1 ≤ da := by push_cast at hc; omega
  have := offset_mono hlt
  omega

theorem twigs_facts (runs : List (List Body)) : ∀ (s : Nat) (out : List Cell),
    TwigsOfRuns s out runs → (∀ r ∈ runs, r ≠ []) →
    (∀ t ∈ out, t.NCHILD = 0 ∧ t.NDLEAF = t.NCLEAF ∧ 1 ≤ t.NDLEAF ∧
      ∃ b ∈ runs.flatten, t.ICELL = b.ICELL) ∧
    (out.map Cell.NDLEAF).sum = runs.flatten.length ∧ out.length = runs.length ∧
    (List.Chain' (fun r s => ∀ a ∈ r, ∀ b ∈ s, a.ICELL ≠ b.ICELL) runs →
      List.Pairwise (fun a b : Body => a.ICELL ≤ b.ICELL) runs.flatten →
      List.Chain' (· < ·) (out.map Cell.ICELL)) := by
  induction runs with
  | nil =>
    intro s out h _
    cases out with
    | nil => simp
    | cons t ts => simp [TwigsOfRuns] at h
  | cons r rs ih =>
    intro s out h hne
    cases out with
    | nil => simp [TwigsOfRuns] at h
    | cons t ts =>
      simp only [TwigsOfRuns] at h
      obtain ⟨hk, hcl, hdl, hnc, -, -, hrest⟩ := h
      have hne' : ∀ r' ∈ rs, r' ≠ [] := fun r' hr' => hne r' (List.mem_cons_of_mem _ hr')
      obtain ⟨i1, i2, i3, i4⟩ := ih _ ts hrest hne'
      obtain ⟨a, ta, hr⟩ := List.exists_cons_of_ne_nil (hne r (List.mem_cons_self _ _))
      have ha : a ∈ r := by rw [hr]; exact List.mem_cons_self _ _
      have hrl : 1 ≤ r.length := by rw [hr]; simp
      refine ⟨?_, ?_, by simp [i3], ?_⟩
      · intro u hu
        rcases List.mem_cons.1 hu with h | h
        · subst h
          exact ⟨hnc, by rw [hdl, hcl], by omega, a, by simp [ha], hk a ha⟩
        · obtain ⟨b1, b2, b3, b, hb, hbk⟩ := i1 u h
          exact ⟨b1, b2, b3, b, by simp [hb], hbk⟩
      · simp only [List.map_cons, List.sum_cons, List.flatten_cons, List.length_append, i2, hdl]
      · intro hch hpw
        simp only [List.flatten_cons] at hpw
        have hpw' := (List.pairwise_append.1 hpw).2.1
        have hcross := (List.pairwise_append.1 hpw).2.2
        have ihc := i4 hch.tail hpw'
        cases rs with
        | nil =>
          cases ts with
          | nil => simp
          | cons t' ts' => simp [TwigsOfRuns] at hrest
        | cons r' rs' =>
          cases ts with
          | nil => simp [TwigsOfRuns] at hrest
          | cons t' ts' =>
            simp only [TwigsOfRuns] at hrest
            obtain ⟨hk', -⟩ := hrest
            obtain ⟨b, tb, hr'⟩ := List.exists_cons_of_ne_nil
              (hne r' (List.mem_cons_of_mem _ (List.mem_cons_self _ _)))
            have hb : b ∈ r' := by rw [hr']; exact List.mem_cons_self _ _
            have hneq := (List.chain'_cons.1 hch).1 a ha b hb
            have hle := hcross a ha b (by simp [hb])
            simp only [List.map_cons] at ihc ⊢
            refine List.Chain'.cons ?_ ihc
            rw [hk a ha, hk' b hb]
            exact lt_of_le_of_ne hle hneq

/-- Facts about the twigs that bodies2twigs forms from index-sorted bodies. -/
theorem bodies2twigs_sorted (X0 : List Rat) (R0 : Rat) (bodies : List Body)
    (hne : bodies ≠ []) (h0 : ∀ b ∈ bodies, 0 ≤ b.ICELL)
    (hs : List.Sorted (· ≤ ·) (bodies.map Body.ICELL)) :
    ∃ twigs, bodies2twigs X0 R0 bodies [] = some twigs ∧ twigs ≠ [] ∧
      (∀ t ∈ twigs, 0 ≤ t.ICELL ∧ t.NCHILD = 0 ∧ t.NDLEAF = t.NCLEAF ∧ 1 ≤ t.NDLEAF ∧
        ∃ b ∈ bodies, t.ICELL = b.ICELL) ∧
      (twigs.map Cell.NDLEAF).sum = bodies.length ∧
      List.Sorted (· < ·) (twigs.map Cell.ICELL) := by
  obtain ⟨out, runs, h1, ⟨hj, hrne, -, hch⟩, h3⟩ := bodies2twigs_spec X0 R0 bodies [] hne h0
  obtain ⟨f1, f2, f3, f4⟩ := twigs_facts runs 0 out h3 hrne
  rw [hj] at f1 f2 f4
  refine ⟨out, by simpa using h1, ?_, ?_, f2, ?_⟩
  · intro h
    rw [h] at f3
    have : runs = [] := List.length_eq_zero.1 f3.symm
    rw [this] at hj
    exact hne hj.symm
  · intro t ht
    obtain ⟨a1, a2, a3, b, hb, hk⟩ := f1 t ht
    exact ⟨by rw [hk]; exact h0 b hb, a1, a2, a3, b, hb, hk⟩
  · exact (List.chain'_iff_pairwise).1 (f4 hch (List.pairwise_map.1 hs))

theorem twigs_levels (twigs : List Cell) (h0 : ∀ t ∈ twigs, 0 ≤ t.ICELL)
    (hs : List.Sorted (· < ·) (twigs.map Cell.ICELL)) :
    List.Pairwise (fun a b : Cell => getLevel a.ICELL ≤ getLevel b.ICELL) twigs := by
  have h1 : List.Pairwise (fun a b : Cell => a.ICELL < b.ICELL) twigs := List.pairwise_map.1 hs
  refine List.Pairwise.imp_of_mem ?_ h1
  intro a b ha _ hab
  exact getLevel_mono _ _ (h0 a ha) (le_of_lt hab)

theorem getLevel_nonneg (x : Int) (h0 : 0 ≤ x) : 0 ≤ getLevel x := by
  obtain ⟨d, hd, _⟩ := getLevel_bounds x h0
  omega

/-- C5: for every non-empty point set sorted ascending by non-negative ICELL, bodies2twigs and
then twigs2cells on an empty cell array return, and in the resulting cell array every cell at a
position p with NCHILD > 0 has, for every c < NCHILD, a cell at position CHILD + c whose
getParent(ICELL) is the ICELL of the cell at p and whose PARENT is p; the children of one cell
occupy the contiguous block [CHILD, CHILD + NCHILD), below the position of the cell. -/
theorem twigs2cells_links (X0 : List Rat) (R0 : Rat) (bodies : List Body) (hne : bodies ≠ [])
    (h0 : ∀ b ∈ bodies, 0 ≤ b.ICELL) (hs : List.Sorted (· ≤ ·) (bodies.map Body.ICELL)) :
    ∃ (twigs cells sticks : List Cell), bodies2twigs X0 R0 bodies [] = some twigs ∧
      twigs2cells X0 R0 twigs [] [] = some (cells, sticks) ∧
      ∀ (p : Nat) (P : Cell), cells[p]? = some P → ∀ c, c < P.NCHILD →
        P.CHILD + c < p ∧
        ∃ y : Cell, cells[P.CHILD + c]? = some y ∧ getParent y.ICELL = P.ICELL ∧
          y.PARENT = p := by
  obtain ⟨twigs, hb2t, htne, hfacts, -, hsorted⟩ := bodies2twigs_sorted X0 R0 bodies hne h0 hs
  have ht0 : ∀ t ∈ twigs, 0 ≤ t.ICELL := fun t ht => (hfacts t ht).1
  obtain ⟨c, s, htc, B, hQ⟩ := twigs2cells_skeleton X0 R0 (fun st L _ => InvBase st L)
    (fun c _ => ∃ B, Linked c B) (fun t => 0 ≤ t.ICELL ∧ t.NCHILD = 0) twigs [] [] htne
    (fun t ht => ⟨⟨(hfacts t ht).1, (hfacts t ht).2.1⟩, getLevel_nonneg _ (ht0 t ht)⟩)
    (twigs_levels twigs ht0 hsorted)
    (fun t ht => by
      have hm : t ∈ twigs := List.mem_of_getLast?_eq_some ht
      exact init_invBase t (hfacts t hm).1 (hfacts t hm).2.1 [])
    (fun st L _ t _ hP hl hg _ => push_invBase st L t hP hl hg.1 hg.2)
    (fun st L _ hP hL => ⟨_, (levelStep_invBase X0 R0 st L hP hL).1,
      (levelStep_invBase X0 R0 st L hP hL).2.1⟩)
    (fun st hP => by
      obtain ⟨root, _, _, hu, hl⟩ := final_unique st hP
      exact ⟨_, _, _, hu, _, hl⟩)
  refine ⟨twigs, c, s, hb2t, htc, ?_⟩
  intro p P hP k hk
  obtain ⟨-, a2, y, hy, a3, a4⟩ := hQ p P hP k hk
  exact ⟨a2, y, hy, a4, a3⟩

theorem twigs2cells_links_witness :
    ∃ (twigs cells sticks : List Cell),
      bodies2twigs [0, 0, 0] 1 [⟨[0, 0, 0], 1⟩, ⟨[0, 0, 0], 9⟩, ⟨[0, 0, 0], 9⟩] [] = some twigs ∧
      twigs2cells [0, 0, 0] 1 twigs [] [] = some (cells, sticks) ∧
      ∀ (p : Nat) (P : Cell), cells[p]? = some P → ∀ c, c < P.NCHILD →
        P.CHILD + c < p ∧
        ∃ y : Cell, cells[P.CHILD + c]? = some y ∧ getParent y.ICELL = P.ICELL ∧
          y.PARENT = p :=
  twigs2cells_links [0, 0, 0] 1 [⟨[0, 0, 0], 1⟩, ⟨[0, 0, 0], 9⟩, ⟨[0, 0, 0], 9⟩] (by simp)
    (by decide) (by decide)

theorem seg_append_left (l1 l2 : List Cell) (a n : Nat) (h : a + n ≤ l1.length) :
    ((l1 ++ l2).drop a).take n = (l1.drop a).take n := by
  rw [List.drop_append_of_le_length (by omega), List.take_append_of_le_length]
  rw [List.length_drop]; omega

theorem seg_take (l : List Cell) (m a n : Nat) (h : a + n ≤ m) :
    ((l.take m).drop a).take n = (l.drop a).take n := by
  rw [List.drop_take, List.take_take]
  congr 1
  omega

theorem seg_append_right (l1 l2 l3 : List Cell) (a n : Nat) (h1 : l1.length ≤ a)
    (h2 : a + n ≤ l1.length + l2.length) :
    ((l1 ++ (l2 ++ l3)).drop a).take n = ((l2.drop (a - l1.length)).take n) := by
  rw [List.drop_append_eq_append_drop, List.drop_of_length_le h1, List.nil_append]
  exact seg_append_left l2 l3 (a - l1.length) n (by omega)

theorem linkBlocks_map_zero (range : List Cell) (i : Nat) (pre : List Cell) :
    (linkBlocks i range pre).map (fun c => { c with PARENT := 0 })
      = pre.map (fun c => { c with PARENT := 0 }) := by
  apply List.ext_getElem?
  intro x
  rw [List.getElem?_map, List.getElem?_map]
  exact linkBlocks_fields range i pre x

theorem forall₂_map_zero : ∀ (l1 l2 : List Cell),
    List.Forall₂ (fun m d : Cell => ∃ q, d = { m with PARENT := q }) l1 l2 →
    l2.map (fun c => { c with PARENT := 0 }) = l1.map (fun c => { c with PARENT := 0 }) := by
  intro l1 l2 h
  induction h with
  | nil => rfl
  | cons hab _ ih =>
    obtain ⟨q, hq⟩ := hab
    simp only [List.map_cons, ih, hq]

theorem linkSpec_done_map_zero (X0 : List Rat) (R0 : Rat) (B : Nat) (k : List Cell) :
    (linkSpec X0 R0 B k).done.map (fun c => { c with PARENT := 0 })
      = k.map (fun c => { c with PARENT := 0 }) := by
  obtain ⟨tail, h1, h2⟩ := linkFold_done X0 R0 B (B + k.length) k
    { done := [], pushed := [], parent := firstParent X0 R0 B (k.headD default) }
  unfold linkSpec
  rw [h1]
  simpa using forall₂_map_zero _ _ h2

theorem map_NDLEAF_of_zero (l1 l2 : List Cell)
    (h : l1.map (fun c => { c with PARENT := 0 }) = l2.map (fun c => { c with PARENT := 0 })) :
    l1.map Cell.NDLEAF = l2.map Cell.NDLEAF := by
  have e : ∀ l : List Cell, l.map Cell.NDLEAF
      = (l.map (fun c => ({ c with PARENT := 0 } : Cell))).map Cell.NDLEAF := by
    intro l; rw [List.map_map]; rfl
  rw [e l1, e l2, h]

theorem levelSpec_seg (X0 : List Rat) (R0 : Rat) (st : AsmState)
    (hb : st.begin < st.cells.length) (a n : Nat) (h : a + n ≤ st.begin) :
    (((levelSpec X0 R0 st).cells.drop a).take n).map Cell.NDLEAF
      = ((st.cells.drop a).take n).map Cell.NDLEAF := by
  obtain ⟨h1, -, -, -, -⟩ := levelSpec_lengths X0 R0 st hb
  have hc : (levelSpec X0 R0 st).cells
      = linkBlocks st.begin (keptCells st) (st.cells.take st.begin) ++
        ((linkSpec X0 R0 st.begin (keptCells st)).done ++
          ((linkSpec X0 R0 st.begin (keptCells st)).pushed ++
            [(linkSpec X0 R0 st.begin (keptCells st)).parent])) := rfl
  rw [hc, seg_append_left _ _ a n (by omega), ← seg_take st.cells st.begin a n h,
    List.map_take, List.map_drop, List.map_take, List.map_drop,
    map_NDLEAF_of_zero _ _ (linkBlocks_map_zero (keptCells st) st.begin (st.cells.take st.begin))]

theorem levelStep_leafInv (X0 : List Rat) (R0 : Rat) (st : AsmState) (L : Int)
    (hinv : InvBase st L) (hleaf : LeafInv st.cells) :
    LeafInv (levelSpec X0 R0 st).cells := by
  have hmem := member_ok st L hinv
  obtain ⟨hend, hb, hlev, hlow, hpw, hlink⟩ := hinv
  obtain ⟨l1, l2, l3, l4, l5⟩ := levelSpec_lengths X0 R0 st hb
  obtain ⟨g1, g2, g3⟩ := levelSpec_get X0 R0 st hb
  obtain ⟨groups, hg1, hg2⟩ := linkSpec_groups X0 R0 st.begin (keptCells st) (keptCells_ne_nil st)
  intro p P hP
  by_cases hp1 : p < st.begin
  · rw [g1 p hp1] at hP
    obtain ⟨P0, hP0, e1, e2, e3, e4, e5, -⟩ := linkBlocks_get_some _ _ _ _ _ hP
    have hP0' : st.cells[p]? = some P0 := by
      rw [List.getElem?_take_of_lt hp1] at hP0; exact hP0
    obtain ⟨q1, q2⟩ := hleaf p P0 hP0'
    rw [e2, e3, e4, e5]
    refine ⟨q1, fun hn => ?_⟩
    have hblk := (hlink p P0 hP0' (P0.NCHILD - 1) (by omega)).1
    rw [levelSpec_seg X0 R0 st hb _ _ (by omega)]
    exact q2 hn
  · by_cases hp2 : p < st.begin + (keptCells st).length
    · obtain ⟨j, rfl⟩ : ∃ j, p = st.begin + j := ⟨p - st.begin, by omega⟩
      have hjl : j < (keptCells st).length := by omega
      rw [g2 j hjl] at hP
      obtain ⟨q, hq⟩ := linkSpec_done_getElem? X0 R0 st.begin (keptCells st) j _
        (List.getElem?_eq_getElem hjl)
      rw [hq] at hP
      have hPe := Option.some.inj hP
      have hm : (keptCells st)[j] ∈ keptCells st := List.getElem_mem _
      obtain ⟨-, mb, -⟩ := hmem _ hm
      obtain ⟨q0, -, hq0⟩ := mem_drop_getElem? _ _ _ (keptCells_mem st hb hpw _ hm)
      obtain ⟨q1, q2⟩ := hleaf q0 _ hq0
      rw [← hPe]
      refine ⟨q1, fun hn => ?_⟩
      have hblk := mb hn
      show ((keptCells st)[j]).NDLEAF = _
      rw [levelSpec_seg X0 R0 st hb _ _ hblk]
      exact q2 hn
    · obtain ⟨g, rfl⟩ : ∃ g, p = st.begin + (keptCells st).length + g :=
        ⟨p - (st.begin + (keptCells st).length), by omega⟩
      rw [g3 g] at hP
      obtain ⟨b1, b2, b3, -, b5, -⟩ := parents_pointwise groups _ _ _ _ hg2 hg1.2.1 g P hP
      refine ⟨fun h => by omega, fun _ => ?_⟩
      have hc : (levelSpec X0 R0 st).cells
          = linkBlocks st.begin (keptCells st) (st.cells.take st.begin) ++
            ((linkSpec X0 R0 st.begin (keptCells st)).done ++
              ((linkSpec X0 R0 st.begin (keptCells st)).pushed ++
                [(linkSpec X0 R0 st.begin (keptCells st)).parent])) := rfl
      rw [hc, seg_append_right _ _ _ _ _ (by omega) (by omega), l1]
      exact b5

theorem push_leafInv (cells : List Cell) (B : Nat) (t : Cell) (hleaf : LeafInv cells)
    (hlink : Linked cells B) (hn : t.NCHILD = 0) (hd : t.NDLEAF = t.NCLEAF) :
    LeafInv (cells ++ [t]) := by
  intro p P hP
  by_cases hp : p < cells.length
  · rw [List.getElem?_append_left hp] at hP
    obtain ⟨q1, q2⟩ := hleaf p P hP
    refine ⟨q1, fun h => ?_⟩
    have h1 := (hlink p P hP (P.NCHILD - 1) (by omega)).2.1
    rw [seg_append_left _ _ _ _ (by omega)]
    exact q2 h
  · rw [List.getElem?_append_right (by omega)] at hP
    have : p - cells.length = 0 := by
      by_contra hne
      rw [List.getElem?_eq_none (by simp; omega)] at hP
      exact absurd hP (by simp)
    rw [this] at hP
    simp at hP
    subst hP
    exact ⟨fun _ => hd, fun h => absurd hn h⟩

theorem take_leafInv (cells : List Cell) (B : Nat) (hleaf : LeafInv cells)
    (hlink : Linked cells B) : LeafInv (cells.take (B + 1)) := by
  intro p P hP
  have hp : p < B + 1 := by
    by_contra hc
    rw [List.getElem?_eq_none (by rw [List.length_take]; omega)] at hP
    exact absurd hP (by simp)
  rw [List.getElem?_take_of_lt hp] at hP
  obtain ⟨q1, q2⟩ := hleaf p P hP
  refine ⟨q1, fun h => ?_⟩
  have h1 := (hlink p P hP (P.NCHILD - 1) (by omega)).1
  rw [seg_take _ _ _ _ (by omega)]
  exact q2 h

theorem seg_map_range (l : List Cell) (f : Cell → Nat) (a n : Nat) (h : a + n ≤ l.length) :
    ((l.drop a).take n).map f = (List.range n).map (fun c => f (l.getD (a + c) default)) := by
  apply List.ext_getElem?
  intro i
  by_cases hi : i < n
  · have h1 : a + i < l.length := by omega
    rw [List.getElem?_map, List.getElem?_take_of_lt hi, List.getElem?_drop, List.getElem?_map,
      List.getElem?_range hi, List.getElem?_eq_getElem h1]
    simp [List.getD_eq_getElem?_getD, List.getElem?_eq_getElem h1]
  · rw [List.getElem?_eq_none (by simp; omega), List.getElem?_eq_none (by simp; omega)]

theorem leafSum_eq (cells : List Cell) (B : Nat) (hleaf : LeafInv cells)
    (hlink : Linked cells B) : ∀ (p fuel : Nat), p < fuel → ∀ P : Cell, cells[p]? = some P →
    P.NDLEAF = leafSum fuel cells p := by
  intro p
  induction p using Nat.strong_induction_on with
  | _ p ih =>
    intro fuel hf P hP
    obtain ⟨f, rfl⟩ : ∃ f, fuel = f + 1 := ⟨fuel - 1, by omega⟩
    have hpl : p < cells.length := by
      by_contra hc
      rw [List.getElem?_eq_none (by omega)] at hP
      exact absurd hP (by simp)
    have hgd : cells.getD p default = P := by
      rw [List.getD_eq_getElem?_getD, hP]; rfl
    obtain ⟨q1, q2⟩ := hleaf p P hP
    simp only [leafSum, hgd]
    by_cases hn : P.NCHILD = 0
    · rw [if_pos hn]; exact q1 hn
    · rw [if_neg hn, q2 hn]
      have hblk := (hlink p P hP (P.NCHILD - 1) (by omega)).2.1
      rw [seg_map_range cells Cell.NDLEAF P.CHILD P.NCHILD (by omega)]
      congr 1
      apply List.map_congr_left
      intro c hc
      have hcn : c < P.NCHILD := List.mem_range.1 hc
      obtain ⟨-, a2, y, hy, -, -⟩ := hlink p P hP c hcn
      have hgy : cells.getD (P.CHILD + c) default = y := by
        rw [List.getD_eq_getElem?_getD, hy]; rfl
      rw [hgy]
      exact ih (P.CHILD + c) a2 f (by omega) y hy

/-- C7: for every non-empty point set sorted ascending by non-negative ICELL, bodies2twigs and
then twigs2cells on an empty cell array return, and for every cell of the resulting array NDLEAF
equals the sum of NCLEAF over the leaf-only cells (NCHILD = 0) of its subtree (for every
recursion bound above its position); a cell without children has NDLEAF = NCLEAF and a cell with
children has NDLEAF equal to the sum of the NDLEAF of its children. -/
theorem twigs2cells_leafCount (X0 : List Rat) (R0 : Rat) (bodies : List Body)
    (hne : bodies ≠ []) (h0 : ∀ b ∈ bodies, 0 ≤ b.ICELL)
    (hs : List.Sorted (· ≤ ·) (bodies.map Body.ICELL)) :
    ∃ (twigs cells sticks : List Cell), bodies2twigs X0 R0 bodies [] = some twigs ∧
      twigs2cells X0 R0 twigs [] [] = some (cells, sticks) ∧
      ∀ (p : Nat) (P : Cell), cells[p]? = some P →
        (∀ fuel, p < fuel → P.NDLEAF = leafSum fuel cells p) ∧
        (P.NCHILD = 0 → P.NDLEAF = P.NCLEAF) ∧
        (P.NCHILD ≠ 0 →
          P.NDLEAF = (((cells.drop P.CHILD).take P.NCHILD).map Cell.NDLEAF).sum) := by
  obtain ⟨twigs, hb2t, htne, hfacts, -, hsorted⟩ := bodies2twigs_sorted X0 R0 bodies hne h0 hs
  have ht0 : ∀ t ∈ twigs, 0 ≤ t.ICELL := fun t ht => (hfacts t ht).1
  obtain ⟨c, s, htc, B, hQ1, hQ2⟩ := twigs2cells_skeleton X0 R0
    (fun st L _ => InvBase st L ∧ LeafInv st.cells)
    (fun c _ => ∃ B, Linked c B ∧ LeafInv c)
    (fun t => 0 ≤ t.ICELL ∧ t.NCHILD = 0 ∧ t.NDLEAF = t.NCLEAF) twigs [] [] htne
    (fun t ht => ⟨⟨(hfacts t ht).1, (hfacts t ht).2.1, (hfacts t ht).2.2.1⟩,
      getLevel_nonneg _ (ht0 t ht)⟩)
    (twigs_levels twigs ht0 hsorted)
    (fun t ht => by
      have hm : t ∈ twigs := List.mem_of_getLast?_eq_some ht
      refine ⟨init_invBase t (hfacts t hm).1 (hfacts t hm).2.1 [], ?_⟩
      intro p P hP
      have hP' : ([t] : List Cell)[p]? = some P := hP
      cases p with
      | zero =>
        simp at hP'; subst hP'
        exact ⟨fun _ => (hfacts t hm).2.2.1, fun h => absurd (hfacts t hm).2.1 h⟩
      | succ n => simp at hP')
    (fun st L _ t _ hP hl hg _ =>
      ⟨push_invBase st L t hP.1 hl hg.1 hg.2.1,
        push_leafInv st.cells st.begin t hP.2 hP.1.2.2.2.2.2 hg.2.1 hg.2.2⟩)
    (fun st L _ hP hL => ⟨_, (levelStep_invBase X0 R0 st L hP.1 hL).1,
      (levelStep_invBase X0 R0 st L hP.1 hL).2.1, levelStep_leafInv X0 R0 st L hP.1 hP.2⟩)
    (fun st hP => by
      obtain ⟨root, _, _, hu, hl⟩ := final_unique st hP.1
      exact ⟨_, _, _, hu, _, hl, take_leafInv st.cells st.begin hP.2 hP.1.2.2.2.2.2⟩)
  refine ⟨twigs, c, s, hb2t, htc, ?_⟩
  intro p P hP
  exact ⟨fun fuel hf => leafSum_eq c B hQ2 hQ1 p fuel hf P hP, (hQ2 p P hP).1, (hQ2 p P hP).2⟩

theorem twigs2cells_leafCount_witness :
    ∃ (twigs cells sticks : List Cell),
      bodies2twigs [0, 0, 0] 1 [⟨[0, 0, 0], 1⟩, ⟨[0, 0, 0], 9⟩, ⟨[0, 0, 0], 9⟩] [] = some twigs ∧
      twigs2cells [0, 0, 0] 1 twigs [] [] = some (cells, sticks) ∧
      ∀ (p : Nat) (P : Cell), cells[p]? = some P →
        (∀ fuel, p < fuel → P.NDLEAF = leafSum fuel cells p) ∧
        (P.NCHILD = 0 → P.NDLEAF = P.NCLEAF) ∧
        (P.NCHILD ≠ 0 →
          P.NDLEAF = (((cells.drop P.CHILD).take P.NCHILD).map Cell.NDLEAF).sum) :=
  twigs2cells_leafCount [0, 0, 0] 1 [⟨[0, 0, 0], 1⟩, ⟨[0, 0, 0], 9⟩, ⟨[0, 0, 0], 9⟩] (by simp)
    (by decide) (by decide)

theorem uniqueSpec_nodup : ∀ (todo : List Cell) (co : Cell),
    ((co :: todo).map Cell.ICELL).Nodup → (uniqueSpec co todo).1 = co :: todo := by
  intro todo
  induction todo with
  | nil => intro co _; rfl
  | cons cc rest ih =>
    intro co h
    simp only [List.map_cons, List.nodup_cons, List.mem_cons, not_or] at h
    have hk : ¬ cc.ICELL = co.ICELL := fun e => h.1.1 e.symm
    unfold uniqueSpec
    simp only [hk, ne_eq, not_false_eq_true, if_true]
    rw [ih cc (by simp only [List.map_cons, List.nodup_cons]; exact h.2)]

theorem keptCells_nodup (st : AsmState) (hb : st.begin < st.cells.length)
    (hn : ((st.cells.drop st.begin).map Cell.ICELL).Nodup) :
    keptCells st = List.insertionSort (fun a b => a.ICELL ≤ b.ICELL) (st.cells.drop st.begin) := by
  have hs := headD_cons_tail _ (sorted_ne_nil st hb)
  unfold keptCells
  rw [uniqueSpec_nodup, hs]
  rw [hs]
  exact ((List.perm_insertionSort _ _).map Cell.ICELL).nodup_iff.2 hn

theorem parents_sum (gs : List (List Cell)) : ∀ (Ps done : List Cell) (s pos : Nat),
    ParentsOfGroups s pos Ps done gs →
    (Ps.map Cell.NDLEAF).sum = (gs.flatten.map Cell.NDLEAF).sum := by
  induction gs with
  | nil =>
    intro Ps done s pos h
    cases Ps with
    | nil => simp
    | cons P Ps => cases done <;> simp [ParentsOfGroups] at h
  | cons g gs ih =>
    intro Ps done s pos h
    cases Ps with
    | nil => cases done <;> simp [ParentsOfGroups] at h
    | cons P Ps =>
      simp only [ParentsOfGroups] at h
      obtain ⟨-, -, -, hs, -, -, -, hrest⟩ := h
      simp only [List.map_cons, List.sum_cons, List.flatten_cons, List.map_append,
        List.sum_append, ih Ps _ _ _ hrest, hs]

theorem getLevel_iterate_sub (j : Nat) (b : Int) (h0 : 0 ≤ b) (hj : (j : Int) ≤ getLevel b) :
    getLevel (getParent^[j] b) = getLevel b - j ∧ 0 ≤ getParent^[j] b := by
  obtain ⟨d, hd, -, -⟩ := getLevel_bounds b h0
  rw [hd] at hj
  have hjd : j ≤ d := by exact_mod_cast hj
  have e : getLevel b = (((d - j) + j : Nat) : Int) := by rw [hd]; congr 1; omega
  obtain ⟨a1, a2⟩ := getLevel_iterate j (d - j) b h0 e
  refine ⟨?_, a2⟩
  rw [a1, hd]
  omega

theorem ancestor_step (a t : Int) (L : Nat) (ht : 0 ≤ t) (ha : getLevel a = ((L + 1 : Nat) : Int))
    (h : a = t ∨ IsProperAncestor a t) : IsProperAncestor (getParent a) t := by
  rcases h with h | ⟨j, h1, h2, h3⟩
  · subst h
    exact ⟨1, le_refl _, by rw [ha]; push_cast; omega, rfl⟩
  · obtain ⟨e1, -⟩ := getLevel_iterate_sub j t ht h2
    rw [h3, ha] at e1
    refine ⟨j + 1, by omega, by push_cast at e1 ⊢; omega, ?_⟩
    rw [Function.iterate_succ_apply', h3]

theorem levelSpec_parents_sorted (X0 : List Rat) (R0 : Rat) (st : AsmState) (d : Nat)
    (hb : st.begin < st.cells.length)
    (hk : ∀ m ∈ keptCells st, 0 ≤ m.ICELL ∧ getLevel m.ICELL = ((d + 1 : Nat) : Int)) :
    List.Sorted (· < ·) (((linkSpec X0 R0 st.begin (keptCells st)).pushed ++
      [(linkSpec X0 R0 st.begin (keptCells st)).parent]).map Cell.ICELL) := by
  obtain ⟨groups, hg1, hg2⟩ := linkSpec_groups X0 R0 st.begin (keptCells st) (keptCells_ne_nil st)
  have hch := parents_chain groups _ _ _ _ hg2 hg1.2.1 hg1.2.2.2
    (by rw [hg1.1]; exact parentKeys_sorted _ d hk (keptCells_sorted st hb))
  exact (List.chain'_iff_pairwise).1 hch

theorem levelStep_rootInv (X0 : List Rat) (R0 : Rat) (st : AsmState) (L : Int)
    (pushed : List Cell) (hinv : InvBase st L) (hroot : RootInv st pushed) (hL : 1 ≤ L)
    (hp0 : ∀ t ∈ pushed, 0 ≤ t.ICELL) : RootInv (levelSpec X0 R0 st) pushed := by
  have hmem := member_ok st L hinv
  obtain ⟨hend, hb, hlev, hlow, hpw, hlink⟩ := hinv
  obtain ⟨hA, hN, hS⟩ := hroot
  obtain ⟨d, hd⟩ : ∃ d : Nat, L = ((d + 1 : Nat) : Int) := ⟨(L - 1).toNat, by push_cast; omega⟩
  have hk : ∀ m ∈ keptCells st, 0 ≤ m.ICELL ∧ getLevel m.ICELL = ((d + 1 : Nat) : Int) := by
    intro m hm; rw [← hd]; exact (hmem m hm).1
  obtain ⟨hdrop, -⟩ := levelSpec_drop X0 R0 st hb
  obtain ⟨groups, hg1, hg2⟩ := linkSpec_groups X0 R0 st.begin (keptCells st) (keptCells_ne_nil st)
  have hkept := keptCells_nodup st hb hN
  have hperm : List.Perm (keptCells st) (st.cells.drop st.begin) := by
    rw [hkept]; exact List.perm_insertionSort _ _
  refine ⟨?_, ?_, ?_⟩
  · rw [hdrop]
    intro P hP
    right
    obtain ⟨g, hg⟩ := List.mem_iff_getElem?.1 hP
    obtain ⟨-, -, b3, -, -, -⟩ := parents_pointwise groups _ _ _ _ hg2 hg1.2.1 g P hg
    obtain ⟨-, m, hm, hmP⟩ := levelSpec_parents_level X0 R0 st d hk P hP
    refine ⟨by omega, ?_⟩
    rcases hA m (hperm.mem_iff.1 hm) with h | ⟨-, t, ht, hanc⟩
    · exact ⟨m, h, by rw [← hmP]; exact ancestor_step _ _ d (hk m hm).1 (hk m hm).2 (Or.inl rfl)⟩
    · exact ⟨t, ht, by rw [← hmP]; exact ancestor_step _ _ d (hp0 t ht) (hk m hm).2 (Or.inr hanc)⟩
  · rw [hdrop]
    exact (levelSpec_parents_sorted X0 R0 st d hb hk).nodup
  · rw [hdrop, parents_sum groups _ _ _ _ hg2, hg1.1, ← hS]
    exact (hperm.map Cell.NDLEAF).sum_eq

theorem push_rootInv (st : AsmState) (L : Int) (pushed pre tw : List Cell) (t : Cell)
    (hinv : InvBase st L) (hroot : RootInv st pushed) (htw : tw = pre ++ t :: pushed)
    (hsorted : List.Sorted (· < ·) (tw.map Cell.ICELL))
    (hanc : ∀ a ∈ tw, ∀ b ∈ tw, ¬ IsProperAncestor a.ICELL b.ICELL) :
    RootInv { st with cells := st.cells ++ [t], end_ := st.end_ + 1 } (t :: pushed) := by
  obtain ⟨hend, hb, -⟩ := hinv
  obtain ⟨hA, hN, hS⟩ := hroot
  have hdrop : (st.cells ++ [t]).drop st.begin = st.cells.drop st.begin ++ [t] := by
    rw [List.drop_append_of_le_length (by omega)]
  have htm : t ∈ tw := by rw [htw]; simp
  have hpm : ∀ u ∈ pushed, u ∈ tw := fun u hu => by rw [htw]; simp [hu]
  have hlt : ∀ u ∈ pushed, t.ICELL < u.ICELL := by
    intro u hu
    have h1 : List.Pairwise (fun a b : Cell => a.ICELL < b.ICELL) tw := List.pairwise_map.1 hsorted
    rw [htw] at h1
    exact List.rel_of_pairwise_cons (List.pairwise_append.1 h1).2.1 hu
  refine ⟨?_, ?_, ?_⟩
  · show ∀ c ∈ (st.cells ++ [t]).drop st.begin, _
    rw [hdrop]
    intro c hc
    rcases List.mem_append.1 hc with h | h
    · rcases hA c h with h1 | ⟨h1, u, hu, h2⟩
      · exact Or.inl (List.mem_cons_of_mem _ h1)
      · exact Or.inr ⟨h1, u, List.mem_cons_of_mem _ hu, h2⟩
    · simp at h; subst h; exact Or.inl (List.mem_cons_self _ _)
  · show (((st.cells ++ [t]).drop st.begin).map Cell.ICELL).Nodup
    rw [hdrop, List.map_append]
    refine List.nodup_append.2 ⟨hN, by simp, ?_⟩
    intro x hx1 hx2
    simp at hx2
    obtain ⟨c, hc, hcx⟩ := List.mem_map.1 hx1
    rcases hA c hc with h1 | ⟨-, u, hu, h2⟩
    · have := hlt c h1
      omega
    · rw [hcx, hx2] at h2
      exact hanc t htm u (hpm u hu) h2
  · show (((st.cells ++ [t]).drop st.begin).map Cell.NDLEAF).sum = _
    rw [hdrop, List.map_append, List.sum_append, hS]
    simp only [List.map_cons, List.map_nil, List.sum_cons, List.sum_nil]
    omega

theorem init_rootInv (t : Cell) (sticks : List Cell) :
    RootInv { cells := [] ++ [t], sticks := sticks, begin := 0, end_ := 1 } [t] := by
  refine ⟨?_, ?_, ?_⟩
  · intro c hc; simp at hc; subst hc; exact Or.inl (List.mem_cons_self _ _)
  · simp
  · simp

theorem final_root (st : AsmState) (tw : List Cell) (hinv : InvBase st 0)
    (hroot : RootInv st tw) :
    ∃ root, (st.cells.take (st.begin + 1)).getLast? = some root ∧ root.ICELL = 0 ∧
      root.NDLEAF = (tw.map Cell.NDLEAF).sum := by
  obtain ⟨root, hr, hr0, -, -⟩ := final_unique st hinv
  obtain ⟨hend, hb, hlev, -⟩ := hinv
  obtain ⟨-, hN, hS⟩ := hroot
  have htk : st.cells.take (st.begin + 1) = st.cells.take st.begin ++ [root] := by
    rw [List.take_succ, hr]; rfl
  refine ⟨root, by rw [htk]; simp, hr0, ?_⟩
  have hdrop : st.cells.drop st.begin = root :: st.cells.drop (st.begin + 1) := by
    rw [List.drop_eq_getElem_cons hb]
    congr 1
    rw [List.getElem?_eq_getElem hb] at hr
    exact Option.some.inj hr
  have hnil : st.cells.drop (st.begin + 1) = [] := by
    cases h : st.cells.drop (st.begin + 1) with
    | nil => rfl
    | cons cc rest =>
      exfalso
      rw [hdrop, h] at hN hlev
      have h1 := hlev cc (by simp)
      have h2 := level_zero _ h1.1 h1.2
      simp only [List.map_cons, List.nodup_cons, List.mem_cons, not_or] at hN
      exact hN.1.1 (by rw [hr0, h2])
  rw [hdrop, hnil] at hS
  simpa using hS

/-- C8 (as stated, refuted): for the two points with ICELL 0 and 1, sorted ascending, the first
index being the parent of the second, bodies2twigs and twigs2cells return a root cell (ICELL 0,
the last cell) with NDLEAF = 1, although there are 2 points. -/
theorem twigs2cells_drops_ancestor_leaves :
    (bodies2twigs [0, 0, 0] 1 [⟨[0, 0, 0], 0⟩, ⟨[0, 0, 0], 1⟩] []).bind
        (fun tw => (twigs2cells [0, 0, 0] 1 tw [] []).map
          (fun r => r.1.map (fun c => (c.ICELL, c.NDLEAF))))
      = some [(1, 1), (0, 1)] ∧ getParent 1 = 0 := by
  refine ⟨by rfl, by decide⟩

/-- C8 (amended): for every non-empty point set sorted ascending by non-negative ICELL in which
no point's ICELL is a proper ancestor index of another point's ICELL, bodies2twigs and then
twigs2cells on an empty cell array return, the last cell of the resulting array is the root
(ICELL = 0), and its NDLEAF equals the number of points. -/
theorem twigs2cells_root_count (X0 : List Rat) (R0 : Rat) (bodies : List Body)
    (hne : bodies ≠ []) (h0 : ∀ b ∈ bodies, 0 ≤ b.ICELL)
    (hs : List.Sorted (· ≤ ·) (bodies.map Body.ICELL))
    (hanc : ∀ a ∈ bodies, ∀ b ∈ bodies, ¬ IsProperAncestor a.ICELL b.ICELL) :
    ∃ (twigs cells sticks : List Cell) (root : Cell),
      bodies2twigs X0 R0 bodies [] = some twigs ∧
      twigs2cells X0 R0 twigs [] [] = some (cells, sticks) ∧
      cells.getLast? = some root ∧ root.ICELL = 0 ∧ root.NDLEAF = bodies.length := by
  obtain ⟨twigs, hb2t, htne, hfacts, hsum, hsorted⟩ := bodies2twigs_sorted X0 R0 bodies hne h0 hs
  have ht0 : ∀ t ∈ twigs, 0 ≤ t.ICELL := fun t ht => (hfacts t ht).1
  have htanc : ∀ a ∈ twigs, ∀ b ∈ twigs, ¬ IsProperAncestor a.ICELL b.ICELL := by
    intro a ha b hb
    obtain ⟨-, -, -, -, a', ha', hka⟩ := hfacts a ha
    obtain ⟨-, -, -, -, b', hb', hkb⟩ := hfacts b hb
    rw [hka, hkb]
    exact hanc a' ha' b' hb'
  obtain ⟨c, s, htc, root, h1, h2, h3⟩ := twigs2cells_skeleton X0 R0
    (fun st L pushed => InvBase st L ∧ RootInv st pushed ∧ ∀ t ∈ pushed, t ∈ twigs)
    (fun c _ => ∃ root : Cell, c.getLast? = some root ∧ root.ICELL = 0 ∧
      root.NDLEAF = (twigs.map Cell.NDLEAF).sum)
    (fun t => 0 ≤ t.ICELL ∧ t.NCHILD = 0) twigs [] [] htne
    (fun t ht => ⟨⟨(hfacts t ht).1, (hfacts t ht).2.1⟩, getLevel_nonneg _ (ht0 t ht)⟩)
    (twigs_levels twigs ht0 hsorted)
    (fun t ht => by
      have hm : t ∈ twigs := List.mem_of_getLast?_eq_some ht
      refine ⟨init_invBase t (hfacts t hm).1 (hfacts t hm).2.1 [], init_rootInv t [], ?_⟩
      intro u hu; simp at hu; subst hu; exact hm)
    (fun st L pushed t pre hP hl hg htw =>
      ⟨push_invBase st L t hP.1 hl hg.1 hg.2,
        push_rootInv st L pushed pre twigs t hP.1 hP.2.1 htw hsorted htanc,
        fun u hu => by
          rcases List.mem_cons.1 hu with h | h
          · rw [h, htw]; simp
          · exact hP.2.2 u h⟩)
    (fun st L pushed hP hL => ⟨_, (levelStep_invBase X0 R0 st L hP.1 hL).1,
      (levelStep_invBase X0 R0 st L hP.1 hL).2.1,
      levelStep_rootInv X0 R0 st L pushed hP.1 hP.2.1 hL (fun t ht => ht0 t (hP.2.2 t ht)),
      hP.2.2⟩)
    (fun st hP => by
      obtain ⟨root, _, _, hu, _⟩ := final_unique st hP.1
      exact ⟨_, _, _, hu, final_root st twigs hP.1 hP.2.1⟩)
  exact ⟨twigs, c, s, root, hb2t, htc, h1, h2, by rw [h3, hsum]⟩

theorem twigs2cells_root_count_witness :
    ∃ (twigs cells sticks : List Cell) (root : Cell),
      bodies2twigs [0, 0, 0] 1 [⟨[0, 0, 0], 1⟩, ⟨[0, 0, 0], 2⟩, ⟨[0, 0, 0], 2⟩] [] = some twigs ∧
      twigs2cells [0, 0, 0] 1 twigs [] [] = some (cells, sticks) ∧
      cells.getLast? = some root ∧ root.ICELL = 0 ∧
      root.NDLEAF = [(⟨[0, 0, 0], 1⟩ : Body), ⟨[0, 0, 0], 2⟩, ⟨[0, 0, 0], 2⟩].length :=
  twigs2cells_root_count [0, 0, 0] 1 [⟨[0, 0, 0], 1⟩, ⟨[0, 0, 0], 2⟩, ⟨[0, 0, 0], 2⟩] (by simp)
    (by decide) (by decide)
    (by
      intro a ha b hb ⟨j, h1, h2, h3⟩
      have hb' : b.ICELL = 1 ∨ b.ICELL = 2 := by
        simp at hb; rcases hb with h | h <;> simp [h]
      have ha' : a.ICELL = 1 ∨ a.ICELL = 2 := by
        simp at ha; rcases ha with h | h <;> simp [h]
      have hj : j = 1 := by
        rcases hb' with h | h <;> rw [h] at h2 <;>
          (have : getLevel 1 = 1 := by decide) <;> (have : getLevel 2 = 1 := by decide) <;>
          omega
      subst hj
      rcases hb' with h | h <;> rcases ha' with h' | h' <;> rw [h, h'] at h3 <;>
        revert h3 <;> decide)

/-- C19: for every non-empty body sequence with non-negative cell indices, bodies2twigs returns
and the sum of NDLEAF over the twigs it produces equals the number of bodies. -/
theorem bodies2twigs_noLostPoints (X0 : List Rat) (R0 : Rat) (bodies : List Body)
    (hne : bodies ≠ []) (h0 : ∀ b ∈ bodies, 0 ≤ b.ICELL) :
    ∃ twigs : List Cell, bodies2twigs X0 R0 bodies [] = some twigs ∧
      (twigs.map Cell.NDLEAF).sum = bodies.length := by
  obtain ⟨out, runs, hout, ⟨hflat, hrne, -, -⟩, htw⟩ := bodies2twigs_spec X0 R0 bodies [] hne h0
  refine ⟨out, by simpa using hout, ?_⟩
  have hsum := (twigs_facts runs 0 out htw hrne).2.1
  rw [hsum, hflat]

theorem bodies2twigs_noLostPoints_witness :
    ∃ twigs : List Cell,
      bodies2twigs [0, 0, 0] 1 [⟨[0, 0, 0], 9⟩, ⟨[0, 0, 0], 1⟩, ⟨[0, 0, 0], 9⟩] [] = some twigs ∧
      (twigs.map Cell.NDLEAF).sum = 3 :=
  bodies2twigs_noLostPoints [0, 0, 0] 1 [⟨[0, 0, 0], 9⟩, ⟨[0, 0, 0], 1⟩, ⟨[0, 0, 0], 9⟩]
    (by simp) (by decide)

/-- The final unique pass at level 0 leaves the root last, and every cell before it is
deeper. -/
theorem final_single_root (st : AsmState) (hinv : InvBase st 0) :
    ∃ cs s e, unique st.cells st.sticks st.begin st.end_ = some (cs, s, e) ∧
      ∃ root : Cell, cs.getLast? = some root ∧ root.ICELL = 0 ∧
        ∀ (p : Nat) (x : Cell), cs[p]? = some x → getLevel x.ICELL = 0 → p + 1 = cs.length := by
  obtain ⟨root, hroot, hr0, hu, -⟩ := final_unique st hinv
  obtain ⟨hend, hb, hlev, hlow, hpw, hlink⟩ := hinv
  have htk : st.cells.take (st.begin + 1) = st.cells.take st.begin ++ [root] := by
    rw [List.take_succ, hroot]; rfl
  have hpl : (st.cells.take st.begin).length = st.begin := by
    rw [List.length_take]; omega
  refine ⟨_, _, _, hu, root, ?_, hr0, ?_⟩
  · rw [htk, List.getLast?_concat]
  · intro p x hx hl
    rw [htk] at hx ⊢
    rw [List.length_append, List.length_singleton, hpl]
    by_contra hne
    have hp : p < st.begin := by
      by_contra hp
      rw [List.getElem?_eq_none (by
        rw [List.length_append, List.length_singleton, hpl]; omega)] at hx
      exact absurd hx (by simp)
    rw [List.getElem?_append_left (by rw [hpl]; exact hp)] at hx
    have := hlow x (List.getElem?_mem hx)
    omega

/-- C20: for every non-empty point set sorted ascending by non-negative ICELL, bodies2twigs and
then twigs2cells on an empty cell array return, the last cell of the resulting array has
ICELL = 0, and a cell of the array at depth 0 can only be the last one. -/
theorem twigs2cells_single_root (X0 : List Rat) (R0 : Rat) (bodies : List Body)
    (hne : bodies ≠ []) (h0 : ∀ b ∈ bodies, 0 ≤ b.ICELL)
    (hs : List.Sorted (· ≤ ·) (bodies.map Body.ICELL)) :
    ∃ (twigs cells sticks : List Cell) (root : Cell),
      bodies2twigs X0 R0 bodies [] = some twigs ∧
      twigs2cells X0 R0 twigs [] [] = some (cells, sticks) ∧
      cells.getLast? = some root ∧ root.ICELL = 0 ∧
      ∀ (p : Nat) (x : Cell), cells[p]? = some x → getLevel x.ICELL = 0 →
        p + 1 = cells.length := by
  obtain ⟨twigs, hb2t, htne, hfacts, -, hsorted⟩ := bodies2twigs_sorted X0 R0 bodies hne h0 hs
  have ht0 : ∀ t ∈ twigs, 0 ≤ t.ICELL := fun t ht => (hfacts t ht).1
  obtain ⟨c, s, htc, root, hlast, hr0, honly⟩ :=
    twigs2cells_skeleton X0 R0 (fun st L _ => InvBase st L)
    (fun cs _ => ∃ root : Cell, cs.getLast? = some root ∧ root.ICELL = 0 ∧
      ∀ (p : Nat) (x : Cell), cs[p]? = some x → getLevel x.ICELL = 0 → p + 1 = cs.length)
    (fun t => 0 ≤ t.ICELL ∧ t.NCHILD = 0) twigs [] [] htne
    (fun t ht => ⟨⟨(hfacts t ht).1, (hfacts t ht).2.1⟩, getLevel_nonneg _ (ht0 t ht)⟩)
    (twigs_levels twigs ht0 hsorted)
    (fun t ht => by
      have hm : t ∈ twigs := List.mem_of_getLast?_eq_some ht
      exact init_invBase t (hfacts t hm).1 (hfacts t hm).2.1 [])
    (fun st L _ t _ hP hl hg _ => push_invBase st L t hP hl hg.1 hg.2)
    (fun st L _ hP hL => ⟨_, (levelStep_invBase X0 R0 st L hP hL).1,
      (levelStep_invBase X0 R0 st L hP hL).2.1⟩)
    (fun st hP => final_single_root st hP)
  exact ⟨twigs, c, s, root, hb2t, htc, hlast, hr0, honly⟩

theorem twigs2cells_single_root_witness :
    ∃ (twigs cells sticks : List Cell) (root : Cell),
      bodies2twigs [0, 0, 0] 1 [⟨[0, 0, 0], 0⟩, ⟨[0, 0, 0], 1⟩, ⟨[0, 0, 0], 9⟩] [] = some twigs ∧
      twigs2cells [0, 0, 0] 1 twigs [] [] = some (cells, sticks) ∧
      cells.getLast? = some root ∧ root.ICELL = 0 ∧
      ∀ (p : Nat) (x : Cell), cells[p]? = some x → getLevel x.ICELL = 0 →
        p + 1 = cells.length :=
  twigs2cells_single_root [0, 0, 0] 1 [⟨[0, 0, 0], 0⟩, ⟨[0, 0, 0], 1⟩, ⟨[0, 0, 0], 9⟩] (by simp)
    (by decide) (by decide)

theorem floorLog8Loop_eq : ∀ (fuel n : Nat), n ≤ fuel → floorLog8Loop fuel n = Nat.log 8 n := by
  intro fuel
  induction fuel with
  | zero =>
    intro n hn
    have : n = 0 := by omega
    subst this
    simp [floorLog8Loop]
  | succ f ih =>
    intro n hn
    unfold floorLog8Loop
    by_cases h8 : 8 ≤ n
    · rw [if_pos h8, ih (n / 8) (by omega), Nat.log_of_one_lt_of_le (by norm_num) h8]
    · rw [if_neg h8, Nat.log_of_lt (by omega)]

theorem log8Trunc_natCast (n : Nat) : log8Trunc (n : Int) = (Nat.log 8 n : Int) := by
  unfold log8Trunc
  rw [Int.toNat_natCast, floorLog8Loop_eq n n le_rfl]

theorem getMaxLevel_not_ceil :
    getMaxLevel 8 1 (List.replicate 16 default) = 1 ∧ maxLevelSpec 8 16 = 2 ∧
      getMaxLevel 8 1 (List.replicate 16 default) ≠ maxLevelSpec 8 16 := by
  have h1 : getMaxLevel 8 1 (List.replicate 16 default) = 1 := by decide
  have h2 : maxLevelSpec 8 16 = 2 := by
    unfold maxLevelSpec
    have : Nat.clog 8 ((16 + 8 - 1) / 8) = 1 := by
      rw [show (16 + 8 - 1) / 8 = 2 from rfl]
      exact le_antisymm ((Nat.le_pow_iff_clog_le (by norm_num)).1 (by norm_num))
        (Nat.clog_pos (by norm_num) (by norm_num))
    rw [this]; simp
  refine ⟨h1, h2, ?_⟩
  rw [h1, h2]; decide

/-- C16: for a single partition (MPISIZE = 1), a positive leaf capacity NCRIT and N bodies,
getMaxLevel returns floor(log8(floor(N / NCRIT))) + 1 when N ≥ NCRIT and 0 otherwise, the
floating-point logarithm being taken as the exact base-8 logarithm. -/
theorem getMaxLevel_serial (NCRIT : Nat) (bodies : List Body) (hC : 0 < NCRIT) :
    getMaxLevel NCRIT 1 bodies =
      if NCRIT ≤ bodies.length then (Nat.log 8 (bodies.length / NCRIT) : Int) + 1 else 0 := by
  have hdiv : Int.tdiv ((bodies.length : Int) * ((1 : Nat) : Int)) (NCRIT : Int)
      = ((bodies.length / NCRIT : Nat) : Int) := by
    rw [Int.tdiv_eq_ediv (by positivity) (by positivity)]
    push_cast; simp
  unfold getMaxLevel
  simp only [hdiv, log8Trunc_natCast, if_true]
  by_cases h : NCRIT ≤ bodies.length
  · have h1 : (bodies.length : Int) * ((1 : Nat) : Int) ≥ (NCRIT : Int) := by
      push_cast; omega
    rw [if_pos h1, if_pos h]
    have : ¬ ((0 : Int) > 1 + (Nat.log 8 (bodies.length / NCRIT) : Int)) := by omega
    rw [if_neg this]; ring
  · have h1 : ¬ ((bodies.length : Int) * ((1 : Nat) : Int) ≥ (NCRIT : Int)) := by
      push_cast; omega
    rw [if_neg h1, if_neg h]; simp

theorem getMaxLevel_serial_witness :
    0 < 8 ∧ getMaxLevel 8 1 (List.replicate 100 default) =
      if 8 ≤ (List.replicate 100 (default : Body)).length
      then (Nat.log 8 ((List.replicate 100 (default : Body)).length / 8) : Int) + 1 else 0 :=
  ⟨by decide, getMaxLevel_serial 8 (List.replicate 100 default) (by decide)⟩

/-- C17: for every partition count MPISIZE ≥ 1 and every body sequence, getMaxLevel returns a
depth of at least ceil(log8(MPISIZE)), the floating-point logarithm being taken as the exact
base-8 logarithm. -/
theorem getMaxLevel_covers (NCRIT MPISIZE : Nat) (bodies : List Body) (hP : 1 ≤ MPISIZE) :
    (Nat.clog 8 MPISIZE : Int) ≤ getMaxLevel NCRIT MPISIZE bodies := by
  have hlev : (0 : Int) ≤
      (if (bodies.length : Int) * (MPISIZE : Int) ≥ (NCRIT : Int)
        then 1 + log8Trunc (Int.tdiv ((bodies.length : Int) * (MPISIZE : Int)) (NCRIT : Int))
        else 0) := by
    split
    · unfold log8Trunc; omega
    · exact le_rfl
  unfold getMaxLevel
  by_cases h1 : MPISIZE = 1
  · subst h1
    have : Nat.clog 8 1 = 0 := Nat.clog_one_right 8
    rw [this]
    simp only [if_true]
    split <;> omega
  · have hsub : ((MPISIZE : Int) - 1) = ((MPISIZE - 1 : Nat) : Int) := by omega
    have hcl : Nat.clog 8 MPISIZE ≤ Nat.log 8 (MPISIZE - 1) + 1 := by
      apply (Nat.le_pow_iff_clog_le (by norm_num)).1
      have := Nat.lt_pow_succ_log_self (show 1 < 8 by norm_num) (MPISIZE - 1)
      omega
    simp only [if_neg h1, hsub, log8Trunc_natCast]
    split <;> omega

theorem getMaxLevel_covers_witness :
    1 ≤ 9 ∧ (Nat.clog 8 9 : Int) ≤ getMaxLevel 4 9 (List.replicate 3 default) :=
  ⟨by decide, getMaxLevel_covers 4 9 (List.replicate 3 default) (by decide)⟩

theorem getMaxLevel_nonneg (NCRIT MPISIZE : Nat) (bodies : List Body) :
    0 ≤ getMaxLevel NCRIT MPISIZE bodies := by
  unfold getMaxLevel
  have h1 : ∀ x : Int, 0 ≤ log8Trunc x := fun x => by unfold log8Trunc; omega
  have := h1 (Int.tdiv ((bodies.length : Int) * (MPISIZE : Int)) (NCRIT : Int))
  have := h1 ((MPISIZE : Int) - 1)
  simp only []
  split_ifs <;> omega

theorem bottomupKey_isSome (X0 : List Rat) (R0 : Rat) (level : Int) (X : List Rat)
    (hl : 0 ≤ level) : ∃ key, bottomupKey X0 R0 level X = some key := by
  unfold bottomupKey
  simp only [if_neg (not_lt.2 hl)]
  exact ⟨_, rfl⟩

/-- The loop of setIndex_bottomup returns on a range inside the body array, leaves the bodies
outside the range as they are, and stores the new key or keeps the body as the update mode
says. -/
theorem setIndexLoop_spec (X0 : List Rat) (R0 : Rat) (level : Int) (update : Bool)
    (hl : 0 ≤ level) (end_ : Nat) : ∀ (fuel b : Nat) (bodies : List Body),
    b + fuel = end_ → end_ ≤ bodies.length →
    ∃ bodies1 : List Body, setIndexLoop X0 R0 level update fuel b end_ bodies = some bodies1 ∧
      bodies1.length = bodies.length ∧
      (∀ k : Nat, k < b ∨ end_ ≤ k → bodies1[k]? = bodies[k]?) ∧
      (∀ (k : Nat) (B : Body), b ≤ k → k < end_ → bodies[k]? = some B →
        ∃ key, bottomupKey X0 R0 level B.X = some key ∧
          bodies1[k]? = some
            (if !update then { B with ICELL := key }
             else if key > B.ICELL then { B with ICELL := key } else B)) := by
  intro fuel
  induction fuel with
  | zero =>
    intro b bodies hb _
    have : b = end_ := by omega
    refine ⟨bodies, by simp [setIndexLoop, this], rfl, fun _ _ => rfl, ?_⟩
    intro k B h1 h2; omega
  | succ f ih =>
    intro b bodies hb he
    have hne : b ≠ end_ := by omega
    have hbl : b < bodies.length := by omega
    obtain ⟨key, hkey⟩ := bottomupKey_isSome X0 R0 level (bodies[b]).X hl
    obtain ⟨bodies1, h1, h2, h3, h4⟩ := ih (b + 1)
      (bodies.set b (if !update then { bodies[b] with ICELL := key }
                     else if key > (bodies[b]).ICELL then { bodies[b] with ICELL := key }
                     else bodies[b]))
      (by omega) (by rw [List.length_set]; exact he)
    refine ⟨bodies1, ?_, ?_, ?_, ?_⟩
    · unfold setIndexLoop
      simp only [if_neg hne, List.getElem?_eq_getElem hbl, Option.bind_eq_bind, Option.some_bind,
        hkey]
      exact h1
    · rw [h2, List.length_set]
    · intro k hk
      rw [h3 k (by omega), List.getElem?_set_ne (by omega)]
    · intro k B hk1 hk2 hB
      by_cases hkb : k = b
      · subst hkb
        have hBe : bodies[k] = B := by
          rw [List.getElem?_eq_getElem hbl] at hB
          exact Option.some.inj hB
        refine ⟨key, by rw [← hBe]; exact hkey, ?_⟩
        rw [h3 k (Or.inl (by omega)), List.getElem?_set_self hbl, hBe]
      · have hB1 : (bodies.set b (if !update then { bodies[b] with ICELL := key }
                     else if key > (bodies[b]).ICELL then { bodies[b] with ICELL := key }
                     else bodies[b]))[k]? = some B := by
          rw [List.getElem?_set_ne (by omega)]; exact hB
        exact h4 k B (by omega) hk2 hB1

/-- C18: for every body sequence, level lev ≥ 0 (the level passed, or getMaxLevel when -1 is
passed) and range [begin, e) inside the sequence (e the end passed, or the number of bodies
when 0 is passed), setIndex_bottomup with update = true returns; every body keeps its position
and gets an ICELL not below its old one; for the bodies in the range the new ICELL is the
maximum of the old one and the key computed at level lev, and the bodies outside the range are
unchanged. -/
theorem setIndex_bottomup_monotone (NCRIT MPISIZE : Nat) (X0 : List Rat) (R0 : Rat)
    (bodies : List Body) (level lev : Int) (begin end_ e : Nat)
    (hlev : lev = if level = -1 then getMaxLevel NCRIT MPISIZE bodies else level)
    (he : e = if end_ = 0 then bodies.length else end_)
    (hl : -1 ≤ level) (hbe : begin ≤ e) (hel : e ≤ bodies.length) :
    ∃ bodies1 : List Body,
      setIndex_bottomup NCRIT MPISIZE X0 R0 bodies level begin end_ true = some bodies1 ∧
      bodies1.length = bodies.length ∧
      ∀ (k : Nat) (B : Body), bodies[k]? = some B →
        ∃ B1 : Body, bodies1[k]? = some B1 ∧ B1.X = B.X ∧ B.ICELL ≤ B1.ICELL ∧
          (begin ≤ k → k < e →
            ∃ key, bottomupKey X0 R0 lev B.X = some key ∧ B1.ICELL = max B.ICELL key) ∧
          (k < begin ∨ e ≤ k → B1 = B) := by
  have hl0 : 0 ≤ lev := by
    rw [hlev]
    split
    · exact getMaxLevel_nonneg _ _ _
    · omega
  obtain ⟨bodies1, h1, h2, h3, h4⟩ :=
    setIndexLoop_spec X0 R0 lev true hl0 e (e - begin) begin bodies (by omega) hel
  refine ⟨bodies1, ?_, h2, ?_⟩
  · unfold setIndex_bottomup
    simp only [← hlev, ← he]
    exact h1
  · intro k B hB
    by_cases hin : begin ≤ k ∧ k < e
    · obtain ⟨key, hk1, hk2⟩ := h4 k B hin.1 hin.2 hB
      simp only [Bool.not_true, Bool.false_eq_true, if_false] at hk2
      by_cases hgt : key > B.ICELL
      · rw [if_pos hgt] at hk2
        refine ⟨_, hk2, rfl, le_of_lt hgt, fun _ _ => ⟨key, hk1, ?_⟩, fun h => by omega⟩
        exact (max_eq_right (le_of_lt hgt)).symm
      · rw [if_neg hgt] at hk2
        refine ⟨_, hk2, rfl, le_rfl, fun _ _ => ⟨key, hk1, ?_⟩, fun _ => rfl⟩
        exact (max_eq_left (not_lt.1 hgt)).symm
    · have hout : k < begin ∨ e ≤ k := by omega
      refine ⟨B, by rw [h3 k hout]; exact hB, rfl, le_rfl, fun a b => absurd ⟨a, b⟩ hin,
        fun _ => rfl⟩

theorem setIndex_bottomup_monotone_witness :
    ∃ bodies1 : List Body,
      setIndex_bottomup 4 1 [0, 0, 0] 1 [⟨[0, 0, 0], 100⟩, ⟨[0, 0, 0], 3⟩, ⟨[0, 0, 0], 5⟩] 1 1 2
        true = some bodies1 ∧
      bodies1.length = [(⟨[0, 0, 0], 100⟩ : Body), ⟨[0, 0, 0], 3⟩, ⟨[0, 0, 0], 5⟩].length ∧
      ∀ (k : Nat) (B : Body),
        [(⟨[0, 0, 0], 100⟩ : Body), ⟨[0, 0, 0], 3⟩, ⟨[0, 0, 0], 5⟩][k]? = some B →
        ∃ B1 : Body, bodies1[k]? = some B1 ∧ B1.X = B.X ∧ B.ICELL ≤ B1.ICELL ∧
          (1 ≤ k → k < 2 →
            ∃ key, bottomupKey [0, 0, 0] 1 1 B.X = some key ∧ B1.ICELL = max B.ICELL key) ∧
          (k < 1 ∨ 2 ≤ k → B1 = B) :=
  setIndex_bottomup_monotone 4 1 [0, 0, 0] 1 [⟨[0, 0, 0], 100⟩, ⟨[0, 0, 0], 3⟩, ⟨[0, 0, 0], 5⟩]
    1 1 1 2 2 (by decide) (by decide) (by decide) (by decide) (by decide)

theorem shiftRight_one (x : Int) : Int.shiftRight x 1 = x / 2 := by
  have := Int.shiftRight_eq_div_pow x 1
  simp only [HShiftRight.hShiftRight] at this
  rw [this]; norm_num

theorem shl_natCast (x : Int) (n : Nat) : shl x (n : Int) = x * 2 ^ n := by
  unfold shl
  rw [Int.toNat_natCast]

theorem interleaveRound (l : Nat) (i a b c : Int) (ha : 0 ≤ a) (hb : 0 ≤ b) (hc : 0 ≤ c) :
    (List.range 3).foldl (interleaveStep l) (i, [a, b, c])
      = (i + (a % 2 + 2 * (b % 2) + 4 * (c % 2)) * 8 ^ l, [a / 2, b / 2, c / 2]) := by
  have h3 : List.range 3 = [0, 1, 2] := rfl
  have e8 : (2 : Int) ^ (3 * l) = 8 ^ l := by rw [pow_mul]; norm_num
  rw [h3]
  simp only [List.foldl_cons, List.foldl_nil, interleaveStep, shl_natCast, shiftRight_one,
    List.getD_cons_zero, List.getD_cons_succ, List.set_cons_zero, List.set_cons_succ,
    Int.tmod_eq_emod ha (by norm_num : (0 : Int) ≤ 2),
    Int.tmod_eq_emod hb (by norm_num : (0 : Int) ≤ 2),
    Int.tmod_eq_emod hc (by norm_num : (0 : Int) ≤ 2)]
  refine Prod.ext ?_ rfl
  simp only [pow_add, e8]
  ring

theorem interleaveLoop_fst : ∀ (n l : Nat) (i a b c : Int), 0 ≤ a → 0 ≤ b → 0 ≤ c →
    (interleaveLoop n l (i, [a, b, c])).1 = i + 8 ^ l * interleaveKey n a b c := by
  intro n
  induction n with
  | zero => intro l i a b c _ _ _; simp [interleaveLoop, interleaveKey]
  | succ n ih =>
    intro l i a b c ha hb hc
    unfold interleaveLoop interleaveKey
    rw [interleaveRound l i a b c ha hb hc,
      ih (l + 1) _ _ _ _ (Int.ediv_nonneg ha (by norm_num)) (Int.ediv_nonneg hb (by norm_num))
        (Int.ediv_nonneg hc (by norm_num))]
    ring

theorem interleaveKey_bounds : ∀ (n : Nat) (a b c : Int),
    0 ≤ interleaveKey n a b c ∧ interleaveKey n a b c < 8 ^ n := by
  intro n
  induction n with
  | zero => intro a b c; simp [interleaveKey]
  | succ n ih =>
    intro a b c
    obtain ⟨h1, h2⟩ := ih (a / 2) (b / 2) (c / 2)
    unfold interleaveKey
    have hp : (8 : Int) ^ (n + 1) = 8 * 8 ^ n := by ring
    rw [hp]
    constructor <;> omega

theorem deinterleaveLoop_zero (f d : Nat) (lev : Int) (nx : List Int) :
    deinterleaveLoop (f + 1) 0 d lev nx = some nx := by
  simp [deinterleaveLoop]

theorem deinterleaveLoop_succ (f d : Nat) (index lev : Int) (nx : List Int) (h : index ≠ 0) :
    deinterleaveLoop (f + 1) index d lev nx =
      deinterleaveLoop f (index / 2) ((d + 1) % 3)
        (if (d + 1) % 3 = 0 then lev + 1 else lev)
        (nx.set d (nx.getD d 0 + Int.tmod index 2 * shl 1 lev)) := by
  rw [deinterleaveLoop, if_pos h, shiftRight_one]

theorem deinterleaveLoop_mono : ∀ (f d : Nat) (index lev : Int) (nx r : List Int),
    deinterleaveLoop f index d lev nx = some r →
    deinterleaveLoop (f + 1) index d lev nx = some r := by
  intro f
  induction f with
  | zero => intro d index lev nx r h; simp [deinterleaveLoop] at h
  | succ f ih =>
    intro d index lev nx r h
    by_cases hz : index = 0
    · subst hz
      rw [deinterleaveLoop_zero] at h ⊢
      exact h
    · rw [deinterleaveLoop_succ _ _ _ _ _ hz] at h ⊢
      exact ih _ _ _ _ _ h

theorem deinterleaveLoop_mono_add (k : Nat) : ∀ (f d : Nat) (index lev : Int) (nx r : List Int),
    deinterleaveLoop f index d lev nx = some r →
    deinterleaveLoop (f + k) index d lev nx = some r := by
  induction k with
  | zero => intro f d index lev nx r h; exact h
  | succ k ih =>
    intro f d index lev nx r h
    exact deinterleaveLoop_mono _ _ _ _ _ _ (ih _ _ _ _ _ _ h)

theorem deinterleave_three (f m : Nat) (index x y z : Int) (h0 : 0 ≤ index) :
    deinterleaveLoop (f + 4) index 0 (m : Int) [x, y, z] =
      deinterleaveLoop (f + 1) (index / 8) 0 ((m + 1 : Nat) : Int)
        [x + index % 2 * 2 ^ m, y + index / 2 % 2 * 2 ^ m, z + index / 4 % 2 * 2 ^ m] := by
  have e2 : (0 : Int) ≤ 2 := by norm_num
  by_cases hz : index = 0
  · subst hz
    rw [deinterleaveLoop_zero]
    simp [deinterleaveLoop_zero]
  rw [deinterleaveLoop_succ _ _ _ _ _ hz]
  simp only [Nat.zero_add, Nat.one_mod, one_ne_zero, if_false, List.getD_cons_zero,
    List.set_cons_zero, shl_natCast, Int.tmod_eq_emod h0 e2, one_mul]
  by_cases h1 : index / 2 = 0
  · have h8 : index / 8 = 0 := by omega
    have h4 : index / 4 = 0 := by omega
    rw [h1, h8, h4, deinterleaveLoop_zero, deinterleaveLoop_zero]
    simp
  rw [deinterleaveLoop_succ _ _ _ _ _ h1]
  simp only [Nat.reduceAdd, Nat.reduceMod, OfNat.ofNat_ne_zero, if_false,
    List.getD_cons_zero, List.getD_cons_succ,
    List.set_cons_zero, List.set_cons_succ, shl_natCast,
    Int.tmod_eq_emod (show 0 ≤ index / 2 by omega) e2, one_mul]
  have h24 : index / 2 / 2 = index / 4 := by omega
  rw [h24]
  by_cases h2 : index / 4 = 0
  · have h8 : index / 8 = 0 := by omega
    rw [h2, h8, deinterleaveLoop_zero, deinterleaveLoop_zero]
    simp
  rw [deinterleaveLoop_succ _ _ _ _ _ h2]
  simp only [Nat.reduceAdd, Nat.mod_self, if_true,
    List.getD_cons_zero, List.getD_cons_succ,
    List.set_cons_zero, List.set_cons_succ, shl_natCast,
    Int.tmod_eq_emod (show 0 ≤ index / 4 by omega) e2, one_mul]
  have h48 : index / 4 / 2 = index / 8 := by omega
  rw [h48]
  push_cast
  rfl

theorem bit_join (a P : Int) : a % 2 * P + a / 2 * (2 * P) = a * P := by
  have h := Int.emod_add_ediv a 2
  calc a % 2 * P + a / 2 * (2 * P) = (a % 2 + 2 * (a / 2)) * P := by ring
    _ = a * P := by rw [h]

theorem deinterleave_interleaveKey : ∀ (n m : Nat) (a b c x y z : Int),
    0 ≤ a → a < 2 ^ n → 0 ≤ b → b < 2 ^ n → 0 ≤ c → c < 2 ^ n →
    deinterleaveLoop (3 * n + 1) (interleaveKey n a b c) 0 (m : Int) [x, y, z]
      = some [x + a * 2 ^ m, y + b * 2 ^ m, z + c * 2 ^ m] := by
  intro n
  induction n with
  | zero =>
    intro m a b c x y z ha ha' hb hb' hc hc'
    have : a = 0 := by simp at ha'; omega
    have : b = 0 := by simp at hb'; omega
    have : c = 0 := by simp at hc'; omega
    subst_vars
    simp [interleaveKey, deinterleaveLoop_zero]
  | succ n ih =>
    intro m a b c x y z ha ha' hb hb' hc hc'
    have hp : (2 : Int) ^ (n + 1) = 2 * 2 ^ n := by ring
    rw [hp] at ha' hb' hc'
    obtain ⟨k0, k1⟩ := interleaveKey_bounds n (a / 2) (b / 2) (c / 2)
    have hf : 3 * (n + 1) + 1 = 3 * n + 4 := by ring
    have hk : interleaveKey (n + 1) a b c
        = a % 2 + 2 * (b % 2) + 4 * (c % 2) + 8 * interleaveKey n (a / 2) (b / 2) (c / 2) := rfl
    rw [hf, deinterleave_three _ _ _ _ _ _ (by rw [hk]; omega)]
    have i8 : interleaveKey (n + 1) a b c / 8 = interleaveKey n (a / 2) (b / 2) (c / 2) := by
      rw [hk]; omega
    have i0 : interleaveKey (n + 1) a b c % 2 = a % 2 := by
      rw [hk]; omega
    have i1 : interleaveKey (n + 1) a b c / 2 % 2 = b % 2 := by
      rw [hk]; omega
    have i2 : interleaveKey (n + 1) a b c / 4 % 2 = c % 2 := by
      rw [hk]; omega
    rw [i8, i0, i1, i2, ih (m + 1) (a / 2) (b / 2) (c / 2) _ _ _ (by omega) (by omega) (by omega)
      (by omega) (by omega) (by omega)]
    have hq : (2 : Int) ^ (m + 1) = 2 * 2 ^ m := by ring
    rw [hq, add_assoc, add_assoc, add_assoc, bit_join, bit_join, bit_join]

theorem keySum_inner (l : Nat) (a b c : Int) :
    ((List.range 3).map (fun d => ([a, b, c].getD d 0 / 2 ^ l % 2) * 2 ^ (3 * l + d))).sum
      = (a / 2 ^ l % 2 + 2 * (b / 2 ^ l % 2) + 4 * (c / 2 ^ l % 2)) * 8 ^ l := by
  have h3 : List.range 3 = [0, 1, 2] := rfl
  have e8 : (2 : Int) ^ (3 * l) = 8 ^ l := by rw [pow_mul]; norm_num
  rw [h3]
  simp only [List.map_cons, List.map_nil, List.sum_cons, List.sum_nil, List.getD_cons_zero,
    List.getD_cons_succ, pow_add, e8]
  ring

theorem keySum_eq_interleaveKey : ∀ (L : Nat) (a b c : Int),
    keySum L [a, b, c] = interleaveKey L a b c := by
  intro L
  induction L with
  | zero => intro a b c; simp [keySum, interleaveKey]
  | succ L ih =>
    intro a b c
    have hk : interleaveKey (L + 1) a b c
        = a % 2 + 2 * (b % 2) + 4 * (c % 2) + 8 * interleaveKey L (a / 2) (b / 2) (c / 2) := rfl
    rw [hk, ← ih]
    unfold keySum
    simp only [keySum_inner]
    rw [List.range_succ_eq_map, List.map_cons, List.sum_cons, List.map_map]
    have hstep : ∀ l : Nat,
        ((fun l : Nat => (a / 2 ^ l % 2 + 2 * (b / 2 ^ l % 2) + 4 * (c / 2 ^ l % 2)) * 8 ^ l)
          ∘ Nat.succ) l
        = 8 * ((a / 2 / 2 ^ l % 2 + 2 * (b / 2 / 2 ^ l % 2) + 4 * (c / 2 / 2 ^ l % 2)) * 8 ^ l) := by
      intro l
      have hd : ∀ x : Int, x / 2 ^ (l + 1) = x / 2 / 2 ^ l := by
        intro x
        apply eq_of_forall_le_iff
        intro t
        rw [Int.le_ediv_iff_mul_le (by positivity), Int.le_ediv_iff_mul_le (by positivity),
          Int.le_ediv_iff_mul_le (by norm_num), pow_succ, mul_assoc]
      simp only [Function.comp, Nat.succ_eq_add_one, hd]
      ring
    rw [List.map_congr_left (fun l _ => hstep l), List.sum_map_mul_left]
    simp

/-- The key `offset L` plus the interleaved bits of three coordinates below `2^L` has level `L`,
and getCenter de-interleaves the coordinates from it. -/
theorem getCenterNx_key (L : Nat) (n0 n1 n2 : Int)
    (h0 : 0 ≤ n0 ∧ n0 < 2 ^ L) (h1 : 0 ≤ n1 ∧ n1 < 2 ^ L) (h2 : 0 ≤ n2 ∧ n2 < 2 ^ L) :
    getLevel (offset L + interleaveKey L n0 n1 n2) = (L : Int) ∧
      getCenterNx (offset L + interleaveKey L n0 n1 n2) = some [n0, n1, n2] := by
  obtain ⟨b0, b1⟩ := interleaveKey_bounds L n0 n1 n2
  have hlev : getLevel (offset L + interleaveKey L n0 n1 n2) = (L : Int) :=
    getLevel_eq_of_bounds (by omega) (by rw [offset_succ]; omega)
  refine ⟨hlev, ?_⟩
  have hd := deinterleave_interleaveKey L 0 n0 n1 n2 0 0 0 h0.1 h0.2 h1.1 h1.2 h2.1 h2.2
  simp only [pow_zero, mul_one, zero_add] at hd
  unfold getCenterNx
  simp only [hlev, cellOffset_eq]
  have hidx : offset L + interleaveKey L n0 n1 n2 - offset L = interleaveKey L n0 n1 n2 := by
    omega
  rw [hidx]
  obtain ⟨r, hr⟩ := deinterleaveLoop_isSome ((interleaveKey L n0 n1 n2).toNat + 1)
    (interleaveKey L n0 n1 n2) 0 0 [0, 0, 0] b0 (by push_cast; omega)
  have e1 := deinterleaveLoop_mono_add (3 * L + 1) _ _ _ _ _ _ hr
  have e2 := deinterleaveLoop_mono_add ((interleaveKey L n0 n1 n2).toNat + 1) _ _ _ _ _ _ hd
  rw [Nat.add_comm] at e2
  simp only [Nat.cast_zero] at e2
  rw [e1] at e2
  rw [hr, e2]

/-- C15: for every depth L and every integer coordinate triple with 0 ≤ nx[d] < 2^L, the key
k = i + off that the level loop of setIndex_bottomup builds (off being the offset expression of
the code) equals offset(L) plus the sum over l < L and d < 3 of bit l of nx[d] shifted to
position 3l + d; getLevel(k) = L, and the coordinates that getCenter de-interleaves from k are
(nx[0], nx[1], nx[2]). -/
theorem interleave_roundtrip (L : Nat) (n0 n1 n2 k : Int)
    (h0 : 0 ≤ n0 ∧ n0 < 2 ^ L) (h1 : 0 ≤ n1 ∧ n1 < 2 ^ L) (h2 : 0 ≤ n2 ∧ n2 < 2 ^ L)
    (hk : k = (interleaveLoop L 0 (0, [n0, n1, n2])).1 + Int.tdiv (shl 1 (3 * (L : Int)) - 1) 7) :
    k = offset L + keySum L [n0, n1, n2] ∧ getLevel k = (L : Int) ∧
      getCenterNx k = some [n0, n1, n2] := by
  have hi := interleaveLoop_fst L 0 0 n0 n1 n2 h0.1 h1.1 h2.1
  simp only [pow_zero, one_mul, zero_add] at hi
  rw [hi, cellOffset_eq, add_comm] at hk
  obtain ⟨a1, a2⟩ := getCenterNx_key L n0 n1 n2 h0 h1 h2
  rw [hk]
  exact ⟨by rw [keySum_eq_interleaveKey], a1, a2⟩

theorem interleave_roundtrip_witness :
    (0 ≤ (5 : Int) ∧ (5 : Int) < 2 ^ 3) ∧ (0 ≤ (2 : Int) ∧ (2 : Int) < 2 ^ 3) ∧
      (0 ≤ (7 : Int) ∧ (7 : Int) < 2 ^ 3) ∧
      (446 : Int) = offset 3 + keySum 3 [5, 2, 7] ∧ getLevel 446 = ((3 : Nat) : Int) ∧
      getCenterNx 446 = some [5, 2, 7] :=
  ⟨by decide, by decide, by decide,
    interleave_roundtrip 3 5 2 7 446 (by decide) (by decide) (by decide) (by decide)⟩

theorem addChild_eq (NCRIT octant i : Nat) (nodes : List Node) :
    addChild NCRIT octant i nodes =
      nodes.set i { nodes.getD i default with
        ICHILD := (nodes.getD i default).ICHILD ||| (1 <<< octant),
        CHILD := (nodes.getD i default).CHILD.set octant nodes.length }
      ++ [childNode NCRIT (nodes.getD i default) octant] := rfl

theorem getOctant_eq (X : List Rat) (i : Nat) (nodes : List Node) :
    getOctant X i nodes
      = (if X.getD 0 0 > (nodes.getD i default).X.getD 0 0 then 1 else 0)
        + 2 * (if X.getD 1 0 > (nodes.getD i default).X.getD 1 0 then 1 else 0)
        + 4 * (if X.getD 2 0 > (nodes.getD i default).X.getD 2 0 then 1 else 0) := by
  have h3 : List.range 3 = [0, 1, 2] := rfl
  unfold getOctant
  rw [h3]
  simp only [List.foldl_cons, List.foldl_nil, Nat.shiftLeft_eq]
  split_ifs <;> rfl

theorem getOctant_lt (X : List Rat) (i : Nat) (nodes : List Node) : getOctant X i nodes < 8 := by
  rw [getOctant_eq]
  split_ifs <;> decide

theorem octant_bit (b0 b1 b2 d : Nat) (h0 : b0 ≤ 1) (h1 : b1 ≤ 1) (h2 : b2 ≤ 1) (hd : d < 3) :
    ((b0 + 2 * b1 + 4 * b2) &&& (1 <<< d)) >>> d = if d = 0 then b0 else if d = 1 then b1 else b2 := by
  interval_cases b0 <;> interval_cases b1 <;> interval_cases b2 <;> interval_cases d <;> rfl

theorem childNode_X (NCRIT : Nat) (N : Node) (o d : Nat) (hd : d < 3) :
    (childNode NCRIT N o).X.getD d 0 = childCoord (N.X.getD d 0) (N.R / 2) o d := by
  have h3 : List.range 3 = [0, 1, 2] := rfl
  unfold childNode
  simp only [h3, List.map_cons, List.map_nil]
  interval_cases d <;> rfl

theorem interleaveKey_child (l : Nat) (a b c : Int) (b0 b1 b2 : Nat)
    (h0 : b0 ≤ 1) (h1 : b1 ≤ 1) (h2 : b2 ≤ 1) :
    interleaveKey (l + 1) (2 * a + b0) (2 * b + b1) (2 * c + b2)
      = 8 * interleaveKey l a b c + ((b0 + 2 * b1 + 4 * b2 : Nat) : Int) := by
  have hk : interleaveKey (l + 1) (2 * a + b0) (2 * b + b1) (2 * c + b2)
      = (2 * a + b0) % 2 + 2 * ((2 * b + b1) % 2) + 4 * ((2 * c + b2) % 2)
        + 8 * interleaveKey l ((2 * a + b0) / 2) ((2 * b + b1) / 2) ((2 * c + b2) / 2) := rfl
  have e1 : (2 * a + (b0 : Int)) / 2 = a := by omega
  have e2 : (2 * b + (b1 : Int)) / 2 = b := by omega
  have e3 : (2 * c + (b2 : Int)) / 2 = c := by omega
  rw [hk, e1, e2, e3]
  push_cast
  omega

theorem childNode_geo (NCRIT : Nat) (X0 : List Rat) (R0 : Rat) (N : Node) (l : Nat)
    (n : Nat → Int) (bit : Nat → Nat) (hb : ∀ d, bit d ≤ 1) (hg : NodeGeo X0 R0 N l n) :
    NodeGeo X0 R0 (childNode NCRIT N (bit 0 + 2 * bit 1 + 4 * bit 2)) (l + 1)
      (fun d => 2 * n d + bit d) := by
  obtain ⟨hl, hr, hi, hx⟩ := hg
  have hR : (childNode NCRIT N (bit 0 + 2 * bit 1 + 4 * bit 2)).R = R0 / 2 ^ (l + 1) := by
    show N.R / 2 = _
    rw [hr, pow_succ]; field_simp
  refine ⟨?_, hR, ?_, ?_⟩
  · show N.LEVEL + 1 = _
    rw [hl]; push_cast; rfl
  · show shl (N.I - Int.tdiv (shl 1 (3 * N.LEVEL) - 1) 7) 3 + _
      + Int.tdiv (shl 1 (3 * (N.LEVEL + 1)) - 1) 7 = _
    have hl1 : N.LEVEL + 1 = ((l + 1 : Nat) : Int) := by rw [hl]; push_cast; rfl
    rw [hl1, hl, cellOffset_eq, cellOffset_eq, shl_three, hi,
      interleaveKey_child l _ _ _ _ _ _ (hb 0) (hb 1) (hb 2)]
    ring
  · intro d hd
    obtain ⟨a1, a2, a3⟩ := hx d hd
    have hbd := hb d
    refine ⟨by positivity, ?_, ?_⟩
    · have : (2 : Int) ^ (l + 1) = 2 * 2 ^ l := by ring
      show 2 * n d + (bit d : Int) < _
      rw [this]; omega
    · rw [hR, childNode_X NCRIT N _ d hd]
      unfold childCoord
      rw [octant_bit _ _ _ d (hb 0) (hb 1) (hb 2) hd, a3, hr]
      have hbit : (if d = 0 then bit 0 else if d = 1 then bit 1 else bit 2) = bit d := by
        interval_cases d <;> rfl
      rw [hbit, pow_succ]
      show _ = _ + (2 * ((2 * n d + (bit d : Int) : Int) : Rat) + 1) * _
      push_cast
      field_simp
      ring

theorem rootNode_geo (NCRIT : Nat) (X0 : List Rat) (R0 : Rat) :
    NodeGeo X0 R0 (rootNode NCRIT X0 R0) 0 (fun _ => 0) := by
  refine ⟨rfl, by simp [rootNode], by simp [rootNode, offset, interleaveKey], ?_⟩
  intro d _
  simp [rootNode]

theorem truncToInt_eq_floor (q : Rat) (h : 0 ≤ q) : truncToInt q = ⌊q⌋ := by
  unfold truncToInt
  rw [Rat.floor_def, Int.tdiv_eq_ediv (Rat.num_nonneg.2 h) (by positivity)]

/-- One descent step on the cell coordinate: with `n = ⌊s / 2⌋` and `s` different from
`2 * n + 1`, the coordinate of the child on the side of the point is `⌊s⌋`. -/
theorem floor_step (s : Rat) (n : Int) (hn : n = ⌊s / 2⌋) (hs : s ≠ 2 * (n : Rat) + 1) :
    2 * n + (if s > 2 * (n : Rat) + 1 then (1 : Nat) else 0 : Nat) = ⌊s⌋ := by
  have h := Int.floor_eq_iff.1 hn.symm
  obtain ⟨h1, h2⟩ := h
  have h1' : 2 * (n : Rat) ≤ s := by linarith
  have h2' : s < 2 * (n : Rat) + 2 := by linarith
  symm
  rw [Int.floor_eq_iff]
  by_cases hgt : s > 2 * (n : Rat) + 1
  · rw [if_pos hgt]
    push_cast
    constructor <;> linarith
  · rw [if_neg hgt]
    push_cast
    have : s < 2 * (n : Rat) + 1 := lt_of_le_of_ne (not_lt.1 hgt) hs
    constructor <;> linarith

/-- The point is above the centre of a node with coordinate `n` at depth `l` exactly when its
scaled offset `u * 2^l / R0` is above `2 * n + 1`. -/
theorem above_centre_iff (R0 u c R : Rat) (l : Nat) (n : Int) (hR0 : 0 < R0)
    (hR : R = R0 / 2 ^ l) (x xmin : Rat) (hu : u = x - xmin)
    (hc : c = xmin + (2 * (n : Rat) + 1) * R) :
    x > c ↔ u * 2 ^ l / R0 > 2 * (n : Rat) + 1 := by
  have hp : (0 : Rat) < 2 ^ l := by positivity
  rw [gt_iff_lt, gt_iff_lt, lt_div_iff₀ hR0, hc, hR, hu]
  constructor
  · intro h
    have h1 : (2 * (n : Rat) + 1) * R0 / 2 ^ l < x - xmin := by
      rw [mul_div_assoc]; linarith
    exact (div_lt_iff₀ hp).1 h1
  · intro h
    have h1 := (div_lt_iff₀ hp).2 h
    rw [mul_div_assoc] at h1
    linarith

theorem descendTo_geo (NCRIT : Nat) (X0 : List Rat) (R0 : Rat) (X : List Rat) (hR0 : 0 < R0) :
    ∀ (k l i : Nat) (nodes : List Node) (N : Node) (n : Nat → Int),
    nodes[i]? = some N → N.CHILD.length = 8 → NodeGeo X0 R0 N l n →
    (∀ d, d < 3 → n d = ⌊(X.getD d 0 - (X0.getD d 0 - R0)) * 2 ^ l / R0 / 2⌋) →
    (∀ d, d < 3 → ∀ j, l ≤ j → j < l + k → ∀ z : Int,
      (X.getD d 0 - (X0.getD d 0 - R0)) * 2 ^ j / R0 ≠ 2 * (z : Rat) + 1) →
    ∃ (j : Nat) (nodes1 : List Node) (N1 : Node) (n1 : Nat → Int),
      descendTo NCRIT X k i nodes = some (j, nodes1) ∧ nodes1[j]? = some N1 ∧
      NodeGeo X0 R0 N1 (l + k) n1 ∧
      ∀ d, d < 3 → n1 d = ⌊(X.getD d 0 - (X0.getD d 0 - R0)) * 2 ^ (l + k) / R0 / 2⌋ := by
  intro k
  induction k with
  | zero =>
    intro l i nodes N n hN _ hg hn _
    exact ⟨i, nodes, N, n, rfl, hN, hg, hn⟩
  | succ k ih =>
    intro l i nodes N n hN hC hg hn hodd
    have hi : i < nodes.length := by
      by_contra h
      rw [List.getElem?_eq_none (by omega)] at hN
      exact absurd hN (by simp)
    have hgd : nodes.getD i default = N := by
      rw [List.getD_eq_getElem?_getD, hN]; rfl
    let bit : Nat → Nat := fun d => if X.getD d 0 > N.X.getD d 0 then 1 else 0
    have hbit : ∀ d, bit d ≤ 1 := by
      intro d; show (if _ then 1 else 0) ≤ 1; split <;> omega
    have hoct : getOctant X i nodes = bit 0 + 2 * bit 1 + 4 * bit 2 := by
      rw [getOctant_eq, hgd]
    have holt : getOctant X i nodes < 8 := getOctant_lt X i nodes
    have hgc := childNode_geo NCRIT X0 R0 N l n bit hbit hg
    have hnew : ∀ d, d < 3 → 2 * n d + (bit d : Int)
        = ⌊(X.getD d 0 - (X0.getD d 0 - R0)) * 2 ^ (l + 1) / R0 / 2⌋ := by
      intro d hd
      obtain ⟨-, hr, -, hx⟩ := hg
      obtain ⟨-, -, hxd⟩ := hx d hd
      have hs := floor_step ((X.getD d 0 - (X0.getD d 0 - R0)) * 2 ^ l / R0) (n d) (hn d hd)
        (hodd d hd l le_rfl (by omega) (n d))
      have hiff := above_centre_iff R0 (X.getD d 0 - (X0.getD d 0 - R0)) (N.X.getD d 0) N.R l
        (n d) hR0 hr (X.getD d 0) (X0.getD d 0 - R0) rfl hxd
      have e : (X.getD d 0 - (X0.getD d 0 - R0)) * 2 ^ (l + 1) / R0 / 2
          = (X.getD d 0 - (X0.getD d 0 - R0)) * 2 ^ l / R0 := by
        rw [pow_succ]; field_simp; ring
      rw [e, ← hs]
      show 2 * n d + ((if X.getD d 0 > N.X.getD d 0 then 1 else 0 : Nat) : Int) = _
      by_cases hgt : X.getD d 0 > N.X.getD d 0
      · rw [if_pos hgt, if_pos (hiff.1 hgt)]
      · rw [if_neg hgt, if_neg (fun h => hgt (hiff.2 h))]
    obtain ⟨j, nodes1, N1, n1, h1, h2, h3, h4⟩ := ih (l + 1) nodes.length
      (addChild NCRIT (getOctant X i nodes) i nodes)
      (childNode NCRIT N (getOctant X i nodes)) (fun d => 2 * n d + (bit d : Int))
      (by
        rw [addChild_eq, hgd,
          List.getElem?_append_right (by rw [List.length_set]), List.length_set]
        simp)
      (by simp [childNode])
      (by rw [hoct]; exact hgc)
      hnew
      (fun d hd j hj1 hj2 z => hodd d hd j (by omega) (by omega) z)
    refine ⟨j, nodes1, N1, n1, ?_, h2, by rw [show l + (k + 1) = l + 1 + k by ring]; exact h3,
      by rw [show l + (k + 1) = l + 1 + k by ring]; exact h4⟩
    unfold descendTo
    have hni : (addChild NCRIT (getOctant X i nodes) i nodes)[i]? = some
        { N with ICHILD := N.ICHILD ||| (1 <<< getOctant X i nodes),
                 CHILD := N.CHILD.set (getOctant X i nodes) nodes.length } := by
      rw [addChild_eq, hgd, List.getElem?_append_left (by rw [List.length_set]; exact hi),
        List.getElem?_set_self hi]
    simp only [hni, Option.bind_eq_bind, Option.some_bind]
    rw [List.getElem?_set_self (by rw [hC]; exact holt)]
    exact h1

theorem bottomupKey_eq (X0 : List Rat) (R0 : Rat) (L : Nat) (X : List Rat) (hL : 1 ≤ L)
    (h0 : ∀ d, d < 3 → 0 ≤ (X.getD d 0 - (X0.getD d 0 - R0)) / (R0 / 2 ^ (L - 1))) :
    bottomupKey X0 R0 L X = some (offset L + interleaveKey L
      ⌊(X.getD 0 0 - (X0.getD 0 0 - R0)) / (R0 / 2 ^ (L - 1))⌋
      ⌊(X.getD 1 0 - (X0.getD 1 0 - R0)) / (R0 / 2 ^ (L - 1))⌋
      ⌊(X.getD 2 0 - (X0.getD 2 0 - R0)) / (R0 / 2 ^ (L - 1))⌋) := by
  have h3 : List.range 3 = [0, 1, 2] := rfl
  have hsh : ((shl 1 ((L : Int) - 1) : Int) : Rat) = 2 ^ (L - 1) := by
    have : (L : Int) - 1 = ((L - 1 : Nat) : Int) := by omega
    rw [this, shl_natCast]; push_cast; ring
  unfold bottomupKey
  simp only [hsh, h3, List.map_cons, List.map_nil, Int.toNat_natCast,
    if_neg (not_lt.2 (Int.natCast_nonneg L)),
    truncToInt_eq_floor _ (h0 0 (by norm_num)), truncToInt_eq_floor _ (h0 1 (by norm_num)),
    truncToInt_eq_floor _ (h0 2 (by norm_num)), cellOffset_eq]
  rw [interleaveLoop_fst L 0 0 _ _ _ (Int.floor_nonneg.2 (h0 0 (by norm_num)))
    (Int.floor_nonneg.2 (h0 1 (by norm_num))) (Int.floor_nonneg.2 (h0 2 (by norm_num)))]
  simp only [pow_zero, one_mul, zero_add]
  rw [add_comm]

theorem bottomup_differs_on_boundary :
    bottomupKey [0, 0, 0] 1 1 [0, 0, 0] = some 8 ∧ topdownKey 4 [0, 0, 0] 1 1 [0, 0, 0] = some 1 := by
  constructor <;> with_unfolding_all decide

/-- C14: for every root cube of positive radius, every depth L ≥ 1 and every point whose scaled
offset t[d] = (x[d] - (X0[d] - R0)) / (R0 / 2^(L-1)) satisfies, on each axis,
0 ≤ t[d] < 2^L and is zero or not an integer (a point of the cube on no boundary plane between
depth-L cells other than the lower faces of the cube), the key that setIndex_bottomup computes
at level L equals the index of the depth-L node reached from the root by L successive
getOctant/addChild descents towards the point. -/
theorem bottomup_eq_topdown (NCRIT : Nat) (X0 : List Rat) (R0 : Rat) (L : Nat) (X : List Rat)
    (hR0 : 0 < R0) (hL : 1 ≤ L)
    (hpt : ∀ d, d < 3 →
      0 ≤ (X.getD d 0 - (X0.getD d 0 - R0)) / (R0 / 2 ^ (L - 1)) ∧
      (X.getD d 0 - (X0.getD d 0 - R0)) / (R0 / 2 ^ (L - 1)) < 2 ^ L ∧
      ((X.getD d 0 - (X0.getD d 0 - R0)) / (R0 / 2 ^ (L - 1)) = 0 ∨
        ∀ z : Int, (X.getD d 0 - (X0.getD d 0 - R0)) / (R0 / 2 ^ (L - 1)) ≠ (z : Rat))) :
    ∃ k : Int, bottomupKey X0 R0 L X = some k ∧ topdownKey NCRIT X0 R0 L X = some k := by
  have hscale : ∀ (u : Rat) (j : Nat), j ≤ L - 1 →
      u / (R0 / 2 ^ (L - 1)) = u * 2 ^ j / R0 * 2 ^ (L - 1 - j) := by
    intro u j hj
    have : (2 : Rat) ^ (L - 1) = 2 ^ j * 2 ^ (L - 1 - j) := by
      rw [← pow_add]; congr 1; omega
    rw [this]; field_simp; ring
  have hodd : ∀ d, d < 3 → ∀ j, 0 ≤ j → j < 0 + L → ∀ z : Int,
      (X.getD d 0 - (X0.getD d 0 - R0)) * 2 ^ j / R0 ≠ 2 * (z : Rat) + 1 := by
    intro d hd j _ hj z hz
    obtain ⟨-, -, h3⟩ := hpt d hd
    rw [hscale _ j (by omega), hz] at h3
    have hcast : (2 * (z : Rat) + 1) * 2 ^ (L - 1 - j)
        = (((2 * z + 1) * 2 ^ (L - 1 - j) : Int) : Rat) := by push_cast; ring
    rcases h3 with h3 | h3
    · rw [hcast] at h3
      have h4 : (2 * z + 1) * 2 ^ (L - 1 - j) = (0 : Int) := by exact_mod_cast h3
      rcases mul_eq_zero.1 h4 with h5 | h5
      · omega
      · exact absurd h5 (by positivity)
    · exact h3 _ hcast
  have hroot : ∀ d, d < 3 →
      (fun _ : Nat => (0 : Int)) d = ⌊(X.getD d 0 - (X0.getD d 0 - R0)) * 2 ^ 0 / R0 / 2⌋ := by
    intro d hd
    obtain ⟨h1, h2, -⟩ := hpt d hd
    rw [hscale _ 0 (by omega)] at h1 h2
    have hp : (0 : Rat) < 2 ^ (L - 1 - 0) := by positivity
    have hpL : (2 : Rat) ^ L = 2 * 2 ^ (L - 1 - 0) := by
      rw [← pow_succ']; congr 1; omega
    rw [hpL] at h2
    symm
    rw [Int.floor_eq_iff]
    constructor
    · have := nonneg_of_mul_nonneg_left h1 hp
      push_cast; linarith
    · have := lt_of_mul_lt_mul_right h2 (le_of_lt hp)
      push_cast; linarith
  obtain ⟨j, nodes1, N1, n1, h1, h2, h3, h4⟩ := descendTo_geo NCRIT X0 R0 X hR0 L 0 0
    [rootNode NCRIT X0 R0] (rootNode NCRIT X0 R0) (fun _ => 0) rfl (by simp [rootNode])
    (rootNode_geo NCRIT X0 R0) hroot hodd
  have hfl : ∀ d, d < 3 →
      n1 d = ⌊(X.getD d 0 - (X0.getD d 0 - R0)) / (R0 / 2 ^ (L - 1))⌋ := by
    intro d hd
    rw [h4 d hd]
    congr 1
    have : (2 : Rat) ^ (0 + L) = 2 * 2 ^ (L - 1) := by
      rw [← pow_succ']; congr 1; omega
    rw [this]; field_simp; ring
  refine ⟨_, bottomupKey_eq X0 R0 L X hL (fun d hd => (hpt d hd).1), ?_⟩
  unfold topdownKey
  simp only [h1, Option.bind_eq_bind, Option.some_bind, h2]
  rw [h3.2.2.1, Nat.zero_add, hfl 0 (by norm_num), hfl 1 (by norm_num), hfl 2 (by norm_num)]

theorem bottomup_eq_topdown_witness :
    ∃ k : Int, bottomupKey [0, 0, 0] 1 2 [1 / 3, -1, -2 / 3] = some k ∧
      topdownKey 4 [0, 0, 0] 1 2 [1 / 3, -1, -2 / 3] = some k :=
  bottomup_eq_topdown 4 [0, 0, 0] 1 2 [1 / 3, -1, -2 / 3] (by norm_num) (by norm_num)
    (by
      intro d hd
      interval_cases d
      · refine ⟨by norm_num, by norm_num, Or.inr ?_⟩
        intro z hz
        have h : ((8 : Int) : Rat) = ((3 * z : Int) : Rat) := by
          push_cast; norm_num at hz; linarith
        have : (8 : Int) = 3 * z := by exact_mod_cast h
        omega
      · exact ⟨by norm_num, by norm_num, Or.inl (by norm_num)⟩
      · refine ⟨by norm_num, by norm_num, Or.inr ?_⟩
        intro z hz
        have h : ((2 : Int) : Rat) = ((3 * z : Int) : Rat) := by
          push_cast; norm_num at hz; linarith
        have : (2 : Int) = 3 * z := by exact_mod_cast h
        omega)

theorem and_bit_eq_zero_iff (a o : Nat) : a &&& (1 <<< o) = 0 ↔ a.testBit o = false := by
  rw [Nat.one_shiftLeft]
  constructor
  · intro h
    have := congrArg (fun x => Nat.testBit x o) h
    simpa [Nat.testBit_two_pow_self] using this
  · intro h
    apply Nat.eq_of_testBit_eq
    intro i
    rw [Nat.testBit_and, Nat.testBit_two_pow, Nat.zero_testBit]
    by_cases hi : o = i
    · subst hi; simp [h]
    · simp [hi]

theorem or_bit_and_self (a o : Nat) : (a ||| (1 <<< o)) &&& (1 <<< o) ≠ 0 := by
  rw [ne_eq, and_bit_eq_zero_iff, Nat.testBit_or, Nat.one_shiftLeft, Nat.testBit_two_pow_self]
  simp

theorem or_bit_and_ne (a o p : Nat) (h : p ≠ o) :
    (a ||| (1 <<< o)) &&& (1 <<< p) = 0 ↔ a &&& (1 <<< p) = 0 := by
  rw [and_bit_eq_zero_iff, and_bit_eq_zero_iff, Nat.testBit_or, Nat.one_shiftLeft,
    Nat.testBit_two_pow_of_ne (Ne.symm h)]
  simp

theorem or_bit_ne_zero (a o : Nat) : a ||| (1 <<< o) ≠ 0 := by
  intro h
  have := or_bit_and_self a o
  rw [h] at this
  simp at this

theorem ne_zero_of_and_bit (a o : Nat) (h : a &&& (1 <<< o) ≠ 0) : a ≠ 0 := by
  intro h0
  rw [h0] at h
  simp at h

theorem getElem?_lt {α : Type} {xs : List α} {i : Nat} {x : α} (h : xs[i]? = some x) :
    i < xs.length := by
  by_contra hc
  rw [List.getElem?_eq_none (by omega)] at h
  exact absurd h (by simp)

theorem getD_of_getElem? {nodes : List Node} {i : Nat} {N : Node} (h : nodes[i]? = some N) :
    nodes.getD i default = N := by
  rw [List.getD_eq_getElem?_getD, h]; rfl

theorem addChild_length (NCRIT o i : Nat) (nodes : List Node) :
    (addChild NCRIT o i nodes).length = nodes.length + 1 := by
  rw [addChild_eq, List.length_append, List.length_set, List.length_singleton]

theorem addChild_get_self (NCRIT o i : Nat) (nodes : List Node) (ni : Node)
    (h : nodes[i]? = some ni) :
    (addChild NCRIT o i nodes)[i]? = some
      { ni with ICHILD := ni.ICHILD ||| (1 <<< o), CHILD := ni.CHILD.set o nodes.length } := by
  have hi := getElem?_lt h
  rw [addChild_eq, getD_of_getElem? h,
    List.getElem?_append_left (by rw [List.length_set]; exact hi), List.getElem?_set_self hi]

theorem addChild_get_ne (NCRIT o i j : Nat) (nodes : List Node) (hj : j < nodes.length)
    (hne : j ≠ i) : (addChild NCRIT o i nodes)[j]? = nodes[j]? := by
  rw [addChild_eq, List.getElem?_append_left (by rw [List.length_set]; exact hj),
    List.getElem?_set_ne (Ne.symm hne)]

theorem addChild_get_last (NCRIT o i : Nat) (nodes : List Node) (ni : Node)
    (h : nodes[i]? = some ni) :
    (addChild NCRIT o i nodes)[nodes.length]? = some (childNode NCRIT ni o) := by
  rw [addChild_eq, getD_of_getElem? h, List.getElem?_append_right (by rw [List.length_set]),
    List.length_set]
  simp

theorem addLeaf_inv (b c : Nat) (nodes nodes2 : List Node) (h : addLeaf b c nodes = some nodes2) :
    ∃ nc : Node, nodes[c]? = some nc ∧ nc.NLEAF < nc.LEAF.length ∧
      nodes2 = nodes.set c { nc with LEAF := nc.LEAF.set nc.NLEAF b, NLEAF := nc.NLEAF + 1 } := by
  unfold addLeaf at h
  cases hc : nodes[c]? with
  | none => rw [hc] at h; simp at h
  | some nc =>
    rw [hc] at h
    simp only [Option.bind_eq_bind, Option.some_bind] at h
    by_cases hl : nc.NLEAF < nc.LEAF.length
    · rw [if_pos hl] at h
      exact ⟨nc, rfl, hl, (Option.some.inj h).symm⟩
    · rw [if_neg hl] at h; simp at h

/-- One pass of the loop of splitNode, taken apart: the node read, the leaf, its body, the
nodes after the optional addChild, the child, the nodes after addLeaf, and the nodes after the
optional recursive call. -/
theorem splitNodeLoop_inv (NCRIT : Nat) (bodies : List Body) (fuel i l : Nat)
    (nodes nodes' : List Node) (hl : l ≠ NCRIT)
    (h : splitNodeLoop NCRIT bodies (fuel + 1) i l nodes = some nodes') :
    ∃ (ni : Node) (b : Nat) (B : Body) (nodes1 : List Node) (ni1 : Node) (c b1 : Nat)
      (nodes2 : List Node) (nc : Node) (nodes3 : List Node),
      nodes[i]? = some ni ∧ ni.LEAF[l]? = some b ∧ bodies[b]? = some B ∧
      nodes1 = (if ni.ICHILD &&& (1 <<< getOctant B.X i nodes) = 0
        then addChild NCRIT (getOctant B.X i nodes) i nodes else nodes) ∧
      nodes1[i]? = some ni1 ∧ ni1.CHILD[getOctant B.X i nodes]? = some c ∧
      ni1.LEAF[l]? = some b1 ∧ addLeaf b1 c nodes1 = some nodes2 ∧ nodes2[c]? = some nc ∧
      (if nc.NLEAF ≥ NCRIT then splitNodeLoop NCRIT bodies fuel c 0 nodes2 else some nodes2)
        = some nodes3 ∧
      splitNodeLoop NCRIT bodies fuel i (l + 1) nodes3 = some nodes' := by
  unfold splitNodeLoop at h
  rw [if_neg hl] at h
  simp only [Option.bind_eq_bind, Option.bind_eq_some] at h
  obtain ⟨ni, h1, b, h2, B, h3, ni1, h4, c, h5, b1, h6, nodes2, h7, nc, h8, h9⟩ := h
  by_cases hn : nc.NLEAF ≥ NCRIT
  · simp only [hn, if_true, Option.bind_eq_some] at h9 ⊢
    obtain ⟨nodes3, h10, h11⟩ := h9
    exact ⟨ni, b, B, _, ni1, c, b1, nodes2, nc, nodes3, h1, h2, h3, rfl, h4, h5, h6, h7, h8,
      by rw [if_pos hn]; exact h10, h11⟩
  · simp only [hn, if_false, Option.some_bind] at h9 ⊢
    exact ⟨ni, b, B, _, ni1, c, b1, nodes2, nc, nodes2, h1, h2, h3, rfl, h4, h5, h6, h7, h8,
      by rw [if_neg hn], h9⟩

theorem descendLoop_inv (NCRIT : Nat) (X : List Rat) (fuel i : Nat) (nodes : List Node)
    (r : Nat × List Node) (h : descendLoop NCRIT X (fuel + 1) i nodes = some r) :
    ∃ ni : Node, nodes[i]? = some ni ∧
      ((ni.NLEAF < NCRIT ∧ r = (i, nodes)) ∨
       (NCRIT ≤ ni.NLEAF ∧ ∃ (nodes2 : List Node) (ni2 : Node) (c : Nat),
          nodes2 = (if ni.ICHILD &&&
              (1 <<< getOctant X i (nodes.set i { ni with NLEAF := ni.NLEAF + 1 })) = 0
            then addChild NCRIT (getOctant X i (nodes.set i { ni with NLEAF := ni.NLEAF + 1 })) i
              (nodes.set i { ni with NLEAF := ni.NLEAF + 1 })
            else nodes.set i { ni with NLEAF := ni.NLEAF + 1 }) ∧
          nodes2[i]? = some ni2 ∧
          ni2.CHILD[getOctant X i (nodes.set i { ni with NLEAF := ni.NLEAF + 1 })]? = some c ∧
          descendLoop NCRIT X fuel c nodes2 = some r)) := by
  unfold descendLoop at h
  simp only [Option.bind_eq_bind, Option.bind_eq_some] at h
  obtain ⟨ni, h1, h2⟩ := h
  refine ⟨ni, h1, ?_⟩
  by_cases hn : ni.NLEAF ≥ NCRIT
  · rw [if_pos hn] at h2
    simp only [Option.bind_eq_some] at h2
    obtain ⟨ni2, h3, c, h4, h5⟩ := h2
    exact Or.inr ⟨hn, _, ni2, c, rfl, h3, h4, h5⟩
  · rw [if_neg hn] at h2
    exact Or.inl ⟨by omega, (Option.some.inj h2).symm⟩

theorem growStep_inv (NCRIT : Nat) (bodies : List Body) (fuel b : Nat)
    (nodes nodes' : List Node) (h : growStep NCRIT bodies fuel nodes b = some nodes') :
    ∃ (B : Body) (i : Nat) (nodes1 nodes2 : List Node) (ni : Node),
      bodies[b]? = some B ∧ descendLoop NCRIT B.X fuel 0 nodes = some (i, nodes1) ∧
      addLeaf b i nodes1 = some nodes2 ∧ nodes2[i]? = some ni ∧
      (if ni.NLEAF ≥ NCRIT then splitNode NCRIT bodies fuel i nodes2 else some nodes2)
        = some nodes' := by
  unfold growStep at h
  simp only [Option.bind_eq_bind, Option.bind_eq_some] at h
  obtain ⟨B, h1, ⟨i, nodes1⟩, h2, nodes2, h3, ni, h4, h5⟩ := h
  exact ⟨B, i, nodes1, nodes2, ni, h1, h2, h3, h4, h5⟩

theorem addChild_splitOk (NCRIT o i : Nat) (nodes : List Node) (ni : Node) (hC : 0 < NCRIT)
    (hi : nodes[i]? = some ni)
    (hok : ∀ (j : Nat) (N : Node), nodes[j]? = some N → j ≠ i → NCRIT ≤ N.NLEAF → N.ICHILD ≠ 0) :
    ∀ (j : Nat) (N : Node), (addChild NCRIT o i nodes)[j]? = some N →
      NCRIT ≤ N.NLEAF → N.ICHILD ≠ 0 := by
  intro j N hN hle
  have hlen := addChild_length NCRIT o i nodes
  have hj : j < nodes.length + 1 := by rw [← hlen]; exact getElem?_lt hN
  by_cases h1 : j = i
  · subst h1
    rw [addChild_get_self NCRIT o j nodes ni hi] at hN
    rw [← Option.some.inj hN]
    exact or_bit_ne_zero _ _
  · by_cases h2 : j = nodes.length
    · subst h2
      rw [addChild_get_last NCRIT o i nodes ni hi] at hN
      rw [← Option.some.inj hN] at hle
      simp [childNode] at hle
      omega
    · rw [addChild_get_ne NCRIT o i j nodes (by omega) h1] at hN
      exact hok j N hN h1 hle

theorem splitNodeLoop_splitOk (NCRIT : Nat) (bodies : List Body) (hC : 0 < NCRIT) :
    ∀ (fuel i l : Nat) (nodes nodes' : List Node),
    splitNodeLoop NCRIT bodies fuel i l nodes = some nodes' →
    (∀ (j : Nat) (N : Node), nodes[j]? = some N → j ≠ i → NCRIT ≤ N.NLEAF → N.ICHILD ≠ 0) →
    (l = NCRIT → ∀ N : Node, nodes[i]? = some N → NCRIT ≤ N.NLEAF → N.ICHILD ≠ 0) →
    ∀ (j : Nat) (N : Node), nodes'[j]? = some N → NCRIT ≤ N.NLEAF → N.ICHILD ≠ 0 := by
  intro fuel
  induction fuel with
  | zero => intro i l nodes nodes' h; simp [splitNodeLoop] at h
  | succ fuel ih =>
    intro i l nodes nodes' h hex hlast
    by_cases hl : l = NCRIT
    · unfold splitNodeLoop at h
      rw [if_pos hl] at h
      rw [← Option.some.inj h]
      intro j N hN
      by_cases hj : j = i
      · subst hj; exact hlast hl N hN
      · exact hex j N hN hj
    · obtain ⟨ni, b, B, nodes1, ni1, c, b1, nodes2, nc, nodes3, h1, h2, h3, h4, h5, h6, h7, h8,
        h9, h10, h11⟩ := splitNodeLoop_inv NCRIT bodies fuel i l nodes nodes' hl h
      -- after the optional addChild every node is fine
      have ok1 : ∀ (j : Nat) (N : Node), nodes1[j]? = some N → NCRIT ≤ N.NLEAF →
          N.ICHILD ≠ 0 := by
        by_cases hb : ni.ICHILD &&& (1 <<< getOctant B.X i nodes) = 0
        · rw [if_pos hb] at h4
          rw [h4]
          exact addChild_splitOk NCRIT _ i nodes ni hC h1 hex
        · rw [if_neg hb] at h4
          rw [h4]
          intro j N hN hle
          by_cases hj : j = i
          · subst hj
            rw [h1] at hN
            rw [← Option.some.inj hN]
            exact ne_zero_of_and_bit _ _ hb
          · exact hex j N hN hj hle
      obtain ⟨nc0, g1, g2, g3⟩ := addLeaf_inv b1 c nodes1 nodes2 h8
      have ok2 : ∀ (j : Nat) (N : Node), nodes2[j]? = some N → j ≠ c → NCRIT ≤ N.NLEAF →
          N.ICHILD ≠ 0 := by
        intro j N hN hj hle
        rw [g3, List.getElem?_set_ne (Ne.symm hj)] at hN
        exact ok1 j N hN hle
      have ok3 : ∀ (j : Nat) (N : Node), nodes3[j]? = some N → NCRIT ≤ N.NLEAF →
          N.ICHILD ≠ 0 := by
        by_cases hn : nc.NLEAF ≥ NCRIT
        · rw [if_pos hn] at h10
          exact ih c 0 nodes2 nodes3 h10 ok2 (fun h0 => absurd h0 (by omega))
        · rw [if_neg hn] at h10
          rw [← Option.some.inj h10]
          intro j N hN hle
          by_cases hj : j = c
          · subst hj
            rw [h9] at hN
            rw [← Option.some.inj hN] at hle
            exact absurd hle hn
          · exact ok2 j N hN hj hle
      exact ih i (l + 1) nodes3 nodes' h11 (fun j N hN _ => ok3 j N hN) (fun _ N hN => ok3 i N hN)

theorem descendLoop_splitOk (NCRIT : Nat) (X : List Rat) (hC : 0 < NCRIT) :
    ∀ (fuel i : Nat) (nodes : List Node) (r : Nat × List Node),
    descendLoop NCRIT X fuel i nodes = some r →
    (∀ (j : Nat) (N : Node), nodes[j]? = some N → NCRIT ≤ N.NLEAF → N.ICHILD ≠ 0) →
    ∀ (j : Nat) (N : Node), r.2[j]? = some N → NCRIT ≤ N.NLEAF → N.ICHILD ≠ 0 := by
  intro fuel
  induction fuel with
  | zero => intro i nodes r h; simp [descendLoop] at h
  | succ fuel ih =>
    intro i nodes r h hok
    obtain ⟨ni, h1, h2⟩ := descendLoop_inv NCRIT X fuel i nodes r h
    rcases h2 with ⟨_, h3⟩ | ⟨hge, nodes2, ni2, c, h3, h4, h5, h6⟩
    · rw [h3]; exact hok
    · have hi := getElem?_lt h1
      have ok1 : ∀ (j : Nat) (N : Node),
          (nodes.set i { ni with NLEAF := ni.NLEAF + 1 })[j]? = some N → NCRIT ≤ N.NLEAF →
          N.ICHILD ≠ 0 := by
        intro j N hN hle
        by_cases hj : j = i
        · subst hj
          rw [List.getElem?_set_self hi] at hN
          rw [← Option.some.inj hN]
          exact hok j ni h1 hge
        · rw [List.getElem?_set_ne (Ne.symm hj)] at hN
          exact hok j N hN hle
      apply ih c nodes2 r h6
      by_cases hb : ni.ICHILD &&&
          (1 <<< getOctant X i (nodes.set i { ni with NLEAF := ni.NLEAF + 1 })) = 0
      · rw [if_pos hb] at h3
        rw [h3]
        exact addChild_splitOk NCRIT _ i _ _ hC (List.getElem?_set_self hi)
          (fun j N hN _ => ok1 j N hN)
      · rw [if_neg hb] at h3
        rw [h3]; exact ok1

theorem growStep_splitOk (NCRIT : Nat) (bodies : List Body) (hC : 0 < NCRIT) (fuel b : Nat)
    (nodes nodes' : List Node) (h : growStep NCRIT bodies fuel nodes b = some nodes')
    (hok : ∀ (j : Nat) (N : Node), nodes[j]? = some N → NCRIT ≤ N.NLEAF → N.ICHILD ≠ 0) :
    ∀ (j : Nat) (N : Node), nodes'[j]? = some N → NCRIT ≤ N.NLEAF → N.ICHILD ≠ 0 := by
  obtain ⟨B, i, nodes1, nodes2, ni, h1, h2, h3, h4, h5⟩ :=
    growStep_inv NCRIT bodies fuel b nodes nodes' h
  have ok1 := descendLoop_splitOk NCRIT B.X hC fuel 0 nodes _ h2 hok
  obtain ⟨nc0, g1, g2, g3⟩ := addLeaf_inv b i nodes1 nodes2 h3
  have ok2 : ∀ (j : Nat) (N : Node), nodes2[j]? = some N → j ≠ i → NCRIT ≤ N.NLEAF →
      N.ICHILD ≠ 0 := by
    intro j N hN hj hle
    rw [g3, List.getElem?_set_ne (Ne.symm hj)] at hN
    exact ok1 j N hN hle
  by_cases hn : ni.NLEAF ≥ NCRIT
  · rw [if_pos hn] at h5
    exact splitNodeLoop_splitOk NCRIT bodies hC fuel i 0 nodes2 nodes' h5 ok2
      (fun h0 => absurd h0 (by omega))
  · rw [if_neg hn] at h5
    rw [← Option.some.inj h5]
    intro j N hN hle
    by_cases hj : j = i
    · subst hj
      rw [h4] at hN
      rw [← Option.some.inj hN] at hle
      exact absurd hle hn
    · exact ok2 j N hN hj hle

theorem growLoop_splitOk (NCRIT : Nat) (bodies : List Body) (hC : 0 < NCRIT) (fuel : Nat) :
    ∀ (bs : List Nat) (nodes nodes' : List Node),
    growLoop NCRIT bodies fuel bs nodes = some nodes' →
    (∀ (j : Nat) (N : Node), nodes[j]? = some N → NCRIT ≤ N.NLEAF → N.ICHILD ≠ 0) →
    ∀ (j : Nat) (N : Node), nodes'[j]? = some N → NCRIT ≤ N.NLEAF → N.ICHILD ≠ 0 := by
  intro bs
  induction bs with
  | nil =>
    intro nodes nodes' h hok
    simp only [growLoop] at h
    rw [← Option.some.inj h]; exact hok
  | cons b bs ih =>
    intro nodes nodes' h hok
    simp only [growLoop, Option.bind_eq_bind, Option.bind_eq_some] at h
    obtain ⟨nodes1, h1, h2⟩ := h
    exact ih nodes1 nodes' h2 (growStep_splitOk NCRIT bodies hC fuel b nodes nodes1 h1 hok)

/-- C12: for a positive leaf capacity NCRIT, after the insertion steps of grow for the first k
bodies have completed, every node with a zero child bitmask (ICHILD = 0) has NLEAF < NCRIT, and
every node with NLEAF ≥ NCRIT has a non-zero child bitmask. -/
theorem grow_split_threshold (NCRIT : Nat) (X0 : List Rat) (R0 : Rat) (bodies : List Body)
    (fuel k : Nat) (nodes : List Node) (hC : 0 < NCRIT)
    (h : growLoop NCRIT bodies fuel (List.range k) [rootNode NCRIT X0 R0] = some nodes) :
    ∀ N ∈ nodes, (N.ICHILD = 0 → N.NLEAF < NCRIT) ∧ (NCRIT ≤ N.NLEAF → N.ICHILD ≠ 0) := by
  have hroot : ∀ (j : Nat) (N : Node), [rootNode NCRIT X0 R0][j]? = some N →
      NCRIT ≤ N.NLEAF → N.ICHILD ≠ 0 := by
    intro j N hN hle
    have hj : j = 0 := by
      have := getElem?_lt hN
      simp at this; exact this
    subst hj
    simp only [List.getElem?_cons_zero, Option.some.injEq] at hN
    rw [← hN] at hle
    simp [rootNode] at hle
    omega
  have hall := growLoop_splitOk NCRIT bodies hC fuel (List.range k) _ nodes h hroot
  intro N hN
  obtain ⟨j, hj⟩ := List.mem_iff_getElem?.1 hN
  refine ⟨fun h0 => ?_, hall j N hj⟩
  by_contra hc
  exact hall j N hj (by omega) h0

set_option maxRecDepth 8000

theorem grow_split_threshold_witness :
    0 < 2 ∧
    ∃ nodes : List Node,
      growLoop 2 [⟨[1 / 2, 1 / 2, 1 / 2], 0⟩, ⟨[-1 / 2, 1 / 2, 1 / 2], 0⟩, ⟨[1 / 2, 1 / 2, 1 / 4], 0⟩]
        10 (List.range 3) [rootNode 2 [0, 0, 0] 1] = some nodes ∧ nodes.length = 6 ∧
      ∀ N ∈ nodes, (N.ICHILD = 0 → N.NLEAF < 2) ∧ (2 ≤ N.NLEAF → N.ICHILD ≠ 0) :=
  ⟨by decide, _, by with_unfolding_all decide, by with_unfolding_all decide,
    grow_split_threshold 2 [0, 0, 0] 1
      [⟨[1 / 2, 1 / 2, 1 / 2], 0⟩, ⟨[-1 / 2, 1 / 2, 1 / 2], 0⟩, ⟨[1 / 2, 1 / 2, 1 / 4], 0⟩] 10 3
      ((growLoop 2
        [⟨[1 / 2, 1 / 2, 1 / 2], 0⟩, ⟨[-1 / 2, 1 / 2, 1 / 2], 0⟩, ⟨[1 / 2, 1 / 2, 1 / 4], 0⟩]
        10 (List.range 3) [rootNode 2 [0, 0, 0] 1]).getD []) (by decide)
      (by with_unfolding_all decide)⟩

theorem nodeGeo_congr (X0 : List Rat) (R0 : Rat) (N M : Node) (l : Nat) (n : Nat → Int)
    (h1 : M.LEVEL = N.LEVEL) (h2 : M.I = N.I) (h3 : M.X = N.X) (h4 : M.R = N.R)
    (hg : NodeGeo X0 R0 N l n) : NodeGeo X0 R0 M l n := by
  unfold NodeGeo at hg ⊢
  rw [h1, h2, h3, h4]; exact hg

theorem inCube_congr (N M : Node) (X : List Rat) (h3 : M.X = N.X) (h4 : M.R = N.R)
    (hc : InCube N X) : InCube M X := by
  unfold InCube at hc ⊢
  rw [h3, h4]; exact hc

theorem octant_bits (o : Nat) (ho : o < 8) :
    o = o / 2 ^ 0 % 2 + 2 * (o / 2 ^ 1 % 2) + 4 * (o / 2 ^ 2 % 2) := by
  interval_cases o <;> rfl

/-- A node may be replaced by one with the same level, index, centre, radius and children, no
fewer leaves counted, and valid used leaf slots. -/
theorem set_treeInv (NCRIT : Nat) (X0 : List Rat) (R0 : Rat) (bodies : List Body)
    (nodes : List Node) (i : Nat) (N M : Node) (hinv : TreeInv NCRIT X0 R0 bodies nodes)
    (hi : nodes[i]? = some N)
    (h1 : M.LEVEL = N.LEVEL) (h2 : M.I = N.I) (h3 : M.X = N.X) (h4 : M.R = N.R)
    (h5 : M.ICHILD = N.ICHILD) (h6 : M.CHILD = N.CHILD) (h7 : N.NLEAF ≤ M.NLEAF)
    (h8 : M.LEAF.length = NCRIT)
    (h9 : ∀ (m b : Nat), m < M.NLEAF → M.LEAF[m]? = some b →
      ∃ B : Body, bodies[b]? = some B ∧ (InRoot X0 R0 bodies → InCube N B.X)) :
    TreeInv NCRIT X0 R0 bodies (nodes.set i M) := by
  obtain ⟨hA, hB, root, hR1, hR2⟩ := hinv
  have hil := getElem?_lt hi
  -- a node read at a position of the new vector, seen from the old one
  have hread : ∀ (c : Nat) (C : Node), nodes[c]? = some C →
      ∃ C1 : Node, (nodes.set i M)[c]? = some C1 ∧ C1.LEVEL = C.LEVEL ∧ C1.I = C.I ∧
        C1.X = C.X ∧ C1.R = C.R := by
    intro c C hC
    by_cases hc : c = i
    · subst hc
      rw [hi] at hC
      have := Option.some.inj hC
      subst this
      exact ⟨M, List.getElem?_set_self hil, h1, h2, h3, h4⟩
    · exact ⟨C, by rw [List.getElem?_set_ne (Ne.symm hc)]; exact hC, rfl, rfl, rfl, rfl⟩
  refine ⟨?_, ?_, ?_⟩
  rotate_left 2
  · obtain ⟨C1, d1, d2, d3, d4, d5⟩ := hread 0 root hR1
    exact ⟨C1, d1, nodeGeo_congr X0 R0 root C1 _ _ d2 d3 d4 d5 hR2⟩
  · intro j K hK
    by_cases hj : j = i
    · subst hj
      rw [List.getElem?_set_self hil] at hK
      have := Option.some.inj hK
      subst this
      obtain ⟨a1, _, a3, _, l, n, a5, a6⟩ := hA j N hi
      refine ⟨by rw [h6]; exact a1, h8, fun h => le_trans (a3 (by rw [← h5]; exact h)) h7, ?_,
        l, n, nodeGeo_congr X0 R0 N M l n h1 h2 h3 h4 a5, ?_⟩
      · intro m b hm hb
        obtain ⟨B, b1, b2⟩ := h9 m b hm hb
        exact ⟨B, b1, fun hc => inCube_congr N M B.X h3 h4 (b2 hc)⟩
      · intro o ho hbit
        rw [h5] at hbit
        obtain ⟨c, C, c1, c2, c3, c4⟩ := a6 o ho hbit
        obtain ⟨C1, d1, d2, d3, d4, d5⟩ := hread c C c3
        exact ⟨c, C1, by rw [h6]; exact c1, c2, d1, nodeGeo_congr X0 R0 C C1 _ _ d2 d3 d4 d5 c4⟩
    · rw [List.getElem?_set_ne (Ne.symm hj)] at hK
      obtain ⟨a1, a2, a3, a4, l, n, a5, a6⟩ := hA j K hK
      refine ⟨a1, a2, a3, a4, l, n, a5, ?_⟩
      intro o ho hbit
      obtain ⟨c, C, c1, c2, c3, c4⟩ := a6 o ho hbit
      obtain ⟨C1, d1, d2, d3, d4, d5⟩ := hread c C c3
      exact ⟨c, C1, c1, c2, d1, nodeGeo_congr X0 R0 C C1 _ _ d2 d3 d4 d5 c4⟩
  · intro j hj0 hjl
    rw [List.length_set] at hjl
    obtain ⟨p, P, o, p1, p2, p3, p4, p5, p6⟩ := hB j hj0 hjl
    by_cases hp : p = i
    · subst hp
      rw [hi] at p2
      have := Option.some.inj p2
      subst this
      exact ⟨p, M, o, p1, List.getElem?_set_self hil, le_trans p3 h7, p4, by rw [h5]; exact p5,
        by rw [h6]; exact p6⟩
    · exact ⟨p, P, o, p1, by rw [List.getElem?_set_ne (Ne.symm hp)]; exact p2, p3, p4, p5, p6⟩

theorem addChild_treeInv (NCRIT : Nat) (X0 : List Rat) (R0 : Rat) (bodies : List Body)
    (nodes : List Node) (i o : Nat) (ni : Node) (hinv : TreeInv NCRIT X0 R0 bodies nodes)
    (hi : nodes[i]? = some ni) (hfull : NCRIT ≤ ni.NLEAF) (ho : o < 8)
    (hbit : ni.ICHILD &&& (1 <<< o) = 0) :
    TreeInv NCRIT X0 R0 bodies (addChild NCRIT o i nodes) := by
  obtain ⟨hA, hB, root, hR1, hR2⟩ := hinv
  have hil := getElem?_lt hi
  have hlen := addChild_length NCRIT o i nodes
  have hself := addChild_get_self NCRIT o i nodes ni hi
  have hlast := addChild_get_last NCRIT o i nodes ni hi
  obtain ⟨i1, i2, i3, i4, li, ni_, i5, i6⟩ := hA i ni hi
  have hchildgeo : NodeGeo X0 R0 (childNode NCRIT ni o) (li + 1)
      (fun d => 2 * ni_ d + ((o / 2 ^ d % 2 : Nat) : Int)) := by
    have := childNode_geo NCRIT X0 R0 ni li ni_ (fun d => o / 2 ^ d % 2)
      (fun d => by
        show o / 2 ^ d % 2 ≤ 1
        have := Nat.mod_lt (o / 2 ^ d) (show 0 < 2 by norm_num)
        omega) i5
    rw [← octant_bits o ho] at this
    exact this
  have hread : ∀ (c : Nat) (C : Node), nodes[c]? = some C →
      ∃ C1 : Node, (addChild NCRIT o i nodes)[c]? = some C1 ∧ C1.LEVEL = C.LEVEL ∧ C1.I = C.I ∧
        C1.X = C.X ∧ C1.R = C.R := by
    intro c C hC
    by_cases hc : c = i
    · subst hc
      rw [hi] at hC
      have := Option.some.inj hC
      subst this
      exact ⟨_, hself, rfl, rfl, rfl, rfl⟩
    · exact ⟨C, by rw [addChild_get_ne NCRIT o i c nodes (getElem?_lt hC) hc]; exact hC,
        rfl, rfl, rfl, rfl⟩
  refine ⟨?_, ?_, ?_⟩
  rotate_left 2
  · obtain ⟨C1, d1, d2, d3, d4, d5⟩ := hread 0 root hR1
    exact ⟨C1, d1, nodeGeo_congr X0 R0 root C1 _ _ d2 d3 d4 d5 hR2⟩
  · intro j K hK
    have hjl : j < nodes.length + 1 := by rw [← hlen]; exact getElem?_lt hK
    by_cases hj : j = i
    · subst hj
      rw [hself] at hK
      have := Option.some.inj hK
      subst this
      refine ⟨by simp only [List.length_set]; exact i1, i2, fun _ => hfull, i4, li, ni_,
        nodeGeo_congr X0 R0 ni _ li ni_ rfl rfl rfl rfl i5, ?_⟩
      intro o' ho' hbit'
      by_cases hoo : o' = o
      · subst hoo
        exact ⟨nodes.length, childNode NCRIT ni o',
          List.getElem?_set_self (by rw [i1]; exact ho'), hil, hlast, hchildgeo⟩
      · have hold : ni.ICHILD &&& (1 <<< o') ≠ 0 := fun h =>
          hbit' ((or_bit_and_ne ni.ICHILD o o' hoo).2 h)
        obtain ⟨c, C, c1, c2, c3, c4⟩ := i6 o' ho' hold
        obtain ⟨C1, d1, d2, d3, d4, d5⟩ := hread c C c3
        exact ⟨c, C1, by
          show (ni.CHILD.set o nodes.length)[o']? = some c
          rw [List.getElem?_set_ne (Ne.symm hoo)]; exact c1, c2, d1,
          nodeGeo_congr X0 R0 C C1 _ _ d2 d3 d4 d5 c4⟩
    · by_cases hj2 : j = nodes.length
      · subst hj2
        rw [hlast] at hK
        have := Option.some.inj hK
        subst this
        refine ⟨by simp [childNode], by simp [childNode], fun h => absurd rfl h, ?_, li + 1, _,
          hchildgeo, ?_⟩
        · intro m b hm
          exact absurd hm (by simp [childNode])
        · intro o' _ hb
          exact absurd (show (0 : Nat) &&& (1 <<< o') = 0 by simp) hb
      · rw [addChild_get_ne NCRIT o i j nodes (by omega) hj] at hK
        obtain ⟨a1, a2, a3, a4, l, n, a5, a6⟩ := hA j K hK
        refine ⟨a1, a2, a3, a4, l, n, a5, ?_⟩
        intro o' ho' hbit'
        obtain ⟨c, C, c1, c2, c3, c4⟩ := a6 o' ho' hbit'
        obtain ⟨C1, d1, d2, d3, d4, d5⟩ := hread c C c3
        exact ⟨c, C1, c1, c2, d1, nodeGeo_congr X0 R0 C C1 _ _ d2 d3 d4 d5 c4⟩
  · intro j hj0 hjl
    rw [hlen] at hjl
    by_cases hj2 : j = nodes.length
    · subst hj2
      exact ⟨i, _, o, hil, hself, hfull, ho, or_bit_and_self _ _,
        List.getElem?_set_self (by rw [i1]; exact ho)⟩
    · obtain ⟨p, P, o', p1, p2, p3, p4, p5, p6⟩ := hB j hj0 (by omega)
      by_cases hp : p = i
      · subst hp
        rw [hi] at p2
        have := Option.some.inj p2
        subst this
        have hoo : o' ≠ o := by
          intro h; subst h; exact p5 hbit
        refine ⟨p, _, o', p1, hself, p3, p4, ?_, ?_⟩
        · exact fun h => p5 ((or_bit_and_ne _ o o' hoo).1 h)
        · show (ni.CHILD.set o nodes.length)[o']? = some j
          rw [List.getElem?_set_ne (Ne.symm hoo)]; exact p6
      · exact ⟨p, P, o', p1, by
          rw [addChild_get_ne NCRIT o i p nodes (getElem?_lt p2) hp]; exact p2, p3, p4, p5, p6⟩

theorem getOctant_bit (X : List Rat) (i : Nat) (nodes : List Node) (d : Nat) (hd : d < 3) :
    getOctant X i nodes / 2 ^ d % 2
      = if X.getD d 0 > (nodes.getD i default).X.getD d 0 then 1 else 0 := by
  rw [getOctant_eq]
  interval_cases d <;> split_ifs <;> rfl

/-- A point in the cube of a node lies in the cube of the child in the octant of the point. -/
theorem inCube_child (X0 : List Rat) (R0 : Rat) (N C : Node) (l : Nat) (n : Nat → Int)
    (X : List Rat) (bit : Nat → Nat)
    (hbit : ∀ d, d < 3 → bit d = if X.getD d 0 > N.X.getD d 0 then 1 else 0)
    (hN : NodeGeo X0 R0 N l n) (hC : NodeGeo X0 R0 C (l + 1) (fun d => 2 * n d + (bit d : Int)))
    (hin : InCube N X) : InCube C X := by
  intro d hd
  obtain ⟨-, hr, -, hx⟩ := hN
  obtain ⟨-, hr', -, hx'⟩ := hC
  obtain ⟨-, -, e1⟩ := hx d hd
  obtain ⟨-, -, e2⟩ := hx' d hd
  have hR : C.R = N.R / 2 := by rw [hr, hr', pow_succ]; field_simp
  have h := abs_le.1 (hin d hd)
  rw [abs_le, e2, hR]
  have e3 : ((fun d => 2 * n d + (bit d : Int)) d : Int) = 2 * n d + (bit d : Int) := rfl
  rw [e3, hbit d hd]
  rw [e1] at h
  by_cases hgt : X.getD d 0 > N.X.getD d 0
  · rw [if_pos hgt]
    rw [e1] at hgt
    push_cast
    constructor <;> linarith [h.1, h.2]
  · rw [if_neg hgt]
    rw [e1] at hgt
    push_cast
    constructor <;> linarith [h.1, h.2]

theorem frame_refl (NCRIT : Nat) (nodes : List Node) : Frame NCRIT nodes nodes :=
  ⟨le_rfl, fun _ N hN => ⟨N, hN, le_rfl, fun _ => rfl⟩⟩

theorem frame_trans (NCRIT : Nat) (a b c : List Node) (h1 : Frame NCRIT a b)
    (h2 : Frame NCRIT b c) : Frame NCRIT a c := by
  refine ⟨le_trans h1.1 h2.1, ?_⟩
  intro j N hN
  obtain ⟨N1, a1, a2, a3⟩ := h1.2 j N hN
  obtain ⟨N2, b1, b2, b3⟩ := h2.2 j N1 a1
  exact ⟨N2, b1, le_trans a2 b2, fun h => by rw [b3 (le_trans h a2), a3 h]⟩

theorem frame_set (NCRIT : Nat) (nodes : List Node) (i : Nat) (N M : Node)
    (hi : nodes[i]? = some N) (h1 : N.NLEAF ≤ M.NLEAF) (h2 : NCRIT ≤ N.NLEAF → M.LEAF = N.LEAF) :
    Frame NCRIT nodes (nodes.set i M) := by
  refine ⟨by rw [List.length_set], ?_⟩
  intro j K hK
  by_cases hj : j = i
  · subst hj
    rw [hi] at hK
    have := Option.some.inj hK
    subst this
    exact ⟨M, List.getElem?_set_self (getElem?_lt hi), h1, h2⟩
  · exact ⟨K, by rw [List.getElem?_set_ne (Ne.symm hj)]; exact hK, le_rfl, fun _ => rfl⟩

theorem frame_addChild (NCRIT o i : Nat) (nodes : List Node) (ni : Node)
    (hi : nodes[i]? = some ni) : Frame NCRIT nodes (addChild NCRIT o i nodes) := by
  refine ⟨by rw [addChild_length]; omega, ?_⟩
  intro j K hK
  by_cases hj : j = i
  · subst hj
    rw [hi] at hK
    have := Option.some.inj hK
    subst this
    exact ⟨_, addChild_get_self NCRIT o j nodes ni hi, le_rfl, fun _ => rfl⟩
  · exact ⟨K, by rw [addChild_get_ne NCRIT o i j nodes (getElem?_lt hK) hj]; exact hK, le_rfl,
      fun _ => rfl⟩

/-- The effect of addLeaf on the invariant: the body added must exist and, when all bodies lie
in the root cube, lie in the cube of the node. -/
theorem addLeaf_treeInv (NCRIT : Nat) (X0 : List Rat) (R0 : Rat) (bodies : List Body)
    (nodes nodes2 : List Node) (b c : Nat) (B : Body)
    (hinv : TreeInv NCRIT X0 R0 bodies nodes) (h : addLeaf b c nodes = some nodes2)
    (hB : bodies[b]? = some B)
    (hin : ∀ nc : Node, nodes[c]? = some nc → InRoot X0 R0 bodies → InCube nc B.X) :
    TreeInv NCRIT X0 R0 bodies nodes2 ∧ Frame NCRIT nodes nodes2 ∧
      ∃ nc : Node, nodes[c]? = some nc ∧ nc.NLEAF < NCRIT ∧
        nodes2 = nodes.set c { nc with LEAF := nc.LEAF.set nc.NLEAF b, NLEAF := nc.NLEAF + 1 } := by
  obtain ⟨nc, g1, g2, g3⟩ := addLeaf_inv b c nodes nodes2 h
  obtain ⟨a1, a2, a3, a4, -⟩ := hinv.1 c nc g1
  rw [a2] at g2
  refine ⟨?_, ?_, nc, g1, g2, g3⟩
  · rw [g3]
    refine set_treeInv NCRIT X0 R0 bodies nodes c nc
      { nc with LEAF := nc.LEAF.set nc.NLEAF b, NLEAF := nc.NLEAF + 1 } hinv g1 rfl rfl rfl rfl
      rfl rfl (Nat.le_succ _) (by simp only [List.length_set]; exact a2) ?_
    intro m b' hm hb'
    by_cases hmn : m = nc.NLEAF
    · subst hmn
      rw [show ({ nc with LEAF := nc.LEAF.set nc.NLEAF b, NLEAF := nc.NLEAF + 1 } : Node).LEAF
        = nc.LEAF.set nc.NLEAF b from rfl, List.getElem?_set_self (by rw [a2]; exact g2)] at hb'
      rw [← Option.some.inj hb']
      exact ⟨B, hB, hin nc g1⟩
    · rw [show ({ nc with LEAF := nc.LEAF.set nc.NLEAF b, NLEAF := nc.NLEAF + 1 } : Node).LEAF
        = nc.LEAF.set nc.NLEAF b from rfl, List.getElem?_set_ne (Ne.symm hmn)] at hb'
      exact a4 m b' (by
        have : m < nc.NLEAF + 1 := hm
        omega) hb'
  · rw [g3]
    exact frame_set NCRIT nodes c nc _ g1 (Nat.le_succ _) (fun h => absurd h (by omega))

theorem sum_map_set {α : Type} (f : α → Nat) : ∀ (xs : List α) (i : Nat) (x y : α),
    xs[i]? = some x → ((xs.set i y).map f).sum + f x = (xs.map f).sum + f y := by
  intro xs
  induction xs with
  | nil => intro i x y h; simp at h
  | cons a t ih =>
    intro i x y h
    cases i with
    | zero =>
      simp only [List.getElem?_cons_zero, Option.some.injEq] at h
      subst h
      simp only [List.set_cons_zero, List.map_cons, List.sum_cons]
      omega
    | succ i =>
      simp only [List.getElem?_cons_succ] at h
      have := ih i x y h
      simp only [List.set_cons_succ, List.map_cons, List.sum_cons]
      omega

theorem holdCount_set (NCRIT : Nat) (nodes : List Node) (i : Nat) (N M : Node) (b : Nat)
    (hi : nodes[i]? = some N) :
    holdCount NCRIT (nodes.set i M) b
        + (if N.NLEAF < NCRIT then (N.LEAF.take N.NLEAF).count b else 0)
      = holdCount NCRIT nodes b
        + (if M.NLEAF < NCRIT then (M.LEAF.take M.NLEAF).count b else 0) :=
  sum_map_set _ nodes i N M hi

theorem holdCount_addChild (NCRIT o i : Nat) (nodes : List Node) (ni : Node) (b : Nat)
    (hi : nodes[i]? = some ni) :
    holdCount NCRIT (addChild NCRIT o i nodes) b = holdCount NCRIT nodes b := by
  rw [addChild_eq, getD_of_getElem? hi]
  have h1 := holdCount_set NCRIT nodes i ni
    { ni with ICHILD := ni.ICHILD ||| (1 <<< o), CHILD := ni.CHILD.set o nodes.length } b hi
  have h2 : holdCount NCRIT (nodes.set i
        { ni with ICHILD := ni.ICHILD ||| (1 <<< o), CHILD := ni.CHILD.set o nodes.length }
        ++ [childNode NCRIT ni o]) b
      = holdCount NCRIT (nodes.set i
        { ni with ICHILD := ni.ICHILD ||| (1 <<< o), CHILD := ni.CHILD.set o nodes.length }) b := by
    unfold holdCount
    rw [List.map_append, List.sum_append]
    simp [childNode]
  have e : (if ({ ni with ICHILD := ni.ICHILD ||| (1 <<< o),
                          CHILD := ni.CHILD.set o nodes.length } : Node).NLEAF < NCRIT
      then (({ ni with ICHILD := ni.ICHILD ||| (1 <<< o),
                       CHILD := ni.CHILD.set o nodes.length } : Node).LEAF.take
        ({ ni with ICHILD := ni.ICHILD ||| (1 <<< o),
                   CHILD := ni.CHILD.set o nodes.length } : Node).NLEAF).count b
      else 0) = (if ni.NLEAF < NCRIT then (ni.LEAF.take ni.NLEAF).count b else 0) := rfl
  rw [e] at h1
  rw [h2]
  omega

theorem take_set_succ (xs : List Nat) (n b : Nat) (hn : n < xs.length) :
    (xs.set n b).take (n + 1) = xs.take n ++ [b] := by
  rw [List.take_succ, List.set_take, List.set_eq_of_length_le (by rw [List.length_take]; omega),
    List.getElem?_set_self hn]
  rfl

/-- The effect of addLeaf on the count of a body in the leaf buffers: one more for the body
added when the node stays a leaf node; when the node becomes full its buffer leaves the
count. -/
theorem holdCount_addLeaf (NCRIT : Nat) (nodes : List Node) (c : Nat) (nc : Node) (b b' : Nat)
    (hc : nodes[c]? = some nc) (hlt : nc.NLEAF < NCRIT) (hlen : nc.LEAF.length = NCRIT) :
    (nc.NLEAF + 1 < NCRIT →
      holdCount NCRIT
          (nodes.set c { nc with LEAF := nc.LEAF.set nc.NLEAF b, NLEAF := nc.NLEAF + 1 }) b'
        = holdCount NCRIT nodes b' + (if b' = b then 1 else 0)) ∧
    (NCRIT ≤ nc.NLEAF + 1 →
      holdCount NCRIT
          (nodes.set c { nc with LEAF := nc.LEAF.set nc.NLEAF b, NLEAF := nc.NLEAF + 1 }) b'
        + (nc.LEAF.take nc.NLEAF).count b' = holdCount NCRIT nodes b' ∧
      (nc.LEAF.set nc.NLEAF b).count b'
        = (nc.LEAF.take nc.NLEAF).count b' + (if b' = b then 1 else 0)) := by
  have h := holdCount_set NCRIT nodes c nc
    { nc with LEAF := nc.LEAF.set nc.NLEAF b, NLEAF := nc.NLEAF + 1 } b' hc
  rw [if_pos hlt] at h
  have hcnt : ((nc.LEAF.set nc.NLEAF b).take (nc.NLEAF + 1)).count b'
      = (nc.LEAF.take nc.NLEAF).count b' + (if b' = b then 1 else 0) := by
    rw [take_set_succ nc.LEAF nc.NLEAF b (by omega), List.count_append, List.count_singleton]
    by_cases hb : b' = b
    · subst hb; simp
    · have : ¬ ((b == b') = true) := by simpa using fun h => hb h.symm
      simp [hb, this]
  constructor
  · intro hs
    have e : (if ({ nc with LEAF := nc.LEAF.set nc.NLEAF b, NLEAF := nc.NLEAF + 1 } : Node).NLEAF
          < NCRIT
        then (({ nc with LEAF := nc.LEAF.set nc.NLEAF b, NLEAF := nc.NLEAF + 1 } : Node).LEAF.take
          ({ nc with LEAF := nc.LEAF.set nc.NLEAF b, NLEAF := nc.NLEAF + 1 } : Node).NLEAF).count b'
        else 0) = ((nc.LEAF.set nc.NLEAF b).take (nc.NLEAF + 1)).count b' := if_pos hs
    rw [e, hcnt] at h
    omega
  · intro hs
    have e : (if ({ nc with LEAF := nc.LEAF.set nc.NLEAF b, NLEAF := nc.NLEAF + 1 } : Node).NLEAF
          < NCRIT
        then (({ nc with LEAF := nc.LEAF.set nc.NLEAF b, NLEAF := nc.NLEAF + 1 } : Node).LEAF.take
          ({ nc with LEAF := nc.LEAF.set nc.NLEAF b, NLEAF := nc.NLEAF + 1 } : Node).NLEAF).count b'
        else 0) = 0 := if_neg (by show ¬ (nc.NLEAF + 1 < NCRIT); omega)
    rw [e] at h
    refine ⟨by omega, ?_⟩
    rw [← hcnt, List.take_of_length_le (by rw [List.length_set]; omega)]

/-- The optional addChild of grow and splitNode on a full node `i`: the invariant is kept and
the child in the octant of the point exists and comes after `i`; when the bodies lie in the root
cube and the point in the cube of the node, the point lies in the cube of the child. -/
theorem childStep (NCRIT : Nat) (X0 : List Rat) (R0 : Rat) (bodies : List Body)
    (nodes nodes1 : List Node) (i : Nat) (ni : Node) (X : List Rat)
    (hinv : TreeInv NCRIT X0 R0 bodies nodes) (hi : nodes[i]? = some ni)
    (hfull : NCRIT ≤ ni.NLEAF) (hX : InRoot X0 R0 bodies → InCube ni X)
    (h1 : nodes1 = (if ni.ICHILD &&& (1 <<< getOctant X i nodes) = 0
      then addChild NCRIT (getOctant X i nodes) i nodes else nodes)) :
    TreeInv NCRIT X0 R0 bodies nodes1 ∧ Frame NCRIT nodes nodes1 ∧
    ∃ (ni1 : Node) (c : Nat) (C : Node), nodes1[i]? = some ni1 ∧ ni1.LEAF = ni.LEAF ∧
      ni1.NLEAF = ni.NLEAF ∧ ni1.CHILD[getOctant X i nodes]? = some c ∧ i < c ∧
      nodes1[c]? = some C ∧ (InRoot X0 R0 bodies → InCube C X) ∧
      ∀ b : Nat, holdCount NCRIT nodes1 b = holdCount NCRIT nodes b := by
  have ho := getOctant_lt X i nodes
  have hcnt : ∀ b : Nat, holdCount NCRIT nodes1 b = holdCount NCRIT nodes b := by
    intro b
    rw [h1]; split
    · exact holdCount_addChild NCRIT _ i nodes ni b hi
    · rfl
  have hinv1 : TreeInv NCRIT X0 R0 bodies nodes1 := by
    rw [h1]; split
    · next hb => exact addChild_treeInv NCRIT X0 R0 bodies nodes i _ ni hinv hi hfull ho hb
    · exact hinv
  have hfr : Frame NCRIT nodes nodes1 := by
    rw [h1]; split
    · exact frame_addChild NCRIT _ i nodes ni hi
    · exact frame_refl NCRIT nodes
  obtain ⟨ni1, e1, e2, e3, e4, e5, e6⟩ : ∃ ni1 : Node, nodes1[i]? = some ni1 ∧
      ni1.LEAF = ni.LEAF ∧ ni1.NLEAF = ni.NLEAF ∧ ni1.X = ni.X ∧ ni1.R = ni.R ∧
      ni1.ICHILD &&& (1 <<< getOctant X i nodes) ≠ 0 := by
    by_cases hb : ni.ICHILD &&& (1 <<< getOctant X i nodes) = 0
    · rw [if_pos hb] at h1
      exact ⟨{ ni with ICHILD := ni.ICHILD ||| (1 <<< getOctant X i nodes),
                       CHILD := ni.CHILD.set (getOctant X i nodes) nodes.length },
        by rw [h1]; exact addChild_get_self NCRIT _ i nodes ni hi, rfl, rfl, rfl, rfl,
        or_bit_and_self _ _⟩
    · rw [if_neg hb] at h1
      exact ⟨ni, by rw [h1]; exact hi, rfl, rfl, rfl, rfl, hb⟩
  obtain ⟨-, -, -, -, l, n, g1, g2⟩ := hinv1.1 i ni1 e1
  obtain ⟨c, C, c1, c2, c3, c4⟩ := g2 _ ho e6
  refine ⟨hinv1, hfr, ni1, c, C, e1, e2, e3, c1, c2, c3, fun hc => ?_, hcnt⟩
  refine inCube_child X0 R0 ni1 C l n X (fun d => getOctant X i nodes / 2 ^ d % 2) ?_ g1 c4
    (inCube_congr ni ni1 X e4 e5 (hX hc))
  intro d hd
  show getOctant X i nodes / 2 ^ d % 2 = _
  rw [getOctant_bit X i nodes d hd, getD_of_getElem? hi, e4]

theorem splitNodeLoop_treeInv (NCRIT : Nat) (X0 : List Rat) (R0 : Rat) (bodies : List Body) :
    ∀ (fuel i l : Nat) (nodes nodes' : List Node),
    splitNodeLoop NCRIT bodies fuel i l nodes = some nodes' →
    TreeInv NCRIT X0 R0 bodies nodes →
    (∃ ni : Node, nodes[i]? = some ni ∧ NCRIT ≤ ni.NLEAF) →
    TreeInv NCRIT X0 R0 bodies nodes' ∧ Frame NCRIT nodes nodes' ∧
      ∀ ni : Node, nodes[i]? = some ni → ∀ b' : Nat,
        holdCount NCRIT nodes' b' = holdCount NCRIT nodes b' + (ni.LEAF.drop l).count b' := by
  intro fuel
  induction fuel with
  | zero => intro i l nodes nodes' h; simp [splitNodeLoop] at h
  | succ fuel ih =>
    intro i l nodes nodes' h hinv hfull
    by_cases hl : l = NCRIT
    · unfold splitNodeLoop at h
      rw [if_pos hl] at h
      rw [← Option.some.inj h]
      refine ⟨hinv, frame_refl NCRIT nodes, ?_⟩
      intro ni hni b'
      rw [List.drop_eq_nil_of_le (by rw [(hinv.1 i ni hni).2.1, hl])]
      simp
    · obtain ⟨ni, b, B, nodes1, ni1, c, b1, nodes2, nc, nodes3, h1, h2, h3, h4, h5, h6, h7, h8,
        h9, h10, h11⟩ := splitNodeLoop_inv NCRIT bodies fuel i l nodes nodes' hl h
      obtain ⟨ni', hi', hfull'⟩ := hfull
      rw [h1] at hi'
      have := Option.some.inj hi'
      subst this
      obtain ⟨-, a2, -, a4, -⟩ := hinv.1 i ni h1
      have hlt : l < NCRIT := by
        have := getElem?_lt h2
        omega
      obtain ⟨B', hB', hcube⟩ := a4 l b (by omega) h2
      rw [h3] at hB'
      have := Option.some.inj hB'
      subst this
      obtain ⟨hinv1, hfr1, ni1', c', C, e1, e2, e3, e4, e5, e6, e7, hcnt1⟩ :=
        childStep NCRIT X0 R0 bodies nodes nodes1 i ni B.X hinv h1 hfull' hcube h4
      rw [h5] at e1
      have := Option.some.inj e1
      subst this
      rw [h6] at e4
      have := Option.some.inj e4
      subst this
      rw [e2, h2] at h7
      have := Option.some.inj h7
      subst this
      obtain ⟨hinv2, hfr2, nc0, q1, q2, q3⟩ :=
        addLeaf_treeInv NCRIT X0 R0 bodies nodes1 nodes2 b c B hinv1 h8
        h3 (fun nc' hnc' => by
          rw [e6] at hnc'
          rw [← Option.some.inj hnc']; exact e7)
      have hnc : nc = { nc0 with LEAF := nc0.LEAF.set nc0.NLEAF b, NLEAF := nc0.NLEAF + 1 } := by
        rw [q3, List.getElem?_set_self (getElem?_lt q1)] at h9
        exact (Option.some.inj h9).symm
      have hc0len := (hinv1.1 c nc0 q1).2.1
      have hAB := fun b' => holdCount_addLeaf NCRIT nodes1 c nc0 b b' q1 q2 hc0len
      obtain ⟨hinv3, hfr3, hcnt3⟩ : TreeInv NCRIT X0 R0 bodies nodes3 ∧ Frame NCRIT nodes2 nodes3 ∧
          ∀ b' : Nat, holdCount NCRIT nodes3 b'
            = holdCount NCRIT nodes b' + (if b' = b then 1 else 0) := by
        by_cases hn : nc.NLEAF ≥ NCRIT
        · rw [if_pos hn] at h10
          obtain ⟨r1, r2, r3⟩ := ih c 0 nodes2 nodes3 h10 hinv2 ⟨nc, h9, hn⟩
          refine ⟨r1, r2, ?_⟩
          intro b'
          have hn' : NCRIT ≤ nc0.NLEAF + 1 := by rw [hnc] at hn; exact hn
          obtain ⟨t1, t2⟩ := (hAB b').2 hn'
          rw [← q3] at t1
          have t3 := r3 nc h9 b'
          rw [List.drop_zero, hnc] at t3
          have t4 : ({ nc0 with LEAF := nc0.LEAF.set nc0.NLEAF b,
                                NLEAF := nc0.NLEAF + 1 } : Node).LEAF
              = nc0.LEAF.set nc0.NLEAF b := rfl
          rw [t4, t2] at t3
          rw [← hcnt1 b']
          omega
        · rw [if_neg hn] at h10
          rw [← Option.some.inj h10]
          refine ⟨hinv2, frame_refl NCRIT nodes2, ?_⟩
          intro b'
          have hn' : nc0.NLEAF + 1 < NCRIT := by rw [hnc] at hn; exact not_le.1 hn
          have t1 := (hAB b').1 hn'
          rw [← q3] at t1
          rw [t1, hcnt1 b']
      have hfr03 := frame_trans NCRIT _ _ _ (frame_trans NCRIT _ _ _ hfr1 hfr2) hfr3
      obtain ⟨ni3, k1, k2, k3⟩ := hfr03.2 i ni h1
      obtain ⟨hinv4, hfr4, hcnt4⟩ :=
        ih i (l + 1) nodes3 nodes' h11 hinv3 ⟨ni3, k1, le_trans hfull' k2⟩
      refine ⟨hinv4, frame_trans NCRIT _ _ _ hfr03 hfr4, ?_⟩
      intro ni' hni' b'
      rw [h1] at hni'
      have := Option.some.inj hni'
      subst this
      have hd : ni.LEAF.drop l = b :: ni.LEAF.drop (l + 1) := by
        rw [List.drop_eq_getElem_cons (getElem?_lt h2)]
        congr 1
        have := List.getElem?_eq_getElem (getElem?_lt h2)
        rw [h2] at this
        exact (Option.some.inj this).symm
      rw [hcnt4 ni3 k1 b', hcnt3 b', k3 hfull', hd, List.count_cons]
      by_cases hb : b' = b
      · subst hb; simp; omega
      · have : ¬ ((b == b') = true) := by simpa using fun h => hb h.symm
        simp [hb, this]

theorem descendLoop_treeInv (NCRIT : Nat) (X0 : List Rat) (R0 : Rat) (bodies : List Body)
    (X : List Rat) :
    ∀ (fuel i : Nat) (nodes : List Node) (r : Nat × List Node),
    descendLoop NCRIT X fuel i nodes = some r →
    TreeInv NCRIT X0 R0 bodies nodes →
    (∃ ni : Node, nodes[i]? = some ni ∧ (InRoot X0 R0 bodies → InCube ni X)) →
    TreeInv NCRIT X0 R0 bodies r.2 ∧ Frame NCRIT nodes r.2 ∧
      (∃ nj : Node, r.2[r.1]? = some nj ∧ nj.NLEAF < NCRIT ∧
        (InRoot X0 R0 bodies → InCube nj X)) ∧
      ∀ b : Nat, holdCount NCRIT r.2 b = holdCount NCRIT nodes b := by
  intro fuel
  induction fuel with
  | zero => intro i nodes r h; simp [descendLoop] at h
  | succ fuel ih =>
    intro i nodes r h hinv hcube
    obtain ⟨ni, h1, h2⟩ := descendLoop_inv NCRIT X fuel i nodes r h
    obtain ⟨ni', hi', hX⟩ := hcube
    rw [h1] at hi'
    have := Option.some.inj hi'
    subst this
    rcases h2 with ⟨hlt, h3⟩ | ⟨hge, nodes2, ni2, c, h3, h4, h5, h6⟩
    · rw [h3]
      exact ⟨hinv, frame_refl NCRIT nodes, ⟨ni, h1, hlt, hX⟩, fun _ => rfl⟩
    · have hil := getElem?_lt h1
      obtain ⟨-, a2, -, a4, -⟩ := hinv.1 i ni h1
      have hinv0 : TreeInv NCRIT X0 R0 bodies (nodes.set i { ni with NLEAF := ni.NLEAF + 1 }) := by
        refine set_treeInv NCRIT X0 R0 bodies nodes i ni { ni with NLEAF := ni.NLEAF + 1 } hinv h1
          rfl rfl rfl rfl rfl rfl (Nat.le_succ _) a2 ?_
        intro m b hm hb
        have hml := getElem?_lt hb
        exact a4 m b (by
          have : m < ni.LEAF.length := hml
          omega) hb
      have hfr0 : Frame NCRIT nodes (nodes.set i { ni with NLEAF := ni.NLEAF + 1 }) :=
        frame_set NCRIT nodes i ni _ h1 (Nat.le_succ _) (fun _ => rfl)
      have hcnt0 : ∀ b : Nat,
          holdCount NCRIT (nodes.set i { ni with NLEAF := ni.NLEAF + 1 }) b
            = holdCount NCRIT nodes b := by
        intro b
        have := holdCount_set NCRIT nodes i ni { ni with NLEAF := ni.NLEAF + 1 } b h1
        rw [if_neg (by omega),
          if_neg (by show ¬ (ni.NLEAF + 1 < NCRIT); omega)] at this
        omega
      obtain ⟨hinv1, hfr1, ni1', c', C, e1, e2, e3, e4, e5, e6, e7, hcnt1⟩ :=
        childStep NCRIT X0 R0 bodies (nodes.set i { ni with NLEAF := ni.NLEAF + 1 }) nodes2 i
          { ni with NLEAF := ni.NLEAF + 1 } X hinv0 (List.getElem?_set_self hil)
          (by show NCRIT ≤ ni.NLEAF + 1; omega) (fun hc => inCube_congr ni _ X rfl rfl (hX hc)) h3
      rw [h4] at e1
      have := Option.some.inj e1
      subst this
      rw [h5] at e4
      have := Option.some.inj e4
      subst this
      obtain ⟨hinv2, hfr2, hr, hcnt2⟩ := ih c nodes2 r h6 hinv1 ⟨C, e6, e7⟩
      exact ⟨hinv2, frame_trans NCRIT _ _ _ (frame_trans NCRIT _ _ _ hfr0 hfr1) hfr2, hr,
        fun b => by rw [hcnt2 b, hcnt1 b, hcnt0 b]⟩

theorem root_inCube (NCRIT : Nat) (X0 : List Rat) (R0 : Rat) (bodies : List Body)
    (nodes : List Node) (hinv : TreeInv NCRIT X0 R0 bodies nodes) (X : List Rat)
    (hin : ∀ d, d < 3 → |X.getD d 0 - X0.getD d 0| ≤ R0) :
    ∃ root : Node, nodes[0]? = some root ∧ InCube root X := by
  obtain ⟨-, -, root, hR1, hR2⟩ := hinv
  refine ⟨root, hR1, ?_⟩
  intro d hd
  obtain ⟨-, hr, -, hx⟩ := hR2
  obtain ⟨-, -, e⟩ := hx d hd
  have hr0 : root.R = R0 := by rw [hr]; simp
  rw [e, hr0]
  have := hin d hd
  simp only [Int.cast_zero, mul_zero, zero_add, one_mul]
  rw [show X0.getD d 0 - R0 + R0 = X0.getD d 0 by ring]
  exact this

theorem growStep_treeInv (NCRIT : Nat) (X0 : List Rat) (R0 : Rat) (bodies : List Body)
    (fuel b : Nat) (nodes nodes' : List Node)
    (h : growStep NCRIT bodies fuel nodes b = some nodes')
    (hinv : TreeInv NCRIT X0 R0 bodies nodes) :
    TreeInv NCRIT X0 R0 bodies nodes' ∧ Frame NCRIT nodes nodes' ∧
      ∀ b' : Nat, holdCount NCRIT nodes' b'
        = holdCount NCRIT nodes b' + (if b' = b then 1 else 0) := by
  obtain ⟨B, i, nodes1, nodes2, ni, h1, h2, h3, h4, h5⟩ :=
    growStep_inv NCRIT bodies fuel b nodes nodes' h
  obtain ⟨root, hroot, -⟩ := hinv.2.2
  have hrc : InRoot X0 R0 bodies → InCube root B.X := by
    intro hc
    obtain ⟨root1, hroot1, hrc1⟩ := root_inCube NCRIT X0 R0 bodies nodes hinv B.X
      (hc B (List.getElem?_mem h1))
    rw [hroot] at hroot1
    rw [Option.some.inj hroot1]; exact hrc1
  obtain ⟨hinv1, hfr1, ⟨nj, j1, j2, j3⟩, hcnt1⟩ :=
    descendLoop_treeInv NCRIT X0 R0 bodies B.X fuel 0 nodes (i, nodes1) h2 hinv ⟨root, hroot, hrc⟩
  obtain ⟨hinv2, hfr2, nc0, q1, q2, q3⟩ :=
    addLeaf_treeInv NCRIT X0 R0 bodies nodes1 nodes2 b i B hinv1 h3 h1
    (fun nc hnc => by
      rw [j1] at hnc
      rw [← Option.some.inj hnc]; exact j3)
  have hnc : ni = { nc0 with LEAF := nc0.LEAF.set nc0.NLEAF b, NLEAF := nc0.NLEAF + 1 } := by
    rw [q3, List.getElem?_set_self (getElem?_lt q1)] at h4
    exact (Option.some.inj h4).symm
  have hc0len := (hinv1.1 i nc0 q1).2.1
  have hAB := fun b' => holdCount_addLeaf NCRIT nodes1 i nc0 b b' q1 q2 hc0len
  by_cases hn : ni.NLEAF ≥ NCRIT
  · rw [if_pos hn] at h5
    obtain ⟨hinv3, hfr3, hcnt3⟩ :=
      splitNodeLoop_treeInv NCRIT X0 R0 bodies fuel i 0 nodes2 nodes' h5 hinv2 ⟨ni, h4, hn⟩
    refine ⟨hinv3, frame_trans NCRIT _ _ _ (frame_trans NCRIT _ _ _ hfr1 hfr2) hfr3, ?_⟩
    intro b'
    have hn' : NCRIT ≤ nc0.NLEAF + 1 := by rw [hnc] at hn; exact hn
    obtain ⟨t1, t2⟩ := (hAB b').2 hn'
    rw [← q3] at t1
    have t3 := hcnt3 ni h4 b'
    rw [List.drop_zero, hnc] at t3
    have t4 : ({ nc0 with LEAF := nc0.LEAF.set nc0.NLEAF b,
                          NLEAF := nc0.NLEAF + 1 } : Node).LEAF
        = nc0.LEAF.set nc0.NLEAF b := rfl
    rw [t4, t2] at t3
    have := hcnt1 b'
    simp only at this
    omega
  · rw [if_neg hn] at h5
    rw [← Option.some.inj h5]
    refine ⟨hinv2, frame_trans NCRIT _ _ _ hfr1 hfr2, ?_⟩
    intro b'
    have hn' : nc0.NLEAF + 1 < NCRIT := by rw [hnc] at hn; exact not_le.1 hn
    have t1 := (hAB b').1 hn'
    rw [← q3] at t1
    have := hcnt1 b'
    simp only at this
    rw [t1, this]

theorem root_treeInv (NCRIT : Nat) (X0 : List Rat) (R0 : Rat) (bodies : List Body) :
    TreeInv NCRIT X0 R0 bodies [rootNode NCRIT X0 R0] := by
  have h0 : ∀ (j : Nat) (N : Node), [rootNode NCRIT X0 R0][j]? = some N →
      j = 0 ∧ N = rootNode NCRIT X0 R0 := by
    intro j N hN
    have hj : j = 0 := by
      have := getElem?_lt hN
      simp at this; exact this
    subst hj
    simp only [List.getElem?_cons_zero, Option.some.injEq] at hN
    exact ⟨rfl, hN.symm⟩
  refine ⟨?_, ?_, rootNode NCRIT X0 R0, rfl, rootNode_geo NCRIT X0 R0⟩
  · intro j N hN
    obtain ⟨-, rfl⟩ := h0 j N hN
    refine ⟨by simp [rootNode], by simp [rootNode], fun h => absurd rfl h, ?_, 0, fun _ => 0,
      rootNode_geo NCRIT X0 R0, ?_⟩
    · intro m b hm
      exact absurd hm (by simp [rootNode])
    · intro o _ hb
      exact absurd (show (0 : Nat) &&& (1 <<< o) = 0 by simp) hb
  · intro j hj0 hjl
    simp at hjl
    omega

theorem growLoop_treeInv (NCRIT : Nat) (X0 : List Rat) (R0 : Rat) (bodies : List Body)
    (fuel : Nat) :
    ∀ (bs : List Nat) (nodes nodes' : List Node),
    growLoop NCRIT bodies fuel bs nodes = some nodes' →
    TreeInv NCRIT X0 R0 bodies nodes →
    TreeInv NCRIT X0 R0 bodies nodes' ∧ Frame NCRIT nodes nodes' ∧
      ∀ b' : Nat, holdCount NCRIT nodes' b' = holdCount NCRIT nodes b' + bs.count b' := by
  intro bs
  induction bs with
  | nil =>
    intro nodes nodes' h hinv
    simp only [growLoop] at h
    rw [← Option.some.inj h]; exact ⟨hinv, frame_refl NCRIT nodes, fun _ => by simp⟩
  | cons b bs ih =>
    intro nodes nodes' h hinv
    simp only [growLoop, Option.bind_eq_bind, Option.bind_eq_some] at h
    obtain ⟨nodes1, h1, h2⟩ := h
    obtain ⟨a1, a2, a3⟩ := growStep_treeInv NCRIT X0 R0 bodies fuel b nodes nodes1 h1 hinv
    obtain ⟨b1, b2, b3⟩ := ih nodes1 nodes' h2 a1
    refine ⟨b1, frame_trans NCRIT _ _ _ a2 b2, ?_⟩
    intro b'
    rw [b3 b', a3 b', List.count_cons]
    by_cases hb : b' = b
    · subst hb; simp; omega
    · have : ¬ ((b == b') = true) := by simpa using fun h => hb h.symm
      simp [hb, this]

theorem writeOk_refl (NCRIT : Nat) (nodes : List Node) (bodies : List Body) :
    WriteOk NCRIT nodes bodies bodies :=
  ⟨rfl, fun _ B hB => ⟨B, hB, rfl, Or.inl rfl⟩⟩

theorem writeOk_trans (NCRIT : Nat) (nodes : List Node) (a b c : List Body)
    (h1 : WriteOk NCRIT nodes a b) (h2 : WriteOk NCRIT nodes b c) : WriteOk NCRIT nodes a c := by
  refine ⟨by rw [h2.1, h1.1], ?_⟩
  intro k B hB
  obtain ⟨B1, a1, a2, a3⟩ := h1.2 k B hB
  obtain ⟨B2, b1, b2, b3⟩ := h2.2 k B1 a1
  refine ⟨B2, b1, by rw [b2, a2], ?_⟩
  rcases b3 with b3 | b3
  · rcases a3 with a3 | ⟨j, N, c1, c2, c3⟩
    · exact Or.inl (by rw [b3, a3])
    · exact Or.inr ⟨j, N, c1, c2, by rw [b3, c3]⟩
  · exact Or.inr b3

theorem written_persist (NCRIT : Nat) (nodes : List Node) (a b : List Body) (k : Nat) (B : Body)
    (h : WriteOk NCRIT nodes a b) (hB : a[k]? = some B) (hw : Written NCRIT nodes k B) :
    ∃ B1 : Body, b[k]? = some B1 ∧ Written NCRIT nodes k B1 := by
  obtain ⟨B1, a1, -, a3⟩ := h.2 k B hB
  refine ⟨B1, a1, ?_⟩
  rcases a3 with a3 | a3
  · obtain ⟨j, N, c1, c2, c3⟩ := hw
    exact ⟨j, N, c1, c2, by rw [a3, c3]⟩
  · exact a3

theorem writeLeafs_spec (NCRIT : Nat) (nodes : List Node) (j : Nat) (N : Node)
    (hN : nodes[j]? = some N) (hleaf : N.NLEAF < NCRIT) :
    ∀ (is : List Nat) (bodies bodies' : List Body),
    writeLeafs N is bodies = some bodies' → (∀ i ∈ is, i < N.NLEAF) →
    WriteOk NCRIT nodes bodies bodies' ∧
      ∀ i ∈ is, ∀ b : Nat, N.LEAF[i]? = some b →
        ∃ B' : Body, bodies'[b]? = some B' ∧ Written NCRIT nodes b B' := by
  intro is
  induction is with
  | nil =>
    intro bodies bodies' h _
    simp only [writeLeafs] at h
    rw [← Option.some.inj h]
    exact ⟨writeOk_refl NCRIT nodes bodies, fun i hi => absurd hi (List.not_mem_nil i)⟩
  | cons i is ih =>
    intro bodies bodies' h hlt
    simp only [writeLeafs, Option.bind_eq_bind, Option.bind_eq_some] at h
    obtain ⟨b, h1, B, h2, h3⟩ := h
    have hbl := getElem?_lt h2
    have hhold : Holds NCRIT N b := by
      refine ⟨hleaf, ?_⟩
      have hi := hlt i (List.mem_cons_self _ _)
      apply List.getElem?_mem (n := i)
      rw [List.getElem?_take_of_lt hi]; exact h1
    have hw : Written NCRIT nodes b { B with ICELL := N.I } := ⟨j, N, hN, hhold, rfl⟩
    have hok1 : WriteOk NCRIT nodes bodies (bodies.set b { B with ICELL := N.I }) := by
      refine ⟨by rw [List.length_set], ?_⟩
      intro k K hK
      by_cases hk : k = b
      · subst hk
        rw [h2] at hK
        have := Option.some.inj hK
        subst this
        exact ⟨_, List.getElem?_set_self hbl, rfl, Or.inr hw⟩
      · exact ⟨K, by rw [List.getElem?_set_ne (Ne.symm hk)]; exact hK, rfl, Or.inl rfl⟩
    obtain ⟨r1, r2⟩ := ih _ bodies' h3 (fun i' hi' => hlt i' (List.mem_cons_of_mem _ hi'))
    refine ⟨writeOk_trans NCRIT nodes _ _ _ hok1 r1, ?_⟩
    intro i' hi' b' hb'
    rcases List.mem_cons.1 hi' with e | e
    · subst e
      rw [h1] at hb'
      have := Option.some.inj hb'
      subst this
      exact written_persist NCRIT nodes _ _ b _ r1 (List.getElem?_set_self hbl) hw
    · exact r2 i' e b' hb'

/-- The loop over the children in traverse, for the octants `os`. -/
theorem childFold_spec (NCRIT : Nat) (nodes : List Node) (N : Node) (fuel : Nat)
    (ih : ∀ (n : Nat) (bodies bodies' : List Body),
      traverse NCRIT nodes fuel n bodies = some bodies' →
      WriteOk NCRIT nodes bodies bodies' ∧
        ∀ (j : Nat) (K : Node) (b : Nat), Reach NCRIT nodes n j → nodes[j]? = some K →
          Holds NCRIT K b → ∃ B' : Body, bodies'[b]? = some B' ∧ Written NCRIT nodes b B') :
    ∀ (os : List Nat) (bodies bodies' : List Body),
    os.foldlM (fun bs i =>
        if N.ICHILD &&& (1 <<< i) ≠ 0 then do
          let c ← N.CHILD[i]?
          traverse NCRIT nodes fuel c bs
        else some bs) bodies = some bodies' →
    WriteOk NCRIT nodes bodies bodies' ∧
      ∀ o ∈ os, N.ICHILD &&& (1 <<< o) ≠ 0 → ∀ c : Nat, N.CHILD[o]? = some c →
        ∀ (j : Nat) (K : Node) (b : Nat), Reach NCRIT nodes c j → nodes[j]? = some K →
          Holds NCRIT K b → ∃ B' : Body, bodies'[b]? = some B' ∧ Written NCRIT nodes b B' := by
  intro os
  induction os with
  | nil =>
    intro bodies bodies' h
    simp only [List.foldlM_nil, pure, Option.some.injEq] at h
    rw [← h]
    exact ⟨writeOk_refl NCRIT nodes bodies, fun o ho => absurd ho (List.not_mem_nil o)⟩
  | cons o os ihos =>
    intro bodies bodies' h
    simp only [List.foldlM_cons, Option.bind_eq_bind, Option.bind_eq_some] at h
    obtain ⟨bodies1, h1, h2⟩ := h
    obtain ⟨r1, r2⟩ := ihos bodies1 bodies' h2
    by_cases hb : N.ICHILD &&& (1 <<< o) ≠ 0
    · rw [if_pos hb] at h1
      simp only [Option.bind_eq_bind, Option.bind_eq_some] at h1
      obtain ⟨c, c1, c2⟩ := h1
      obtain ⟨q1, q2⟩ := ih c bodies bodies1 c2
      refine ⟨writeOk_trans NCRIT nodes _ _ _ q1 r1, ?_⟩
      intro o' ho' hb' c' hc' j K b hr hK hH
      rcases List.mem_cons.1 ho' with e | e
      · subst e
        rw [c1] at hc'
        have := Option.some.inj hc'
        subst this
        obtain ⟨B1, t1, t2⟩ := q2 j K b hr hK hH
        exact written_persist NCRIT nodes _ _ b B1 r1 t1 t2
      · exact r2 o' e hb' c' hc' j K b hr hK hH
    · rw [if_neg hb] at h1
      have := Option.some.inj h1
      subst this
      refine ⟨r1, ?_⟩
      intro o' ho' hb' c' hc' j K b hr hK hH
      rcases List.mem_cons.1 ho' with e | e
      · subst e; exact absurd hb' hb
      · exact r2 o' e hb' c' hc' j K b hr hK hH

theorem traverse_spec (NCRIT : Nat) (nodes : List Node) :
    ∀ (fuel n : Nat) (bodies bodies' : List Body),
    traverse NCRIT nodes fuel n bodies = some bodies' →
    WriteOk NCRIT nodes bodies bodies' ∧
      ∀ (j : Nat) (K : Node) (b : Nat), Reach NCRIT nodes n j → nodes[j]? = some K →
        Holds NCRIT K b → ∃ B' : Body, bodies'[b]? = some B' ∧ Written NCRIT nodes b B' := by
  intro fuel
  induction fuel with
  | zero => intro n bodies bodies' h; simp [traverse] at h
  | succ fuel ih =>
    intro n bodies bodies' h
    unfold traverse at h
    simp only [Option.bind_eq_bind, Option.bind_eq_some] at h
    obtain ⟨N, hN, h1⟩ := h
    by_cases hfull : N.NLEAF ≥ NCRIT
    · rw [if_pos hfull] at h1
      obtain ⟨r1, r2⟩ := childFold_spec NCRIT nodes N fuel ih (List.range 8) bodies bodies' h1
      refine ⟨r1, ?_⟩
      intro j K b hr hK hH
      cases hr with
      | refl =>
        rw [hN] at hK
        have := Option.some.inj hK
        subst this
        exact absurd hH.1 (by omega)
      | step _ N' o c _ a1 a2 a3 a4 a5 a6 =>
        rw [hN] at a1
        have := Option.some.inj a1
        subst this
        exact r2 o (List.mem_range.2 a3) a4 c a5 j K b a6 hK hH
    · rw [if_neg hfull] at h1
      obtain ⟨r1, r2⟩ := writeLeafs_spec NCRIT nodes n N hN (by omega) (List.range N.NLEAF)
        bodies bodies' h1 (fun i hi => List.mem_range.1 hi)
      refine ⟨r1, ?_⟩
      intro j K b hr hK hH
      have hj : j = n := by
        cases hr with
        | refl => rfl
        | step _ N' o c _ a1 a2 a3 a4 a5 a6 =>
          rw [hN] at a1
          have := Option.some.inj a1
          subst this
          exact absurd a2 (by omega)
      subst hj
      rw [hN] at hK
      have := Option.some.inj hK
      subst this
      obtain ⟨i, hi⟩ := List.mem_iff_getElem?.1 hH.2
      have hil : i < N.NLEAF := by
        have := getElem?_lt hi
        rw [List.length_take] at this
        omega
      rw [List.getElem?_take_of_lt hil] at hi
      exact r2 i (List.mem_range.2 hil) b hi

theorem writeLeafs_total (N : Node) (len : Nat) :
    ∀ (is : List Nat) (bodies : List Body), bodies.length = len →
    (∀ i ∈ is, ∃ b : Nat, N.LEAF[i]? = some b ∧ b < len) →
    ∃ bodies' : List Body, writeLeafs N is bodies = some bodies' := by
  intro is
  induction is with
  | nil => intro bodies _ _; exact ⟨bodies, rfl⟩
  | cons i is ih =>
    intro bodies hlen h
    obtain ⟨b, h1, h2⟩ := h i (List.mem_cons_self _ _)
    have hbl : b < bodies.length := by omega
    obtain ⟨r, hr⟩ := ih (bodies.set b { bodies[b] with ICELL := N.I })
      (by rw [List.length_set]; exact hlen) (fun i' hi' => h i' (List.mem_cons_of_mem _ hi'))
    refine ⟨r, ?_⟩
    simp only [writeLeafs, h1, Option.bind_eq_bind, Option.some_bind,
      List.getElem?_eq_getElem hbl]
    exact hr

theorem childFold_total (NCRIT : Nat) (nodes : List Node) (N : Node) (fuel len : Nat)
    (ih : ∀ (c : Nat) (bodies : List Body), (∃ o, o < 8 ∧ N.ICHILD &&& (1 <<< o) ≠ 0 ∧
        N.CHILD[o]? = some c) → bodies.length = len →
      ∃ bodies' : List Body, traverse NCRIT nodes fuel c bodies = some bodies' ∧
        bodies'.length = len)
    (hC : N.CHILD.length = 8) :
    ∀ (os : List Nat) (bodies : List Body), (∀ o ∈ os, o < 8) → bodies.length = len →
    ∃ bodies' : List Body,
      os.foldlM (fun bs i =>
        if N.ICHILD &&& (1 <<< i) ≠ 0 then do
          let c ← N.CHILD[i]?
          traverse NCRIT nodes fuel c bs
        else some bs) bodies = some bodies' ∧ bodies'.length = len := by
  intro os
  induction os with
  | nil => intro bodies _ hl; exact ⟨bodies, rfl, hl⟩
  | cons o os ihos =>
    intro bodies ho hl
    have ho8 := ho o (List.mem_cons_self _ _)
    by_cases hb : N.ICHILD &&& (1 <<< o) ≠ 0
    · have hol : o < N.CHILD.length := by omega
      have hc : N.CHILD[o]? = some N.CHILD[o] := List.getElem?_eq_getElem hol
      obtain ⟨b1, t1, t2⟩ := ih _ bodies ⟨o, ho8, hb, hc⟩ hl
      obtain ⟨b2, u1, u2⟩ := ihos b1 (fun o' ho' => ho o' (List.mem_cons_of_mem _ ho')) t2
      refine ⟨b2, ?_, u2⟩
      simp only [List.foldlM_cons, if_pos hb, hc, Option.bind_eq_bind, Option.some_bind, t1]
      exact u1
    · obtain ⟨b2, u1, u2⟩ := ihos bodies (fun o' ho' => ho o' (List.mem_cons_of_mem _ ho')) hl
      refine ⟨b2, ?_, u2⟩
      simp only [List.foldlM_cons, if_neg hb, Option.bind_eq_bind, Option.some_bind]
      exact u1

/-- On a tree with the invariant traverse returns: the recursion depth is below the number of
nodes, a child coming after its parent. -/
theorem traverse_total (NCRIT : Nat) (X0 : List Rat) (R0 : Rat) (bodies0 : List Body)
    (nodes : List Node) (hinv : TreeInv NCRIT X0 R0 bodies0 nodes) :
    ∀ (fuel n : Nat) (bodies : List Body), n < nodes.length → nodes.length ≤ n + fuel →
    bodies.length = bodies0.length →
    ∃ bodies' : List Body, traverse NCRIT nodes fuel n bodies = some bodies' ∧
      bodies'.length = bodies0.length := by
  intro fuel
  induction fuel with
  | zero => intro n bodies h1 h2; omega
  | succ fuel ih =>
    intro n bodies h1 h2 hl
    have hN : nodes[n]? = some (nodes[n]) := List.getElem?_eq_getElem h1
    obtain ⟨a1, a2, a3, a4, l, g, a5, a6⟩ := hinv.1 n _ hN
    unfold traverse
    simp only [hN, Option.bind_eq_bind, Option.some_bind]
    by_cases hfull : (nodes[n]).NLEAF ≥ NCRIT
    · rw [if_pos hfull]
      apply childFold_total NCRIT nodes _ fuel bodies0.length _ a1 (List.range 8) bodies
        (fun o ho => List.mem_range.1 ho) hl
      intro c bs ⟨o, o1, o2, o3⟩ hbs
      obtain ⟨c', C, c1, c2, c3, -⟩ := a6 o o1 o2
      rw [o3] at c1
      have := Option.some.inj c1
      subst this
      exact ih c bs (getElem?_lt c3) (by omega) hbs
    · rw [if_neg hfull]
      obtain ⟨r, hr⟩ := writeLeafs_total (nodes[n]) bodies0.length
        (List.range (nodes[n]).NLEAF) bodies hl (by
          intro i hi
          have hi' := List.mem_range.1 hi
          have hlt : i < (nodes[n]).LEAF.length := by omega
          obtain ⟨B, b1, -⟩ := a4 i _ hi' (List.getElem?_eq_getElem hlt)
          exact ⟨_, List.getElem?_eq_getElem hlt, getElem?_lt b1⟩)
      refine ⟨r, hr, ?_⟩
      have := (traverse_spec NCRIT nodes (fuel + 1) n bodies r (by
        unfold traverse
        simp only [hN, Option.bind_eq_bind, Option.some_bind, if_neg hfull]
        exact hr)).1.1
      rw [this, hl]

theorem reach_snoc (NCRIT : Nat) (nodes : List Node) (n p j : Nat) (P : Node) (o : Nat)
    (h : Reach NCRIT nodes n p) (hP : nodes[p]? = some P) (hfull : NCRIT ≤ P.NLEAF) (ho : o < 8)
    (hb : P.ICHILD &&& (1 <<< o) ≠ 0) (hc : P.CHILD[o]? = some j) : Reach NCRIT nodes n j := by
  induction h with
  | refl n => exact Reach.step n P o j j hP hfull ho hb hc (Reach.refl j)
  | step n N o' c _ a1 a2 a3 a4 a5 _ ih => exact Reach.step n N o' c j a1 a2 a3 a4 a5 (ih hP)

/-- Every node of a tree with the invariant is visited by traverse from the root. -/
theorem reach_all (NCRIT : Nat) (X0 : List Rat) (R0 : Rat) (bodies : List Body)
    (nodes : List Node) (hinv : TreeInv NCRIT X0 R0 bodies nodes) :
    ∀ j : Nat, j < nodes.length → Reach NCRIT nodes 0 j := by
  intro j
  induction j using Nat.strong_induction_on with
  | _ j ih =>
    intro hj
    rcases Nat.eq_zero_or_pos j with h0 | hpos
    · subst h0; exact Reach.refl 0
    · obtain ⟨p, P, o, p1, p2, p3, p4, p5, p6⟩ := hinv.2.1 j hpos hj
      exact reach_snoc NCRIT nodes 0 p j P o (ih p p1 (getElem?_lt p2)) p2 p3 p4 p5 p6

/-- A sum of natural numbers equal to one has exactly one positive term. -/
theorem sum_eq_one_unique {α : Type} (f : α → Nat) : ∀ (xs : List α), (xs.map f).sum = 1 →
    ∃ (j : Nat) (x : α), xs[j]? = some x ∧ 0 < f x ∧
      ∀ (k : Nat) (y : α), xs[k]? = some y → 0 < f y → k = j := by
  intro xs
  induction xs with
  | nil => intro h; simp at h
  | cons a t ih =>
    intro h
    simp only [List.map_cons, List.sum_cons] at h
    rcases Nat.eq_zero_or_pos (f a) with h0 | hpos
    · rw [h0, Nat.zero_add] at h
      obtain ⟨j, x, j1, j2, j3⟩ := ih h
      refine ⟨j + 1, x, by simpa using j1, j2, ?_⟩
      intro k y hk hy
      cases k with
      | zero =>
        simp only [List.getElem?_cons_zero, Option.some.injEq] at hk
        subst hk; omega
      | succ k =>
        simp only [List.getElem?_cons_succ] at hk
        rw [j3 k y hk hy]
    · have ht : (t.map f).sum = 0 := by omega
      refine ⟨0, a, by simp, hpos, ?_⟩
      intro k y hk hy
      cases k with
      | zero => rfl
      | succ k =>
        simp only [List.getElem?_cons_succ] at hk
        have hmem : f y ∈ t.map f := List.mem_map_of_mem f (List.getElem?_mem hk)
        have := List.single_le_sum (fun _ _ => Nat.zero_le _) _ hmem
        omega

theorem holdCount_one (NCRIT : Nat) (nodes : List Node) (b : Nat)
    (h : holdCount NCRIT nodes b = 1) :
    ∃ (j : Nat) (N : Node), nodes[j]? = some N ∧ Holds NCRIT N b ∧
      ∀ (k : Nat) (K : Node), nodes[k]? = some K → Holds NCRIT K b → k = j := by
  obtain ⟨j, N, j1, j2, j3⟩ := sum_eq_one_unique _ nodes h
  have hpos : ∀ K : Node,
      0 < (if K.NLEAF < NCRIT then (K.LEAF.take K.NLEAF).count b else 0) ↔ Holds NCRIT K b := by
    intro K
    unfold Holds
    by_cases hl : K.NLEAF < NCRIT
    · rw [if_pos hl, List.count_pos_iff]
      exact ⟨fun h => ⟨hl, h⟩, fun h => h.2⟩
    · rw [if_neg hl]
      exact ⟨fun h => absurd h (lt_irrefl 0), fun h => absurd h.1 hl⟩
  exact ⟨j, N, j1, (hpos N).1 j2, fun k K hk hK => j3 k K hk ((hpos K).2 hK)⟩

/-- The centre and radius that getCenter derives from the index of a node are the centre and
radius of the node. -/
theorem getCenter_nodeGeo (X0 : List Rat) (R0 : Rat) (cell : Cell) (N : Node) (l : Nat)
    (n : Nat → Int) (hg : NodeGeo X0 R0 N l n) (hc : cell.ICELL = N.I) :
    ∃ cell' : Cell, getCenter X0 R0 cell = some cell' ∧ cell'.R = N.R ∧
      ∀ d, d < 3 → cell'.X.getD d 0 = N.X.getD d 0 := by
  obtain ⟨-, hr, hi, hx⟩ := hg
  obtain ⟨a1, a2⟩ := getCenterNx_key l (n 0) (n 1) (n 2)
    ⟨(hx 0 (by norm_num)).1, (hx 0 (by norm_num)).2.1⟩
    ⟨(hx 1 (by norm_num)).1, (hx 1 (by norm_num)).2.1⟩
    ⟨(hx 2 (by norm_num)).1, (hx 2 (by norm_num)).2.1⟩
  rw [← hi, ← hc] at a1 a2
  have hsh : ((shl 1 (l : Int) : Int) : Rat) = 2 ^ l := by
    rw [shl_natCast]; push_cast; ring
  have h3 : List.range 3 = [0, 1, 2] := rfl
  unfold getCenter
  simp only [a1, a2, hsh, Option.bind_eq_bind, Option.some_bind]
  refine ⟨_, rfl, hr.symm, ?_⟩
  intro d hd
  rw [(hx d hd).2.2, hr, h3]
  interval_cases d <;> simp

theorem count_range (k b : Nat) : (List.range k).count b = if b < k then 1 else 0 := by
  by_cases h : b < k
  · rw [if_pos h]
    exact List.count_eq_one_of_mem (List.nodup_range k) (List.mem_range.2 h)
  · rw [if_neg h]
    exact List.count_eq_zero_of_not_mem (fun hm => h (List.mem_range.1 hm))

theorem holdCount_root (NCRIT : Nat) (X0 : List Rat) (R0 : Rat) (b : Nat) :
    holdCount NCRIT [rootNode NCRIT X0 R0] b = 0 := by
  simp [holdCount, rootNode]

/-- After grow every body is held by exactly one leaf node, and the invariant holds. -/
theorem grow_spec (NCRIT : Nat) (X0 : List Rat) (R0 : Rat) (bodies : List Body) (fuel : Nat)
    (nodes : List Node)
    (hg : grow NCRIT X0 R0 bodies fuel = some nodes) :
    TreeInv NCRIT X0 R0 bodies nodes ∧
      ∀ b : Nat, b < bodies.length → holdCount NCRIT nodes b = 1 := by
  obtain ⟨a1, -, a3⟩ := growLoop_treeInv NCRIT X0 R0 bodies fuel (List.range bodies.length)
    _ nodes hg (root_treeInv NCRIT X0 R0 bodies)
  refine ⟨a1, fun b hb => ?_⟩
  rw [a3 b, holdCount_root, count_range, if_pos hb]

/-- C11: for every point set inside the root cube on which grow returns, setIndex_topdown
returns, keeps the number and the positions of the bodies, and gives every body the index I of a
node with NLEAF < NCRIT whose leaf buffer holds the body; that node is the only such node; and
the position of the body lies in the closed cube that getCenter derives from that index
(|x[d] - center[d]| ≤ radius on each axis). -/
theorem grow_setIndex_topdown (NCRIT : Nat) (X0 : List Rat) (R0 : Rat) (bodies : List Body)
    (fuel : Nat) (nodes : List Node)
    (hin : ∀ B ∈ bodies, ∀ d, d < 3 → |B.X.getD d 0 - X0.getD d 0| ≤ R0)
    (hg : grow NCRIT X0 R0 bodies fuel = some nodes) :
    ∃ (fuel1 : Nat) (bodies1 : List Body),
      setIndex_topdown NCRIT nodes fuel1 bodies = some bodies1 ∧
      bodies1.length = bodies.length ∧
      ∀ (b : Nat) (B B1 : Body), bodies[b]? = some B → bodies1[b]? = some B1 →
        B1.X = B.X ∧
        ∃ (j : Nat) (N : Node) (cell : Cell), nodes[j]? = some N ∧ Holds NCRIT N b ∧
          (∀ (k : Nat) (K : Node), nodes[k]? = some K → Holds NCRIT K b → k = j) ∧
          B1.ICELL = N.I ∧
          getCenter X0 R0 { Cell.init with ICELL := B1.ICELL } = some cell ∧
          ∀ d, d < 3 → |B1.X.getD d 0 - cell.X.getD d 0| ≤ cell.R := by
  obtain ⟨hinv, hcnt⟩ := grow_spec NCRIT X0 R0 bodies fuel nodes hg
  have hne : 0 < nodes.length := by
    obtain ⟨-, -, root, hr, -⟩ := hinv
    exact getElem?_lt hr
  obtain ⟨bodies1, ht, hlen⟩ := traverse_total NCRIT X0 R0 bodies nodes hinv nodes.length 0
    bodies hne (by omega) rfl
  obtain ⟨hok, hvis⟩ := traverse_spec NCRIT nodes nodes.length 0 bodies bodies1 ht
  refine ⟨nodes.length, bodies1, ht, hlen, ?_⟩
  intro b B B1 hB hB1
  obtain ⟨B1', e1, e2, -⟩ := hok.2 b B hB
  rw [hB1] at e1
  have := Option.some.inj e1
  subst this
  refine ⟨e2, ?_⟩
  obtain ⟨j, N, j1, j2, j3⟩ := holdCount_one NCRIT nodes b (hcnt b (getElem?_lt hB))
  obtain ⟨B1', w1, k, K, w2, w3, w4⟩ :=
    hvis j N b (reach_all NCRIT X0 R0 bodies nodes hinv j (getElem?_lt j1)) j1 j2
  rw [hB1] at w1
  have := Option.some.inj w1
  subst this
  have hk := j3 k K w2 w3
  subst hk
  rw [j1] at w2
  have := Option.some.inj w2
  subst this
  obtain ⟨-, -, -, a4, l, n, a5, -⟩ := hinv.1 k N j1
  obtain ⟨cell, c1, c2, c3⟩ :=
    getCenter_nodeGeo X0 R0 { Cell.init with ICELL := B1.ICELL } N l n a5 w4
  refine ⟨k, N, cell, j1, j2, j3, w4, c1, ?_⟩
  obtain ⟨m, hm⟩ := List.mem_iff_getElem?.1 j2.2
  have hml : m < N.NLEAF := by
    have := getElem?_lt hm
    rw [List.length_take] at this
    omega
  rw [List.getElem?_take_of_lt hml] at hm
  obtain ⟨B0, b1, b2⟩ := a4 m b hml hm
  rw [hB] at b1
  have := Option.some.inj b1
  subst this
  intro d hd
  rw [c2, c3 d hd, e2]
  exact b2 hin d hd

set_option maxRecDepth 8000

theorem grow_setIndex_topdown_witness :
    ∃ (fuel1 : Nat) (bodies1 : List Body),
      setIndex_topdown 2 ((grow 2 [0, 0, 0] 1 threePoints 10).getD []) fuel1 threePoints
        = some bodies1 ∧
      bodies1.length = threePoints.length ∧
      ∀ (b : Nat) (B B1 : Body), threePoints[b]? = some B → bodies1[b]? = some B1 →
        B1.X = B.X ∧
        ∃ (j : Nat) (N : Node) (cell : Cell),
          ((grow 2 [0, 0, 0] 1 threePoints 10).getD [])[j]? = some N ∧ Holds 2 N b ∧
          (∀ (k : Nat) (K : Node), ((grow 2 [0, 0, 0] 1 threePoints 10).getD [])[k]? = some K →
            Holds 2 K b → k = j) ∧
          B1.ICELL = N.I ∧
          getCenter [0, 0, 0] 1 { Cell.init with ICELL := B1.ICELL } = some cell ∧
          ∀ d, d < 3 → |B1.X.getD d 0 - cell.X.getD d 0| ≤ cell.R :=
  grow_setIndex_topdown 2 [0, 0, 0] 1 threePoints 10 ((grow 2 [0, 0, 0] 1 threePoints 10).getD [])
    (by
      intro B hB d hd
      simp only [threePoints, List.mem_cons, List.mem_singleton, List.not_mem_nil,
        or_false] at hB
      rcases hB with rfl | rfl | rfl <;> interval_cases d <;> norm_num [abs_le])
    (by with_unfolding_all decide)

/-- One pass of the loop of splitNode, put together from its parts. -/
theorem splitNodeLoop_intro (NCRIT : Nat) (bodies : List Body) (fuel i l : Nat)
    (nodes nodes' : List Node) (hl : l ≠ NCRIT)
    (ni : Node) (b : Nat) (B : Body) (ni1 : Node) (c b1 : Nat)
    (nodes2 : List Node) (nc : Node) (nodes3 : List Node)
    (h1 : nodes[i]? = some ni) (h2 : ni.LEAF[l]? = some b) (h3 : bodies[b]? = some B)
    (h5 : (if ni.ICHILD &&& (1 <<< getOctant B.X i nodes) = 0
        then addChild NCRIT (getOctant B.X i nodes) i nodes else nodes)[i]? = some ni1)
    (h6 : ni1.CHILD[getOctant B.X i nodes]? = some c)
    (h7 : ni1.LEAF[l]? = some b1)
    (h8 : addLeaf b1 c (if ni.ICHILD &&& (1 <<< getOctant B.X i nodes) = 0
        then addChild NCRIT (getOctant B.X i nodes) i nodes else nodes) = some nodes2)
    (h9 : nodes2[c]? = some nc)
    (h10 : (if nc.NLEAF ≥ NCRIT then splitNodeLoop NCRIT bodies fuel c 0 nodes2 else some nodes2)
        = some nodes3)
    (h11 : splitNodeLoop NCRIT bodies fuel i (l + 1) nodes3 = some nodes') :
    splitNodeLoop NCRIT bodies (fuel + 1) i l nodes = some nodes' := by
  unfold splitNodeLoop
  rw [if_neg hl]
  simp only [h1, h2, h3, h5, h6, h7, h8, h9, Option.bind_eq_bind, Option.some_bind]
  by_cases hn : nc.NLEAF ≥ NCRIT
  · rw [if_pos hn] at h10
    simp only [hn, if_true, h10, Option.some_bind]
    exact h11
  · rw [if_neg hn] at h10
    have := Option.some.inj h10
    subst this
    simp only [hn, if_false, Option.some_bind]
    exact h11

theorem splitNodeLoop_mono (NCRIT : Nat) (bodies : List Body) :
    ∀ (fuel i l : Nat) (nodes nodes' : List Node),
    splitNodeLoop NCRIT bodies fuel i l nodes = some nodes' →
    splitNodeLoop NCRIT bodies (fuel + 1) i l nodes = some nodes' := by
  intro fuel
  induction fuel with
  | zero => intro i l nodes nodes' h; simp [splitNodeLoop] at h
  | succ fuel ih =>
    intro i l nodes nodes' h
    by_cases hl : l = NCRIT
    · unfold splitNodeLoop at h ⊢
      rw [if_pos hl] at h ⊢
      exact h
    · obtain ⟨ni, b, B, nodes1, ni1, c, b1, nodes2, nc, nodes3, h1, h2, h3, h4, h5, h6, h7, h8,
        h9, h10, h11⟩ := splitNodeLoop_inv NCRIT bodies fuel i l nodes nodes' hl h
      subst h4
      refine splitNodeLoop_intro NCRIT bodies (fuel + 1) i l nodes nodes' hl ni b B ni1 c b1
        nodes2 nc nodes3 h1 h2 h3 h5 h6 h7 h8 h9 ?_ (ih _ _ _ _ h11)
      by_cases hn : nc.NLEAF ≥ NCRIT
      · rw [if_pos hn] at h10 ⊢
        exact ih _ _ _ _ h10
      · rw [if_neg hn] at h10 ⊢
        exact h10

theorem splitNodeLoop_mono_le (NCRIT : Nat) (bodies : List Body) (f g i l : Nat)
    (nodes nodes' : List Node) (hfg : f ≤ g)
    (h : splitNodeLoop NCRIT bodies f i l nodes = some nodes') :
    splitNodeLoop NCRIT bodies g i l nodes = some nodes' := by
  induction g with
  | zero =>
    have : f = 0 := by omega
    subst this; exact h
  | succ g ih =>
    rcases Nat.lt_or_ge f (g + 1) with h1 | h1
    · exact splitNodeLoop_mono NCRIT bodies g i l nodes nodes' (ih (by omega))
    · have : f = g + 1 := by omega
      subst this; exact h

theorem descendLoop_mono (NCRIT : Nat) (X : List Rat) :
    ∀ (fuel i : Nat) (nodes : List Node) (r : Nat × List Node),
    descendLoop NCRIT X fuel i nodes = some r →
    descendLoop NCRIT X (fuel + 1) i nodes = some r := by
  intro fuel
  induction fuel with
  | zero => intro i nodes r h; simp [descendLoop] at h
  | succ fuel ih =>
    intro i nodes r h
    obtain ⟨ni, h1, h2⟩ := descendLoop_inv NCRIT X fuel i nodes r h
    rcases h2 with ⟨hlt, h3⟩ | ⟨hge, nodes2, ni2, c, h3, h4, h5, h6⟩
    · unfold descendLoop
      simp only [h1, Option.bind_eq_bind, Option.some_bind, if_neg (not_le.2 hlt), h3]
    · subst h3
      have := ih _ _ _ h6
      unfold descendLoop
      simp only [h1, Option.bind_eq_bind, Option.some_bind]
      rw [if_pos hge]
      simp only [h4, h5, Option.some_bind]
      exact this

theorem descendLoop_mono_le (NCRIT : Nat) (X : List Rat) (f g i : Nat) (nodes : List Node)
    (r : Nat × List Node) (hfg : f ≤ g) (h : descendLoop NCRIT X f i nodes = some r) :
    descendLoop NCRIT X g i nodes = some r := by
  induction g with
  | zero =>
    have : f = 0 := by omega
    subst this; exact h
  | succ g ih =>
    rcases Nat.lt_or_ge f (g + 1) with h1 | h1
    · exact descendLoop_mono NCRIT X g i nodes r (ih (by omega))
    · have : f = g + 1 := by omega
      subst this; exact h

theorem growStep_mono_le (NCRIT : Nat) (bodies : List Body) (f g b : Nat)
    (nodes nodes' : List Node) (hfg : f ≤ g)
    (h : growStep NCRIT bodies f nodes b = some nodes') :
    growStep NCRIT bodies g nodes b = some nodes' := by
  obtain ⟨B, i, nodes1, nodes2, ni, h1, h2, h3, h4, h5⟩ :=
    growStep_inv NCRIT bodies f b nodes nodes' h
  unfold growStep
  simp only [h1, descendLoop_mono_le NCRIT B.X f g 0 nodes _ hfg h2, h3, h4,
    Option.bind_eq_bind, Option.some_bind]
  by_cases hn : ni.NLEAF ≥ NCRIT
  · rw [if_pos hn] at h5 ⊢
    exact splitNodeLoop_mono_le NCRIT bodies f g i 0 nodes2 nodes' hfg h5
  · rw [if_neg hn] at h5 ⊢
    exact h5

theorem growLoop_mono_le (NCRIT : Nat) (bodies : List Body) (f g : Nat) (hfg : f ≤ g) :
    ∀ (bs : List Nat) (nodes nodes' : List Node),
    growLoop NCRIT bodies f bs nodes = some nodes' →
    growLoop NCRIT bodies g bs nodes = some nodes' := by
  intro bs
  induction bs with
  | nil => intro nodes nodes' h; exact h
  | cons b bs ih =>
    intro nodes nodes' h
    simp only [growLoop, Option.bind_eq_bind, Option.bind_eq_some] at h ⊢
    obtain ⟨nodes1, h1, h2⟩ := h
    exact ⟨nodes1, growStep_mono_le NCRIT bodies f g b nodes nodes1 hfg h1, ih _ _ h2⟩

theorem nodeGeo_level (X0 : List Rat) (R0 : Rat) (N : Node) (l l' : Nat) (n n' : Nat → Int)
    (h : NodeGeo X0 R0 N l n) (h' : NodeGeo X0 R0 N l' n') : l = l' := by
  have a := h.1
  have b := h'.1
  rw [a] at b
  exact_mod_cast b

/-- A full node whose leaf slots hold two bodies further apart than the width of a cell of
depth `D` has a depth below `D`. -/
theorem sep_level (NCRIT : Nat) (X0 : List Rat) (R0 : Rat) (bodies : List Body)
    (nodes : List Node) (i : Nat) (ni : Node) (lam D : Nat) (n : Nat → Int)
    (hcube : InRoot X0 R0 bodies)
    (hinv : TreeInv NCRIT X0 R0 bodies nodes) (hi : nodes[i]? = some ni)
    (hfull : NCRIT ≤ ni.NLEAF) (hgeo : NodeGeo X0 R0 ni lam n)
    (hsep : Sep bodies R0 D ni.LEAF) : lam < D := by
  obtain ⟨-, a2, -, a4, -⟩ := hinv.1 i ni hi
  obtain ⟨b, hb, b', hb', B, B', h1, h2, d, hd, hlt⟩ := hsep
  have hin : ∀ (x : Nat) (Bx : Body), x ∈ ni.LEAF → bodies[x]? = some Bx → InCube ni Bx.X := by
    intro x Bx hx hBx
    obtain ⟨m, hm⟩ := List.mem_iff_getElem?.1 hx
    have hml := getElem?_lt hm
    obtain ⟨B0, c1, c2⟩ := a4 m x (by omega) hm
    rw [hBx] at c1
    rw [Option.some.inj c1]; exact c2 hcube
  have e1 := abs_le.1 (hin b B hb h1 d hd)
  have e2 := abs_le.1 (hin b' B' hb' h2 d hd)
  have hR : ni.R = R0 / 2 ^ lam := hgeo.2.1
  have hd2 : |B.X.getD d 0 - B'.X.getD d 0| ≤ 2 * ni.R := by
    rw [abs_le]; constructor <;> linarith [e1.1, e1.2, e2.1, e2.2]
  by_contra hcon
  have hle : D ≤ lam := by omega
  have hP : (0 : Rat) < 2 ^ lam := by positivity
  have hQ : (0 : Rat) < 2 ^ D := by positivity
  have hQP : (2 : Rat) ^ D ≤ 2 ^ lam := pow_le_pow_right₀ (by norm_num) hle
  have hR0 : 0 ≤ ni.R := by linarith [e1.1, e1.2]
  have hRP : ni.R * 2 ^ lam = R0 := by rw [hR]; field_simp
  have : |B.X.getD d 0 - B'.X.getD d 0| * 2 ^ D ≤ 2 * R0 := by
    calc |B.X.getD d 0 - B'.X.getD d 0| * 2 ^ D ≤ 2 * ni.R * 2 ^ D :=
          mul_le_mul_of_nonneg_right hd2 (le_of_lt hQ)
      _ ≤ 2 * ni.R * 2 ^ lam := mul_le_mul_of_nonneg_left hQP (by linarith)
      _ = 2 * R0 := by rw [mul_assoc, hRP]
  linarith

/-- The node `i` after the optional addChild: its child bit for the octant is set and its other
fields are as before. -/
theorem childStep_more (NCRIT : Nat) (nodes nodes1 : List Node) (i o : Nat) (ni : Node)
    (hi : nodes[i]? = some ni)
    (h1 : nodes1 = (if ni.ICHILD &&& (1 <<< o) = 0 then addChild NCRIT o i nodes else nodes)) :
    ∃ ni1 : Node, nodes1[i]? = some ni1 ∧ ni1.ICHILD &&& (1 <<< o) ≠ 0 ∧
      ni1.LEVEL = ni.LEVEL ∧ ni1.I = ni.I ∧ ni1.X = ni.X ∧ ni1.R = ni.R ∧ ni1.LEAF = ni.LEAF ∧
      ni1.NLEAF = ni.NLEAF := by
  by_cases hb : ni.ICHILD &&& (1 <<< o) = 0
  · rw [if_pos hb] at h1
    exact ⟨{ ni with ICHILD := ni.ICHILD ||| (1 <<< o), CHILD := ni.CHILD.set o nodes.length },
      by rw [h1]; exact addChild_get_self NCRIT o i nodes ni hi, or_bit_and_self _ _,
      rfl, rfl, rfl, rfl, rfl, rfl⟩
  · rw [if_neg hb] at h1
    exact ⟨ni, by rw [h1]; exact hi, hb, rfl, rfl, rfl, rfl, rfl, rfl⟩

theorem childSub_step (NCRIT : Nat) (X0 : List Rat) (R0 : Rat) (bodies : List Body)
    (nodes nodes1 : List Node) (i o l : Nat) (ni : Node)
    (hinv : TreeInv NCRIT X0 R0 bodies nodes) (hi : nodes[i]? = some ni) (ho : o < 8)
    (hcs : ChildSub nodes i l)
    (h1 : nodes1 = (if ni.ICHILD &&& (1 <<< o) = 0 then addChild NCRIT o i nodes else nodes)) :
    ChildSub nodes1 i l := by
  by_cases hb : ni.ICHILD &&& (1 <<< o) = 0
  · rw [if_pos hb] at h1
    subst h1
    intro ni1 hni1 o' ho' hbit'
    rw [addChild_get_self NCRIT o i nodes ni hi] at hni1
    have := Option.some.inj hni1
    subst this
    obtain ⟨a1, -, -, -, l0, n0, -, a6⟩ := hinv.1 i ni hi
    by_cases hoo : o' = o
    · subst hoo
      refine ⟨nodes.length, childNode NCRIT ni o',
        List.getElem?_set_self (by rw [a1]; exact ho'),
        addChild_get_last NCRIT o' i nodes ni hi, ?_⟩
      simp [childNode]
    · have hold : ni.ICHILD &&& (1 <<< o') ≠ 0 := fun h =>
        hbit' ((or_bit_and_ne ni.ICHILD o o' hoo).2 h)
      obtain ⟨c, C, c1, c2, c3⟩ := hcs ni hi o' ho' hold
      obtain ⟨c', C', d1, d2, d3, -⟩ := a6 o' ho' hold
      rw [c1] at d1
      have := Option.some.inj d1
      subst this
      refine ⟨c, C, ?_, ?_, c3⟩
      · show (ni.CHILD.set o nodes.length)[o']? = some c
        rw [List.getElem?_set_ne (Ne.symm hoo)]; exact c1
      · rw [addChild_get_ne NCRIT o i c nodes (getElem?_lt c2) (by omega)]; exact c2
  · rw [if_neg hb] at h1
    subst h1
    exact hcs

theorem addLeaf_some (b c : Nat) (nodes : List Node) (C : Node) (hc : nodes[c]? = some C)
    (hlt : C.NLEAF < C.LEAF.length) :
    addLeaf b c nodes
      = some (nodes.set c { C with LEAF := C.LEAF.set C.NLEAF b, NLEAF := C.NLEAF + 1 }) := by
  unfold addLeaf
  simp only [hc, Option.bind_eq_bind, Option.some_bind, if_pos hlt]

/-- The loop of splitNode at node `i` of depth `lam` returns, given that splitNode returns on
every full node of depth `lam + 1` whose leaf slots hold a separated pair. -/
theorem split_inner (NCRIT : Nat) (X0 : List Rat) (R0 : Rat) (bodies : List Body) (D lam i : Nat)
    (hrec : ∀ (c : Nat) (nodes2 : List Node) (nc : Node) (n' : Nat → Int),
      TreeInv NCRIT X0 R0 bodies nodes2 → nodes2[c]? = some nc → NCRIT ≤ nc.NLEAF →
      NodeGeo X0 R0 nc (lam + 1) n' → Sep bodies R0 D nc.LEAF → ChildSub nodes2 c 0 →
      ∃ (fuel : Nat) (nodes3 : List Node),
        splitNodeLoop NCRIT bodies fuel c 0 nodes2 = some nodes3) :
    ∀ (k l : Nat) (nodes : List Node) (ni : Node) (n : Nat → Int), l + k = NCRIT →
    TreeInv NCRIT X0 R0 bodies nodes → nodes[i]? = some ni → NCRIT ≤ ni.NLEAF →
    NodeGeo X0 R0 ni lam n → Sep bodies R0 D ni.LEAF → ChildSub nodes i l →
    ∃ (fuel : Nat) (nodes' : List Node),
      splitNodeLoop NCRIT bodies fuel i l nodes = some nodes' := by
  intro k
  induction k with
  | zero =>
    intro l nodes ni n hk _ _ _ _ _ _
    refine ⟨1, nodes, ?_⟩
    unfold splitNodeLoop
    rw [if_pos (by omega)]
  | succ k ih =>
    intro l nodes ni n hk hinv hi hfull hgeo hsep hcs
    have hl : l ≠ NCRIT := by omega
    obtain ⟨a1, a2, -, a4, -⟩ := hinv.1 i ni hi
    have hll : l < ni.LEAF.length := by omega
    have h2 : ni.LEAF[l]? = some ni.LEAF[l] := List.getElem?_eq_getElem hll
    obtain ⟨B, h3, hcube⟩ := a4 l _ (by omega) h2
    have ho := getOctant_lt B.X i nodes
    obtain ⟨nodes1, hn1⟩ : ∃ nodes1 : List Node,
        nodes1 = (if ni.ICHILD &&& (1 <<< getOctant B.X i nodes) = 0
          then addChild NCRIT (getOctant B.X i nodes) i nodes else nodes) := ⟨_, rfl⟩
    obtain ⟨hinv1, -, ni1, c, C, e1, e2, e3, e4, e5, e6, e7, -⟩ :=
      childStep NCRIT X0 R0 bodies nodes nodes1 i ni B.X hinv hi hfull hcube hn1
    obtain ⟨ni1', f1, f2, f3, f4, f5, f6, -, -⟩ :=
      childStep_more NCRIT nodes nodes1 i (getOctant B.X i nodes) ni hi hn1
    rw [e1] at f1
    have := Option.some.inj f1
    subst this
    have hcs1 := childSub_step NCRIT X0 R0 bodies nodes nodes1 i (getOctant B.X i nodes) l ni
      hinv hi ho hcs hn1
    obtain ⟨cq, Cq, g1, g2, g3⟩ := hcs1 ni1 e1 _ ho f2
    rw [e4] at g1
    have := Option.some.inj g1
    subst this
    rw [e6] at g2
    have := Option.some.inj g2
    subst this
    obtain ⟨-, hCl, hCa, -, -⟩ := hinv1.1 c C e6
    have hClt : C.NLEAF < NCRIT := by
      have h := g3.length_le
      rw [List.length_take, List.length_take, hCl, e2, a2] at h
      omega
    have hadd := addLeaf_some ni.LEAF[l] c nodes1 C e6 (by rw [hCl]; exact hClt)
    have hcl := getElem?_lt e6
    have hinv2 := (addLeaf_treeInv NCRIT X0 R0 bodies nodes1 _ ni.LEAF[l] c B hinv1 hadd h3
      (fun nc' hnc' => by
        rw [e6] at hnc'
        rw [← Option.some.inj hnc']; exact e7)).1
    have h7 : ni1.LEAF[l]? = some ni.LEAF[l] := by rw [e2]; exact h2
    have htk : ni.LEAF.take (l + 1) = ni.LEAF.take l ++ [ni.LEAF[l]] := by
      rw [List.take_succ, h2]; rfl
    have hsub : ((C.LEAF.set C.NLEAF ni.LEAF[l]).take (C.NLEAF + 1)).Sublist
        (ni.LEAF.take (l + 1)) := by
      rw [take_set_succ C.LEAF C.NLEAF _ (by rw [hCl]; exact hClt), htk]
      rw [e2] at g3
      exact g3.append (List.Sublist.refl _)
    by_cases hn : NCRIT ≤ C.NLEAF + 1
    · -- the child is full: its leaf slots are those of node `i`, and splitNode recurses
      have hlen := hsub.length_le
      rw [List.length_take, List.length_take, List.length_set, hCl, a2] at hlen
      have hl1 : l + 1 = NCRIT := by omega
      have heq := hsub.eq_of_length (by
        rw [List.length_take, List.length_take, List.length_set, hCl, a2]; omega)
      rw [List.take_of_length_le (by rw [List.length_set, hCl]; omega),
        List.take_of_length_le (by rw [a2]; omega)] at heq
      obtain ⟨-, -, -, -, l0, n0, q1, q2⟩ := hinv1.1 i ni1 e1
      obtain ⟨cr, Cr, r1, -, r3, r4⟩ := q2 _ ho f2
      rw [e4] at r1
      have := Option.some.inj r1
      subst this
      rw [e6] at r3
      have := Option.some.inj r3
      subst this
      have hl0 : l0 = lam :=
        nodeGeo_level X0 R0 ni1 l0 lam n0 n q1 (nodeGeo_congr X0 R0 ni ni1 lam n f3 f4 f5 f6 hgeo)
      subst hl0
      obtain ⟨fuel1, nodes3, hsp⟩ := hrec c _
        { C with LEAF := C.LEAF.set C.NLEAF ni.LEAF[l], NLEAF := C.NLEAF + 1 } _ hinv2
        (List.getElem?_set_self hcl) hn (nodeGeo_congr X0 R0 C _ _ _ rfl rfl rfl rfl r4)
        (by
          show Sep bodies R0 D (C.LEAF.set C.NLEAF ni.LEAF[l])
          rw [heq]; exact hsep)
        (by
          intro nc hnc o' _ hbit
          rw [List.getElem?_set_self hcl] at hnc
          have := Option.some.inj hnc
          subst this
          have hz : C.ICHILD = 0 := by
            by_contra hz
            have := hCa hz
            omega
          exact absurd (show C.ICHILD &&& (1 <<< o') = 0 by rw [hz]; simp) hbit)
      refine ⟨fuel1 + 1, nodes3, ?_⟩
      subst hn1
      refine splitNodeLoop_intro NCRIT bodies fuel1 i l nodes nodes3 hl ni _ B ni1 c _ _ _ nodes3
        hi h2 h3 e1 e4 h7 hadd (List.getElem?_set_self hcl) ?_ ?_
      · exact Eq.trans (if_pos hn) hsp
      · cases fuel1 with
        | zero => simp [splitNodeLoop] at hsp
        | succ f =>
          unfold splitNodeLoop
          rw [if_pos hl1]
    · -- the child stays a leaf node: the loop goes on with the next leaf slot
      have hci : c ≠ i := by omega
      have hi2 : (nodes1.set c
          { C with LEAF := C.LEAF.set C.NLEAF ni.LEAF[l], NLEAF := C.NLEAF + 1 })[i]?
          = some ni1 := by
        rw [List.getElem?_set_ne hci]; exact e1
      obtain ⟨fuel2, nodes', hsp⟩ := ih (l + 1) _ ni1 n (by omega) hinv2 hi2 (by rw [e3]; exact hfull)
        (nodeGeo_congr X0 R0 ni ni1 lam n f3 f4 f5 f6 hgeo) (by rw [e2]; exact hsep)
        (by
          intro nx hnx o' ho' hbit
          rw [hi2] at hnx
          have := Option.some.inj hnx
          subst this
          obtain ⟨cx, Cx, x1, x2, x3⟩ := hcs1 ni1 e1 o' ho' hbit
          by_cases hcx : cx = c
          · subst hcx
            rw [e6] at x2
            have := Option.some.inj x2
            subst this
            refine ⟨cx, _, x1, List.getElem?_set_self hcl, ?_⟩
            rw [e2]; exact hsub
          · refine ⟨cx, Cx, x1, by rw [List.getElem?_set_ne (Ne.symm hcx)]; exact x2, ?_⟩
            exact x3.trans (List.take_sublist_take_left _ (Nat.le_succ l)))
      refine ⟨fuel2 + 1, nodes', ?_⟩
      subst hn1
      refine splitNodeLoop_intro NCRIT bodies fuel2 i l nodes nodes' hl ni _ B ni1 c _ _ _ _
        hi h2 h3 e1 e4 h7 hadd (List.getElem?_set_self hcl) ?_ hsp
      exact if_neg hn

/-- The loop of splitNode returns on a full node whose leaf slots hold two bodies further apart
than the width of a cell of depth `D`. -/
theorem split_total (NCRIT : Nat) (X0 : List Rat) (R0 : Rat) (bodies : List Body) (D : Nat)
    (hcube : InRoot X0 R0 bodies) :
    ∀ (m lam i l : Nat) (nodes : List Node) (ni : Node) (n : Nat → Int), D ≤ lam + m →
    l ≤ NCRIT → TreeInv NCRIT X0 R0 bodies nodes → nodes[i]? = some ni → NCRIT ≤ ni.NLEAF →
    NodeGeo X0 R0 ni lam n → Sep bodies R0 D ni.LEAF → ChildSub nodes i l →
    ∃ (fuel : Nat) (nodes' : List Node),
      splitNodeLoop NCRIT bodies fuel i l nodes = some nodes' := by
  intro m
  induction m with
  | zero =>
    intro lam i l nodes ni n hD hl hinv hi hfull hgeo hsep hcs
    refine split_inner NCRIT X0 R0 bodies D lam i ?_ (NCRIT - l) l nodes ni n (by omega) hinv hi
      hfull hgeo hsep hcs
    intro c nodes2 nc n' q1 q2 q3 q4 q5 _
    have := sep_level NCRIT X0 R0 bodies nodes2 c nc (lam + 1) D n' hcube q1 q2 q3 q4 q5
    omega
  | succ m ih =>
    intro lam i l nodes ni n hD hl hinv hi hfull hgeo hsep hcs
    refine split_inner NCRIT X0 R0 bodies D lam i ?_ (NCRIT - l) l nodes ni n (by omega) hinv hi
      hfull hgeo hsep hcs
    intro c nodes2 nc n' q1 q2 q3 q4 q5 q6
    exact ih (lam + 1) c 0 nodes2 nc n' (by omega) (Nat.zero_le _) q1 q2 q3 q4 q5 q6

theorem incr_treeInv (NCRIT : Nat) (X0 : List Rat) (R0 : Rat) (bodies : List Body)
    (nodes : List Node) (i : Nat) (ni : Node) (hinv : TreeInv NCRIT X0 R0 bodies nodes)
    (hi : nodes[i]? = some ni) (hge : NCRIT ≤ ni.NLEAF) :
    TreeInv NCRIT X0 R0 bodies (nodes.set i { ni with NLEAF := ni.NLEAF + 1 }) := by
  obtain ⟨-, a2, -, a4, -⟩ := hinv.1 i ni hi
  refine set_treeInv NCRIT X0 R0 bodies nodes i ni { ni with NLEAF := ni.NLEAF + 1 } hinv hi
    rfl rfl rfl rfl rfl rfl (Nat.le_succ _) a2 ?_
  intro m b _ hb
  have hml := getElem?_lt hb
  exact a4 m b (by
    have : m < ni.LEAF.length := hml
    omega) hb

/-- The descent loop of grow returns: it follows child links, which lead to later nodes, and
stops at a child it has just created. -/
theorem descend_total (NCRIT : Nat) (X0 : List Rat) (R0 : Rat) (bodies : List Body)
    (X : List Rat) (hC : 0 < NCRIT) :
    ∀ (m i : Nat) (nodes : List Node) (ni : Node), nodes.length ≤ i + m →
    TreeInv NCRIT X0 R0 bodies nodes → nodes[i]? = some ni →
    (InRoot X0 R0 bodies → InCube ni X) →
    ∃ (fuel : Nat) (r : Nat × List Node), descendLoop NCRIT X fuel i nodes = some r := by
  intro m
  induction m with
  | zero =>
    intro i nodes ni hm _ hi _
    have := getElem?_lt hi
    omega
  | succ m ih =>
    intro i nodes ni hm hinv hi hX
    have leafCase : ∀ (j : Nat) (ns : List Node) (N : Node), ns[j]? = some N → N.NLEAF < NCRIT →
        descendLoop NCRIT X 1 j ns = some (j, ns) := by
      intro j ns N hN hlt
      unfold descendLoop
      simp only [hN, Option.bind_eq_bind, Option.some_bind, if_neg (not_le.2 hlt)]
    by_cases hlt : ni.NLEAF < NCRIT
    · exact ⟨1, (i, nodes), leafCase i nodes ni hi hlt⟩
    · have hge : NCRIT ≤ ni.NLEAF := not_lt.1 hlt
      have hil := getElem?_lt hi
      have hinv0 := incr_treeInv NCRIT X0 R0 bodies nodes i ni hinv hi hge
      obtain ⟨nodes2, hn2⟩ : ∃ nodes2 : List Node,
          nodes2 = (if ni.ICHILD &&&
              (1 <<< getOctant X i (nodes.set i { ni with NLEAF := ni.NLEAF + 1 })) = 0
            then addChild NCRIT (getOctant X i (nodes.set i { ni with NLEAF := ni.NLEAF + 1 })) i
              (nodes.set i { ni with NLEAF := ni.NLEAF + 1 })
            else nodes.set i { ni with NLEAF := ni.NLEAF + 1 }) := ⟨_, rfl⟩
      obtain ⟨hinv1, -, ni2, c, C, e1, -, -, e4, e5, e6, e7, -⟩ :=
        childStep NCRIT X0 R0 bodies (nodes.set i { ni with NLEAF := ni.NLEAF + 1 }) nodes2 i
          { ni with NLEAF := ni.NLEAF + 1 } X hinv0 (List.getElem?_set_self hil)
          (by show NCRIT ≤ ni.NLEAF + 1; omega) (fun hc => inCube_congr ni _ X rfl rfl (hX hc))
          hn2
      obtain ⟨fuel, r, hr⟩ : ∃ (fuel : Nat) (r : Nat × List Node),
          descendLoop NCRIT X fuel c nodes2 = some r := by
        by_cases hCl : C.NLEAF < NCRIT
        · exact ⟨1, (c, nodes2), leafCase c nodes2 C e6 hCl⟩
        · have hlen : nodes2.length = nodes.length := by
            by_cases hb : ni.ICHILD &&&
                (1 <<< getOctant X i (nodes.set i { ni with NLEAF := ni.NLEAF + 1 })) = 0
            · exfalso
              rw [if_pos hb] at hn2
              have hset : (nodes.set i { ni with NLEAF := ni.NLEAF + 1 })[i]?
                  = some { ni with NLEAF := ni.NLEAF + 1 } := List.getElem?_set_self hil
              rw [hn2, addChild_get_self NCRIT _ i _ _ hset] at e1
              rw [← Option.some.inj e1] at e4
              have h8 := (hinv.1 i ni hi).1
              have hc : c = (nodes.set i { ni with NLEAF := ni.NLEAF + 1 }).length := by
                have e4' : (ni.CHILD.set
                    (getOctant X i (nodes.set i { ni with NLEAF := ni.NLEAF + 1 }))
                    (nodes.set i { ni with NLEAF := ni.NLEAF + 1 }).length)[
                    getOctant X i (nodes.set i { ni with NLEAF := ni.NLEAF + 1 })]? = some c := e4
                rw [List.getElem?_set_self (by rw [h8]; exact getOctant_lt _ _ _)] at e4'
                exact (Option.some.inj e4').symm
              rw [hn2, hc, addChild_get_last NCRIT _ i _ _ hset] at e6
              rw [← Option.some.inj e6] at hCl
              exact hCl (by show 0 < NCRIT; exact hC)
            · rw [if_neg hb] at hn2
              rw [hn2, List.length_set]
          exact ih c nodes2 C (by omega) hinv1 e6 e7
      refine ⟨fuel + 1, r, ?_⟩
      subst hn2
      unfold descendLoop
      simp only [hi, Option.bind_eq_bind, Option.some_bind]
      rw [if_pos hge]
      simp only [e1, e4, Option.some_bind]
      exact hr

theorem count_le_holdCount (NCRIT : Nat) (nodes : List Node) (j : Nat) (N : Node) (a : Nat)
    (hj : nodes[j]? = some N) (hlt : N.NLEAF < NCRIT) :
    (N.LEAF.take N.NLEAF).count a ≤ holdCount NCRIT nodes a := by
  have hmem : (if N.NLEAF < NCRIT then (N.LEAF.take N.NLEAF).count a else 0)
      ∈ nodes.map (fun N => if N.NLEAF < NCRIT then (N.LEAF.take N.NLEAF).count a else 0) :=
    List.mem_map_of_mem _ (List.getElem?_mem hj)
  have := List.single_le_sum (fun _ _ => Nat.zero_le _) _ hmem
  rw [if_pos hlt] at this
  exact this

/-- One insertion step of grow returns when the bodies lie in the root cube and no `NCRIT` of
them have identical coordinates. -/
theorem growStep_total (NCRIT : Nat) (X0 : List Rat) (R0 : Rat) (bodies : List Body)
    (nodes : List Node) (b : Nat) (hC : 0 < NCRIT)
    (hin : ∀ B ∈ bodies, ∀ d, d < 3 → |B.X.getD d 0 - X0.getD d 0| ≤ R0)
    (hsep : ∀ s : List Nat, s.Nodup → s.length = NCRIT → (∀ x ∈ s, x < bodies.length) →
      ∃ a ∈ s, ∃ a' ∈ s, ∃ d : Nat, d < 3 ∧
        (bodies.getD a default).X.getD d 0 ≠ (bodies.getD a' default).X.getD d 0)
    (hinv : TreeInv NCRIT X0 R0 bodies nodes)
    (hcnt : ∀ b' : Nat, holdCount NCRIT nodes b' = if b' < b then 1 else 0)
    (hb : b < bodies.length) :
    ∃ (fuel : Nat) (nodes' : List Node), growStep NCRIT bodies fuel nodes b = some nodes' := by
  have hB : bodies[b]? = some bodies[b] := List.getElem?_eq_getElem hb
  obtain ⟨root, hroot, hrc⟩ := root_inCube NCRIT X0 R0 bodies nodes hinv (bodies[b]).X
    (hin _ (List.getElem?_mem hB))
  obtain ⟨f1, ⟨j, nodes1⟩, hd⟩ := descend_total NCRIT X0 R0 bodies (bodies[b]).X hC nodes.length 0
    nodes root (by omega) hinv hroot (fun _ => hrc)
  obtain ⟨hinv1, -, ⟨nj, j1, j2, j3⟩, hcnt1⟩ :=
    descendLoop_treeInv NCRIT X0 R0 bodies (bodies[b]).X f1 0 nodes (j, nodes1) hd hinv
      ⟨root, hroot, fun _ => hrc⟩
  simp only at j1 hcnt1 hinv1
  obtain ⟨-, jl, ja, -, -⟩ := hinv1.1 j nj j1
  have hadd := addLeaf_some b j nodes1 nj j1 (by rw [jl]; exact j2)
  have hjl := getElem?_lt j1
  have hinv2 := (addLeaf_treeInv NCRIT X0 R0 bodies nodes1 _ b j bodies[b] hinv1 hadd hB
    (fun nc hnc => by
      rw [j1] at hnc
      rw [← Option.some.inj hnc]; exact j3)).1
  have h4 : (nodes1.set j { nj with LEAF := nj.LEAF.set nj.NLEAF b, NLEAF := nj.NLEAF + 1 })[j]?
      = some { nj with LEAF := nj.LEAF.set nj.NLEAF b, NLEAF := nj.NLEAF + 1 } :=
    List.getElem?_set_self hjl
  by_cases hn : NCRIT ≤ nj.NLEAF + 1
  · -- the node is full: its leaf slots hold NCRIT different bodies, two of them apart
    have hfullLeaf : nj.LEAF.set nj.NLEAF b = nj.LEAF.take nj.NLEAF ++ [b] := by
      rw [← take_set_succ nj.LEAF nj.NLEAF b (by rw [jl]; exact j2),
        List.take_of_length_le (by rw [List.length_set, jl]; omega)]
    have hnd : (nj.LEAF.set nj.NLEAF b).Nodup := by
      rw [hfullLeaf, List.nodup_iff_count_le_one]
      intro a
      rw [List.count_append, List.count_singleton]
      have h1 := count_le_holdCount NCRIT nodes1 j nj a j1 j2
      rw [hcnt1 a, hcnt a] at h1
      by_cases hab : a = b
      · subst hab
        rw [if_neg (lt_irrefl a)] at h1
        simp; omega
      · have : ¬ ((b == a) = true) := by simpa using fun h => hab h.symm
        rw [if_neg this]
        split at h1 <;> omega
    obtain ⟨-, -, -, a4, lam, n, ageo, -⟩ := hinv2.1 j _ h4
    have hvalid : ∀ x ∈ nj.LEAF.set nj.NLEAF b, x < bodies.length := by
      intro x hx
      obtain ⟨m, hm⟩ := List.mem_iff_getElem?.1 hx
      have hml := getElem?_lt hm
      rw [List.length_set, jl] at hml
      obtain ⟨Bx, c1, -⟩ := a4 m x (by show m < nj.NLEAF + 1; omega) hm
      exact getElem?_lt c1
    obtain ⟨a, ha, a', ha', d, hd3, hne⟩ := hsep _ hnd (by rw [List.length_set, jl]) hvalid
    have hal := hvalid a ha
    have hal' := hvalid a' ha'
    have ea : bodies.getD a default = bodies[a] := by
      rw [List.getD_eq_getElem?_getD, List.getElem?_eq_getElem hal]; rfl
    have ea' : bodies.getD a' default = bodies[a'] := by
      rw [List.getD_eq_getElem?_getD, List.getElem?_eq_getElem hal']; rfl
    rw [ea, ea'] at hne
    have hpos : 0 < |(bodies[a]).X.getD d 0 - (bodies[a']).X.getD d 0| :=
      abs_pos.2 (sub_ne_zero.2 hne)
    obtain ⟨D, hD⟩ := pow_unbounded_of_one_lt
      (2 * R0 / |(bodies[a]).X.getD d 0 - (bodies[a']).X.getD d 0|) (show (1 : Rat) < 2 by norm_num)
    have hD' : 2 * R0 < |(bodies[a]).X.getD d 0 - (bodies[a']).X.getD d 0| * 2 ^ D := by
      rw [div_lt_iff₀ hpos] at hD
      linarith
    have hSep : Sep bodies R0 D (nj.LEAF.set nj.NLEAF b) :=
      ⟨a, ha, a', ha', bodies[a], bodies[a'], List.getElem?_eq_getElem hal,
        List.getElem?_eq_getElem hal', d, hd3, hD'⟩
    obtain ⟨f2, nodes', hsp⟩ := split_total NCRIT X0 R0 bodies D hin D lam j 0 _ _ n (by omega)
      (Nat.zero_le _) hinv2 h4 hn ageo hSep (by
        intro nc hnc o' _ hbit
        rw [h4] at hnc
        have := Option.some.inj hnc
        subst this
        have hz : nj.ICHILD = 0 := by
          by_contra hz
          have := ja hz
          omega
        exact absurd (show nj.ICHILD &&& (1 <<< o') = 0 by rw [hz]; simp) hbit)
    refine ⟨max f1 f2, nodes', ?_⟩
    unfold growStep
    simp only [hB, descendLoop_mono_le NCRIT _ f1 (max f1 f2) 0 nodes _ (le_max_left _ _) hd,
      hadd, h4, Option.bind_eq_bind, Option.some_bind]
    refine Eq.trans (if_pos hn) ?_
    exact splitNodeLoop_mono_le NCRIT bodies f2 (max f1 f2) j 0 _ nodes' (le_max_right _ _) hsp
  · refine ⟨f1,
      nodes1.set j { nj with LEAF := nj.LEAF.set nj.NLEAF b, NLEAF := nj.NLEAF + 1 }, ?_⟩
    unfold growStep
    simp only [hB, hd, hadd, h4, Option.bind_eq_bind, Option.some_bind]
    exact if_neg hn

theorem growLoop_total (NCRIT : Nat) (X0 : List Rat) (R0 : Rat) (bodies : List Body)
    (hC : 0 < NCRIT)
    (hin : ∀ B ∈ bodies, ∀ d, d < 3 → |B.X.getD d 0 - X0.getD d 0| ≤ R0)
    (hsep : ∀ s : List Nat, s.Nodup → s.length = NCRIT → (∀ x ∈ s, x < bodies.length) →
      ∃ a ∈ s, ∃ a' ∈ s, ∃ d : Nat, d < 3 ∧
        (bodies.getD a default).X.getD d 0 ≠ (bodies.getD a' default).X.getD d 0) :
    ∀ (n k : Nat) (nodes : List Node), k + n = bodies.length →
    TreeInv NCRIT X0 R0 bodies nodes →
    (∀ b' : Nat, holdCount NCRIT nodes b' = if b' < k then 1 else 0) →
    ∃ (fuel : Nat) (nodes' : List Node),
      growLoop NCRIT bodies fuel (List.range' k n) nodes = some nodes' := by
  intro n
  induction n with
  | zero => intro k nodes _ _ _; exact ⟨0, nodes, rfl⟩
  | succ n ih =>
    intro k nodes hk hinv hcnt
    obtain ⟨f1, nodes1, h1⟩ := growStep_total NCRIT X0 R0 bodies nodes k hC hin hsep hinv hcnt
      (by omega)
    obtain ⟨hinv1, -, hcnt1⟩ := growStep_treeInv NCRIT X0 R0 bodies f1 k nodes nodes1 h1 hinv
    obtain ⟨f2, nodes', h2⟩ := ih (k + 1) nodes1 (by omega) hinv1 (by
      intro b'
      rw [hcnt1 b', hcnt b']
      by_cases h : b' = k
      · subst h; simp
      · rw [if_neg h]
        by_cases h' : b' < k
        · rw [if_pos h', if_pos (by omega)]
        · rw [if_neg h', if_neg (by omega)])
    refine ⟨max f1 f2, nodes', ?_⟩
    rw [List.range'_succ]
    simp only [growLoop, Option.bind_eq_bind, Option.bind_eq_some]
    exact ⟨nodes1, growStep_mono_le NCRIT bodies f1 _ k nodes nodes1 (le_max_left _ _) h1,
      growLoop_mono_le NCRIT bodies f2 _ (le_max_right _ _) _ _ _ h2⟩

/-- C13: for a positive NCRIT and every finite point set inside the root cube in which no NCRIT
points (at pairwise different positions of the body array) have identical coordinates, grow
terminates: with enough fuel for its loops and for the recursion of splitNode it returns the
node vector. -/
theorem grow_terminates (NCRIT : Nat) (X0 : List Rat) (R0 : Rat) (bodies : List Body)
    (hC : 0 < NCRIT)
    (hin : ∀ B ∈ bodies, ∀ d, d < 3 → |B.X.getD d 0 - X0.getD d 0| ≤ R0)
    (hsep : ∀ s : List Nat, s.Nodup → s.length = NCRIT → (∀ x ∈ s, x < bodies.length) →
      ∃ a ∈ s, ∃ a' ∈ s, ∃ d : Nat, d < 3 ∧
        (bodies.getD a default).X.getD d 0 ≠ (bodies.getD a' default).X.getD d 0) :
    ∃ (fuel : Nat) (nodes : List Node), grow NCRIT X0 R0 bodies fuel = some nodes ∧
      ∀ fuel1 : Nat, fuel ≤ fuel1 → grow NCRIT X0 R0 bodies fuel1 = some nodes := by
  obtain ⟨fuel, nodes, h⟩ := growLoop_total NCRIT X0 R0 bodies hC hin hsep bodies.length 0
    [rootNode NCRIT X0 R0] (by omega) (root_treeInv NCRIT X0 R0 bodies) (by
      intro b'
      rw [holdCount_root]; simp)
  rw [← List.range_eq_range'] at h
  exact ⟨fuel, nodes, h, fun fuel1 hle =>
    growLoop_mono_le NCRIT bodies fuel fuel1 hle _ _ _ h⟩

theorem getOctant_congr (X : List Rat) (i : Nat) (nodes nodes1 : List Node)
    (h : (nodes1.getD i default).X = (nodes.getD i default).X) :
    getOctant X i nodes1 = getOctant X i nodes := by
  rw [getOctant_eq, getOctant_eq, h]

/-- On a node whose leaf slots all hold bodies at one position the loop of splitNode does not
return: every leaf goes to the same child, which becomes full and is split in turn. -/
theorem split_coincident (NCRIT : Nat) (bodies : List Body) (p : List Rat) :
    ∀ (fuel i l : Nat) (nodes : List Node), l < NCRIT → CoSplit NCRIT bodies p nodes i l →
    splitNodeLoop NCRIT bodies fuel i l nodes = none := by
  intro fuel
  induction fuel with
  | zero => intro i l nodes _ _; rfl
  | succ fuel ih =>
    intro i l nodes hl hco
    by_contra hne
    obtain ⟨nodes', h⟩ := Option.ne_none_iff_exists'.1 hne
    obtain ⟨ni0, k1, k2, k3, k4, k5, k6⟩ := hco
    obtain ⟨ni, b, B, nodes1, ni1, c, b1, nodes2, nc, nodes3, h1, h2, h3, h4, h5, h6, h7, h8,
      h9, h10, h11⟩ := splitNodeLoop_inv NCRIT bodies fuel i l nodes nodes' (by omega) h
    rw [k1] at h1
    have := Option.some.inj h1
    subst this
    obtain ⟨b', B', m1, m2, m3⟩ := k4 l hl
    rw [h2] at m1
    have := Option.some.inj m1
    subst this
    rw [h3] at m2
    have := Option.some.inj m2
    subst this
    rw [m3] at h4 h6
    have ho := getOctant_lt p i nodes
    have hil := getElem?_lt k1
    -- the state after the optional addChild
    obtain ⟨e1, e2, e3, C, e4, e5, e6, e7, e8, e9, e10⟩ :
        ni1.LEAF = ni0.LEAF ∧ ni1.X = ni0.X ∧ c ≠ i ∧ ∃ C : Node, nodes1[c]? = some C ∧
          C.NLEAF = l ∧ C.LEAF.length = NCRIT ∧ C.CHILD.length = 8 ∧ C.ICHILD = 0 ∧
          (∀ m : Nat, m < l → C.LEAF[m]? = ni0.LEAF[m]?) ∧
          ni1.ICHILD &&& (1 <<< getOctant p i nodes) ≠ 0 := by
      rcases Nat.eq_zero_or_pos l with hl0 | hlpos
      · have hz := k5 hl0
        rw [hz] at h4
        simp only [Nat.zero_and, if_true] at h4
        rw [h4, addChild_get_self NCRIT _ i nodes ni0 k1] at h5
        have := Option.some.inj h5
        subst this
        have hc : c = nodes.length := by
          have h6' : (ni0.CHILD.set (getOctant p i nodes) nodes.length)[getOctant p i nodes]?
              = some c := h6
          rw [List.getElem?_set_self (by rw [k3]; exact ho)] at h6'
          exact (Option.some.inj h6').symm
        refine ⟨rfl, rfl, by omega, childNode NCRIT ni0 (getOctant p i nodes), ?_, ?_, ?_, ?_,
          rfl, ?_, or_bit_and_self _ _⟩
        · rw [h4, hc]; exact addChild_get_last NCRIT _ i nodes ni0 k1
        · rw [hl0]; rfl
        · simp [childNode]
        · simp [childNode]
        · intro m hm; omega
      · obtain ⟨q1, c0, C0, q2, q3, q4, q5, q6, q7, q8, q9⟩ := k6 hlpos
        rw [if_neg q1] at h4
        subst h4
        rw [k1] at h5
        have := Option.some.inj h5
        subst this
        rw [q2] at h6
        have := Option.some.inj h6
        subst this
        exact ⟨rfl, rfl, q3, C0, q4, q5, q6, q7, q8, q9, q1⟩
    rw [e1, h2] at h7
    have := Option.some.inj h7
    subst this
    obtain ⟨C', g1, g2, g3⟩ := addLeaf_inv b c nodes1 nodes2 h8
    rw [e4] at g1
    have := Option.some.inj g1
    subst this
    have hcl := getElem?_lt e4
    have hnc : nc = { C with LEAF := C.LEAF.set C.NLEAF b, NLEAF := C.NLEAF + 1 } := by
      have h9' := h9
      rw [g3, List.getElem?_set_self hcl] at h9'
      exact (Option.some.inj h9').symm
    have n1 : nc.LEAF = C.LEAF.set C.NLEAF b := by rw [hnc]
    have n2 : nc.NLEAF = C.NLEAF + 1 := by rw [hnc]
    have n3 : nc.CHILD = C.CHILD := by rw [hnc]
    have n4 : nc.ICHILD = C.ICHILD := by rw [hnc]
    have hleaf : ∀ m : Nat, m < C.NLEAF + 1 → nc.LEAF[m]? = ni0.LEAF[m]? := by
      intro m hm
      rw [n1]
      by_cases hmc : m = C.NLEAF
      · rw [hmc, List.getElem?_set_self (by omega), e5, h2]
      · rw [List.getElem?_set_ne (Ne.symm hmc)]
        exact e9 m (by omega)
    by_cases hn : NCRIT ≤ nc.NLEAF
    · -- the child is full: splitNode is called on it and does not return
      have h10' : splitNodeLoop NCRIT bodies fuel c 0 nodes2 = some nodes3 :=
        Eq.trans (if_pos hn).symm h10
      have hnone := ih c 0 nodes2 (by omega) ⟨nc, h9,
        by rw [n1, List.length_set]; exact e6, by rw [n3]; exact e7, ?_,
        fun _ => by rw [n4]; exact e8, fun h0 => absurd h0 (lt_irrefl 0)⟩
      · rw [hnone] at h10'
        exact absurd h10' (by simp)
      · intro m hm
        obtain ⟨bm, Bm, r1, r2, r3⟩ := k4 m hm
        exact ⟨bm, Bm, by rw [hleaf m (by omega)]; exact r1, r2, r3⟩
    · -- the child is not full: the loop goes on and does not return
      have h10' : nodes3 = nodes2 := by
        have := Eq.trans (if_neg hn).symm h10
        exact (Option.some.inj this).symm
      subst h10'
      have hi2 : nodes3[i]? = some ni1 := by
        rw [g3, List.getElem?_set_ne e3]; exact h5
      have hoct : getOctant p i nodes3 = getOctant p i nodes := by
        apply getOctant_congr
        rw [getD_of_getElem? hi2, getD_of_getElem? k1, e2]
      have hnone := ih i (l + 1) nodes3 (by omega) ⟨ni1, hi2, by rw [e1]; exact k2, ?_, ?_,
        fun h0 => absurd h0 (Nat.succ_ne_zero l), fun _ => ?_⟩
      · rw [hnone] at h11
        exact absurd h11 (by simp)
      · have := getElem?_lt h6
        by_contra hc8
        rcases Nat.eq_zero_or_pos l with hl0 | hlpos
        · have hz := k5 hl0
          rw [hz] at h4
          simp only [Nat.zero_and, if_true] at h4
          rw [h4, addChild_get_self NCRIT _ i nodes ni0 k1] at h5
          rw [← Option.some.inj h5] at hc8
          exact hc8 (by simp only [List.length_set]; exact k3)
        · obtain ⟨q1, -⟩ := k6 hlpos
          rw [if_neg q1] at h4
          rw [h4, k1] at h5
          rw [← Option.some.inj h5] at hc8
          exact hc8 k3
      · intro m hm
        rw [e1]; exact k4 m hm
      · rw [hoct]
        refine ⟨e10, c, nc, h6, e3, h9, by rw [n2, e5], ?_, by rw [n3]; exact e7,
          by rw [n4]; exact e8, ?_⟩
        · rw [n1, List.length_set]; exact e6
        · intro m hm
          rw [e1]
          exact hleaf m (by omega)

theorem twoPoints_coSplit :
    CoSplit 2 twoPoints [1 / 2, 1 / 2, 1 / 2]
      [{ rootNode 2 [0, 0, 0] 1 with NLEAF := 2, LEAF := [0, 1] }] 0 0 := by
  refine ⟨_, rfl, rfl, rfl, ?_, fun _ => rfl, fun h => absurd h (lt_irrefl 0)⟩
  intro m hm
  interval_cases m
  · exact ⟨0, _, rfl, rfl, rfl⟩
  · exact ⟨1, _, rfl, rfl, rfl⟩

theorem twoPoints_grow (f : Nat) :
    grow 2 [0, 0, 0] 1 twoPoints (f + 1) = splitNodeLoop 2 twoPoints (f + 1) 0 0
      [{ rootNode 2 [0, 0, 0] 1 with NLEAF := 2, LEAF := [0, 1] }] := by
  simp [grow, twoPoints, growLoop, growStep, descendLoop, addLeaf, rootNode, splitNode]

/-- C13 (as stated, refuted): with NCRIT = 2 and two bodies at the same point of the root cube,
grow returns for no amount of fuel: the recursion of splitNode has no depth bound and creates
ever smaller children that receive both bodies again. -/
theorem grow_diverges_on_coincident :
    ¬ ∃ (fuel : Nat) (nodes : List Node), grow 2 [0, 0, 0] 1 twoPoints fuel = some nodes := by
  rintro ⟨fuel, nodes, h⟩
  cases fuel with
  | zero =>
    have h0 : grow 2 [0, 0, 0] 1 twoPoints 0 = none := rfl
    rw [h0] at h
    exact absurd h (by simp)
  | succ f =>
    rw [twoPoints_grow f,
      split_coincident 2 twoPoints [1 / 2, 1 / 2, 1 / 2] (f + 1) 0 0 _ (by decide)
        twoPoints_coSplit] at h
    exact absurd h (by simp)

theorem grow_terminates_witness :
    ∃ (fuel : Nat) (nodes : List Node), grow 2 [0, 0, 0] 1 threePoints fuel = some nodes ∧
      ∀ fuel1 : Nat, fuel ≤ fuel1 → grow 2 [0, 0, 0] 1 threePoints fuel1 = some nodes :=
  grow_terminates 2 [0, 0, 0] 1 threePoints (by decide)
    (by
      intro B hB d hd
      simp only [threePoints, List.mem_cons, List.mem_singleton, List.not_mem_nil,
        or_false] at hB
      rcases hB with rfl | rfl | rfl <;> interval_cases d <;> norm_num [abs_le])
    (by
      intro s hnd hlen hval
      obtain ⟨x, y, rfl⟩ := List.length_eq_two.1 hlen
      have hx : x < 3 := hval x (by simp)
      have hy : y < 3 := hval y (by simp)
      have hxy : x ≠ y := by
        intro e
        rw [e] at hnd
        simp at hnd
      refine ⟨x, by simp, y, by simp, ?_⟩
      interval_cases x <;> interval_cases y <;>
        first
        | exact absurd rfl hxy
        | (refine ⟨0, by decide, ?_⟩; norm_num [threePoints]; done)
        | (refine ⟨2, by decide, ?_⟩; norm_num [threePoints]))

/-- C25: for every node of the node vector that grow returns (in exact arithmetic), the centre
and the radius that addChild derived from the parent are the centre and the radius that getCenter
derives from the index I of the node: the level of I is LEVEL, the radius is R0 / 2^LEVEL, and
centre[d] = X0[d] - R0 + (2*nx[d] + 1) * R0 / 2^LEVEL with nx de-interleaved from I by
getCenter. -/
theorem grow_node_geometry (NCRIT : Nat) (X0 : List Rat) (R0 : Rat) (bodies : List Body)
    (fuel : Nat) (nodes : List Node) (hg : grow NCRIT X0 R0 bodies fuel = some nodes) :
    ∀ N ∈ nodes, ∃ (cell : Cell) (nx : List Int),
      getCenter X0 R0 { Cell.init with ICELL := N.I } = some cell ∧ cell.R = N.R ∧
      (∀ d, d < 3 → cell.X.getD d 0 = N.X.getD d 0) ∧
      getLevel N.I = N.LEVEL ∧ getCenterNx N.I = some nx ∧
      N.R = R0 / 2 ^ N.LEVEL.toNat ∧
      ∀ d, d < 3 → N.X.getD d 0
        = X0.getD d 0 - R0 + (2 * ((nx.getD d 0 : Int) : Rat) + 1) * (R0 / 2 ^ N.LEVEL.toNat) := by
  intro N hN
  obtain ⟨j, hj⟩ := List.mem_iff_getElem?.1 hN
  obtain ⟨hinv, -⟩ := grow_spec NCRIT X0 R0 bodies fuel nodes hg
  obtain ⟨-, -, -, -, l, n, hgeo, -⟩ := hinv.1 j N hj
  obtain ⟨cell, c1, c2, c3⟩ :=
    getCenter_nodeGeo X0 R0 { Cell.init with ICELL := N.I } N l n hgeo rfl
  obtain ⟨hlev, hr, hi, hx⟩ := hgeo
  obtain ⟨a1, a2⟩ := getCenterNx_key l (n 0) (n 1) (n 2)
    ⟨(hx 0 (by norm_num)).1, (hx 0 (by norm_num)).2.1⟩
    ⟨(hx 1 (by norm_num)).1, (hx 1 (by norm_num)).2.1⟩
    ⟨(hx 2 (by norm_num)).1, (hx 2 (by norm_num)).2.1⟩
  rw [← hi] at a1 a2
  have hl : N.LEVEL.toNat = l := by rw [hlev]; simp
  refine ⟨cell, [n 0, n 1, n 2], c1, c2, c3, by rw [a1, hlev], a2, by rw [hl]; exact hr, ?_⟩
  intro d hd
  rw [(hx d hd).2.2, hr, hl]
  interval_cases d <;> simp

set_option maxRecDepth 8000

theorem grow_node_geometry_witness :
    (grow 2 [0, 0, 0] 1 threePoints 10).isSome = true ∧
    ∀ N ∈ (grow 2 [0, 0, 0] 1 threePoints 10).getD [], ∃ (cell : Cell) (nx : List Int),
      getCenter [0, 0, 0] 1 { Cell.init with ICELL := N.I } = some cell ∧ cell.R = N.R ∧
      (∀ d, d < 3 → cell.X.getD d 0 = N.X.getD d 0) ∧
      getLevel N.I = N.LEVEL ∧ getCenterNx N.I = some nx ∧
      N.R = 1 / 2 ^ N.LEVEL.toNat ∧
      ∀ d, d < 3 → N.X.getD d 0
        = ([0, 0, 0] : List Rat).getD d 0 - 1
          + (2 * ((nx.getD d 0 : Int) : Rat) + 1) * (1 / 2 ^ N.LEVEL.toNat) :=
  ⟨by with_unfolding_all decide,
    grow_node_geometry 2 [0, 0, 0] 1 threePoints 10
      ((grow 2 [0, 0, 0] 1 threePoints 10).getD []) (by with_unfolding_all decide)⟩

/-- Closed form of the ancestors of a cell index: `k` applications of getParent divide the
position within the level by `8^k`. -/
theorem getParent_iterate_eq (k : Nat) : ∀ (L : Nat) (I : Int), 0 ≤ I → getLevel I = (L : Int) →
    k ≤ L → getParent^[k] I = (I - offset L) / 8 ^ k + offset (L - k) := by
  induction k with
  | zero => intro L I _ _ _; simp
  | succ k ih =>
    intro L I h0 hL hk
    rw [Function.iterate_succ_apply', ih L I h0 hL (by omega)]
    have hlev := (getLevel_iterate k (L - k) I h0 (by rw [hL]; congr 1; omega)).1
    rw [ih L I h0 hL (by omega)] at hlev
    obtain ⟨m, hm⟩ : ∃ m : Nat, L - k = m + 1 := ⟨L - (k + 1), by omega⟩
    have hm' : L - (k + 1) = m := by omega
    rw [hm] at hlev ⊢
    rw [getParent_eq _ m hlev, hm']
    congr 1
    rw [add_sub_cancel_right]
    apply eq_of_forall_le_iff
    intro c
    rw [Int.le_ediv_iff_mul_le (by norm_num), Int.le_ediv_iff_mul_le (by positivity),
      Int.le_ediv_iff_mul_le (by positivity), pow_succ, mul_assoc]
    constructor <;> intro h <;> linarith

theorem ancestorAt_eq (d L : Nat) (I : Int) (h0 : 0 ≤ I) (hL : getLevel I = (L : Int))
    (hd : d ≤ L) : ancestorAt d I = (I - offset L) / 8 ^ (L - d) + offset d := by
  unfold ancestorAt
  rw [hL, Int.toNat_natCast, getParent_iterate_eq (L - d) L I h0 hL (by omega)]
  congr 2
  omega

/-- The index that prune computes for a body in the pass `l` is the index of the ancestor of
depth `l - 1` of the cell of the body. -/
theorem pruneParent_eq (l : Nat) (I : Int) (hl : 1 ≤ l) (hd : (l : Int) - 1 ≤ getLevel I) :
    pruneParent (l : Int) I = some (ancestorAt (l - 1) I) := by
  have h0 : 0 ≤ I := by
    by_contra hneg
    have : getLevel I = -1 := by
      unfold getLevel
      have e : I.toNat = 0 := by omega
      rw [e]
      simp only [getLevelLoop, zero_add]
      rw [if_neg (by omega)]
    omega
  obtain ⟨L, hL, -, -⟩ := getLevel_bounds I h0
  rw [hL] at hd
  have hlL : l ≤ L + 1 := by omega
  rw [ancestorAt_eq (l - 1) L I h0 hL (by omega)]
  unfold pruneParent
  simp only [hL]
  rw [if_neg (by omega)]
  have e1 : (3 * ((L : Int) - (l : Int) + 1)).toNat = 3 * (L - (l - 1)) := by omega
  have e2 : 3 * ((l : Int) - 1) = 3 * ((l - 1 : Nat) : Int) := by omega
  rw [e1, e2, cellOffset_eq, cellOffset_eq]
  have := Int.shiftRight_eq_div_pow (I - offset L) (3 * (L - (l - 1)))
  simp only [HShiftRight.hShiftRight] at this
  rw [this, pow_mul]
  norm_num

theorem ancestorAt_level (d : Nat) (I : Int) (h0 : 0 ≤ I) (hd : (d : Int) ≤ getLevel I) :
    getLevel (ancestorAt d I) = (d : Int) ∧ 0 ≤ ancestorAt d I := by
  obtain ⟨L, hL, -, -⟩ := getLevel_bounds I h0
  unfold ancestorAt
  rw [hL] at hd ⊢
  rw [Int.toNat_natCast]
  have := getLevel_iterate (L - d) d I h0 (by rw [hL]; congr 1; omega)
  exact this

theorem ancestorAt_self (d : Nat) (I : Int) (hd : getLevel I = (d : Int)) :
    ancestorAt d I = I := by
  unfold ancestorAt
  rw [hd, Int.toNat_natCast, Nat.sub_self]
  rfl

theorem ancestorAt_parent (d : Nat) (I : Int) (hd : getLevel I = ((d + 1 : Nat) : Int)) :
    ancestorAt d I = getParent I := by
  unfold ancestorAt
  rw [hd, Int.toNat_natCast, show d + 1 - d = 1 by omega]
  rfl

/-- The ancestor of depth `d` of a cell is the ancestor of depth `d` of each of its ancestors of
depth at least `d`. -/
theorem ancestorAt_ancestorAt (d e : Nat) (I : Int) (h0 : 0 ≤ I) (hde : d ≤ e)
    (he : (e : Int) ≤ getLevel I) : ancestorAt d (ancestorAt e I) = ancestorAt d I := by
  obtain ⟨L, hL, -, -⟩ := getLevel_bounds I h0
  have h1 := ancestorAt_level e I h0 he
  rw [hL] at he
  have h2 : ancestorAt d (ancestorAt e I) = getParent^[e - d] (ancestorAt e I) := by
    show getParent^[(getLevel (ancestorAt e I)).toNat - d] (ancestorAt e I) = _
    rw [h1.1, Int.toNat_natCast]
  rw [h2]
  unfold ancestorAt
  rw [hL, Int.toNat_natCast, ← Function.iterate_add_apply]
  congr 1
  omega

theorem relabelLoop_eq (index : Int) : ∀ (run done rest : List Body),
    relabelLoop index run.length done.length (done ++ run ++ rest)
      = some (done ++ run.map (fun B => { B with ICELL := index }) ++ rest) := by
  intro run
  induction run with
  | nil => intro done rest; simp [relabelLoop]
  | cons B run ih =>
    intro done rest
    have h1 : (done ++ B :: run ++ rest)[done.length]? = some B := by
      rw [List.append_assoc, List.getElem?_append_right (le_refl _)]
      simp
    have h2 : (done ++ B :: run ++ rest).set done.length { B with ICELL := index }
        = (done ++ [{ B with ICELL := index }]) ++ run ++ rest := by
      rw [List.append_assoc, List.set_append_right _ _ (le_refl _)]
      simp
    simp only [List.length_cons, relabelLoop, h1, Option.bind_eq_bind, Option.some_bind, h2]
    have := ih (done ++ [{ B with ICELL := index }]) rest
    simp only [List.length_append, List.length_singleton] at this
    rw [this]
    simp

theorem flushRun_length (NCRIT : Nat) (index : Int) (run : List Body) :
    (flushRun NCRIT index run).length = run.length := by
  unfold flushRun
  split <;> simp

theorem mergeGroup_eq (NCRIT : Nat) (index : Int) (run done rest : List Body) :
    mergeGroup NCRIT index done.length run.length (done ++ run ++ rest)
      = some (done ++ flushRun NCRIT index run ++ rest) := by
  unfold mergeGroup flushRun
  split
  · exact relabelLoop_eq index run done rest
  · rfl

/-- The body loop of a pass of prune followed by the handling of the last group, on the bodies
`rest` that follow the finished bodies `done` and the current group `run`. -/
theorem pruneLoop_eq (NCRIT : Nat) (l : Int) (key : Body → Int) :
    ∀ (rest done run : List Body) (index : Int),
    (∀ B ∈ rest, pruneParent l B.ICELL = some (key B)) →
    (pruneLoop NCRIT l rest.length (done.length + run.length) done.length run.length index
        (done ++ run ++ rest)).bind
      (fun r => mergeGroup NCRIT r.2.2.2 r.2.1 r.2.2.1 r.1)
      = some (done ++ pruneSpec NCRIT key run index rest) := by
  intro rest
  induction rest with
  | nil =>
    intro done run index _
    simp only [List.length_nil, pruneLoop, Option.some_bind, pruneSpec]
    have := mergeGroup_eq NCRIT index run done []
    simpa using this
  | cons B rest ih =>
    intro done run index hkey
    have hB : (done ++ run ++ B :: rest)[done.length + run.length]? = some B := by
      rw [List.getElem?_append_right (by simp)]
      simp
    have hp := hkey B (List.mem_cons_self _ _)
    have hkey' : ∀ B' ∈ rest, pruneParent l B'.ICELL = some (key B') :=
      fun B' h => hkey B' (List.mem_cons_of_mem _ h)
    simp only [List.length_cons, pruneLoop, hB, Option.some_bind, hp]
    by_cases hne : key B ≠ index
    · rw [if_pos hne, mergeGroup_eq NCRIT index run done (B :: rest)]
      simp only [Option.some_bind]
      have := ih (done ++ flushRun NCRIT index run) [B] (key B) hkey'
      simp only [List.length_append, flushRun_length, List.length_singleton,
        List.append_assoc, List.singleton_append] at this
      simp only [List.append_assoc]
      rw [this]
      simp only [pruneSpec, hne, ne_eq, not_false_eq_true, if_true]
    · rw [if_neg hne]
      have := ih done (run ++ [B]) index hkey'
      simp only [List.length_append, List.length_singleton, List.append_assoc,
        List.singleton_append, ← Nat.add_assoc] at this
      simp only [List.append_assoc] at this ⊢
      rw [this]
      simp only [pruneSpec, hne, if_false]

theorem prunePass_eq (NCRIT : Nat) (l : Int) (key : Body → Int) (B0 : Body) (rest : List Body)
    (hkey : ∀ B ∈ B0 :: rest, pruneParent l B.ICELL = some (key B)) :
    prunePass NCRIT l (B0 :: rest) = some (pruneSpec NCRIT key [] (key B0) (B0 :: rest)) := by
  unfold prunePass
  have := pruneLoop_eq NCRIT l key (B0 :: rest) [] [] (key B0) hkey
  simp only [List.length_nil, List.nil_append, Nat.add_zero] at this
  simp only [List.getElem?_cons_zero, Option.some_bind, hkey B0 (List.mem_cons_self _ _)]
  exact this

theorem flushRun_get (NCRIT : Nat) (index : Int) (run : List Body) (x : Nat) (B : Body)
    (h : run[x]? = some B) :
    (flushRun NCRIT index run)[x]?
      = some (if run.length < NCRIT then { B with ICELL := index } else B) := by
  unfold flushRun
  split
  · rw [List.getElem?_map, h]; rfl
  · exact h

theorem isGroup_key (key : Body → Int) (bodies : List Body) (i j x y : Nat) (Bx By : Body)
    (h : IsGroup key bodies i j) (hx1 : i ≤ x) (hx2 : x < j) (hy1 : i ≤ y) (hy2 : y < j)
    (hx : bodies[x]? = some Bx) (hy : bodies[y]? = some By) : key Bx = key By :=
  h.2.2 x y Bx By hx1 hx2 hy1 hy2 hx hy

/-- A pass of prune on a current group followed by bodies that start another group: the pass on
the bodies that follow, after the handling of the current group. -/
theorem passOk_append (NCRIT : Nat) (key : Body → Int) (index : Int)
    (run tail outT : List Body) (hrun : ∀ B ∈ run, key B = index)
    (hhead : ∀ B : Body, tail[0]? = some B → key B ≠ index)
    (hT : PassOk NCRIT key tail outT) :
    PassOk NCRIT key (run ++ tail) (flushRun NCRIT index run ++ outT) := by
  obtain ⟨t1, t2, t3, t4, t5⟩ := hT
  have hfl := flushRun_length NCRIT index run
  have inL : ∀ x : Nat, x < run.length → (run ++ tail)[x]? = run[x]? :=
    fun x hx => List.getElem?_append_left hx
  have inR : ∀ x : Nat, run.length ≤ x → (run ++ tail)[x]? = tail[x - run.length]? :=
    fun x hx => List.getElem?_append_right hx
  have outL : ∀ x : Nat, x < run.length →
      (flushRun NCRIT index run ++ outT)[x]? = (flushRun NCRIT index run)[x]? :=
    fun x hx => List.getElem?_append_left (by rw [hfl]; exact hx)
  have outR : ∀ x : Nat, run.length ≤ x →
      (flushRun NCRIT index run ++ outT)[x]? = outT[x - run.length]? := by
    intro x hx
    rw [List.getElem?_append_right (by rw [hfl]; exact hx), hfl]
  have hkr : ∀ (x : Nat) (B : Body), run[x]? = some B → key B = index :=
    fun x B h => hrun B (List.getElem?_mem h)
  -- a group does not contain the last body of the current group and the body after it
  have hstr : ∀ i j : Nat, IsGroup key (run ++ tail) i j → i < run.length → run.length < j →
      False := by
    intro i j hg hi hj
    have hlen : j ≤ run.length + tail.length := by
      have := hg.2.1
      rw [List.length_append] at this
      exact this
    have h1 : run.length - 1 < run.length := by omega
    have e1 : (run ++ tail)[run.length - 1]? = some run[run.length - 1] := by
      rw [inL _ h1]; exact List.getElem?_eq_getElem h1
    have h2 : 0 < tail.length := by omega
    have e2 : (run ++ tail)[run.length]? = some tail[0] := by
      rw [inR _ (le_refl _), Nat.sub_self]; exact List.getElem?_eq_getElem h2
    have hk := isGroup_key key _ i j (run.length - 1) run.length _ _ hg (by omega) (by omega)
      (by omega) hj e1 e2
    rw [hkr _ _ (List.getElem?_eq_getElem h1)] at hk
    exact hhead _ (List.getElem?_eq_getElem h2) hk.symm
  -- groups of the bodies that follow, seen in the whole sequence and back
  have hdown : ∀ i j : Nat, IsGroup key (run ++ tail) i j → run.length ≤ i →
      IsGroup key tail (i - run.length) (j - run.length) := by
    intro i j hg hi
    obtain ⟨g1, g2, g3⟩ := hg
    rw [List.length_append] at g2
    refine ⟨by omega, by omega, ?_⟩
    intro x y Bx By hx1 hx2 hy1 hy2 hx hy
    refine g3 (x + run.length) (y + run.length) Bx By (by omega) (by omega) (by omega)
      (by omega) ?_ ?_
    · rw [inR _ (by omega), Nat.add_sub_cancel]; exact hx
    · rw [inR _ (by omega), Nat.add_sub_cancel]; exact hy
  have hup : ∀ i j : Nat, IsGroup key tail i j →
      IsGroup key (run ++ tail) (i + run.length) (j + run.length) := by
    intro i j hg
    obtain ⟨g1, g2, g3⟩ := hg
    refine ⟨by omega, by rw [List.length_append]; omega, ?_⟩
    intro x y Bx By hx1 hx2 hy1 hy2 hx hy
    rw [inR _ (by omega)] at hx hy
    exact g3 _ _ Bx By (by omega) (by omega) (by omega) (by omega) hx hy
  have hrunGroup : 0 < run.length → IsGroup key (run ++ tail) 0 run.length := by
    intro hpos
    refine ⟨hpos, by rw [List.length_append]; omega, ?_⟩
    intro x y Bx By _ hx2 _ hy2 hx hy
    rw [inL _ hx2] at hx
    rw [inL _ hy2] at hy
    rw [hkr x Bx hx, hkr y By hy]
  refine ⟨by rw [List.length_append, List.length_append, hfl, t1], ?_, ?_, ?_, ?_⟩
  · intro b B hB
    by_cases hb : b < run.length
    · rw [inL b hb] at hB
      rw [outL b hb, flushRun_get NCRIT index run b B hB, hkr b B hB]
      split
      · exact Or.inr rfl
      · exact Or.inl rfl
    · rw [inR b (by omega)] at hB
      rw [outR b (by omega)]
      exact t2 _ B hB
  · intro i j hg hbig x hx1 hx2
    by_cases hj : j ≤ run.length
    · have hxr : x < run.length := by omega
      rw [inL x hxr, outL x hxr, List.getElem?_eq_getElem hxr,
        flushRun_get NCRIT index run x _ (List.getElem?_eq_getElem hxr), if_neg (by omega)]
    · by_cases hi : run.length ≤ i
      · rw [inR x (by omega), outR x (by omega)]
        exact t3 _ _ (hdown i j hg hi) (by omega) _ (by omega) (by omega)
      · exact absurd (hstr i j hg (by omega) (by omega)) id
  · intro i j hmax hsmall x B hx1 hx2 hB
    obtain ⟨hg, hleft, hright⟩ := hmax
    by_cases hj : j ≤ run.length
    · have hxr : x < run.length := by omega
      have hi0 : i = 0 := by
        by_contra hi
        have h1 : i - 1 < run.length := by omega
        have h2 : i < run.length := by omega
        have := hleft run[i - 1] run[i] (by omega)
          (by rw [inL _ h1]; exact List.getElem?_eq_getElem h1)
          (by rw [inL _ h2]; exact List.getElem?_eq_getElem h2)
        rw [hkr _ _ (List.getElem?_eq_getElem h1), hkr _ _ (List.getElem?_eq_getElem h2)] at this
        exact this rfl
      have hjr : j = run.length := by
        by_contra hjn
        have h1 : j - 1 < run.length := by omega
        have h2 : j < run.length := by omega
        have := hright run[j - 1] run[j]
          (by rw [inL _ h1]; exact List.getElem?_eq_getElem h1)
          (by rw [inL _ h2]; exact List.getElem?_eq_getElem h2)
        rw [hkr _ _ (List.getElem?_eq_getElem h1), hkr _ _ (List.getElem?_eq_getElem h2)] at this
        exact this rfl
      rw [inL x hxr] at hB
      rw [outL x hxr, flushRun_get NCRIT index run x B hB, if_pos (by omega), hkr x B hB]
    · by_cases hi : run.length ≤ i
      · rw [inR x (by omega)] at hB
        rw [outR x (by omega)]
        refine t4 (i - run.length) (j - run.length) ⟨hdown i j hg hi, ?_, ?_⟩ (by omega) _ B
          (by omega) (by omega) hB
        · intro Ba Bb hpos ha hb
          refine hleft Ba Bb (by omega) ?_ ?_
          · rw [inR _ (by omega)]
            rw [show i - 1 - run.length = i - run.length - 1 by omega]; exact ha
          · rw [inR _ hi]; exact hb
        · intro Ba Bb ha hb
          have := hg.1
          refine hright Ba Bb ?_ ?_
          · rw [inR _ (by omega)]
            rw [show j - 1 - run.length = j - run.length - 1 by omega]; exact ha
          · rw [inR _ (by omega)]; exact hb
      · exact absurd (hstr i j hg (by omega) (by omega)) id
  · intro b B hB hout hne
    by_cases hb : b < run.length
    · rw [inL b hb] at hB
      rw [outL b hb, flushRun_get NCRIT index run b B hB] at hout
      have hbig : ¬ run.length < NCRIT := by
        intro hs
        rw [if_pos hs] at hout
        have := Option.some.inj hout
        have e : ({ B with ICELL := index } : Body).ICELL = B.ICELL := by rw [this]
        exact hne (by rw [hkr b B hB]; exact e.symm)
      exact ⟨0, run.length, hrunGroup (by omega), Nat.zero_le _, hb, by omega⟩
    · rw [inR b (by omega)] at hB
      rw [outR b (by omega)] at hout
      obtain ⟨i, j, hg, h1, h2, h3⟩ := t5 _ B hB hout hne
      exact ⟨i + run.length, j + run.length, hup i j hg, by omega, by omega, by omega⟩

theorem passOk_nil (NCRIT : Nat) (key : Body → Int) : PassOk NCRIT key [] [] := by
  refine ⟨rfl, ?_, ?_, ?_, ?_⟩
  · intro b B h; simp at h
  · intro i j hg; have := hg.1; have := hg.2.1; simp at this; omega
  · intro i j hg; have := hg.1.1; have := hg.1.2.1; simp at this; omega
  · intro b B h; simp at h

/-- The pure description of a pass of prune meets the pointwise description. -/
theorem pruneSpec_passOk (NCRIT : Nat) (key : Body → Int) :
    ∀ (rest run : List Body) (index : Int), (∀ B ∈ run, key B = index) →
    PassOk NCRIT key (run ++ rest) (pruneSpec NCRIT key run index rest) := by
  intro rest
  induction rest with
  | nil =>
    intro run index hrun
    have := passOk_append NCRIT key index run [] [] hrun (by intro B h; simp at h)
      (passOk_nil NCRIT key)
    simpa [pruneSpec] using this
  | cons B rest ih =>
    intro run index hrun
    by_cases hne : key B ≠ index
    · have h1 := ih [B] (key B) (by intro B' h; simp at h; rw [h])
      have := passOk_append NCRIT key index run ([B] ++ rest) _ hrun
        (by
          intro B' h
          simp at h
          rw [← h]; exact hne) h1
      simpa [pruneSpec, hne] using this
    · have h1 := ih (run ++ [B]) index (by
        intro B' h
        rcases List.mem_append.1 h with h | h
        · exact hrun B' h
        · simp at h; rw [h]; exact not_not.1 hne)
      simp only [List.append_assoc, List.singleton_append] at h1
      simpa [pruneSpec, hne] using h1

theorem nonneg_of_getLevel (I : Int) (h : 0 ≤ getLevel I) : 0 ≤ I := by
  by_contra hneg
  have : getLevel I = -1 := by
    unfold getLevel
    have e : I.toNat = 0 := by omega
    rw [e]
    simp only [getLevelLoop, zero_add]
    rw [if_neg (by omega)]
  omega

/-- One pass of prune returns and meets the pointwise description, the key of a body being the
index of its ancestor of depth `l - 1`. -/
theorem prunePass_spec (NCRIT l : Nat) (bs : List Body) (hl : 1 ≤ l) (hne : bs ≠ [])
    (hd : ∀ B ∈ bs, (l : Int) - 1 ≤ getLevel B.ICELL) :
    ∃ out : List Body, prunePass NCRIT (l : Int) bs = some out ∧
      PassOk NCRIT (fun B => ancestorAt (l - 1) B.ICELL) bs out := by
  obtain ⟨B0, rest, rfl⟩ := List.exists_cons_of_ne_nil hne
  refine ⟨_, prunePass_eq NCRIT (l : Int) (fun B => ancestorAt (l - 1) B.ICELL) B0 rest
    (fun B hB => pruneParent_eq l B.ICELL hl (hd B hB)), ?_⟩
  have := pruneSpec_passOk NCRIT (fun B => ancestorAt (l - 1) B.ICELL) (B0 :: rest) []
    (ancestorAt (l - 1) B0.ICELL) (by intro B h; simp at h)
  simpa using this

/-- One pass of prune keeps the groups of at least `NCRIT` bodies found by the earlier passes and
adds the groups it leaves as they are. `M` bounds the depths considered. -/
theorem prunePass_step (NCRIT l M : Nat) (bs : List Body) (hl : 1 ≤ l) (hne : bs ≠ [])
    (hd : ∀ B ∈ bs, (l : Int) - 1 ≤ getLevel B.ICELL)
    (hbig : ∀ (b : Nat) (B : Body) (k : Nat), bs[b]? = some B → getLevel B.ICELL = (k : Int) →
      l + 1 ≤ k → k ≤ M →
      ∃ i j : Nat, i ≤ b ∧ b < j ∧ j ≤ bs.length ∧ NCRIT ≤ j - i ∧
        ∀ (x : Nat) (Bx : Body), i ≤ x → x < j → bs[x]? = some Bx →
          (k : Int) - 1 ≤ getLevel Bx.ICELL ∧ ancestorAt (k - 1) Bx.ICELL = getParent B.ICELL) :
    ∃ out : List Body, prunePass NCRIT (l : Int) bs = some out ∧ out.length = bs.length ∧
      (∀ B ∈ out, ((l - 1 : Nat) : Int) - 1 ≤ getLevel B.ICELL) ∧
      (∀ (b : Nat) (B : Body), bs[b]? = some B →
        ∃ B1 : Body, out[b]? = some B1 ∧ B1.X = B.X ∧
          (B1.ICELL = B.ICELL ∨ B1.ICELL = ancestorAt (l - 1) B.ICELL)) ∧
      ∀ (b : Nat) (B : Body) (k : Nat), out[b]? = some B → getLevel B.ICELL = (k : Int) →
        l ≤ k → k ≤ M →
        ∃ i j : Nat, i ≤ b ∧ b < j ∧ j ≤ out.length ∧ NCRIT ≤ j - i ∧
          ∀ (x : Nat) (Bx : Body), i ≤ x → x < j → out[x]? = some Bx →
            (k : Int) - 1 ≤ getLevel Bx.ICELL ∧
              ancestorAt (k - 1) Bx.ICELL = getParent B.ICELL := by
  obtain ⟨out, hout, t1, t2, t3, -, t5⟩ := prunePass_spec NCRIT l bs hl hne hd
  have h0 : ∀ B ∈ bs, 0 ≤ B.ICELL := fun B hB => nonneg_of_getLevel _ (by have := hd B hB; omega)
  have hkl : ∀ B ∈ bs, getLevel (ancestorAt (l - 1) B.ICELL) = ((l - 1 : Nat) : Int) :=
    fun B hB => (ancestorAt_level (l - 1) B.ICELL (h0 B hB) (by have := hd B hB; omega)).1
  have hget : ∀ (b : Nat) (B1 : Body), out[b]? = some B1 → ∃ B : Body, bs[b]? = some B := by
    intro b B1 h
    have hb := getElem?_lt h
    rw [t1] at hb
    exact ⟨bs[b], List.getElem?_eq_getElem hb⟩
  refine ⟨out, hout, t1, ?_, ?_, ?_⟩
  · intro B1 hB1
    obtain ⟨b, hb⟩ := List.mem_iff_getElem?.1 hB1
    obtain ⟨B, hB⟩ := hget b B1 hb
    have hm := List.getElem?_mem hB
    rcases t2 b B hB with h | h
    · rw [hb] at h
      rw [Option.some.inj h]
      have := hd B hm
      omega
    · rw [hb] at h
      rw [Option.some.inj h]
      show ((l - 1 : Nat) : Int) - 1 ≤ getLevel (ancestorAt (l - 1) B.ICELL)
      rw [hkl B hm]
      omega
  · intro b B hB
    rcases t2 b B hB with h | h
    · exact ⟨B, h, rfl, Or.inl rfl⟩
    · exact ⟨_, h, rfl, Or.inr rfl⟩
  · intro b B1 k hb hk hlk hkM
    obtain ⟨B, hB⟩ := hget b B1 hb
    have hm := List.getElem?_mem hB
    -- the body has not been renumbered
    have hsame : B1 = B := by
      rcases t2 b B hB with h | h
      · rw [hb] at h
        exact Option.some.inj h
      · exfalso
        rw [hb] at h
        have e := Option.some.inj h
        rw [e] at hk
        have e2 : getLevel (ancestorAt (l - 1) B.ICELL) = (k : Int) := hk
        rw [hkl B hm] at e2
        omega
    subst hsame
    -- a group of the bodies before the pass that the pass leaves as it is
    have hkeep : ∀ i j : Nat, i ≤ b → b < j → j ≤ bs.length → NCRIT ≤ j - i →
        IsGroup (fun B => ancestorAt (l - 1) B.ICELL) bs i j →
        (∀ (x : Nat) (Bx : Body), i ≤ x → x < j → bs[x]? = some Bx →
          (k : Int) - 1 ≤ getLevel Bx.ICELL ∧
            ancestorAt (k - 1) Bx.ICELL = getParent B1.ICELL) →
        ∃ i j : Nat, i ≤ b ∧ b < j ∧ j ≤ out.length ∧ NCRIT ≤ j - i ∧
          ∀ (x : Nat) (Bx : Body), i ≤ x → x < j → out[x]? = some Bx →
            (k : Int) - 1 ≤ getLevel Bx.ICELL ∧
              ancestorAt (k - 1) Bx.ICELL = getParent B1.ICELL := by
      intro i j h1 h2 h3 h4 hg hprop
      refine ⟨i, j, h1, h2, by rw [t1]; exact h3, h4, ?_⟩
      intro x Bx hx1 hx2 hx
      rw [t3 i j hg h4 x hx1 hx2] at hx
      exact hprop x Bx hx1 hx2 hx
    by_cases hk1 : l + 1 ≤ k
    · obtain ⟨i, j, h1, h2, h3, h4, h5⟩ := hbig b B1 k hB hk hk1 hkM
      refine hkeep i j h1 h2 h3 h4 ⟨by omega, h3, ?_⟩ h5
      intro x y Bx By hx1 hx2 hy1 hy2 hx hy
      obtain ⟨a1, a2⟩ := h5 x Bx hx1 hx2 hx
      obtain ⟨b1, b2⟩ := h5 y By hy1 hy2 hy
      show ancestorAt (l - 1) Bx.ICELL = ancestorAt (l - 1) By.ICELL
      rw [← ancestorAt_ancestorAt (l - 1) (k - 1) Bx.ICELL (h0 Bx (List.getElem?_mem hx))
          (by omega) (by omega),
        ← ancestorAt_ancestorAt (l - 1) (k - 1) By.ICELL (h0 By (List.getElem?_mem hy))
          (by omega) (by omega), a2, b2]
    · have hkl' : k = l := by omega
      subst hkl'
      have hne' : B1.ICELL ≠ ancestorAt (k - 1) B1.ICELL := by
        intro e
        have := hkl B1 hm
        rw [← e, hk] at this
        omega
      obtain ⟨i, j, hg, h1, h2, h3⟩ := t5 b B1 hB hb hne'
      refine hkeep i j h1 h2 hg.2.1 h3 hg ?_
      intro x Bx hx1 hx2 hx
      refine ⟨hd Bx (List.getElem?_mem hx), ?_⟩
      have := isGroup_key _ bs i j x b Bx B1 hg hx1 hx2 h1 h2 hx hB
      simp only at this
      rw [this]
      exact ancestorAt_parent (k - 1) B1.ICELL (by rw [hk]; congr 1; omega)

/-- The passes of prune from `l = n` down to 1 return; every body keeps its position and gets
the index of one of its ancestors or keeps its index; and every body left at a depth between 1
and `M` lies in a group of at least `NCRIT` bodies below the parent of its cell. -/
theorem pruneLevels_spec (NCRIT M : Nat) : ∀ (n : Nat) (bs : List Body), bs ≠ [] →
    (∀ B ∈ bs, (n : Int) - 1 ≤ getLevel B.ICELL) →
    (∀ (b : Nat) (B : Body) (k : Nat), bs[b]? = some B → getLevel B.ICELL = (k : Int) →
      n + 1 ≤ k → k ≤ M →
      ∃ i j : Nat, i ≤ b ∧ b < j ∧ j ≤ bs.length ∧ NCRIT ≤ j - i ∧
        ∀ (x : Nat) (Bx : Body), i ≤ x → x < j → bs[x]? = some Bx →
          (k : Int) - 1 ≤ getLevel Bx.ICELL ∧ ancestorAt (k - 1) Bx.ICELL = getParent B.ICELL) →
    ∃ out : List Body, pruneLevels NCRIT n bs = some out ∧ out.length = bs.length ∧
      (∀ (b : Nat) (B : Body), bs[b]? = some B →
        ∃ B1 : Body, out[b]? = some B1 ∧ B1.X = B.X ∧
          (B1.ICELL = B.ICELL ∨ (0 ≤ B.ICELL ∧ ∃ j : Nat, (j : Int) ≤ getLevel B.ICELL ∧
            B1.ICELL = getParent^[j] B.ICELL))) ∧
      ∀ (b : Nat) (B : Body) (k : Nat), out[b]? = some B → getLevel B.ICELL = (k : Int) →
        1 ≤ k → k ≤ M →
        ∃ i j : Nat, i ≤ b ∧ b < j ∧ j ≤ out.length ∧ NCRIT ≤ j - i ∧
          ∀ (x : Nat) (Bx : Body), i ≤ x → x < j → out[x]? = some Bx →
            (k : Int) - 1 ≤ getLevel Bx.ICELL ∧
              ancestorAt (k - 1) Bx.ICELL = getParent B.ICELL := by
  intro n
  induction n with
  | zero =>
    intro bs _ hd hbig
    refine ⟨bs, rfl, rfl, fun b B hB => ⟨B, hB, rfl, Or.inl rfl⟩, ?_⟩
    intro b B k hB hk h1 h2
    exact hbig b B k hB hk (by omega) h2
  | succ n ih =>
    intro bs hne hd hbig
    obtain ⟨out1, p1, p2, p3, p4, p5⟩ :=
      prunePass_step NCRIT (n + 1) M bs (by omega) hne hd hbig
    have hne1 : out1 ≠ [] := by
      intro h
      rw [h] at p2
      exact hne (List.length_eq_zero.1 p2.symm)
    obtain ⟨out, q1, q2, q3, q4⟩ := ih out1 hne1 p3 (fun b B k h1 h2 h3 h4 =>
      p5 b B k h1 h2 h3 h4)
    refine ⟨out, ?_, by rw [q2, p2], ?_, q4⟩
    · simp only [pruneLevels, p1, Option.some_bind]
      exact q1
    · intro b B hB
      obtain ⟨B1, a1, a2, a3⟩ := p4 b B hB
      obtain ⟨B2, b1, b2, b3⟩ := q3 b B1 a1
      have hB0 : 0 ≤ B.ICELL := nonneg_of_getLevel _ (by
        have := hd B (List.getElem?_mem hB)
        push_cast at this
        omega)
      obtain ⟨L, hL, -, -⟩ := getLevel_bounds B.ICELL hB0
      -- the index after the first pass is an iterate of getParent on the first index
      obtain ⟨j1, c1, c2⟩ : ∃ j1 : Nat, (j1 : Int) ≤ getLevel B.ICELL ∧
          B1.ICELL = getParent^[j1] B.ICELL := by
        rcases a3 with h | h
        · exact ⟨0, by rw [hL]; exact_mod_cast Nat.zero_le L, by rw [h]; rfl⟩
        · refine ⟨(getLevel B.ICELL).toNat - (n + 1 - 1), ?_, h⟩
          rw [hL, Int.toNat_natCast]
          exact_mod_cast Nat.sub_le L _
      refine ⟨B2, b1, by rw [b2, a2], ?_⟩
      rcases b3 with h | ⟨-, j2, d1, d2⟩
      · exact Or.inr ⟨hB0, j1, c1, by rw [h, c2]⟩
      · refine Or.inr ⟨hB0, j2 + j1, ?_, ?_⟩
        · have := (getLevel_iterate_sub j1 B.ICELL hB0 c1).1
          rw [c2, this] at d1
          push_cast
          omega
        · rw [d2, c2, Function.iterate_add_apply]

/-- C23 (as stated, refuted): with NCRIT = 2 and the two bodies with the indices 9 and 17, both
of depth 2 and sorted, getMaxLevel is 1, so every depth is at least maxLevel - 1; the only pass
of prune (l = 1) leaves both bodies as they are, and the body with the index 9, of depth 2, is
the only body below getParent 9 = 1: its group has 1 body, fewer than NCRIT. -/
theorem prune_keeps_small_deep_group :
    getMaxLevel 2 1 [⟨[0, 0, 0], 9⟩, ⟨[0, 0, 0], 17⟩] = 1 ∧ getLevel 9 = 2 ∧ getLevel 17 = 2 ∧
      (prune 2 1 [⟨[0, 0, 0], 9⟩, ⟨[0, 0, 0], 17⟩]).map (fun bs => bs.map Body.ICELL)
        = some [9, 17] ∧
      getParent 9 = 1 ∧ ancestorAt 1 17 = 2 := by
  refine ⟨by decide, by decide, by decide, by rfl, by decide, by decide⟩

/-- C23 (amended): for every non-empty body sequence whose depths are all at least
maxLevel - 1, (1) a pass `l ≥ 1` of prune on bodies of depth at least `l - 1` returns, keeps the
number of bodies, renumbers the bodies of every maximal contiguous group of bodies sharing the
depth-(l-1) ancestor index to that index when the group has fewer than NCRIT bodies, and leaves
the bodies of the group as they are otherwise; and (2) prune returns, and afterwards every body
whose ICELL has a depth `k` with 1 ≤ k ≤ maxLevel lies in a contiguous group of at least NCRIT
bodies whose ICELL have depth at least `k - 1` and the depth-(k-1) ancestor getParent of the
ICELL of the body. -/
theorem prune_threshold (NCRIT MPISIZE : Nat) (bodies : List Body) (hne : bodies ≠ [])
    (hd : ∀ B ∈ bodies, getMaxLevel NCRIT MPISIZE bodies - 1 ≤ getLevel B.ICELL) :
    (∀ (l : Nat) (bs : List Body), 1 ≤ l → bs ≠ [] →
      (∀ B ∈ bs, (l : Int) - 1 ≤ getLevel B.ICELL) →
      ∃ out : List Body, prunePass NCRIT (l : Int) bs = some out ∧ out.length = bs.length ∧
        ∀ i j : Nat, IsMaximalGroup (fun B => ancestorAt (l - 1) B.ICELL) bs i j →
          ∀ (x : Nat) (B : Body), i ≤ x → x < j → bs[x]? = some B →
            out[x]? = some
              (if j - i < NCRIT then { B with ICELL := ancestorAt (l - 1) B.ICELL } else B)) ∧
    ∃ out : List Body, prune NCRIT MPISIZE bodies = some out ∧
      ∀ (b : Nat) (B : Body) (k : Nat), out[b]? = some B → getLevel B.ICELL = (k : Int) →
        1 ≤ k → (k : Int) ≤ getMaxLevel NCRIT MPISIZE bodies →
        ∃ i j : Nat, i ≤ b ∧ b < j ∧ j ≤ out.length ∧ NCRIT ≤ j - i ∧
          ∀ (x : Nat) (Bx : Body), i ≤ x → x < j → out[x]? = some Bx →
            (k : Int) - 1 ≤ getLevel Bx.ICELL ∧
              ancestorAt (k - 1) Bx.ICELL = getParent B.ICELL := by
  constructor
  · intro l bs hl hbs hdl
    obtain ⟨out, h1, t1, -, t3, t4, -⟩ := prunePass_spec NCRIT l bs hl hbs hdl
    refine ⟨out, h1, t1, ?_⟩
    intro i j hmax x B hx1 hx2 hB
    by_cases hs : j - i < NCRIT
    · rw [if_pos hs]
      exact t4 i j hmax hs x B hx1 hx2 hB
    · rw [if_neg hs, t3 i j hmax.1 (not_lt.1 hs) x hx1 hx2]
      exact hB
  · obtain ⟨M, hM⟩ : ∃ M : Nat, getMaxLevel NCRIT MPISIZE bodies = (M : Int) :=
      ⟨(getMaxLevel NCRIT MPISIZE bodies).toNat, by
        have := getMaxLevel_nonneg NCRIT MPISIZE bodies
        omega⟩
    rw [hM] at hd
    obtain ⟨out, h1, -, -, h4⟩ := pruneLevels_spec NCRIT M M bodies hne hd
      (fun b B k _ _ h3 h4 => absurd h3 (by omega))
    refine ⟨out, by unfold prune; rw [hM, Int.toNat_natCast]; exact h1, ?_⟩
    intro b B k hb hk hk1 hkM
    rw [hM] at hkM
    exact h4 b B k hb hk hk1 (by exact_mod_cast hkM)

theorem prune_threshold_witness :
    (∀ (l : Nat) (bs : List Body), 1 ≤ l → bs ≠ [] →
      (∀ B ∈ bs, (l : Int) - 1 ≤ getLevel B.ICELL) →
      ∃ out : List Body, prunePass 2 (l : Int) bs = some out ∧ out.length = bs.length ∧
        ∀ i j : Nat, IsMaximalGroup (fun B => ancestorAt (l - 1) B.ICELL) bs i j →
          ∀ (x : Nat) (B : Body), i ≤ x → x < j → bs[x]? = some B →
            out[x]? = some
              (if j - i < 2 then { B with ICELL := ancestorAt (l - 1) B.ICELL } else B)) ∧
    ∃ out : List Body,
      prune 2 1 [⟨[0, 0, 0], 1⟩, ⟨[0, 0, 0], 1⟩, ⟨[0, 0, 0], 2⟩] = some out ∧
      ∀ (b : Nat) (B : Body) (k : Nat), out[b]? = some B → getLevel B.ICELL = (k : Int) →
        1 ≤ k → (k : Int) ≤ getMaxLevel 2 1 [⟨[0, 0, 0], 1⟩, ⟨[0, 0, 0], 1⟩, ⟨[0, 0, 0], 2⟩] →
        ∃ i j : Nat, i ≤ b ∧ b < j ∧ j ≤ out.length ∧ 2 ≤ j - i ∧
          ∀ (x : Nat) (Bx : Body), i ≤ x → x < j → out[x]? = some Bx →
            (k : Int) - 1 ≤ getLevel Bx.ICELL ∧
              ancestorAt (k - 1) Bx.ICELL = getParent B.ICELL :=
  prune_threshold 2 1 [⟨[0, 0, 0], 1⟩, ⟨[0, 0, 0], 1⟩, ⟨[0, 0, 0], 2⟩] (by simp) (by decide)

/-- C24: for every non-empty body sequence (sorted by index or not) whose depths are all at
least maxLevel - 1, prune returns; the number of bodies and the position of every body are
unchanged; and the ICELL of every body is its ICELL from before or a proper ancestor of it
(reached by iterating getParent), so that its depth does not increase. -/
theorem prune_coarsens (NCRIT MPISIZE : Nat) (bodies : List Body) (hne : bodies ≠ [])
    (hd : ∀ B ∈ bodies, getMaxLevel NCRIT MPISIZE bodies - 1 ≤ getLevel B.ICELL) :
    ∃ out : List Body, prune NCRIT MPISIZE bodies = some out ∧ out.length = bodies.length ∧
      ∀ (b : Nat) (B : Body), bodies[b]? = some B →
        ∃ B1 : Body, out[b]? = some B1 ∧ B1.X = B.X ∧
          (B1.ICELL = B.ICELL ∨ IsProperAncestor B1.ICELL B.ICELL) ∧
          getLevel B1.ICELL ≤ getLevel B.ICELL := by
  obtain ⟨M, hM⟩ : ∃ M : Nat, getMaxLevel NCRIT MPISIZE bodies = (M : Int) :=
    ⟨(getMaxLevel NCRIT MPISIZE bodies).toNat, by
      have := getMaxLevel_nonneg NCRIT MPISIZE bodies
      omega⟩
  rw [hM] at hd
  obtain ⟨out, h1, h2, h3, -⟩ := pruneLevels_spec NCRIT M M bodies hne hd
    (fun b B k _ _ h3 h4 => absurd h3 (by omega))
  refine ⟨out, by unfold prune; rw [hM, Int.toNat_natCast]; exact h1, h2, ?_⟩
  intro b B hB
  obtain ⟨B1, a1, a2, a3⟩ := h3 b B hB
  refine ⟨B1, a1, a2, ?_⟩
  rcases a3 with h | ⟨h0, j, c1, c2⟩
  · exact ⟨Or.inl h, by rw [h]⟩
  · have hlev := (getLevel_iterate_sub j B.ICELL h0 c1).1
    refine ⟨?_, by rw [c2, hlev]; omega⟩
    by_cases hj : j = 0
    · subst hj
      exact Or.inl c2
    · exact Or.inr ⟨j, by omega, c1, c2.symm⟩

theorem prune_coarsens_witness :
    ∃ out : List Body,
      prune 2 2 [⟨[0, 0, 0], 1⟩] = some out ∧
      out.length = [(⟨[0, 0, 0], 1⟩ : Body)].length ∧
      ∀ (b : Nat) (B : Body),
        [(⟨[0, 0, 0], 1⟩ : Body)][b]? = some B →
        ∃ B1 : Body, out[b]? = some B1 ∧ B1.X = B.X ∧
          (B1.ICELL = B.ICELL ∨ IsProperAncestor B1.ICELL B.ICELL) ∧
          getLevel B1.ICELL ≤ getLevel B.ICELL :=
  prune_coarsens 2 2 [⟨[0, 0, 0], 1⟩] (by simp) (by decide)

theorem map_ICELL_of_zero (l1 l2 : List Cell)
    (h : l1.map (fun c => { c with PARENT := 0 }) = l2.map (fun c => { c with PARENT := 0 })) :
    l1.map Cell.ICELL = l2.map Cell.ICELL := by
  have := congrArg (List.map Cell.ICELL) h
  simpa [List.map_map, Function.comp_def] using this

/-- The indices of the cell array after a level pass: the indices from before and the parent
indices of the cells of the range. -/
theorem levelSpec_keys (X0 : List Rat) (R0 : Rat) (st : AsmState) (L : Int)
    (hinv : InvBase st L) :
    ((levelSpec X0 R0 st).cells.take (levelSpec X0 R0 st).begin).map Cell.ICELL
      = (st.cells.take st.begin).map Cell.ICELL ++ (keptCells st).map Cell.ICELL ∧
    ∀ x : Int, x ∈ (levelSpec X0 R0 st).cells.map Cell.ICELL ↔
      x ∈ st.cells.map Cell.ICELL ∨
        ∃ y ∈ (st.cells.drop st.begin).map Cell.ICELL, getParent y = x := by
  obtain ⟨hend, hb, hlev, hlow, hpw, hlink⟩ := hinv
  obtain ⟨hdrop, htake⟩ := levelSpec_drop X0 R0 st hb
  obtain ⟨groups, hg1, hg2⟩ := linkSpec_groups X0 R0 st.begin (keptCells st) (keptCells_ne_nil st)
  have hpar := parents_mem groups _ _ _ _ hg2 hg1.2.1
  rw [hg1.1] at hpar
  have k1 : (linkBlocks st.begin (keptCells st) (st.cells.take st.begin)).map Cell.ICELL
      = (st.cells.take st.begin).map Cell.ICELL :=
    map_ICELL_of_zero _ _ (linkBlocks_map_zero _ _ _)
  have k2 : (linkSpec X0 R0 st.begin (keptCells st)).done.map Cell.ICELL
      = (keptCells st).map Cell.ICELL :=
    map_ICELL_of_zero _ _ (linkSpec_done_map_zero X0 R0 _ _)
  have htk : ((levelSpec X0 R0 st).cells.take (levelSpec X0 R0 st).begin).map Cell.ICELL
      = (st.cells.take st.begin).map Cell.ICELL ++ (keptCells st).map Cell.ICELL := by
    rw [htake, List.map_append, k1, k2]
  refine ⟨htk, ?_⟩
  intro x
  have hsplit : (levelSpec X0 R0 st).cells.map Cell.ICELL
      = ((levelSpec X0 R0 st).cells.take (levelSpec X0 R0 st).begin).map Cell.ICELL
        ++ ((levelSpec X0 R0 st).cells.drop (levelSpec X0 R0 st).begin).map Cell.ICELL := by
    rw [← List.map_append, List.take_append_drop]
  have hsplit0 : st.cells.map Cell.ICELL
      = (st.cells.take st.begin).map Cell.ICELL ++ (st.cells.drop st.begin).map Cell.ICELL := by
    rw [← List.map_append, List.take_append_drop]
  rw [hsplit, htk, hdrop, hsplit0]
  simp only [List.mem_append]
  rw [hpar x, keptCells_keys st hb x]
  constructor
  · rintro ((h | h) | h)
    · exact Or.inl (Or.inl h)
    · exact Or.inl (Or.inr h)
    · obtain ⟨m, hm, hmx⟩ := List.mem_map.1 h
      refine Or.inr ⟨m.ICELL, ?_, hmx⟩
      exact (keptCells_keys st hb m.ICELL).1 (List.mem_map_of_mem _ hm)
  · rintro ((h | h) | ⟨y, hy, hyx⟩)
    · exact Or.inl (Or.inl h)
    · exact Or.inl (Or.inr h)
    · obtain ⟨m, hm, hmy⟩ := List.mem_map.1 ((keptCells_keys st hb y).2 hy)
      exact Or.inr (List.mem_map.2 ⟨m, hm, by rw [hmy]; exact hyx⟩)

theorem levelStep_closInv (X0 : List Rat) (R0 : Rat) (st : AsmState) (L : Int)
    (pushed : List Cell) (hinv : InvBase st L) (hclos : ClosInv st L pushed) (hL : 1 ≤ L)
    (hp0 : ∀ t ∈ pushed, 0 ≤ t.ICELL) (hpl : ∀ t ∈ pushed, L ≤ getLevel t.ICELL) :
    ClosInv (levelSpec X0 R0 st) (L - 1) pushed := by
  obtain ⟨hk1, hk2⟩ := levelSpec_keys X0 R0 st L hinv
  have hmem := member_ok st L hinv
  obtain ⟨hend, hb, hlev, hlow, hpw, hlink⟩ := hinv
  obtain ⟨hN, hK⟩ := hclos
  -- the cells of level `L` are the cells of the range
  have hrange : ∀ x : Int, x ∈ st.cells.map Cell.ICELL → getLevel x = L →
      x ∈ (st.cells.drop st.begin).map Cell.ICELL := by
    intro x hx hxl
    rw [← List.take_append_drop st.begin st.cells, List.map_append, List.mem_append] at hx
    rcases hx with h | h
    · obtain ⟨c, hc, hcx⟩ := List.mem_map.1 h
      have := hlow c hc
      rw [hcx, hxl] at this
      omega
    · exact h
  refine ⟨?_, ?_⟩
  · rw [hk1]
    refine List.nodup_append.2 ⟨hN, (keptCells_sorted st hb).nodup, ?_⟩
    intro x hx1 hx2
    obtain ⟨c, hc, hcx⟩ := List.mem_map.1 hx1
    obtain ⟨m, hm, hmx⟩ := List.mem_map.1 hx2
    have h1 := hlow c hc
    have h2 := (hmem m hm).1.2
    rw [hcx] at h1
    rw [hmx] at h2
    omega
  · intro x
    rw [hk2 x]
    constructor
    · rintro (h | ⟨y, hy, hyx⟩)
      · obtain ⟨t, ht, ha, hl⟩ := (hK x).1 h
        exact ⟨t, ht, ha, by omega⟩
      · obtain ⟨c, hc, hcy⟩ := List.mem_map.1 hy
        obtain ⟨hc0, hcl⟩ := hlev c hc
        obtain ⟨t, ht, ⟨j, hj1, hj2⟩, -⟩ := (hK y).1 (by
          rw [← hcy]
          exact List.mem_map_of_mem _ (List.mem_of_mem_drop hc))
        have hsub := (getLevel_iterate_sub j t.ICELL (hp0 t ht) hj1).1
        rw [hj2, ← hcy, hcl] at hsub
        obtain ⟨d, hd⟩ : ∃ d : Nat, L = ((d + 1 : Nat) : Int) :=
          ⟨(L - 1).toNat, by push_cast; omega⟩
        have hpl := (getLevel_getParent y d (by rw [← hcy, hcl, hd]) (by rw [← hcy]; exact hc0)).1
        refine ⟨t, ht, ⟨j + 1, by push_cast; omega, ?_⟩, ?_⟩
        · rw [Function.iterate_succ_apply', hj2, hyx]
        · rw [← hyx, hpl, hd]; push_cast; omega
    · rintro ⟨t, ht, ⟨j, hj1, hj2⟩, hl⟩
      by_cases hxl : L ≤ getLevel x
      · exact Or.inl ((hK x).2 ⟨t, ht, ⟨j, hj1, hj2⟩, hxl⟩)
      · -- `x` has depth `L - 1`: it is the parent of an ancestor of depth `L`
        have hxl' : getLevel x = L - 1 := by omega
        have hsub := (getLevel_iterate_sub j t.ICELL (hp0 t ht) hj1).1
        rw [hj2, hxl'] at hsub
        have htl := hpl t ht
        obtain ⟨j0, hj0⟩ : ∃ j0 : Nat, j = j0 + 1 := ⟨j - 1, by omega⟩
        subst hj0
        have hsub0 := getLevel_iterate_sub j0 t.ICELL (hp0 t ht) (by push_cast at hj1; omega)
        have hy : getParent^[j0] t.ICELL ∈ st.cells.map Cell.ICELL :=
          (hK _).2 ⟨t, ht, ⟨j0, by push_cast at hj1; omega, rfl⟩, by
            rw [hsub0.1]; push_cast at hsub; omega⟩
        refine Or.inr ⟨getParent^[j0] t.ICELL, hrange _ hy (by
          rw [hsub0.1]; push_cast at hsub; omega), ?_⟩
        rw [← hj2, Function.iterate_succ_apply']

theorem ancestorOrSelf_level (x t : Int) (L : Int) (h0 : 0 ≤ t) (hl : getLevel t = L)
    (ha : IsAncestorOrSelf x t) (hx : L ≤ getLevel x) : x = t := by
  obtain ⟨j, hj1, hj2⟩ := ha
  have := (getLevel_iterate_sub j t h0 hj1).1
  rw [hj2] at this
  have hj : j = 0 := by omega
  subst hj
  exact hj2.symm

theorem push_closInv (st : AsmState) (L : Int) (pushed : List Cell) (t : Cell)
    (hinv : InvBase st L) (hclos : ClosInv st L pushed) (ht : getLevel t.ICELL = L)
    (h0 : 0 ≤ t.ICELL) :
    ClosInv { st with cells := st.cells ++ [t], end_ := st.end_ + 1 } L (t :: pushed) := by
  obtain ⟨hend, hb, -⟩ := hinv
  obtain ⟨hN, hK⟩ := hclos
  refine ⟨?_, ?_⟩
  · show (((st.cells ++ [t]).take st.begin).map Cell.ICELL).Nodup
    rw [List.take_append_of_le_length (by omega)]
    exact hN
  · intro x
    show x ∈ (st.cells ++ [t]).map Cell.ICELL ↔ _
    rw [List.map_append, List.mem_append]
    constructor
    · rintro (h | h)
      · obtain ⟨u, hu, h1, h2⟩ := (hK x).1 h
        exact ⟨u, List.mem_cons_of_mem _ hu, h1, h2⟩
      · simp at h
        exact ⟨t, List.mem_cons_self _ _,
          ⟨0, by exact_mod_cast getLevel_nonneg _ h0, h.symm⟩, by rw [h, ht]⟩
    · rintro ⟨u, hu, h1, h2⟩
      rcases List.mem_cons.1 hu with h | h
      · subst h
        right
        simp [ancestorOrSelf_level x u.ICELL L h0 ht h1 h2]
      · exact Or.inl ((hK x).2 ⟨u, h, h1, h2⟩)

theorem init_closInv (t : Cell) (sticks : List Cell) (h0 : 0 ≤ t.ICELL) :
    ClosInv { cells := [] ++ [t], sticks := sticks, begin := 0, end_ := 1 }
      (getLevel t.ICELL) [t] := by
  refine ⟨by simp, ?_⟩
  intro x
  constructor
  · intro h
    simp at h
    exact ⟨t, List.mem_cons_self _ _, ⟨0, by exact_mod_cast getLevel_nonneg _ h0, h.symm⟩,
      by rw [h]⟩
  · rintro ⟨u, hu, h1, h2⟩
    simp at hu
    subst hu
    simp [ancestorOrSelf_level x u.ICELL _ h0 rfl h1 h2]

/-- After the final unique pass the cell indices are pairwise different and are the indices of
the twigs and of their ancestors. -/
theorem final_closure (st : AsmState) (tw : List Cell) (hinv : InvBase st 0)
    (hclos : ClosInv st 0 tw) (hp0 : ∀ t ∈ tw, 0 ≤ t.ICELL) :
    ∃ cs s e, unique st.cells st.sticks st.begin st.end_ = some (cs, s, e) ∧
      (cs.map Cell.ICELL).Nodup ∧
      ∀ x : Int, x ∈ cs.map Cell.ICELL ↔ ∃ t ∈ tw, IsAncestorOrSelf x t.ICELL := by
  obtain ⟨root, hroot, hr0, hu, -⟩ := final_unique st hinv
  obtain ⟨hend, hb, hlev, hlow, hpw, hlink⟩ := hinv
  obtain ⟨hN, hK⟩ := hclos
  have htk : st.cells.take (st.begin + 1) = st.cells.take st.begin ++ [root] := by
    rw [List.take_succ, hroot]; rfl
  have hrm : root ∈ st.cells.drop st.begin := by
    rw [List.drop_eq_getElem_cons hb]
    rw [List.getElem?_eq_getElem hb] at hroot
    rw [Option.some.inj hroot]
    exact List.mem_cons_self _ _
  refine ⟨_, _, _, hu, ?_, ?_⟩
  · rw [htk, List.map_append]
    refine List.nodup_append.2 ⟨hN, by simp, ?_⟩
    intro x hx1 hx2
    simp at hx2
    obtain ⟨c, hc, hcx⟩ := List.mem_map.1 hx1
    have := hlow c hc
    rw [hcx, hx2, hr0] at this
    have e : getLevel 0 = 0 := by decide
    omega
  · intro x
    have hkeys : x ∈ (st.cells.take (st.begin + 1)).map Cell.ICELL ↔
        x ∈ st.cells.map Cell.ICELL := by
      rw [htk]
      conv_rhs => rw [← List.take_append_drop st.begin st.cells]
      simp only [List.map_append, List.mem_append]
      constructor
      · rintro (h | h)
        · exact Or.inl h
        · simp at h
          exact Or.inr (List.mem_map.2 ⟨root, hrm, h.symm⟩)
      · rintro (h | h)
        · exact Or.inl h
        · obtain ⟨c, hc, hcx⟩ := List.mem_map.1 h
          obtain ⟨c0, cl⟩ := hlev c hc
          right
          simp only [List.map_cons, List.map_nil, List.mem_singleton]
          rw [← hcx, level_zero c.ICELL c0 cl, hr0]
    rw [hkeys, hK x]
    constructor
    · rintro ⟨t, ht, h1, -⟩
      exact ⟨t, ht, h1⟩
    · rintro ⟨t, ht, ⟨j, hj1, hj2⟩⟩
      refine ⟨t, ht, ⟨j, hj1, hj2⟩, ?_⟩
      have := (getLevel_iterate_sub j t.ICELL (hp0 t ht) hj1).1
      rw [hj2] at this
      omega

/-- C28: for every non-empty point set sorted ascending by non-negative ICELL, bodies2twigs and
then twigs2cells on an empty cell array return (the cell sort being an ascending sort by ICELL);
the ICELL values of the output cells are pairwise distinct; and an index is the ICELL of an output
cell exactly when it is the ICELL of a twig or a proper ancestor of it under getParent (up to
index 0, reached after as many steps as the depth of the twig). -/
theorem twigs2cells_ancestor_closure (X0 : List Rat) (R0 : Rat) (bodies : List Body)
    (hne : bodies ≠ []) (h0 : ∀ b ∈ bodies, 0 ≤ b.ICELL)
    (hs : List.Sorted (· ≤ ·) (bodies.map Body.ICELL)) :
    ∃ (twigs cells sticks : List Cell),
      bodies2twigs X0 R0 bodies [] = some twigs ∧
      twigs2cells X0 R0 twigs [] [] = some (cells, sticks) ∧
      (cells.map Cell.ICELL).Nodup ∧
      ∀ x : Int, x ∈ cells.map Cell.ICELL ↔
        ∃ t ∈ twigs, x = t.ICELL ∨ IsProperAncestor x t.ICELL := by
  obtain ⟨twigs, hb2t, htne, hfacts, -, hsorted⟩ := bodies2twigs_sorted X0 R0 bodies hne h0 hs
  have ht0 : ∀ t ∈ twigs, 0 ≤ t.ICELL := fun t ht => (hfacts t ht).1
  obtain ⟨c, s, htc, hnd, hkeys⟩ := twigs2cells_skeleton X0 R0
    (fun st L pushed => InvBase st L ∧ ClosInv st L pushed ∧
      ∀ t ∈ pushed, t ∈ twigs ∧ L ≤ getLevel t.ICELL)
    (fun c _ => (c.map Cell.ICELL).Nodup ∧
      ∀ x : Int, x ∈ c.map Cell.ICELL ↔ ∃ t ∈ twigs, IsAncestorOrSelf x t.ICELL)
    (fun t => 0 ≤ t.ICELL ∧ t.NCHILD = 0) twigs [] [] htne
    (fun t ht => ⟨⟨(hfacts t ht).1, (hfacts t ht).2.1⟩, getLevel_nonneg _ (ht0 t ht)⟩)
    (twigs_levels twigs ht0 hsorted)
    (fun t ht => by
      have hm : t ∈ twigs := List.mem_of_getLast?_eq_some ht
      refine ⟨init_invBase t (hfacts t hm).1 (hfacts t hm).2.1 [],
        init_closInv t [] (ht0 t hm), ?_⟩
      intro u hu; simp at hu; subst hu; exact ⟨hm, le_refl _⟩)
    (fun st L pushed t pre hP hl hg htw =>
      ⟨push_invBase st L t hP.1 hl hg.1 hg.2,
        push_closInv st L pushed t hP.1 hP.2.1 hl hg.1,
        fun u hu => by
          rcases List.mem_cons.1 hu with h | h
          · rw [h]; exact ⟨by rw [htw]; simp, by rw [hl]⟩
          · exact hP.2.2 u h⟩)
    (fun st L pushed hP hL => ⟨_, (levelStep_invBase X0 R0 st L hP.1 hL).1,
      (levelStep_invBase X0 R0 st L hP.1 hL).2.1,
      levelStep_closInv X0 R0 st L pushed hP.1 hP.2.1 hL
        (fun t ht => ht0 t (hP.2.2 t ht).1) (fun t ht => (hP.2.2 t ht).2),
      fun t ht => ⟨(hP.2.2 t ht).1, by have := (hP.2.2 t ht).2; omega⟩⟩)
    (fun st hP => by
      have hcl : ClosInv st 0 twigs := by
        refine ⟨hP.2.1.1, ?_⟩
        intro x
        exact hP.2.1.2 x
      exact final_closure st twigs hP.1 hcl ht0)
  refine ⟨twigs, c, s, hb2t, htc, hnd, ?_⟩
  intro x
  rw [hkeys x]
  constructor
  · rintro ⟨t, ht, j, hj1, hj2⟩
    refine ⟨t, ht, ?_⟩
    by_cases hj : j = 0
    · subst hj; exact Or.inl hj2.symm
    · exact Or.inr ⟨j, by omega, hj1, hj2⟩
  · rintro ⟨t, ht, h | ⟨j, hj1, hj2, hj3⟩⟩
    · exact ⟨t, ht, 0, by exact_mod_cast getLevel_nonneg _ (ht0 t ht), h.symm⟩
    · exact ⟨t, ht, j, hj2, hj3⟩

theorem twigs2cells_ancestor_closure_witness :
    ∃ (twigs cells sticks : List Cell),
      bodies2twigs [0, 0, 0] 1 [⟨[0, 0, 0], 1⟩, ⟨[0, 0, 0], 9⟩, ⟨[0, 0, 0], 18⟩] [] = some twigs ∧
      twigs2cells [0, 0, 0] 1 twigs [] [] = some (cells, sticks) ∧
      (cells.map Cell.ICELL).Nodup ∧
      ∀ x : Int, x ∈ cells.map Cell.ICELL ↔
        ∃ t ∈ twigs, x = t.ICELL ∨ IsProperAncestor x t.ICELL :=
  twigs2cells_ancestor_closure [0, 0, 0] 1
    [⟨[0, 0, 0], 1⟩, ⟨[0, 0, 0], 9⟩, ⟨[0, 0, 0], 18⟩] (by simp) (by decide) (by decide)

/-- The index of a node with the geometry of a cell of depth `l` lies in the index range of
depth `l`. -/
theorem nodeGeo_index (X0 : List Rat) (R0 : Rat) (N : Node) (l : Nat) (n : Nat → Int)
    (h : NodeGeo X0 R0 N l n) :
    0 ≤ N.I ∧ getLevel N.I = (l : Int) ∧ offset l ≤ N.I ∧ N.I < offset (l + 1) := by
  obtain ⟨-, -, hi, -⟩ := h
  obtain ⟨b0, b1⟩ := interleaveKey_bounds l (n 0) (n 1) (n 2)
  have h1 : offset l ≤ N.I := by omega
  have h2 : N.I < offset (l + 1) := by rw [offset_succ]; omega
  exact ⟨le_trans (offset_nonneg l) h1, getLevel_eq_of_bounds h1 h2, h1, h2⟩

/-- The index of the child of a node in the octant `o`. -/
theorem nodeGeo_child_index (X0 : List Rat) (R0 : Rat) (P C : Node) (l o : Nat)
    (n : Nat → Int) (ho : o < 8) (hP : NodeGeo X0 R0 P l n)
    (hC : NodeGeo X0 R0 C (l + 1) (fun d => 2 * n d + ((o / 2 ^ d % 2 : Nat) : Int))) :
    C.I = 8 * (P.I - offset l) + (o : Int) + offset (l + 1) ∧ getParent C.I = P.I := by
  obtain ⟨-, -, h1, h2⟩ := nodeGeo_index X0 R0 P l n hP
  obtain ⟨-, -, hp, -⟩ := hP
  obtain ⟨-, -, hc, -⟩ := hC
  have hk := interleaveKey_child l (n 0) (n 1) (n 2) (o / 2 ^ 0 % 2) (o / 2 ^ 1 % 2)
    (o / 2 ^ 2 % 2) (by omega) (by omega) (by omega)
  rw [← octant_bits o ho] at hk
  have e : C.I = 8 * (P.I - offset l) + (o : Int) + offset (l + 1) := by
    rw [hc, hp]
    simp only at hk ⊢
    rw [hk]
    ring
  refine ⟨e, ?_⟩
  rw [e]
  exact getParent_childIndex P.I l (o : Int) h1 h2 (by omega) (by omega)

/-- Every node but the first is the child of an earlier full node, in some octant. -/
theorem tree_parent (NCRIT : Nat) (X0 : List Rat) (R0 : Rat) (bodies : List Body)
    (nodes : List Node) (hinv : TreeInv NCRIT X0 R0 bodies nodes) (j : Nat) (N : Node)
    (hj : nodes[j]? = some N) (hpos : 0 < j) :
    ∃ (p : Nat) (P : Node) (o l : Nat) (n : Nat → Int), p < j ∧ nodes[p]? = some P ∧
      NCRIT ≤ P.NLEAF ∧ o < 8 ∧ P.CHILD[o]? = some j ∧ NodeGeo X0 R0 P l n ∧
      NodeGeo X0 R0 N (l + 1) (fun d => 2 * n d + ((o / 2 ^ d % 2 : Nat) : Int)) := by
  obtain ⟨p, P, o, p1, p2, p3, p4, p5, p6⟩ := hinv.2.1 j hpos (getElem?_lt hj)
  obtain ⟨-, -, -, -, l, n, g1, g2⟩ := hinv.1 p P p2
  obtain ⟨c, C, c1, -, c3, c4⟩ := g2 o p4 p5
  rw [p6] at c1
  have := Option.some.inj c1
  subst this
  rw [hj] at c3
  have := Option.some.inj c3
  subst this
  exact ⟨p, P, o, l, n, p1, p2, p3, p4, p6, g1, c4⟩

/-- Two nodes of the tree with the same index are the same node. -/
theorem tree_index_inj (NCRIT : Nat) (X0 : List Rat) (R0 : Rat) (bodies : List Body)
    (nodes : List Node) (hinv : TreeInv NCRIT X0 R0 bodies nodes) :
    ∀ (L a b : Nat) (A B : Node) (na nb : Nat → Int), nodes[a]? = some A → nodes[b]? = some B →
    NodeGeo X0 R0 A L na → NodeGeo X0 R0 B L nb → A.I = B.I → a = b := by
  intro L
  induction L with
  | zero =>
    intro a b A B na nb ha hb ga gb _
    have hz : ∀ (j : Nat) (N : Node) (n : Nat → Int), nodes[j]? = some N →
        NodeGeo X0 R0 N 0 n → j = 0 := by
      intro j N n hj hg
      by_contra hne
      obtain ⟨p, P, o, l, n', -, -, -, -, -, -, g⟩ :=
        tree_parent NCRIT X0 R0 bodies nodes hinv j N hj (by omega)
      have := nodeGeo_level X0 R0 N 0 (l + 1) n _ hg g
      omega
    rw [hz a A na ha ga, hz b B nb hb gb]
  | succ L ih =>
    intro a b A B na nb ha hb ga gb hI
    have hpos : ∀ (j : Nat) (N : Node) (n : Nat → Int), nodes[j]? = some N →
        NodeGeo X0 R0 N (L + 1) n → 0 < j := by
      intro j N n hj hg
      by_contra hne
      have hj0 : j = 0 := by omega
      subst hj0
      obtain ⟨root, hr, hrg⟩ := hinv.2.2
      rw [hj] at hr
      rw [← Option.some.inj hr] at hrg
      have := nodeGeo_level X0 R0 N (L + 1) 0 n _ hg hrg
      omega
    obtain ⟨pa, PA, oa, la, ma, a1, a2, -, a4, a5, a6, a7⟩ :=
      tree_parent NCRIT X0 R0 bodies nodes hinv a A ha (hpos a A na ha ga)
    obtain ⟨pb, PB, ob, lb, mb, b1, b2, -, b4, b5, b6, b7⟩ :=
      tree_parent NCRIT X0 R0 bodies nodes hinv b B hb (hpos b B nb hb gb)
    have ela : la = L := by
      have := nodeGeo_level X0 R0 A (L + 1) (la + 1) na _ ga a7
      omega
    have elb : lb = L := by
      have := nodeGeo_level X0 R0 B (L + 1) (lb + 1) nb _ gb b7
      omega
    rw [ela] at a6 a7
    rw [elb] at b6 b7
    obtain ⟨ea, pa'⟩ := nodeGeo_child_index X0 R0 PA A L oa ma a4 a6 a7
    obtain ⟨eb, pb'⟩ := nodeGeo_child_index X0 R0 PB B L ob mb b4 b6 b7
    have hP : PA.I = PB.I := by rw [← pa', ← pb', hI]
    have hp := ih pa pb PA PB ma mb a2 b2 a6 b6 hP
    subst hp
    rw [a2] at b2
    have := Option.some.inj b2
    subst this
    have ho : oa = ob := by
      rw [ea, eb] at hI
      omega
    subst ho
    rw [a5] at b5
    exact Option.some.inj b5

/-- The ancestors of the index of a node are the indices of full nodes. -/
theorem tree_ancestor_full (NCRIT : Nat) (X0 : List Rat) (R0 : Rat) (bodies : List Body)
    (nodes : List Node) (hinv : TreeInv NCRIT X0 R0 bodies nodes) :
    ∀ (k j : Nat) (N : Node) (l : Nat) (n : Nat → Int), nodes[j]? = some N →
    NodeGeo X0 R0 N l n → k + 1 ≤ l →
    ∃ (p : Nat) (P : Node) (n1 : Nat → Int), nodes[p]? = some P ∧ NCRIT ≤ P.NLEAF ∧
      NodeGeo X0 R0 P (l - (k + 1)) n1 ∧ P.I = getParent^[k + 1] N.I := by
  intro k
  induction k with
  | zero =>
    intro j N l n hj hg hk
    have hpos : 0 < j := by
      by_contra hne
      have hj0 : j = 0 := by omega
      subst hj0
      obtain ⟨root, hr, hrg⟩ := hinv.2.2
      rw [hj] at hr
      rw [← Option.some.inj hr] at hrg
      have := nodeGeo_level X0 R0 N l 0 n _ hg hrg
      omega
    obtain ⟨p, P, o, l1, n1, -, p2, p3, p4, -, p6, p7⟩ :=
      tree_parent NCRIT X0 R0 bodies nodes hinv j N hj hpos
    have el : l = l1 + 1 := nodeGeo_level X0 R0 N l (l1 + 1) n _ hg p7
    subst el
    obtain ⟨-, hpar⟩ := nodeGeo_child_index X0 R0 P N l1 o n1 p4 p6 p7
    exact ⟨p, P, n1, p2, p3, by simpa using p6, by simpa using hpar.symm⟩
  | succ k ih =>
    intro j N l n hj hg hk
    obtain ⟨p, P, n1, p1, -, p3, p4⟩ := ih j N l n hj hg (by omega)
    have hpos : 0 < p := by
      by_contra hne
      have hp0 : p = 0 := by omega
      subst hp0
      obtain ⟨root, hr, hrg⟩ := hinv.2.2
      rw [p1] at hr
      rw [← Option.some.inj hr] at hrg
      have := nodeGeo_level X0 R0 P _ 0 n1 _ p3 hrg
      omega
    obtain ⟨q, Q, o, l1, n2, -, q2, q3, q4, -, q6, q7⟩ :=
      tree_parent NCRIT X0 R0 bodies nodes hinv p P p1 hpos
    have el : l - (k + 1) = l1 + 1 := nodeGeo_level X0 R0 P _ (l1 + 1) n1 _ p3 q7
    obtain ⟨-, hpar⟩ := nodeGeo_child_index X0 R0 Q P l1 o n2 q4 q6 q7
    refine ⟨q, Q, n2, q2, q3, ?_, ?_⟩
    · have e2 : l - (k + 1 + 1) = l1 := by omega
      rw [e2]; exact q6
    · rw [Function.iterate_succ_apply', ← p4, hpar]

/-- In the tree that grow builds, the index of a node with `NLEAF < NCRIT` is not a proper
ancestor of the index of a node. -/
theorem leaf_not_ancestor (NCRIT : Nat) (X0 : List Rat) (R0 : Rat) (bodies : List Body)
    (nodes : List Node) (hinv : TreeInv NCRIT X0 R0 bodies nodes) (a b : Nat) (A B : Node)
    (ha : nodes[a]? = some A) (hb : nodes[b]? = some B) (hleaf : A.NLEAF < NCRIT) :
    ¬ IsProperAncestor A.I B.I := by
  rintro ⟨k, hk1, hk2, hk3⟩
  obtain ⟨-, -, -, -, lA, nA, gA, -⟩ := hinv.1 a A ha
  obtain ⟨-, -, -, -, lB, nB, gB, -⟩ := hinv.1 b B hb
  obtain ⟨-, hlB, -, -⟩ := nodeGeo_index X0 R0 B lB nB gB
  obtain ⟨-, hlA, -, -⟩ := nodeGeo_index X0 R0 A lA nA gA
  rw [hlB] at hk2
  obtain ⟨k0, rfl⟩ : ∃ k0 : Nat, k = k0 + 1 := ⟨k - 1, by omega⟩
  obtain ⟨p, P, n1, p1, p2, p3, p4⟩ :=
    tree_ancestor_full NCRIT X0 R0 bodies nodes hinv k0 b B lB nB hb gB (by exact_mod_cast hk2)
  rw [hk3] at p4
  obtain ⟨-, hlP, -, -⟩ := nodeGeo_index X0 R0 P _ n1 p3
  rw [p4, hlA] at hlP
  have el : lA = lB - (k0 + 1) := by exact_mod_cast hlP
  rw [← el] at p3
  have := tree_index_inj NCRIT X0 R0 bodies nodes hinv lA p a P A n1 nA p1 ha p3 gA p4
  subst this
  rw [ha] at p1
  rw [← Option.some.inj p1] at p2
  omega

/-- After grow, setIndex_topdown returns and every body carries the index of a node with
`NLEAF < NCRIT`. -/
theorem topdown_written (NCRIT : Nat) (X0 : List Rat) (R0 : Rat) (bodies : List Body)
    (fuel : Nat) (nodes : List Node) (hg : grow NCRIT X0 R0 bodies fuel = some nodes) :
    TreeInv NCRIT X0 R0 bodies nodes ∧
    ∀ fuel1 : Nat, nodes.length ≤ fuel1 →
      ∃ bodies1 : List Body, setIndex_topdown NCRIT nodes fuel1 bodies = some bodies1 ∧
        bodies1.length = bodies.length ∧
        ∀ (b : Nat) (B1 : Body), bodies1[b]? = some B1 →
          ∃ (B : Body) (j : Nat) (N : Node), bodies[b]? = some B ∧ B1.X = B.X ∧
            nodes[j]? = some N ∧ Holds NCRIT N b ∧ B1.ICELL = N.I := by
  obtain ⟨hinv, hcnt⟩ := grow_spec NCRIT X0 R0 bodies fuel nodes hg
  refine ⟨hinv, ?_⟩
  intro fuel1 hf
  have hne : 0 < nodes.length := by
    obtain ⟨-, -, root, hr, -⟩ := hinv
    exact getElem?_lt hr
  obtain ⟨bodies1, ht, hlen⟩ := traverse_total NCRIT X0 R0 bodies nodes hinv fuel1 0
    bodies hne (by omega) rfl
  obtain ⟨hok, hvis⟩ := traverse_spec NCRIT nodes fuel1 0 bodies bodies1 ht
  refine ⟨bodies1, ht, hlen, ?_⟩
  intro b B1 hB1
  have hbl : b < bodies.length := by rw [← hlen]; exact getElem?_lt hB1
  have hB : bodies[b]? = some bodies[b] := List.getElem?_eq_getElem hbl
  obtain ⟨B1', e1, e2, -⟩ := hok.2 b _ hB
  rw [hB1] at e1
  have := Option.some.inj e1
  subst this
  obtain ⟨j, N, j1, j2, j3⟩ := holdCount_one NCRIT nodes b (hcnt b hbl)
  obtain ⟨B1', w1, k, K, w2, w3, w4⟩ :=
    hvis j N b (reach_all NCRIT X0 R0 bodies nodes hinv j (getElem?_lt j1)) j1 j2
  rw [hB1] at w1
  have := Option.some.inj w1
  subst this
  exact ⟨_, k, K, hB, e2, w2, w3, w4⟩

/-- A level pass without unique on a range with pairwise different indices is the level pass
with unique. -/
theorem levelStepPlain_eq (X0 : List Rat) (R0 : Rat) (st : AsmState) (L : Int)
    (hinv : InvBase st L) (hL : 1 ≤ L)
    (hN : ((st.cells.drop st.begin).map Cell.ICELL).Nodup) :
    levelStepPlain X0 R0 st = some (levelSpec X0 R0 st) := by
  have hmem := member_ok st L hinv
  obtain ⟨hend, hb, hlev, hlow, hpw, hlink⟩ := hinv
  obtain ⟨d, hd⟩ : ∃ d : Nat, L = ((d + 1 : Nat) : Int) := ⟨(L - 1).toNat, by push_cast; omega⟩
  have hk : ∀ m ∈ keptCells st, 0 ≤ m.ICELL ∧ getLevel m.ICELL = ((d + 1 : Nat) : Int) := by
    intro m hm; rw [← hd]; exact (hmem m hm).1
  have h0 : ∀ m ∈ keptCells st, 0 ≤ getParent m.ICELL :=
    fun m hm => (getLevel_getParent m.ICELL d (hk m hm).2 (hk m hm).1).2
  have hpl : (st.cells.take st.begin).length = st.begin := by
    rw [List.length_take]; omega
  have hkept := keptCells_nodup st hb hN
  have hu2 := (keptCells_sublist st hb hpw).2
  have hl := linkParent_eq X0 R0 (st.cells.take st.begin) (keptCells st) (keptCells_ne_nil st)
    (by rw [hpl]; exact fun m hm => (hmem m hm).2.1) h0
  rw [hpl] at hl
  have hlen : st.begin + (keptCells st).length = st.cells.length := by
    rw [hkept, (List.perm_insertionSort _ _).length_eq, List.length_drop]
    omega
  have hsort : sortCells st.cells st.begin st.end_ = st.cells.take st.begin ++ keptCells st := by
    rw [hend, sortCells_eq, hkept]
  unfold levelStepPlain
  rw [hsort, hend, ← hlen, hl]
  simp only [Option.some_bind]
  unfold levelSpec
  simp only [hu2, List.append_nil]
  rfl

theorem climbLoopPlain_eq (X0 : List Rat) (R0 : Rat) (P : AsmState → Int → Prop)
    (hstep : ∀ st L, P st L → 1 ≤ L → ∃ st1, levelStep X0 R0 st = some st1 ∧
      levelStepPlain X0 R0 st = some st1 ∧ P st1 (L - 1))
    (tl : Int) (h0 : 0 ≤ tl) : ∀ (n : Nat) (st : AsmState) (L : Int), P st L → L = tl + n →
    climbLoopPlain X0 R0 n tl st L = climbLoop X0 R0 n tl st L := by
  intro n
  induction n with
  | zero => intro st L _ _; rfl
  | succ k ih =>
    intro st L hP hL
    have hne : tl ≠ L := by push_cast at hL; omega
    obtain ⟨st1, hs, hsp, hP1⟩ := hstep st L hP (by push_cast at hL; omega)
    simp only [climbLoop, climbLoopPlain, hne, ne_eq, not_false_eq_true, if_true, hs, hsp,
      Option.bind_eq_bind, Option.some_bind]
    exact ih st1 (L - 1) hP1 (by push_cast at hL; omega)

theorem finalLoopPlain_eq (X0 : List Rat) (R0 : Rat) (P : AsmState → Int → Prop)
    (hstep : ∀ st L, P st L → 1 ≤ L → ∃ st1, levelStep X0 R0 st = some st1 ∧
      levelStepPlain X0 R0 st = some st1 ∧ P st1 (L - 1)) :
    ∀ (n : Nat) (st : AsmState), P st (n : Int) →
    finalLoopPlain X0 R0 n st = finalLoop X0 R0 n st := by
  intro n
  induction n with
  | zero => intro st _; rfl
  | succ k ih =>
    intro st hP
    obtain ⟨st1, hs, hsp, hP1⟩ := hstep st _ hP (by push_cast; omega)
    have e : ((k + 1 : Nat) : Int) - 1 = (k : Int) := by push_cast; ring
    rw [e] at hP1
    simp only [finalLoop, finalLoopPlain, hs, hsp, Option.bind_eq_bind, Option.some_bind]
    exact ih st1 hP1

theorem twigsLoopPlain_eq (X0 : List Rat) (R0 : Rat) (P : AsmState → Int → List Cell → Prop)
    (good : Cell → Prop) (tw : List Cell)
    (hpush : ∀ st L pushed t pre, P st L pushed → getLevel t.ICELL = L → good t →
      tw = pre ++ t :: pushed →
      P { st with cells := st.cells ++ [t], end_ := st.end_ + 1 } L (t :: pushed))
    (hstep : ∀ st L pushed, P st L pushed → 1 ≤ L →
      ∃ st1, levelStep X0 R0 st = some st1 ∧ levelStepPlain X0 R0 st = some st1 ∧
        P st1 (L - 1) pushed) :
    ∀ (rest : List Cell) (st : AsmState) (L : Int) (pushed : List Cell), P st L pushed →
      tw = rest.reverse ++ pushed → 0 ≤ L →
      (∀ t ∈ rest, good t ∧ 0 ≤ getLevel t.ICELL ∧ getLevel t.ICELL ≤ L) →
      List.Pairwise (fun a b => getLevel b.ICELL ≤ getLevel a.ICELL) rest →
      twigsLoopPlain X0 R0 rest st L = twigsLoop X0 R0 rest st L := by
  intro rest
  induction rest with
  | nil => intro st L pushed _ _ _ _ _; rfl
  | cons t rest ih =>
    intro st L pushed hP htw _ hall hpw
    have htw' : tw = rest.reverse ++ t :: pushed := by rw [htw]; simp
    obtain ⟨hg, h0, hle⟩ := hall t (List.mem_cons_self _ _)
    obtain ⟨n, hn⟩ : ∃ n : Nat, L = getLevel t.ICELL + n := ⟨(L - getLevel t.ICELL).toNat, by omega⟩
    have hfuel : (L - getLevel t.ICELL).toNat = n := by omega
    obtain ⟨st1, hc, hP1⟩ := climbLoop_inv X0 R0 (fun s l => P s l pushed)
      (fun s l h1 h2 => by
        obtain ⟨s1, a1, -, a3⟩ := hstep s l pushed h1 h2
        exact ⟨s1, a1, a3⟩) (getLevel t.ICELL) h0 n st L hP hn
    have hcp := climbLoopPlain_eq X0 R0 (fun s l => P s l pushed)
      (fun s l h1 h2 => hstep s l pushed h1 h2) (getLevel t.ICELL) h0 n st L hP hn
    have hP2 := hpush st1 _ pushed t rest.reverse hP1 rfl hg htw'
    have := ih _ (getLevel t.ICELL) (t :: pushed) hP2 htw' h0
      (fun u hu => ⟨(hall u (List.mem_cons_of_mem _ hu)).1, (hall u (List.mem_cons_of_mem _ hu)).2.1,
        List.rel_of_pairwise_cons hpw hu⟩)
      hpw.of_cons
    simp only [twigsLoop, twigsLoopPlain, hfuel, hcp, hc, Option.bind_eq_bind, Option.some_bind]
    exact this

/-- The assembly of twigs with strictly ascending indices none of which is a proper ancestor
of another: no call of unique changes anything, and no stick is recorded. -/
theorem twigs2cells_plain (X0 : List Rat) (R0 : Rat) (tw : List Cell) (hne : tw ≠ [])
    (ht : ∀ t ∈ tw, 0 ≤ t.ICELL ∧ t.NCHILD = 0)
    (hsorted : List.Sorted (· < ·) (tw.map Cell.ICELL))
    (hanc : ∀ a ∈ tw, ∀ b ∈ tw, ¬ IsProperAncestor a.ICELL b.ICELL) :
    ∃ cells : List Cell, twigs2cells X0 R0 tw [] [] = some (cells, []) ∧
      twigs2cellsPlain X0 R0 tw [] = some cells := by
  have ht0 : ∀ t ∈ tw, 0 ≤ t.ICELL := fun t h => (ht t h).1
  have hlev := twigs_levels tw ht0 hsorted
  -- the invariant and its steps
  have hpush : ∀ (st : AsmState) (L : Int) (pushed : List Cell) (t : Cell) (pre : List Cell),
      (InvBase st L ∧ RootInv st pushed ∧ (∀ u ∈ pushed, u ∈ tw) ∧ st.sticks = []) →
      getLevel t.ICELL = L → (0 ≤ t.ICELL ∧ t.NCHILD = 0) → tw = pre ++ t :: pushed →
      (InvBase { st with cells := st.cells ++ [t], end_ := st.end_ + 1 } L ∧
        RootInv { st with cells := st.cells ++ [t], end_ := st.end_ + 1 } (t :: pushed) ∧
        (∀ u ∈ t :: pushed, u ∈ tw) ∧
        ({ st with cells := st.cells ++ [t], end_ := st.end_ + 1 } : AsmState).sticks = []) := by
    intro st L pushed t pre hP hl hg htw
    refine ⟨push_invBase st L t hP.1 hl hg.1 hg.2,
      push_rootInv st L pushed pre tw t hP.1 hP.2.1 htw hsorted hanc, ?_, hP.2.2.2⟩
    intro u hu
    rcases List.mem_cons.1 hu with h | h
    · rw [h, htw]; simp
    · exact hP.2.2.1 u h
  have hstep : ∀ (st : AsmState) (L : Int) (pushed : List Cell),
      (InvBase st L ∧ RootInv st pushed ∧ (∀ u ∈ pushed, u ∈ tw) ∧ st.sticks = []) → 1 ≤ L →
      ∃ st1, levelStep X0 R0 st = some st1 ∧ levelStepPlain X0 R0 st = some st1 ∧
        (InvBase st1 (L - 1) ∧ RootInv st1 pushed ∧ (∀ u ∈ pushed, u ∈ tw) ∧
          st1.sticks = []) := by
    intro st L pushed hP hL
    obtain ⟨a1, a2, a3⟩ := levelStep_invBase X0 R0 st L hP.1 hL
    exact ⟨_, a1, levelStepPlain_eq X0 R0 st L hP.1 hL hP.2.1.2.1, a2,
      levelStep_rootInv X0 R0 st L pushed hP.1 hP.2.1 hL (fun t h => ht0 t (hP.2.2.1 t h)),
      hP.2.2.1, by rw [a3]; exact hP.2.2.2⟩
  obtain ⟨ini, t, rfl⟩ : ∃ ini t, tw = ini ++ [t] :=
    ⟨tw.dropLast, tw.getLast hne, (List.dropLast_append_getLast hne).symm⟩
  have hlast : (ini ++ [t]).getLast? = some t := by simp
  have hrev : (ini ++ [t]).reverse = t :: ini.reverse := by simp
  have htm : t ∈ ini ++ [t] := by simp
  have hP1 : InvBase { cells := [] ++ [t], sticks := [], begin := 0, end_ := 1 }
        (getLevel t.ICELL) ∧
      RootInv { cells := [] ++ [t], sticks := [], begin := 0, end_ := 1 } [t] ∧
      (∀ u ∈ [t], u ∈ ini ++ [t]) ∧
      ({ cells := [] ++ [t], sticks := [], begin := 0, end_ := 1 } : AsmState).sticks = [] :=
    ⟨init_invBase t (ht t htm).1 (ht t htm).2 [], init_rootInv t [],
      fun u hu => by simp at hu; subst hu; exact htm, rfl⟩
  have htl0 : 0 ≤ getLevel t.ICELL := getLevel_nonneg _ (ht0 t htm)
  have hpw := List.pairwise_append.1 hlev
  have hall : ∀ u ∈ ini.reverse, (0 ≤ u.ICELL ∧ u.NCHILD = 0) ∧ 0 ≤ getLevel u.ICELL ∧
      getLevel u.ICELL ≤ getLevel t.ICELL := by
    intro u hu
    have hu' : u ∈ ini := List.mem_reverse.1 hu
    exact ⟨ht u (by simp [hu']), getLevel_nonneg _ (ht0 u (by simp [hu'])),
      hpw.2.2 u hu' t (by simp)⟩
  obtain ⟨st1, L1, hl, hP2, h01, _, _⟩ := twigsLoop_inv X0 R0
    (fun st L pushed => InvBase st L ∧ RootInv st pushed ∧ (∀ u ∈ pushed, u ∈ ini ++ [t]) ∧
      st.sticks = [])
    (fun t => 0 ≤ t.ICELL ∧ t.NCHILD = 0) (ini ++ [t]) hpush
    (fun st L pushed hP hL => by
      obtain ⟨s1, a1, -, a3⟩ := hstep st L pushed hP hL
      exact ⟨s1, a1, a3⟩)
    ini.reverse { cells := [] ++ [t], sticks := [], begin := 0, end_ := 1 } (getLevel t.ICELL) [t]
    hP1 (by simp) htl0 hall (List.pairwise_reverse.2 hpw.1)
  have hlp := twigsLoopPlain_eq X0 R0
    (fun st L pushed => InvBase st L ∧ RootInv st pushed ∧ (∀ u ∈ pushed, u ∈ ini ++ [t]) ∧
      st.sticks = [])
    (fun t => 0 ≤ t.ICELL ∧ t.NCHILD = 0) (ini ++ [t]) hpush hstep
    ini.reverse { cells := [] ++ [t], sticks := [], begin := 0, end_ := 1 } (getLevel t.ICELL) [t]
    hP1 (by simp) htl0 hall (List.pairwise_reverse.2 hpw.1)
  simp only [List.reverse_reverse] at hP2
  obtain ⟨n, hn⟩ : ∃ n : Nat, L1 = n := ⟨L1.toNat, by omega⟩
  have hn' : L1.toNat = n := by omega
  rw [hn] at hP2
  obtain ⟨st2, hf, hP3⟩ := finalLoop_inv X0 R0
    (fun s l => InvBase s l ∧ RootInv s (ini ++ [t]) ∧ (∀ u ∈ ini ++ [t], u ∈ ini ++ [t]) ∧
      s.sticks = [])
    (fun s l h1 h2 => by
      obtain ⟨s1, a1, -, a3⟩ := hstep s l _ h1 h2
      exact ⟨s1, a1, a3⟩) n st1 hP2
  have hfp := finalLoopPlain_eq X0 R0
    (fun s l => InvBase s l ∧ RootInv s (ini ++ [t]) ∧ (∀ u ∈ ini ++ [t], u ∈ ini ++ [t]) ∧
      s.sticks = [])
    (fun s l h1 h2 => hstep s l _ h1 h2) n st1 hP2
  -- the final unique pass finds one cell in the range
  obtain ⟨root, hroot, hr0, hu, -⟩ := final_unique st2 hP3.1
  obtain ⟨hend, hb, hlev0, -⟩ := hP3.1
  obtain ⟨-, hN, -⟩ := hP3.2.1
  have hall2 : st2.cells.take (st2.begin + 1) = st2.cells := by
    apply List.take_of_length_le
    by_contra hlt
    have h1 : st2.begin + 1 < st2.cells.length := by omega
    have hd : st2.cells.drop st2.begin
        = st2.cells[st2.begin] :: st2.cells[st2.begin + 1] :: st2.cells.drop (st2.begin + 2) := by
      rw [List.drop_eq_getElem_cons hb, List.drop_eq_getElem_cons h1]
    have e1 := hlev0 st2.cells[st2.begin] (by rw [hd]; exact List.mem_cons_self _ _)
    have e2 := hlev0 st2.cells[st2.begin + 1] (by
      rw [hd]; exact List.mem_cons_of_mem _ (List.mem_cons_self _ _))
    rw [hd] at hN
    simp only [List.map_cons, List.nodup_cons, List.mem_cons, not_or] at hN
    exact hN.1.1 (by rw [level_zero _ e1.1 e1.2, level_zero _ e2.1 e2.2])
  rw [hall2] at hu
  refine ⟨st2.cells, ?_, ?_⟩
  · simp only [twigs2cells, hlast, hrev, Option.bind_eq_bind, Option.some_bind, twigsLoop,
      Int.sub_self, Int.toNat_zero, climbLoop, ne_eq, not_true_eq_false, if_false, hl, hn', hf, hu]
    rw [hP3.2.2.2]
  · simp only [twigs2cellsPlain, hlast, hrev, Option.some_bind, twigsLoopPlain,
      Int.sub_self, Int.toNat_zero, climbLoopPlain, ne_eq, not_true_eq_false, if_false]
    have hlp' : twigsLoopPlain X0 R0 ini.reverse
        { cells := [t], sticks := [], begin := 0, end_ := 1 } (getLevel t.ICELL)
        = some (st1, L1) := by
      have := hlp.trans hl
      simpa using this
    simp only [List.nil_append, zero_add, hlp', Option.some_bind, hn', hfp, hf]

theorem sortBodies_sorted (l : List Body) :
    List.Sorted (· ≤ ·) ((sortBodies l).map Body.ICELL) := by
  have h : List.Sorted (fun a b : Body => a.ICELL ≤ b.ICELL) (sortBodies l) := by
    haveI : IsTotal Body (fun a b : Body => a.ICELL ≤ b.ICELL) := ⟨fun a b => le_total _ _⟩
    haveI : IsTrans Body (fun a b : Body => a.ICELL ≤ b.ICELL) :=
      ⟨fun a b c h1 h2 => le_trans h1 h2⟩
    exact List.sorted_insertionSort _ l
  exact List.pairwise_map.2 h

theorem sortBodies_perm (l : List Body) : List.Perm (sortBodies l) l :=
  List.perm_insertionSort _ l

/-- The assembly of bodies none of whose indices is a proper ancestor of another, sorted by
index: no call of unique changes anything, and no stick is recorded. -/
theorem assemble_plain (X0 : List Rat) (R0 : Rat) (bodies1 : List Body) (hne : bodies1 ≠ [])
    (h0 : ∀ b ∈ bodies1, 0 ≤ b.ICELL)
    (hanc : ∀ a ∈ bodies1, ∀ b ∈ bodies1, ¬ IsProperAncestor a.ICELL b.ICELL) :
    ∃ twigs cells : List Cell,
      bodies2twigs X0 R0 (sortBodies bodies1) [] = some twigs ∧
      twigs2cells X0 R0 twigs [] [] = some (cells, []) ∧
      twigs2cellsPlain X0 R0 twigs [] = some cells := by
  have hp := sortBodies_perm bodies1
  have hne' : sortBodies bodies1 ≠ [] := by
    intro h
    rw [h] at hp
    exact hne (List.Perm.nil_eq hp).symm
  obtain ⟨twigs, hb2t, htne, hfacts, -, hsorted⟩ := bodies2twigs_sorted X0 R0
    (sortBodies bodies1) hne' (fun b hb => h0 b (hp.mem_iff.1 hb)) (sortBodies_sorted bodies1)
  obtain ⟨cells, c1, c2⟩ := twigs2cells_plain X0 R0 twigs htne
    (fun t ht => ⟨(hfacts t ht).1, (hfacts t ht).2.1⟩) hsorted (by
      intro a ha b hb
      obtain ⟨-, -, -, -, a', ha', hka⟩ := hfacts a ha
      obtain ⟨-, -, -, -, b', hb', hkb⟩ := hfacts b hb
      rw [hka, hkb]
      exact hanc a' (hp.mem_iff.1 ha') b' (hp.mem_iff.1 hb'))
  exact ⟨twigs, cells, hb2t, c1, c2⟩

/-- C26: for every point set on which grow returns, setIndex_topdown returns, and afterwards no
body's ICELL is a proper ancestor (under iterated getParent) of another body's ICELL; so, for a
non-empty point set, bodies2twigs and twigs2cells on the bodies sorted by ICELL return the cells
that the assembly with every call of unique left out returns (unique removes no cell), and the
stick vector stays empty. -/
theorem topdown_no_collision (NCRIT : Nat) (X0 : List Rat) (R0 : Rat) (bodies : List Body)
    (fuel : Nat) (nodes : List Node) (hg : grow NCRIT X0 R0 bodies fuel = some nodes) :
    ∃ (fuel1 : Nat) (bodies1 : List Body),
      setIndex_topdown NCRIT nodes fuel1 bodies = some bodies1 ∧
      (∀ a ∈ bodies1, ∀ b ∈ bodies1, ¬ IsProperAncestor a.ICELL b.ICELL) ∧
      (bodies ≠ [] → ∃ twigs cells : List Cell,
        bodies2twigs X0 R0 (sortBodies bodies1) [] = some twigs ∧
        twigs2cells X0 R0 twigs [] [] = some (cells, []) ∧
        twigs2cellsPlain X0 R0 twigs [] = some cells) := by
  obtain ⟨hinv, hw⟩ := topdown_written NCRIT X0 R0 bodies fuel nodes hg
  obtain ⟨bodies1, h1, h2, h3⟩ := hw nodes.length (le_refl _)
  have hnode : ∀ a ∈ bodies1, ∃ (j : Nat) (N : Node), nodes[j]? = some N ∧ N.NLEAF < NCRIT ∧
      a.ICELL = N.I := by
    intro a ha
    obtain ⟨i, hi⟩ := List.mem_iff_getElem?.1 ha
    obtain ⟨-, j, N, -, -, w1, w2, w3⟩ := h3 i a hi
    exact ⟨j, N, w1, w2.1, w3⟩
  have hanc : ∀ a ∈ bodies1, ∀ b ∈ bodies1, ¬ IsProperAncestor a.ICELL b.ICELL := by
    intro a ha b hb
    obtain ⟨ja, A, a1, a2, a3⟩ := hnode a ha
    obtain ⟨jb, B, b1, -, b3⟩ := hnode b hb
    rw [a3, b3]
    exact leaf_not_ancestor NCRIT X0 R0 bodies nodes hinv ja jb A B a1 b1 a2
  refine ⟨nodes.length, bodies1, h1, hanc, ?_⟩
  intro hne
  have hne1 : bodies1 ≠ [] := by
    intro h
    rw [h] at h2
    exact hne (List.length_eq_zero.1 h2.symm)
  refine assemble_plain X0 R0 bodies1 hne1 ?_ hanc
  intro a ha
  obtain ⟨j, N, a1, -, a3⟩ := hnode a ha
  obtain ⟨-, -, -, -, l, n, g, -⟩ := hinv.1 j N a1
  rw [a3]
  exact (nodeGeo_index X0 R0 N l n g).1

set_option maxRecDepth 8000

theorem topdown_no_collision_witness :
    ∃ (fuel1 : Nat) (bodies1 : List Body),
      setIndex_topdown 2 ((grow 2 [0, 0, 0] 1 threePoints 10).getD []) fuel1 threePoints
        = some bodies1 ∧
      (∀ a ∈ bodies1, ∀ b ∈ bodies1, ¬ IsProperAncestor a.ICELL b.ICELL) ∧
      (threePoints ≠ [] → ∃ twigs cells : List Cell,
        bodies2twigs [0, 0, 0] 1 (sortBodies bodies1) [] = some twigs ∧
        twigs2cells [0, 0, 0] 1 twigs [] [] = some (cells, []) ∧
        twigs2cellsPlain [0, 0, 0] 1 twigs [] = some cells) :=
  topdown_no_collision 2 [0, 0, 0] 1 threePoints 10
    ((grow 2 [0, 0, 0] 1 threePoints 10).getD []) (by with_unfolding_all decide)

theorem onePoint_grow (NCRIT : Nat) (h2 : 2 ≤ NCRIT) (X0 : List Rat) (R0 : Rat) (B : Body)
    (f : Nat) :
    grow NCRIT X0 R0 [B] (f + 1)
      = some [{ rootNode NCRIT X0 R0 with NLEAF := 1, LEAF := (List.replicate NCRIT 0).set 0 0 }] := by
  have h0 : ¬ NCRIT ≤ 0 := by omega
  have h1 : ¬ NCRIT ≤ 1 := by omega
  have h3 : 0 < NCRIT := by omega
  simp [grow, growLoop, growStep, descendLoop, addLeaf, rootNode, splitNode, h0, h1, h3]

theorem onePoint_index (NCRIT : Nat) (h2 : 2 ≤ NCRIT) (X0 : List Rat) (R0 : Rat) (B : Body)
    (f : Nat) :
    setIndex_topdown NCRIT
      [{ rootNode NCRIT X0 R0 with NLEAF := 1, LEAF := (List.replicate NCRIT 0).set 0 0 }] (f + 1) [B]
      = some [{ B with ICELL := 0 }] := by
  have h1 : ¬ NCRIT ≤ 1 := by omega
  have h3 : 0 < NCRIT := by omega
  simp [setIndex_topdown, traverse, rootNode, writeLeafs, h1, h3]

theorem onePoint_assembly (X0 : List Rat) (R0 : Rat) (X : List Rat) :
    bodies2twigs X0 R0 (sortBodies [⟨X, 0⟩]) []
      = some [{ Cell.init with
          NCLEAF := 1, NDLEAF := 1, R := R0, X := (List.range 3).map (fun d => X0.getD d 0) }] ∧
    twigs2cells X0 R0 [{ Cell.init with
          NCLEAF := 1, NDLEAF := 1, R := R0, X := (List.range 3).map (fun d => X0.getD d 0) }] [] []
      = some ([{ Cell.init with
          NCLEAF := 1, NDLEAF := 1, R := R0, X := (List.range 3).map (fun d => X0.getD d 0) }], []) := by
  have hnx : getCenterNx 0 = some [0, 0, 0] := by decide
  have hl : getLevel 0 = 0 := by decide
  constructor
  · simp [bodies2twigs, sortBodies, bodies2twigsLoop, getCenter, hnx, hl, shl, Cell.init]
    intro a ha
    interval_cases a <;> simp
  · simp [twigs2cells, twigsLoop, climbLoop, finalLoop, unique, uniqueLoop, hl, Cell.init]

theorem onePoint_bottomup (NCRIT : Nat) (h2 : 2 ≤ NCRIT) (X0 : List Rat) (R0 : Rat) (B : Body) :
    setIndex_bottomup NCRIT 1 X0 R0 [B] (-1) 0 0 false = some [{ B with ICELL := 0 }] := by
  have hm : getMaxLevel NCRIT 1 [B] = 0 := by
    have h1 : ¬ (NCRIT : Int) ≤ 1 := by omega
    simp [getMaxLevel, h1]
  simp [setIndex_bottomup, hm, setIndexLoop, bottomupKey, interleaveLoop, shl]

theorem onePoint_coSplit (X0 : List Rat) (R0 : Rat) (B : Body) :
    CoSplit 1 [B] B.X [{ rootNode 1 X0 R0 with NLEAF := 1, LEAF := [0] }] 0 0 := by
  refine ⟨_, rfl, rfl, rfl, ?_, fun _ => rfl, fun h => absurd h (lt_irrefl 0)⟩
  intro m hm
  interval_cases m
  exact ⟨0, _, rfl, rfl, rfl⟩

theorem onePoint_grow_one (X0 : List Rat) (R0 : Rat) (B : Body) (f : Nat) :
    grow 1 X0 R0 [B] (f + 1) = splitNodeLoop 1 [B] (f + 1) 0 0
      [{ rootNode 1 X0 R0 with NLEAF := 1, LEAF := [0] }] := by
  simp [grow, growLoop, growStep, descendLoop, addLeaf, rootNode, splitNode]

theorem onePoint_diverges (X0 : List Rat) (R0 : Rat) (B : Body) (fuel : Nat) :
    grow 1 X0 R0 [B] fuel = none := by
  cases fuel with
  | zero => rfl
  | succ f =>
    rw [onePoint_grow_one X0 R0 B f]
    exact split_coincident 1 [B] B.X (f + 1) 0 0 _ (by decide) (onePoint_coSplit X0 R0 B)

/-- C21 (as stated, refuted at C = 1): for one point of the cube of centre (0, 0, 0) and radius 1
and the leaf capacity NCRIT = 1, bottomup (one partition) forms the twig of index 8 at depth 1
and the two cells 8 and 0, the root being made by one pass of the level loop; and topdown
returns for no amount of fuel, since a node holding one leaf is already full and splitNode
recurses without end. -/
theorem single_point_capacity_one :
    (bottomup 1 1 [0, 0, 0] 1 [⟨[1 / 2, 1 / 2, 1 / 2], 0⟩] []).map
        (fun r => (r.2.2.1.map Cell.ICELL, r.2.1.map Cell.ICELL, r.2.2.2))
      = some ([8], [8, 0], []) ∧
    getLevel 8 = 1 ∧
    ¬ ∃ (fuel : Nat) (r : List Body × List Cell × List Cell × List Cell),
      topdown 1 [0, 0, 0] 1 fuel [⟨[1 / 2, 1 / 2, 1 / 2], 0⟩] [] = some r := by
  refine ⟨by with_unfolding_all decide, by decide, ?_⟩
  rintro ⟨fuel, r, h⟩
  simp [topdown, onePoint_diverges] at h

/-- C21 (amended): for a point set of exactly one point and every leaf capacity NCRIT of 2 or
more, topdown (for every fuel of 1 or more) and bottomup with one partition return on an empty
cell array: the point gets the index 0, there is exactly one twig, the cell array is that twig
alone, and no stick is recorded. The twig has ICELL = 0, no child, one leaf, the radius R0 and
the centre X0 of the root; its depth is 0, so the two level loops of twigs2cells, which run the
linkParent passes, make no pass: the climb loop returns its state with no fuel and the final
loop has zero passes. -/
theorem single_point_assembly (NCRIT : Nat) (h2 : 2 ≤ NCRIT) (X0 : List Rat) (R0 : Rat)
    (B : Body) :
    ∃ t : Cell, t.ICELL = 0 ∧ t.NCHILD = 0 ∧ t.NCLEAF = 1 ∧ t.NDLEAF = 1 ∧ t.R = R0 ∧
      t.X = (List.range 3).map (fun d => X0.getD d 0) ∧
      (∀ fuel : Nat, 1 ≤ fuel →
        topdown NCRIT X0 R0 fuel [B] [] = some ([{ B with ICELL := 0 }], [t], [t], [])) ∧
      bottomup NCRIT 1 X0 R0 [B] [] = some ([{ B with ICELL := 0 }], [t], [t], []) ∧
      getLevel t.ICELL = 0 ∧
      (∀ st : AsmState,
        climbLoop X0 R0 0 (getLevel t.ICELL) st (getLevel t.ICELL) = some (st, 0) ∧
        finalLoop X0 R0 (getLevel t.ICELL).toNat st = some st) := by
  obtain ⟨a1, a2⟩ := onePoint_assembly X0 R0 B.X
  have hl : getLevel 0 = 0 := by decide
  have hs : sortBodies [({ B with ICELL := 0 } : Body)] = [{ B with ICELL := 0 }] := rfl
  rw [hs] at a1
  refine ⟨{ Cell.init with
      NCLEAF := 1, NDLEAF := 1, R := R0, X := (List.range 3).map (fun d => X0.getD d 0) },
    rfl, rfl, rfl, rfl, rfl, rfl, ?_, ?_, hl, ?_⟩
  · intro fuel hf
    obtain ⟨f, rfl⟩ : ∃ f, fuel = f + 1 := ⟨fuel - 1, by omega⟩
    simp only [topdown, onePoint_grow NCRIT h2 X0 R0 B f, onePoint_index NCRIT h2 X0 R0 B f,
      Option.some_bind, hs]
    rw [a1, Option.some_bind, a2]
    rfl
  · simp only [bottomup, onePoint_bottomup NCRIT h2 X0 R0 B, Option.some_bind, hs]
    rw [a1, Option.some_bind, a2]
    rfl
  · intro st
    simp [hl, climbLoop, finalLoop, Cell.init]

theorem single_point_assembly_witness :
    2 ≤ 2 ∧
    ∃ t : Cell, t.ICELL = 0 ∧ t.NCHILD = 0 ∧ t.NCLEAF = 1 ∧ t.NDLEAF = 1 ∧ t.R = 1 ∧
      t.X = (List.range 3).map (fun d => ([0, 0, 0] : List Rat).getD d 0) ∧
      (∀ fuel : Nat, 1 ≤ fuel →
        topdown 2 [0, 0, 0] 1 fuel [⟨[1 / 2, 1 / 2, 1 / 2], 5⟩] []
          = some ([{ (⟨[1 / 2, 1 / 2, 1 / 2], 5⟩ : Body) with ICELL := 0 }], [t], [t], [])) ∧
      bottomup 2 1 [0, 0, 0] 1 [⟨[1 / 2, 1 / 2, 1 / 2], 5⟩] []
        = some ([{ (⟨[1 / 2, 1 / 2, 1 / 2], 5⟩ : Body) with ICELL := 0 }], [t], [t], []) ∧
      getLevel t.ICELL = 0 ∧
      (∀ st : AsmState,
        climbLoop [0, 0, 0] 1 0 (getLevel t.ICELL) st (getLevel t.ICELL) = some (st, 0) ∧
        finalLoop [0, 0, 0] 1 (getLevel t.ICELL).toNat st = some st) :=
  ⟨by decide, single_point_assembly 2 (by decide) [0, 0, 0] 1 ⟨[1 / 2, 1 / 2, 1 / 2], 5⟩⟩

/-- One pass of the loop of splitNode at a full node `i` whose children hold sublists of its
first `l` leaf slots: every read is inside its vector, the child that receives the leaf has
`NLEAF < NCRIT`, and the child becomes full at the last leaf slot only. -/
theorem split_iter (NCRIT : Nat) (X0 : List Rat) (R0 : Rat) (bodies : List Body)
    (nodes : List Node) (i l : Nat) (ni : Node) (hl : l < NCRIT)
    (hinv : TreeInv NCRIT X0 R0 bodies nodes) (hi : nodes[i]? = some ni)
    (hfull : NCRIT ≤ ni.NLEAF) (hcs : ChildSub nodes i l) :
    ∃ (b : Nat) (B : Body), ni.LEAF[l]? = some b ∧ bodies[b]? = some B ∧
      ∀ nodes1 : List Node, (nodes1 = (if ni.ICHILD &&& (1 <<< getOctant B.X i nodes) = 0
        then addChild NCRIT (getOctant B.X i nodes) i nodes else nodes) →
      ∃ (ni1 : Node) (c : Nat) (C : Node),
        nodes1[i]? = some ni1 ∧ ni1.CHILD[getOctant B.X i nodes]? = some c ∧
        ni1.LEAF[l]? = some b ∧ nodes1[c]? = some C ∧ C.NLEAF < NCRIT ∧
        C.LEAF.length = NCRIT ∧
        TreeInv NCRIT X0 R0 bodies
          (nodes1.set c { C with LEAF := C.LEAF.set C.NLEAF b, NLEAF := C.NLEAF + 1 }) ∧
        (NCRIT ≤ C.NLEAF + 1 → l + 1 = NCRIT ∧
          ChildSub (nodes1.set c { C with LEAF := C.LEAF.set C.NLEAF b, NLEAF := C.NLEAF + 1 })
            c 0) ∧
        (¬ NCRIT ≤ C.NLEAF + 1 → ∃ ni2 : Node,
          (nodes1.set c { C with LEAF := C.LEAF.set C.NLEAF b, NLEAF := C.NLEAF + 1 })[i]?
            = some ni2 ∧ NCRIT ≤ ni2.NLEAF ∧
          ChildSub (nodes1.set c { C with LEAF := C.LEAF.set C.NLEAF b, NLEAF := C.NLEAF + 1 })
            i (l + 1))) := by
  obtain ⟨a1, a2, -, a4, -⟩ := hinv.1 i ni hi
  have hll : l < ni.LEAF.length := by omega
  have h2 : ni.LEAF[l]? = some ni.LEAF[l] := List.getElem?_eq_getElem hll
  obtain ⟨B, h3, hcube⟩ := a4 l _ (by omega) h2
  refine ⟨ni.LEAF[l], B, h2, h3, ?_⟩
  intro nodes1 hn1
  have ho := getOctant_lt B.X i nodes
  obtain ⟨hinv1, -, ni1, c, C, e1, e2, e3, e4, e5, e6, e7, -⟩ :=
    childStep NCRIT X0 R0 bodies nodes nodes1 i ni B.X hinv hi hfull hcube hn1
  obtain ⟨ni1', f1, f2, f3, f4, f5, f6, -, -⟩ :=
    childStep_more NCRIT nodes nodes1 i (getOctant B.X i nodes) ni hi hn1
  rw [e1] at f1
  have := Option.some.inj f1
  subst this
  have hcs1 := childSub_step NCRIT X0 R0 bodies nodes nodes1 i (getOctant B.X i nodes) l ni
    hinv hi ho hcs hn1
  obtain ⟨cq, Cq, g1, g2, g3⟩ := hcs1 ni1 e1 _ ho f2
  rw [e4] at g1
  have := Option.some.inj g1
  subst this
  rw [e6] at g2
  have := Option.some.inj g2
  subst this
  obtain ⟨-, hCl, hCa, -, -⟩ := hinv1.1 c C e6
  have hClt : C.NLEAF < NCRIT := by
    have h := g3.length_le
    rw [List.length_take, List.length_take, hCl, e2, a2] at h
    omega
  have hadd := addLeaf_some ni.LEAF[l] c nodes1 C e6 (by rw [hCl]; exact hClt)
  have hcl := getElem?_lt e6
  have hinv2 := (addLeaf_treeInv NCRIT X0 R0 bodies nodes1 _ ni.LEAF[l] c B hinv1 hadd h3
    (fun nc' hnc' => by
      rw [e6] at hnc'
      rw [← Option.some.inj hnc']; exact e7)).1
  have h7 : ni1.LEAF[l]? = some ni.LEAF[l] := by rw [e2]; exact h2
  have htk : ni.LEAF.take (l + 1) = ni.LEAF.take l ++ [ni.LEAF[l]] := by
    rw [List.take_succ, h2]; rfl
  have hsub : ((C.LEAF.set C.NLEAF ni.LEAF[l]).take (C.NLEAF + 1)).Sublist
      (ni.LEAF.take (l + 1)) := by
    rw [take_set_succ C.LEAF C.NLEAF _ (by rw [hCl]; exact hClt), htk]
    rw [e2] at g3
    exact g3.append (List.Sublist.refl _)
  refine ⟨ni1, c, C, e1, e4, h7, e6, hClt, hCl, hinv2, ?_, ?_⟩
  · intro hn
    have hlen := hsub.length_le
    rw [List.length_take, List.length_take, List.length_set, hCl, a2] at hlen
    refine ⟨by omega, ?_⟩
    intro nc hnc o' _ hbit
    rw [List.getElem?_set_self hcl] at hnc
    have := Option.some.inj hnc
    subst this
    have hz : C.ICHILD = 0 := by
      by_contra hz
      have := hCa hz
      omega
    exact absurd (show C.ICHILD &&& (1 <<< o') = 0 by rw [hz]; simp) hbit
  · intro hn
    have hci : c ≠ i := by omega
    have hi2 : (nodes1.set c
        { C with LEAF := C.LEAF.set C.NLEAF ni.LEAF[l], NLEAF := C.NLEAF + 1 })[i]?
        = some ni1 := by
      rw [List.getElem?_set_ne hci]; exact e1
    refine ⟨ni1, hi2, by rw [e3]; exact hfull, ?_⟩
    intro nx hnx o' ho' hbit
    rw [hi2] at hnx
    have := Option.some.inj hnx
    subst this
    obtain ⟨cx, Cx, x1, x2, x3⟩ := hcs1 ni1 e1 o' ho' hbit
    by_cases hcx : cx = c
    · subst hcx
      rw [e6] at x2
      have := Option.some.inj x2
      subst this
      refine ⟨cx, _, x1, List.getElem?_set_self hcl, ?_⟩
      rw [e2]; exact hsub
    · refine ⟨cx, Cx, x1, by rw [List.getElem?_set_ne (Ne.symm hcx)]; exact x2, ?_⟩
      exact x3.trans (List.take_sublist_take_left _ (Nat.le_succ l))

theorem addLeafC_ok (NCRIT : Nat) (b c : Nat) (nodes : List Node) (C : Node)
    (hc : nodes[c]? = some C) (hlt : C.NLEAF < NCRIT) (hlen : C.LEAF.length = NCRIT) :
    addLeafC NCRIT b c nodes
      = Except.ok (nodes.set c { C with LEAF := C.LEAF.set C.NLEAF b, NLEAF := C.NLEAF + 1 }) := by
  unfold addLeafC
  simp only [hc, readC, bind, Except.bind]
  rw [if_pos ⟨hlt, by rw [hlen]; exact hlt⟩]

theorem splitC_end (NCRIT : Nat) (bodies : List Body) (fuel i l : Nat) (nodes : List Node)
    (hl : l = NCRIT) :
    splitNodeLoopC NCRIT bodies fuel i l nodes
      = fuelOnly (splitNodeLoop NCRIT bodies fuel i l nodes) := by
  cases fuel with
  | zero => rfl
  | succ f =>
    unfold splitNodeLoopC splitNodeLoop
    rw [if_pos hl, if_pos hl]
    rfl

/-- The checked loop of splitNode at a full node whose children hold sublists of its first `l`
leaf slots stops for want of fuel only, and returns what the unchecked loop returns. -/
theorem splitC_eq (NCRIT : Nat) (X0 : List Rat) (R0 : Rat) (bodies : List Body) :
    ∀ (fuel i l : Nat) (nodes : List Node) (ni : Node), l ≤ NCRIT →
    TreeInv NCRIT X0 R0 bodies nodes → nodes[i]? = some ni → NCRIT ≤ ni.NLEAF →
    ChildSub nodes i l →
    splitNodeLoopC NCRIT bodies fuel i l nodes
      = fuelOnly (splitNodeLoop NCRIT bodies fuel i l nodes) := by
  intro fuel
  induction fuel with
  | zero => intro i l nodes ni _ _ _ _ _; rfl
  | succ fuel ih =>
    intro i l nodes ni hle hinv hi hfull hcs
    by_cases hl : l = NCRIT
    · exact splitC_end NCRIT bodies (fuel + 1) i l nodes hl
    · obtain ⟨b, B, h2, h3, hrest⟩ := split_iter NCRIT X0 R0 bodies nodes i l ni (by omega)
        hinv hi hfull hcs
      obtain ⟨ni1, c, C, e1, e4, h7, e6, hClt, hCl, hinv2, hfullc, hnext⟩ := hrest _ rfl
      have hcl := getElem?_lt e6
      have hadd := addLeaf_some b c _ C e6 (by rw [hCl]; exact hClt)
      have haddC := addLeafC_ok NCRIT b c _ C e6 hClt hCl
      have hset := List.getElem?_set_self
        (a := { C with LEAF := C.LEAF.set C.NLEAF b, NLEAF := C.NLEAF + 1 }) hcl
      unfold splitNodeLoopC splitNodeLoop
      rw [if_neg hl, if_neg hl]
      simp only [hi, h2, h3, e1, e4, h7, hadd, haddC, hset, readC, bind, Except.bind,
        Option.bind_eq_bind, Option.some_bind]
      by_cases hn : NCRIT ≤ C.NLEAF + 1
      · obtain ⟨hl1, hcs0⟩ := hfullc hn
        have hge : C.NLEAF + 1 ≥ NCRIT := hn
        simp only [hge, if_true, hl1]
        rw [ih c 0 _ _ (Nat.zero_le _) hinv2 hset hn hcs0]
        cases hsp : splitNodeLoop NCRIT bodies fuel c 0
            (List.set
              (if ni.ICHILD &&& 1 <<< getOctant B.X i nodes = 0
                then addChild NCRIT (getOctant B.X i nodes) i nodes else nodes)
              c { C with LEAF := C.LEAF.set C.NLEAF b, NLEAF := C.NLEAF + 1 }) with
        | none => rfl
        | some nodes3 =>
          simp only [fuelOnly, Option.some_bind]
          exact splitC_end NCRIT bodies fuel i NCRIT nodes3 rfl
      · obtain ⟨ni2, hi2, hfull2, hcs2⟩ := hnext hn
        have hge : ¬ C.NLEAF + 1 ≥ NCRIT := hn
        simp only [hge, if_false, Option.some_bind]
        exact ih i (l + 1) _ ni2 (by omega) hinv2 hi2 hfull2 hcs2

/-- The checked descent loop of grow stops for want of fuel only, and returns what the unchecked
loop returns. -/
theorem descendC_eq (NCRIT : Nat) (X0 : List Rat) (R0 : Rat) (bodies : List Body)
    (X : List Rat) :
    ∀ (fuel i : Nat) (nodes : List Node) (ni : Node),
    TreeInv NCRIT X0 R0 bodies nodes → nodes[i]? = some ni →
    (InRoot X0 R0 bodies → InCube ni X) →
    descendLoopC NCRIT X fuel i nodes = fuelOnly (descendLoop NCRIT X fuel i nodes) := by
  intro fuel
  induction fuel with
  | zero => intro i nodes ni _ _ _; rfl
  | succ fuel ih =>
    intro i nodes ni hinv hi hX
    unfold descendLoopC descendLoop
    simp only [hi, readC, bind, Except.bind, Option.bind_eq_bind, Option.some_bind]
    by_cases hge : NCRIT ≤ ni.NLEAF
    · have hge' : ni.NLEAF ≥ NCRIT := hge
      have hil := getElem?_lt hi
      have hinv0 := incr_treeInv NCRIT X0 R0 bodies nodes i ni hinv hi hge
      obtain ⟨hinv1, -, ni2, c, C, e1, -, -, e4, e5, e6, e7, -⟩ :=
        childStep NCRIT X0 R0 bodies (nodes.set i { ni with NLEAF := ni.NLEAF + 1 }) _ i
          { ni with NLEAF := ni.NLEAF + 1 } X hinv0 (List.getElem?_set_self hil)
          (by show NCRIT ≤ ni.NLEAF + 1; omega) (fun hc => inCube_congr ni _ X rfl rfl (hX hc))
          rfl
      rw [if_pos hge', if_pos hge']
      simp only [e1, e4, Option.some_bind]
      exact ih c _ C hinv1 e6 e7
    · have hge' : ¬ ni.NLEAF ≥ NCRIT := hge
      rw [if_neg hge', if_neg hge']
      rfl

/-- One checked insertion step of grow stops for want of fuel only, and returns what the
unchecked step returns. -/
theorem growStepC_eq (NCRIT : Nat) (X0 : List Rat) (R0 : Rat) (bodies : List Body)
    (fuel b : Nat) (nodes : List Node) (hinv : TreeInv NCRIT X0 R0 bodies nodes)
    (hb : b < bodies.length) :
    growStepC NCRIT bodies fuel nodes b = fuelOnly (growStep NCRIT bodies fuel nodes b) := by
  have hB : bodies[b]? = some bodies[b] := List.getElem?_eq_getElem hb
  obtain ⟨root, hroot, -⟩ := hinv.2.2
  have hrc : InRoot X0 R0 bodies → InCube root (bodies[b]).X := by
    intro hc
    obtain ⟨root1, hroot1, hrc1⟩ := root_inCube NCRIT X0 R0 bodies nodes hinv (bodies[b]).X
      (hc _ (List.getElem?_mem hB))
    rw [hroot] at hroot1
    rw [Option.some.inj hroot1]; exact hrc1
  have hdC := descendC_eq NCRIT X0 R0 bodies (bodies[b]).X fuel 0 nodes root hinv hroot hrc
  unfold growStepC growStep
  simp only [hB, readC, bind, Except.bind, Option.bind_eq_bind, Option.some_bind, hdC]
  cases hd : descendLoop NCRIT (bodies[b]).X fuel 0 nodes with
  | none => rfl
  | some r =>
    obtain ⟨j, nodes1⟩ := r
    obtain ⟨hinv1, -, ⟨nj, j1, j2, j3⟩, -⟩ :=
      descendLoop_treeInv NCRIT X0 R0 bodies (bodies[b]).X fuel 0 nodes (j, nodes1) hd hinv
        ⟨root, hroot, hrc⟩
    simp only at j1 hinv1
    obtain ⟨-, jl, ja, -, -⟩ := hinv1.1 j nj j1
    have hadd := addLeaf_some b j nodes1 nj j1 (by rw [jl]; exact j2)
    have haddC := addLeafC_ok NCRIT b j nodes1 nj j1 j2 jl
    have hjl := getElem?_lt j1
    have hinv2 := (addLeaf_treeInv NCRIT X0 R0 bodies nodes1 _ b j bodies[b] hinv1 hadd hB
      (fun nc hnc => by
        rw [j1] at hnc
        rw [← Option.some.inj hnc]; exact j3)).1
    have h4 : (nodes1.set j { nj with LEAF := nj.LEAF.set nj.NLEAF b, NLEAF := nj.NLEAF + 1 })[j]?
        = some { nj with LEAF := nj.LEAF.set nj.NLEAF b, NLEAF := nj.NLEAF + 1 } :=
      List.getElem?_set_self hjl
    simp only [fuelOnly, hadd, haddC, h4, Option.some_bind]
    by_cases hn : NCRIT ≤ nj.NLEAF + 1
    · have hn' : nj.NLEAF + 1 ≥ NCRIT := hn
      simp only [hn', if_true]
      exact splitC_eq NCRIT X0 R0 bodies fuel j 0 _ _ (Nat.zero_le _) hinv2 h4 hn (by
        intro nc hnc o' _ hbit
        rw [h4] at hnc
        have := Option.some.inj hnc
        subst this
        have hz : nj.ICHILD = 0 := by
          by_contra hz
          have := ja hz
          omega
        exact absurd (show nj.ICHILD &&& (1 <<< o') = 0 by rw [hz]; simp) hbit)
    · have hn' : ¬ nj.NLEAF + 1 ≥ NCRIT := hn
      simp only [hn', if_false]

/-- The checked body loop of grow stops for want of fuel only, and returns what the unchecked
loop returns. -/
theorem growLoopC_eq (NCRIT : Nat) (X0 : List Rat) (R0 : Rat) (bodies : List Body)
    (fuel : Nat) :
    ∀ (bs : List Nat) (nodes : List Node), (∀ b ∈ bs, b < bodies.length) →
    TreeInv NCRIT X0 R0 bodies nodes →
    growLoopC NCRIT bodies fuel bs nodes = fuelOnly (growLoop NCRIT bodies fuel bs nodes) := by
  intro bs
  induction bs with
  | nil => intro nodes _ _; rfl
  | cons b bs ih =>
    intro nodes hbs hinv
    unfold growLoopC growLoop
    simp only [bind, Except.bind, Option.bind_eq_bind,
      growStepC_eq NCRIT X0 R0 bodies fuel b nodes hinv (hbs b (List.mem_cons_self _ _))]
    cases hs : growStep NCRIT bodies fuel nodes b with
    | none => rfl
    | some nodes1 =>
      simp only [fuelOnly, Option.some_bind]
      exact ih nodes1 (fun x hx => hbs x (List.mem_cons_of_mem _ hx))
        (growStep_treeInv NCRIT X0 R0 bodies fuel b nodes nodes1 hs hinv).1

/-- C27: for every leaf capacity, root cube, point set and amount of fuel, the run of grow in
which every call of addLeaf (from grow and from splitNode) is tested for NLEAF < NCRIT and for a
write inside the leaf slots, and in which splitNode tests that a child found full
(NLEAF ≥ NCRIT) is found so at the last leaf slot l = NCRIT - 1, returns what grow returns and
otherwise stops for want of fuel only: no call of addLeaf writes past the NCRIT leaf slots, a
child reaches NLEAF = NCRIT on the last redistributed leaf only, and no vector is read outside
its range. -/
theorem grow_leaf_bounds (NCRIT : Nat) (X0 : List Rat) (R0 : Rat) (bodies : List Body)
    (fuel : Nat) :
    growC NCRIT X0 R0 bodies fuel = fuelOnly (grow NCRIT X0 R0 bodies fuel) ∧
    growC NCRIT X0 R0 bodies fuel ≠ Except.error Fault.overflow ∧
    growC NCRIT X0 R0 bodies fuel ≠ Except.error Fault.early ∧
    growC NCRIT X0 R0 bodies fuel ≠ Except.error Fault.read := by
  have h : growC NCRIT X0 R0 bodies fuel = fuelOnly (grow NCRIT X0 R0 bodies fuel) :=
    growLoopC_eq NCRIT X0 R0 bodies fuel (List.range bodies.length) _
      (fun b hb => List.mem_range.1 hb) (root_treeInv NCRIT X0 R0 bodies)
  refine ⟨h, ?_, ?_, ?_⟩ <;>
  · rw [h]
    cases grow NCRIT X0 R0 bodies fuel <;> simp [fuelOnly]

theorem rootKids_octant (NCRIT : Nat) (X0 : List Rat) (R0 : Rat) (o : Nat → Nat)
    (lf : Nat → List Nat) (k nl : Nat) (lfr : List Nat) (nodes : List Node)
    (hK : RootKids NCRIT X0 o lf k nl lfr nodes) (X : List Rat) :
    getOctant X 0 nodes = getOctant X 0 [rootNode NCRIT X0 R0] := by
  obtain ⟨-, ⟨root, hr, hX, -⟩, -⟩ := hK
  apply getOctant_congr
  rw [getD_of_getElem? hr, hX]
  rfl

theorem rootKids_bit (NCRIT : Nat) (X0 : List Rat) (o : Nat → Nat)
    (lf : Nat → List Nat) (k nl : Nat) (lfr : List Nat) (nodes : List Node) (root : Node)
    (hK : RootKids NCRIT X0 o lf k nl lfr nodes) (hr : nodes[0]? = some root)
    (hfresh : ∀ j : Nat, j < k → o j ≠ o k) : root.ICHILD &&& (1 <<< o k) = 0 := by
  obtain ⟨-, ⟨root1, hr1, -, -, -, -, -, -, hbit, -⟩, -⟩ := hK
  rw [hr] at hr1
  have := Option.some.inj hr1
  subst this
  by_contra h
  obtain ⟨j, hj, e⟩ := (hbit (o k)).1 h
  exact hfresh j hj e

/-- The call `addChild(o k, 0)` on a root with `k` children, none of them in the octant
`o k`. -/
theorem rootKids_addChild (NCRIT : Nat) (X0 : List Rat) (o : Nat → Nat)
    (lf : Nat → List Nat) (k nl : Nat) (lfr : List Nat) (nodes : List Node)
    (hK : RootKids NCRIT X0 o lf k nl lfr nodes) (ho : o k < 8)
    (hfresh : ∀ j : Nat, j < k → o j ≠ o k) (hlf : lf k = []) :
    RootKids NCRIT X0 o lf (k + 1) nl lfr (addChild NCRIT (o k) 0 nodes) := by
  obtain ⟨hlen, ⟨root, hr, hX, hL, hI, hN, hLf, hC, hbit, hlink⟩, hkids⟩ := hK
  refine ⟨by rw [addChild_length, hlen], ⟨_, addChild_get_self NCRIT (o k) 0 nodes root hr,
    hX, hL, hI, hN, hLf, by rw [List.length_set]; exact hC, ?_, ?_⟩, ?_⟩
  · intro q
    show (root.ICHILD ||| (1 <<< o k)) &&& (1 <<< q) ≠ 0 ↔ _
    by_cases hq : q = o k
    · subst hq
      exact ⟨fun _ => ⟨k, Nat.lt_succ_self k, rfl⟩, fun _ => or_bit_and_self _ _⟩
    · rw [ne_eq, or_bit_and_ne root.ICHILD (o k) q hq, ← ne_eq, hbit q]
      constructor
      · rintro ⟨j, hj, e⟩
        exact ⟨j, Nat.lt_succ_of_lt hj, e⟩
      · rintro ⟨j, hj, e⟩
        have hjk : j ≠ k := by
          intro h
          rw [h] at e
          exact hq e.symm
        exact ⟨j, by omega, e⟩
  · intro j hj
    show (root.CHILD.set (o k) nodes.length)[o j]? = some (j + 1)
    by_cases hjk : j = k
    · subst hjk
      rw [List.getElem?_set_self (by rw [hC]; exact ho), hlen]
    · rw [List.getElem?_set_ne (fun h => hfresh j (by omega) h.symm)]
      exact hlink j (by omega)
  · intro j hj
    by_cases hjk : j = k
    · subst hjk
      refine ⟨childNode NCRIT root (o j), ?_, ?_, ?_, ?_, ?_⟩
      · rw [← hlen]
        exact addChild_get_last NCRIT (o j) 0 nodes root hr
      · show shl (root.I - Int.tdiv (shl 1 (3 * root.LEVEL) - 1) 7) 3 + (o j : Int)
            + Int.tdiv (shl 1 (3 * (root.LEVEL + 1)) - 1) 7 = 1 + (o j : Int)
        rw [hI, hL]
        have h1 : Int.tdiv (shl 1 (3 * 0) - 1) 7 = 0 := by decide
        have h2 : Int.tdiv (shl 1 (3 * (0 + 1)) - 1) 7 = 1 := by decide
        have h3 : shl (0 - 0) 3 = 0 := by decide
        rw [h1, h2, h3]
        ring
      · simp [childNode]
      · rw [hlf]; rfl
      · rw [hlf]; rfl
    · obtain ⟨C, c1, c2⟩ := hkids j (by omega)
      refine ⟨C, ?_, c2⟩
      rw [addChild_get_ne NCRIT (o k) 0 (j + 1) nodes (by omega) (by omega)]
      exact c1

/-- The call `addLeaf(b, j0 + 1)` on the child `j0` of the root. -/
theorem rootKids_addLeaf (NCRIT : Nat) (X0 : List Rat) (o : Nat → Nat)
    (lf : Nat → List Nat) (k nl : Nat) (lfr : List Nat) (nodes : List Node) (j0 b : Nat)
    (hK : RootKids NCRIT X0 o lf k nl lfr nodes) (hj0 : j0 < k)
    (hlt : (lf j0).length < NCRIT) :
    ∃ (nodes1 : List Node) (C : Node), addLeaf b (j0 + 1) nodes = some nodes1 ∧
      nodes1[j0 + 1]? = some C ∧ C.NLEAF = (lf j0).length + 1 ∧
      RootKids NCRIT X0 o (Function.update lf j0 (lf j0 ++ [b])) k nl lfr nodes1 := by
  obtain ⟨hlen, ⟨root, hr, hroot⟩, hkids⟩ := hK
  obtain ⟨C, c1, c2, c3, c4, c5⟩ := hkids j0 hj0
  have hjl : j0 + 1 < nodes.length := getElem?_lt c1
  refine ⟨_, _, addLeaf_some b (j0 + 1) nodes C c1 (by rw [c3, c4]; exact hlt),
    List.getElem?_set_self hjl, by show C.NLEAF + 1 = _; rw [c4],
    by rw [List.length_set]; exact hlen,
    ⟨root, by rw [List.getElem?_set_ne (by omega)]; exact hr, hroot⟩, ?_⟩
  intro j hj
  by_cases hjj : j = j0
  · subst hjj
    refine ⟨_, List.getElem?_set_self hjl, c2, by simp [c3], ?_, ?_⟩
    · show C.NLEAF + 1 = _
      rw [Function.update_same, List.length_append, c4]; rfl
    · show (C.LEAF.set C.NLEAF b).take (C.NLEAF + 1) = _
      rw [Function.update_same, take_set_succ C.LEAF C.NLEAF b (by rw [c3, c4]; exact hlt), c5]
  · obtain ⟨D, d1, d2⟩ := hkids j hj
    refine ⟨D, by rw [List.getElem?_set_ne (by omega)]; exact d1, ?_⟩
    rw [Function.update_noteq hjj]
    exact d2

/-- The statement `nodes[0].NLEAF++` of the descent loop at the root. -/
theorem rootKids_incr (NCRIT : Nat) (X0 : List Rat) (o : Nat → Nat)
    (lf : Nat → List Nat) (k nl : Nat) (lfr : List Nat) (nodes : List Node) (root : Node)
    (hK : RootKids NCRIT X0 o lf k nl lfr nodes) (hr : nodes[0]? = some root) :
    RootKids NCRIT X0 o lf k (nl + 1) lfr (nodes.set 0 { root with NLEAF := root.NLEAF + 1 }) := by
  obtain ⟨hlen, ⟨root1, hr1, hX, hL, hI, hN, hrest⟩, hkids⟩ := hK
  rw [hr] at hr1
  have := Option.some.inj hr1
  subst this
  have h0 : 0 < nodes.length := getElem?_lt hr
  refine ⟨by rw [List.length_set]; exact hlen,
    ⟨_, List.getElem?_set_self h0, hX, hL, hI, by show root.NLEAF + 1 = nl + 1; rw [hN],
      hrest⟩, ?_⟩
  intro j hj
  obtain ⟨D, d1, d2⟩ := hkids j hj
  exact ⟨D, by rw [List.getElem?_set_ne (by omega)]; exact d1, d2⟩

/-- The call `addLeaf(b, 0)` on a root that is not full. -/
theorem rootKids_rootLeaf (NCRIT : Nat) (X0 : List Rat) (o : Nat → Nat)
    (lf : Nat → List Nat) (k nl : Nat) (lfr : List Nat) (nodes : List Node) (b : Nat)
    (hK : RootKids NCRIT X0 o lf k nl lfr nodes) (hlt : nl < lfr.length) :
    ∃ (nodes1 : List Node) (root1 : Node), addLeaf b 0 nodes = some nodes1 ∧
      nodes1[0]? = some root1 ∧ root1.NLEAF = nl + 1 ∧
      RootKids NCRIT X0 o lf k (nl + 1) (lfr.set nl b) nodes1 := by
  obtain ⟨hlen, ⟨root, hr, hX, hL, hI, hN, hLf, hrest⟩, hkids⟩ := hK
  have h0 : 0 < nodes.length := getElem?_lt hr
  refine ⟨_, _, addLeaf_some b 0 nodes root hr (by rw [hN, hLf]; exact hlt),
    List.getElem?_set_self h0, by show root.NLEAF + 1 = _; rw [hN],
    by rw [List.length_set]; exact hlen,
    ⟨_, List.getElem?_set_self h0, hX, hL, hI, by show root.NLEAF + 1 = _; rw [hN],
      by show root.LEAF.set root.NLEAF b = _; rw [hN, hLf], hrest⟩, ?_⟩
  intro j hj
  obtain ⟨D, d1, d2⟩ := hkids j hj
  exact ⟨D, by rw [List.getElem?_set_ne (by omega)]; exact d1, d2⟩

/-- One pass of the loop of splitNode at the root for the leaf slot `k`, the body going to a new
child in the octant `o k`. -/
theorem rootKids_splitStep (NCRIT : Nat) (X0 : List Rat) (R0 : Rat) (bodies : List Body)
    (o : Nat → Nat) (lf : Nat → List Nat) (k nl : Nat) (lfr : List Nat) (nodes : List Node)
    (f b : Nat) (B : Body) (hK : RootKids NCRIT X0 o lf k nl lfr nodes) (hk : k ≠ NCRIT)
    (hC : 1 < NCRIT) (hb : lfr[k]? = some b) (hB : bodies[b]? = some B)
    (hoct : getOctant B.X 0 [rootNode NCRIT X0 R0] = o k)
    (hfresh : ∀ j : Nat, j < k → o j ≠ o k) (hlf : lf k = []) :
    ∃ nodes1 : List Node,
      RootKids NCRIT X0 o (Function.update lf k [b]) (k + 1) nl lfr nodes1 ∧
      ∀ nodes2 : List Node, splitNodeLoop NCRIT bodies f 0 (k + 1) nodes1 = some nodes2 →
        splitNodeLoop NCRIT bodies (f + 1) 0 k nodes = some nodes2 := by
  have ho8 : o k < 8 := by rw [← hoct]; exact getOctant_lt _ _ _
  have hq := rootKids_octant NCRIT X0 R0 o lf k nl lfr nodes hK B.X
  rw [hoct] at hq
  obtain ⟨root, hr, -, -, -, -, hLf, -⟩ := hK.2.1
  have hbit := rootKids_bit NCRIT X0 o lf k nl lfr nodes root hK hr hfresh
  have hK1 := rootKids_addChild NCRIT X0 o lf k nl lfr nodes hK ho8 hfresh hlf
  obtain ⟨root1, hr1, -, -, -, -, hLf1, -, -, hlink1⟩ := hK1.2.1
  obtain ⟨nodes2, C, hadd, hC2, hCn, hK2⟩ :=
    rootKids_addLeaf NCRIT X0 o lf (k + 1) nl lfr _ k b hK1 (Nat.lt_succ_self k)
      (by rw [hlf]; exact Nat.lt_trans Nat.zero_lt_one hC)
  rw [hlf] at hK2 hCn
  refine ⟨nodes2, hK2, ?_⟩
  intro nodes3 h3
  refine splitNodeLoop_intro NCRIT bodies f 0 k nodes nodes3 hk root b B root1 (k + 1) b nodes2 C
    nodes2 hr (by rw [hLf]; exact hb) hB ?_ ?_ (by rw [hLf1]; exact hb) ?_ hC2 ?_ h3
  · rw [hq, if_pos hbit]; exact hr1
  · rw [hq]; exact hlink1 k (Nat.lt_succ_self k)
  · rw [hq, if_pos hbit]; exact hadd
  · rw [if_neg]
    rw [hCn]
    simp only [List.length_nil, Nat.zero_add, ge_iff_le, not_le]
    exact hC

/-- One pass of the body loop of grow for a body that goes to a new child of a full root. -/
theorem rootKids_growNew (NCRIT : Nat) (X0 : List Rat) (R0 : Rat) (bodies : List Body)
    (o : Nat → Nat) (lf : Nat → List Nat) (k nl : Nat) (lfr : List Nat) (nodes : List Node)
    (f b : Nat) (B : Body) (hK : RootKids NCRIT X0 o lf k nl lfr nodes) (hfull : NCRIT ≤ nl)
    (hC : 1 < NCRIT) (hB : bodies[b]? = some B)
    (hoct : getOctant B.X 0 [rootNode NCRIT X0 R0] = o k)
    (hfresh : ∀ j : Nat, j < k → o j ≠ o k) (hlf : lf k = []) :
    ∃ nodes1 : List Node, growStep NCRIT bodies (f + 2) nodes b = some nodes1 ∧
      RootKids NCRIT X0 o (Function.update lf k [b]) (k + 1) (nl + 1) lfr nodes1 := by
  have ho8 : o k < 8 := by rw [← hoct]; exact getOctant_lt _ _ _
  obtain ⟨root, hr, -, -, -, hN, -⟩ := hK.2.1
  have hbit := rootKids_bit NCRIT X0 o lf k nl lfr nodes root hK hr hfresh
  have hK0 := rootKids_incr NCRIT X0 o lf k nl lfr nodes root hK hr
  have hq := rootKids_octant NCRIT X0 R0 o lf k (nl + 1) lfr _ hK0 B.X
  rw [hoct] at hq
  have hK1 := rootKids_addChild NCRIT X0 o lf k (nl + 1) lfr _ hK0 ho8 hfresh hlf
  obtain ⟨root1, hr1, -, -, -, -, -, -, -, hlink1⟩ := hK1.2.1
  obtain ⟨Ck, k1, -, -, k4, -⟩ := hK1.2.2 k (Nat.lt_succ_self k)
  obtain ⟨nodes2, C, hadd, hC2, hCn, hK2⟩ :=
    rootKids_addLeaf NCRIT X0 o lf (k + 1) (nl + 1) lfr _ k b hK1 (Nat.lt_succ_self k)
      (by rw [hlf]; exact Nat.lt_trans Nat.zero_lt_one hC)
  rw [hlf] at hK2 hCn k4
  refine ⟨nodes2, ?_, hK2⟩
  have hge : root.NLEAF ≥ NCRIT := by rw [hN]; exact hfull
  have hk0 : ¬ Ck.NLEAF ≥ NCRIT := by rw [k4]; simp; omega
  have hc0 : ¬ C.NLEAF ≥ NCRIT := by rw [hCn]; simp; omega
  have hd : descendLoop NCRIT B.X (f + 2) 0 nodes
      = some (k + 1, addChild NCRIT (o k) 0 (nodes.set 0 { root with NLEAF := root.NLEAF + 1 })) := by
    unfold descendLoop
    simp only [hr, Option.bind_eq_bind, Option.some_bind, if_pos hge, hq, if_pos hbit, hr1,
      hlink1 k (Nat.lt_succ_self k)]
    unfold descendLoop
    simp only [k1, Option.bind_eq_bind, Option.some_bind, if_neg hk0]
  unfold growStep
  simp only [hB, hd, hadd, hC2, Option.bind_eq_bind, Option.some_bind, if_neg hc0]

/-- One pass of the body loop of grow for a body that goes to the child `j0` of a full root,
which stays below `NCRIT` leaves. -/
theorem rootKids_growOld (NCRIT : Nat) (X0 : List Rat) (R0 : Rat) (bodies : List Body)
    (o : Nat → Nat) (lf : Nat → List Nat) (k nl : Nat) (lfr : List Nat) (nodes : List Node)
    (f b j0 : Nat) (B : Body) (hK : RootKids NCRIT X0 o lf k nl lfr nodes) (hfull : NCRIT ≤ nl)
    (hB : bodies[b]? = some B) (hj0 : j0 < k)
    (hoct : getOctant B.X 0 [rootNode NCRIT X0 R0] = o j0)
    (hlt : (lf j0).length + 1 < NCRIT) :
    ∃ nodes1 : List Node, growStep NCRIT bodies (f + 2) nodes b = some nodes1 ∧
      RootKids NCRIT X0 o (Function.update lf j0 (lf j0 ++ [b])) k (nl + 1) lfr nodes1 := by
  obtain ⟨root, hr, -, -, -, hN, -, -, hbits, -⟩ := hK.2.1
  have hbit : ¬ root.ICHILD &&& (1 <<< o j0) = 0 := (hbits (o j0)).2 ⟨j0, hj0, rfl⟩
  have hK0 := rootKids_incr NCRIT X0 o lf k nl lfr nodes root hK hr
  have hq := rootKids_octant NCRIT X0 R0 o lf k (nl + 1) lfr _ hK0 B.X
  rw [hoct] at hq
  obtain ⟨root1, hr1, -, -, -, -, -, -, -, hlink1⟩ := hK0.2.1
  obtain ⟨Ck, k1, -, -, k4, -⟩ := hK0.2.2 j0 hj0
  obtain ⟨nodes2, C, hadd, hC2, hCn, hK2⟩ :=
    rootKids_addLeaf NCRIT X0 o lf k (nl + 1) lfr _ j0 b hK0 hj0 (by omega)
  refine ⟨nodes2, ?_, hK2⟩
  have hge : root.NLEAF ≥ NCRIT := by rw [hN]; exact hfull
  have hk0 : ¬ Ck.NLEAF ≥ NCRIT := by rw [k4]; simp; omega
  have hc0 : ¬ C.NLEAF ≥ NCRIT := by rw [hCn]; simp; omega
  have hd : descendLoop NCRIT B.X (f + 2) 0 nodes
      = some (j0 + 1, nodes.set 0 { root with NLEAF := root.NLEAF + 1 }) := by
    unfold descendLoop
    simp only [hr, Option.bind_eq_bind, Option.some_bind, if_pos hge, hq, if_neg hbit, hr1,
      hlink1 j0 hj0]
    unfold descendLoop
    simp only [k1, Option.bind_eq_bind, Option.some_bind, if_neg hk0]
  unfold growStep
  simp only [hB, hd, hadd, hC2, Option.bind_eq_bind, Option.some_bind, if_neg hc0]

/-- One pass of the body loop of grow for a body that goes to the root, before the call of
splitNode. -/
theorem rootKids_growRoot (NCRIT : Nat) (X0 : List Rat) (bodies : List Body)
    (o : Nat → Nat) (lf : Nat → List Nat) (k nl : Nat) (lfr : List Nat) (nodes : List Node)
    (f b : Nat) (B : Body) (hK : RootKids NCRIT X0 o lf k nl lfr nodes) (hlt : nl < NCRIT)
    (hlen : lfr.length = NCRIT) (hB : bodies[b]? = some B) :
    ∃ nodes1 : List Node,
      RootKids NCRIT X0 o lf k (nl + 1) (lfr.set nl b) nodes1 ∧
      growStep NCRIT bodies (f + 1) nodes b
        = if nl + 1 ≥ NCRIT then splitNode NCRIT bodies (f + 1) 0 nodes1 else some nodes1 := by
  obtain ⟨root, hr, -, -, -, hN, -⟩ := hK.2.1
  obtain ⟨nodes1, root1, hadd, hr1, hn1, hK1⟩ :=
    rootKids_rootLeaf NCRIT X0 o lf k nl lfr nodes b hK (by rw [hlen]; exact hlt)
  refine ⟨nodes1, hK1, ?_⟩
  have hge : ¬ root.NLEAF ≥ NCRIT := by rw [hN]; simp; exact hlt
  have hd : descendLoop NCRIT B.X (f + 1) 0 nodes = some (0, nodes) := by
    unfold descendLoop
    simp only [hr, Option.bind_eq_bind, Option.some_bind, if_neg hge]
  unfold growStep
  simp only [hB, hd, hadd, hr1, hn1, Option.bind_eq_bind, Option.some_bind]

theorem rootKids_init (NCRIT : Nat) (X0 : List Rat) (R0 : Rat) (o : Nat → Nat) :
    RootKids NCRIT X0 o (fun _ => []) 0 0 (List.replicate NCRIT 0) [rootNode NCRIT X0 R0] := by
  refine ⟨rfl, ⟨rootNode NCRIT X0 R0, rfl, rfl, rfl, rfl, rfl, rfl, by simp [rootNode], ?_, ?_⟩,
    ?_⟩
  · intro q
    constructor
    · intro h
      exact absurd (show (0 : Nat) &&& (1 <<< q) = 0 by simp) h
    · rintro ⟨j, hj, -⟩
      exact absurd hj (Nat.not_lt_zero j)
  · intro j hj
    exact absurd hj (Nat.not_lt_zero j)
  · intro j hj
    exact absurd hj (Nat.not_lt_zero j)

/-- The run of grow with NCRIT = 4 on nine bodies of which the first eight lie in eight
different octants of the root and the ninth lies where the first one lies: the root is split
once, and afterwards the node vector holds the root and one child per octant, the child
`j + 1` holding the body `j`, and the child 1 the body 8 as well. -/
theorem nine_grow (X0 : List Rat) (R0 : Rat) (bodies : List Body) (hlen : bodies.length = 9)
    (o : Nat → Nat)
    (ho : ∀ j : Nat, j < 8 → getOctant (bodies.getD j default).X 0 [rootNode 4 X0 R0] = o j)
    (hinj : ∀ a b : Nat, a < 8 → b < 8 → a ≠ b → o a ≠ o b)
    (h9 : (bodies.getD 8 default).X = (bodies.getD 0 default).X) (f : Nat) :
    ∃ (nodes : List Node) (lf : Nat → List Nat),
      grow 4 X0 R0 bodies (f + 5) = some nodes ∧
      RootKids 4 X0 o lf 8 9 [0, 1, 2, 3] nodes ∧ lf 0 = [0, 8] ∧
      ∀ j : Nat, 1 ≤ j → j < 8 → lf j = [j] := by
  have hB : ∀ b : Nat, b < 9 → bodies[b]? = some (bodies.getD b default) := by
    intro b hb
    rw [List.getD_eq_getElem?_getD, List.getElem?_eq_getElem (by rw [hlen]; exact hb)]
    rfl
  have hfr : ∀ k : Nat, k < 8 → ∀ j : Nat, j < k → o j ≠ o k :=
    fun k hk j hj => hinj j k (by omega) hk (by omega)
  have K0 := rootKids_init 4 X0 R0 o
  -- the first three bodies stay in the root
  obtain ⟨n1, K1, e1⟩ := rootKids_growRoot 4 X0 bodies o _ 0 0 _ _ (f + 4) 0 _ K0 (by decide)
    (by simp) (hB 0 (by decide))
  rw [if_neg (by decide)] at e1
  obtain ⟨n2, K2, e2⟩ := rootKids_growRoot 4 X0 bodies o _ 0 1 _ _ (f + 4) 1 _ K1 (by decide)
    (by simp) (hB 1 (by decide))
  rw [if_neg (by decide)] at e2
  obtain ⟨n3, K3, e3⟩ := rootKids_growRoot 4 X0 bodies o _ 0 2 _ _ (f + 4) 2 _ K2 (by decide)
    (by simp) (hB 2 (by decide))
  rw [if_neg (by decide)] at e3
  -- the fourth body fills the root, which is split
  obtain ⟨n4, K4, e4⟩ := rootKids_growRoot 4 X0 bodies o _ 0 3 _ _ (f + 4) 3 _ K3 (by decide)
    (by simp) (hB 3 (by decide))
  rw [if_pos (by decide)] at e4
  have hl : ((((List.replicate 4 0).set 0 0).set (0 + 1) 1).set (0 + 1 + 1) 2).set
      (0 + 1 + 1 + 1) 3 = [0, 1, 2, 3] := by decide
  rw [hl] at K4
  obtain ⟨n5, K5, a5⟩ := rootKids_splitStep 4 X0 R0 bodies o _ 0 _ _ n4 (f + 4) 0 _ K4
    (by decide) (by decide) rfl (hB 0 (by decide)) (ho 0 (by decide)) (hfr 0 (by decide)) rfl
  obtain ⟨n6, K6, a6⟩ := rootKids_splitStep 4 X0 R0 bodies o _ 1 _ _ n5 (f + 3) 1 _ K5
    (by decide) (by decide) rfl (hB 1 (by decide)) (ho 1 (by decide)) (hfr 1 (by decide))
    (by simp [Function.update])
  obtain ⟨n7, K7, a7⟩ := rootKids_splitStep 4 X0 R0 bodies o _ 2 _ _ n6 (f + 2) 2 _ K6
    (by decide) (by decide) rfl (hB 2 (by decide)) (ho 2 (by decide)) (hfr 2 (by decide))
    (by simp [Function.update])
  obtain ⟨n8, K8, a8⟩ := rootKids_splitStep 4 X0 R0 bodies o _ 3 _ _ n7 (f + 1) 3 _ K7
    (by decide) (by decide) rfl (hB 3 (by decide)) (ho 3 (by decide)) (hfr 3 (by decide))
    (by simp [Function.update])
  have hend : splitNodeLoop 4 bodies (f + 1) 0 (3 + 1) n8 = some n8 := by
    unfold splitNodeLoop
    rw [if_pos rfl]
  have e4' : growStep 4 bodies (f + 4 + 1) n3 3 = some n8 := by
    rw [e4]
    exact a5 n8 (a6 n8 (a7 n8 (a8 n8 hend)))
  -- the next four bodies go to new children of the root
  obtain ⟨n9, e9, K9⟩ := rootKids_growNew 4 X0 R0 bodies o _ 4 _ _ n8 (f + 3) 4 _ K8
    (by decide) (by decide) (hB 4 (by decide)) (ho 4 (by decide)) (hfr 4 (by decide))
    (by simp [Function.update])
  obtain ⟨n10, e10, K10⟩ := rootKids_growNew 4 X0 R0 bodies o _ 5 _ _ n9 (f + 3) 5 _ K9
    (by decide) (by decide) (hB 5 (by decide)) (ho 5 (by decide)) (hfr 5 (by decide))
    (by simp [Function.update])
  obtain ⟨n11, e11, K11⟩ := rootKids_growNew 4 X0 R0 bodies o _ 6 _ _ n10 (f + 3) 6 _ K10
    (by decide) (by decide) (hB 6 (by decide)) (ho 6 (by decide)) (hfr 6 (by decide))
    (by simp [Function.update])
  obtain ⟨n12, e12, K12⟩ := rootKids_growNew 4 X0 R0 bodies o _ 7 _ _ n11 (f + 3) 7 _ K11
    (by decide) (by decide) (hB 7 (by decide)) (ho 7 (by decide)) (hfr 7 (by decide))
    (by simp [Function.update])
  -- the ninth body goes to the child of the first one
  obtain ⟨n13, e13, K13⟩ := rootKids_growOld 4 X0 R0 bodies o _ 8 _ _ n12 (f + 3) 8 0 _ K12
    (by decide) (hB 8 (by decide)) (by decide) (by rw [h9]; exact ho 0 (by decide))
    (by simp [Function.update])
  refine ⟨n13, _, ?_, K13, by simp [Function.update], ?_⟩
  · have hr : List.range bodies.length = [0, 1, 2, 3, 4, 5, 6, 7, 8] := by rw [hlen]; decide
    unfold grow
    rw [hr]
    simp only [growLoop, e1, e2, e3, e4', e9, e10, e11, e12, e13, Option.bind_eq_bind,
      Option.some_bind]
  · intro j h1 h8
    interval_cases j <;> simp [Function.update]

theorem getCenter_proj (X0 : List Rat) (R0 : Rat) (c c1 : Cell)
    (h : getCenter X0 R0 c = some c1) : c1.ICELL = c.ICELL ∧ c1.NCLEAF = c.NCLEAF := by
  unfold getCenter at h
  simp only [Option.bind_eq_bind, Option.bind_eq_some] at h
  obtain ⟨nx, -, h2⟩ := h
  rw [← Option.some.inj h2]
  exact ⟨rfl, rfl⟩

theorem bodies2twigsLoop_runLengths (X0 : List Rat) (R0 : Rat) :
    ∀ (bs : List Body) (b nleaf : Nat) (index : Int) (fl : Nat) (cell : Cell)
      (twigs : List Cell) (r : List Cell × Nat × Int × Nat × Cell),
    bodies2twigsLoop X0 R0 bs b nleaf index fl cell twigs = some r →
    r.1.map (fun t => (t.ICELL, t.NCLEAF)) ++ [(r.2.2.1, r.2.1)]
      = twigs.map (fun t => (t.ICELL, t.NCLEAF)) ++ runLengths (bs.map Body.ICELL) nleaf index := by
  intro bs
  induction bs with
  | nil =>
    intro b nleaf index fl cell twigs r h
    simp only [bodies2twigsLoop] at h
    rw [← Option.some.inj h]
    rfl
  | cons B rest ih =>
    intro b nleaf index fl cell twigs r h
    simp only [bodies2twigsLoop] at h
    by_cases hne : B.ICELL ≠ index
    · rw [if_pos hne] at h
      simp only [Option.bind_eq_bind, Option.bind_eq_some] at h
      obtain ⟨cell1, h1, h2⟩ := h
      obtain ⟨p1, p2⟩ := getCenter_proj X0 R0 _ cell1 h1
      have := ih _ _ _ _ _ _ r h2
      rw [this]
      simp only [List.map_append, List.map_cons, List.map_nil, runLengths, if_pos hne,
        List.append_assoc, List.singleton_append, p1, p2]
    · rw [if_neg hne] at h
      have := ih _ _ _ _ _ _ r h
      rw [this]
      simp only [List.map_cons, runLengths, if_neg hne]

/-- The indices and leaf counts of the twigs that bodies2twigs forms are the run lengths of the
index list of the bodies. -/
theorem bodies2twigs_runLengths (X0 : List Rat) (R0 : Rat) (B0 : Body) (rest : List Body)
    (twigs : List Cell) (h : bodies2twigs X0 R0 (B0 :: rest) [] = some twigs) :
    twigs.map (fun t => (t.ICELL, t.NCLEAF))
      = runLengths ((B0 :: rest).map Body.ICELL) 0 B0.ICELL := by
  unfold bodies2twigs at h
  simp only [List.head?_cons, Option.bind_eq_bind, Option.some_bind, Option.bind_eq_some] at h
  obtain ⟨r, h1, cell1, h2, h3⟩ := h
  obtain ⟨p1, p2⟩ := getCenter_proj X0 R0 _ cell1 h2
  have := bodies2twigsLoop_runLengths X0 R0 (B0 :: rest) 0 0 B0.ICELL 0 Cell.init [] r h1
  rw [List.map_nil, List.nil_append] at this
  rw [← this, ← Option.some.inj h3, List.map_append, List.map_cons, List.map_nil, p1, p2]

/-- The indices that setIndex_topdown writes in the nine-point run: `1 + o b` for the first
eight bodies and `1 + o 0` for the ninth. -/
theorem nine_keys (X0 : List Rat) (R0 : Rat) (bodies : List Body) (hlen : bodies.length = 9)
    (o : Nat → Nat) (fuel : Nat) (nodes : List Node) (lf : Nat → List Nat)
    (hg : grow 4 X0 R0 bodies fuel = some nodes)
    (K : RootKids 4 X0 o lf 8 9 [0, 1, 2, 3] nodes) (lf0 : lf 0 = [0, 8])
    (lfj : ∀ j : Nat, 1 ≤ j → j < 8 → lf j = [j]) (fuel1 : Nat) (hf : 9 ≤ fuel1) :
    ∃ bodies1 : List Body, setIndex_topdown 4 nodes fuel1 bodies = some bodies1 ∧
      bodies1.map Body.ICELL = (List.range 9).map (fun b => 1 + (o (b % 8) : Int)) := by
  obtain ⟨-, hw⟩ := topdown_written 4 X0 R0 bodies fuel nodes hg
  obtain ⟨hnl, ⟨root, hr, -, -, -, hN, -⟩, hkids⟩ := K
  obtain ⟨bodies1, h1, h2, h3⟩ := hw fuel1 (by rw [hnl]; exact hf)
  refine ⟨bodies1, h1, ?_⟩
  apply List.ext_getElem?
  intro i
  by_cases hi : i < 9
  · have hi1 : i < bodies1.length := by rw [h2, hlen]; exact hi
    rw [List.getElem?_map, List.getElem?_map, List.getElem?_eq_getElem hi1,
      List.getElem?_eq_getElem (by rw [List.length_range]; exact hi), List.getElem_range]
    simp only [Option.map_some']
    obtain ⟨B, j, N, -, -, w1, w2, w3⟩ := h3 i _ (List.getElem?_eq_getElem hi1)
    rw [w3]
    have hj := getElem?_lt w1
    rw [hnl] at hj
    cases j with
    | zero =>
      rw [hr] at w1
      have := Option.some.inj w1
      subst this
      have hlt : root.NLEAF < 4 := w2.1
      rw [hN] at hlt
      exact absurd hlt (by decide)
    | succ j' =>
      obtain ⟨C, c1, c2, -, -, c5⟩ := hkids j' (by omega)
      rw [w1] at c1
      have := Option.some.inj c1
      subst this
      have hmem := w2.2
      rw [c5] at hmem
      rw [c2]
      by_cases hj0 : j' = 0
      · subst hj0
        rw [lf0] at hmem
        simp only [List.mem_cons, List.mem_singleton, List.not_mem_nil, or_false] at hmem
        rcases hmem with rfl | rfl <;> rfl
      · rw [lfj j' (by omega) (by omega)] at hmem
        simp only [List.mem_singleton] at hmem
        subst hmem
        rw [Nat.mod_eq_of_lt (by omega)]
  · have hi1 : bodies1.length ≤ i := by rw [h2, hlen]; omega
    rw [List.getElem?_eq_none (by rw [List.length_map]; exact hi1),
      List.getElem?_eq_none (by rw [List.length_map, List.length_range]; omega)]

/-- The sorted index list of the nine-point run: the indices 1 to 8 with `1 + o 0` twice. -/
theorem nine_sorted (o : Nat → Nat) (hinj : ∀ a b : Nat, a < 8 → b < 8 → a ≠ b → o a ≠ o b)
    (ho8 : ∀ j : Nat, j < 8 → o j < 8) (l : List Int) (hs : List.Sorted (· ≤ ·) l)
    (hp : List.Perm l ((List.range 9).map (fun b => 1 + (o (b % 8) : Int)))) :
    l = List.orderedInsert (· ≤ ·) (1 + (o 0 : Int)) [1, 2, 3, 4, 5, 6, 7, 8] := by
  have hperm : List.Perm ((List.range 8).map o) (List.range 8) := by
    apply List.Subperm.perm_of_length_le
    · apply List.subperm_of_subset
      · apply List.Nodup.map_on _ (List.nodup_range 8)
        intro x hx y hy hxy
        by_contra hne
        exact hinj x y (List.mem_range.1 hx) (List.mem_range.1 hy) hne hxy
      · intro x hx
        obtain ⟨j, hj, rfl⟩ := List.mem_map.1 hx
        exact List.mem_range.2 (ho8 j (List.mem_range.1 hj))
    · simp
  have h8 : (List.range 8).map (fun b => 1 + (o b : Int))
      = ((List.range 8).map o).map (fun q : Nat => 1 + (q : Int)) := by
    rw [List.map_map]; rfl
  have hT : (List.range 9).map (fun b => 1 + (o (b % 8) : Int))
      = (List.range 8).map (fun b => 1 + (o b : Int)) ++ [1 + (o 0 : Int)] := by
    rw [List.range_succ, List.map_append]
    congr 1
  have hp2 : List.Perm ((List.range 9).map (fun b => 1 + (o (b % 8) : Int)))
      ((1 + (o 0 : Int)) :: [1, 2, 3, 4, 5, 6, 7, 8]) := by
    rw [hT, h8]
    refine List.Perm.trans (List.perm_append_singleton _ _) (List.Perm.cons _ ?_)
    exact List.Perm.map _ hperm
  have hK : List.Sorted (· ≤ ·)
      (List.orderedInsert (· ≤ ·) (1 + (o 0 : Int)) [1, 2, 3, 4, 5, 6, 7, 8]) :=
    List.Sorted.orderedInsert _ _ (by decide)
  exact List.eq_of_perm_of_sorted
    (hp.trans (hp2.trans (List.perm_orderedInsert _ _ _).symm)) hs hK

/-- The twigs of the nine-point run, from their indices and leaf counts. -/
theorem nine_twigs (twigs : List Cell) (c : Nat) (hc : c < 8)
    (h : twigs.map (fun t => (t.ICELL, t.NCLEAF))
      = runLengths (List.orderedInsert (· ≤ ·) (1 + (c : Int)) [1, 2, 3, 4, 5, 6, 7, 8]) 0
          ((List.orderedInsert (· ≤ ·) (1 + (c : Int)) [1, 2, 3, 4, 5, 6, 7, 8]).head?.getD 0)) :
    twigs.map Cell.ICELL = [1, 2, 3, 4, 5, 6, 7, 8] ∧
    (∀ t ∈ twigs, t.NCLEAF = if t.ICELL = 1 + (c : Int) then 2 else 1) ∧
    (twigs.filter (fun t => decide (t.NCLEAF = 2))).length = 1 ∧
    (twigs.filter (fun t => decide (t.NCLEAF = 1))).length = 7 := by
  have e1 : twigs.map Cell.ICELL = (twigs.map (fun t => (t.ICELL, t.NCLEAF))).map Prod.fst := by
    rw [List.map_map]; rfl
  have e2 : (∀ t ∈ twigs, t.NCLEAF = if t.ICELL = 1 + (c : Int) then 2 else 1) ↔
      ∀ p ∈ twigs.map (fun t => (t.ICELL, t.NCLEAF)),
        p.2 = if p.1 = 1 + (c : Int) then 2 else 1 := by
    simp only [List.mem_map, forall_exists_index, and_imp, forall_apply_eq_imp_iff₂]
  have e3 : ∀ n : Nat, (twigs.filter (fun t => decide (t.NCLEAF = n))).length
      = ((twigs.map (fun t => (t.ICELL, t.NCLEAF))).filter (fun p => decide (p.2 = n))).length := by
    intro n
    rw [List.filter_map, List.length_map]
    rfl
  rw [e1, e2, e3 2, e3 1, h]
  interval_cases c <;> decide

/-- The assembly of index-sorted bodies none of whose indices is a proper ancestor of another:
the last cell is the root, it counts all bodies, and no other cell has depth 0. -/
theorem assemble_root (X0 : List Rat) (R0 : Rat) (bodies : List Body)
    (hne : bodies ≠ []) (h0 : ∀ b ∈ bodies, 0 ≤ b.ICELL)
    (hs : List.Sorted (· ≤ ·) (bodies.map Body.ICELL))
    (hanc : ∀ a ∈ bodies, ∀ b ∈ bodies, ¬ IsProperAncestor a.ICELL b.ICELL) :
    ∃ (twigs cells sticks : List Cell) (root : Cell),
      bodies2twigs X0 R0 bodies [] = some twigs ∧
      twigs2cells X0 R0 twigs [] [] = some (cells, sticks) ∧
      cells.getLast? = some root ∧ root.ICELL = 0 ∧ root.NDLEAF = bodies.length ∧
      ∀ (p : Nat) (x : Cell), cells[p]? = some x → getLevel x.ICELL = 0 →
        p + 1 = cells.length := by
  obtain ⟨twigs, hb2t, htne, hfacts, hsum, hsorted⟩ := bodies2twigs_sorted X0 R0 bodies hne h0 hs
  have ht0 : ∀ t ∈ twigs, 0 ≤ t.ICELL := fun t ht => (hfacts t ht).1
  have htanc : ∀ a ∈ twigs, ∀ b ∈ twigs, ¬ IsProperAncestor a.ICELL b.ICELL := by
    intro a ha b hb
    obtain ⟨-, -, -, -, a', ha', hka⟩ := hfacts a ha
    obtain ⟨-, -, -, -, b', hb', hkb⟩ := hfacts b hb
    rw [hka, hkb]
    exact hanc a' ha' b' hb'
  obtain ⟨c, s, htc, ⟨root, h1, h2, h3⟩, ⟨root2, g1, -, g3⟩⟩ := twigs2cells_skeleton X0 R0
    (fun st L pushed => InvBase st L ∧ RootInv st pushed ∧ ∀ t ∈ pushed, t ∈ twigs)
    (fun cs _ => (∃ root : Cell, cs.getLast? = some root ∧ root.ICELL = 0 ∧
      root.NDLEAF = (twigs.map Cell.NDLEAF).sum) ∧
      ∃ root : Cell, cs.getLast? = some root ∧ root.ICELL = 0 ∧
        ∀ (p : Nat) (x : Cell), cs[p]? = some x → getLevel x.ICELL = 0 → p + 1 = cs.length)
    (fun t => 0 ≤ t.ICELL ∧ t.NCHILD = 0) twigs [] [] htne
    (fun t ht => ⟨⟨(hfacts t ht).1, (hfacts t ht).2.1⟩, getLevel_nonneg _ (ht0 t ht)⟩)
    (twigs_levels twigs ht0 hsorted)
    (fun t ht => by
      have hm : t ∈ twigs := List.mem_of_getLast?_eq_some ht
      refine ⟨init_invBase t (hfacts t hm).1 (hfacts t hm).2.1 [], init_rootInv t [], ?_⟩
      intro u hu; simp at hu; subst hu; exact hm)
    (fun st L pushed t pre hP hl hg htw =>
      ⟨push_invBase st L t hP.1 hl hg.1 hg.2,
        push_rootInv st L pushed pre twigs t hP.1 hP.2.1 htw hsorted htanc,
        fun u hu => by
          rcases List.mem_cons.1 hu with h | h
          · rw [h, htw]; simp
          · exact hP.2.2 u h⟩)
    (fun st L pushed hP hL => ⟨_, (levelStep_invBase X0 R0 st L hP.1 hL).1,
      (levelStep_invBase X0 R0 st L hP.1 hL).2.1,
      levelStep_rootInv X0 R0 st L pushed hP.1 hP.2.1 hL (fun t ht => ht0 t (hP.2.2 t ht)),
      hP.2.2⟩)
    (fun st hP => by
      obtain ⟨root, _, _, hu, _⟩ := final_unique st hP.1
      obtain ⟨cs, s, e, hu2, hq⟩ := final_single_root st hP.1
      rw [hu] at hu2
      have hcs : st.cells.take (st.begin + 1) = cs := by
        have := Option.some.inj hu2
        exact congrArg Prod.fst this
      rw [← hcs] at hq
      exact ⟨_, _, _, hu, final_root st twigs hP.1 hP.2.1, hq⟩)
  exact ⟨twigs, c, s, root, hb2t, htc, h1, h2, by rw [h3, hsum], g3⟩

theorem depth_one_not_ancestor (a b : Int) (ha : 1 ≤ a) (hb1 : 1 ≤ b) (hb8 : b ≤ 8) :
    ¬ IsProperAncestor a b := by
  rintro ⟨j, hj1, hj2, hj3⟩
  have hl : getLevel b = 1 := by interval_cases b <;> decide
  have hp : getParent b = 0 := by interval_cases b <;> decide
  rw [hl] at hj2
  have hj : j = 1 := by omega
  subst hj
  rw [Function.iterate_one, hp] at hj3
  omega

/-- C22: with NCRIT = 4 and nine points of which the first eight lie in eight different octants
of the root and the ninth lies where the first one lies, topdown (grow, setIndex_topdown,
sorting by index, bodies2twigs, twigs2cells) returns for every fuel of 9 or more, without
sticks: the twigs are the eight cells of depth 1, of indices 1 to 8; the twig of the first
point has 2 leaves and every other twig has 1 leaf, so exactly one twig has 2 leaves and seven
have 1; and the last cell of the cell array is the root with ICELL = 0 and NDLEAF = 9, the only
cell of depth 0. -/
theorem nine_points_assembly (X0 : List Rat) (R0 : Rat) (bodies : List Body)
    (hlen : bodies.length = 9)
    (hoct : ∀ a b : Nat, a < 8 → b < 8 → a ≠ b →
      getOctant (bodies.getD a default).X 0 [rootNode 4 X0 R0]
        ≠ getOctant (bodies.getD b default).X 0 [rootNode 4 X0 R0])
    (h9 : (bodies.getD 8 default).X = (bodies.getD 0 default).X)
    (fuel : Nat) (hf : 9 ≤ fuel) :
    ∃ (sorted : List Body) (cells twigs : List Cell) (root : Cell),
      topdown 4 X0 R0 fuel bodies [] = some (sorted, cells, twigs, []) ∧
      twigs.map Cell.ICELL = [1, 2, 3, 4, 5, 6, 7, 8] ∧
      (∀ t ∈ twigs, t.NCLEAF
        = if t.ICELL = 1 + (getOctant (bodies.getD 0 default).X 0 [rootNode 4 X0 R0] : Int)
          then 2 else 1) ∧
      (twigs.filter (fun t => decide (t.NCLEAF = 2))).length = 1 ∧
      (twigs.filter (fun t => decide (t.NCLEAF = 1))).length = 7 ∧
      cells.getLast? = some root ∧ root.ICELL = 0 ∧ root.NDLEAF = 9 ∧
      ∀ (p : Nat) (x : Cell), cells[p]? = some x → getLevel x.ICELL = 0 →
        p + 1 = cells.length := by
  obtain ⟨o, hodef⟩ : ∃ o : Nat → Nat,
      o = fun j => getOctant (bodies.getD j default).X 0 [rootNode 4 X0 R0] := ⟨_, rfl⟩
  have ho : ∀ j : Nat, j < 8 →
      getOctant (bodies.getD j default).X 0 [rootNode 4 X0 R0] = o j := by
    intro j _; rw [hodef]
  have hinj : ∀ a b : Nat, a < 8 → b < 8 → a ≠ b → o a ≠ o b := by
    intro a b ha hb hab
    rw [hodef]
    exact hoct a b ha hb hab
  have ho8 : ∀ j : Nat, j < 8 → o j < 8 := by
    intro j _
    rw [hodef]
    exact getOctant_lt _ _ _
  have ho0 : getOctant (bodies.getD 0 default).X 0 [rootNode 4 X0 R0] = o 0 := ho 0 (by decide)
  rw [ho0]
  obtain ⟨f, rfl⟩ : ∃ f : Nat, fuel = f + 5 := ⟨fuel - 5, by omega⟩
  obtain ⟨nodes, lf, hg, K, lf0, lfj⟩ := nine_grow X0 R0 bodies hlen o ho hinj h9 f
  obtain ⟨bodies1, hset, hkeys⟩ :=
    nine_keys X0 R0 bodies hlen o (f + 5) nodes lf hg K lf0 lfj (f + 5) hf
  have hrange : ∀ a ∈ bodies1, 1 ≤ a.ICELL ∧ a.ICELL ≤ 8 := by
    intro a ha
    have hm : a.ICELL ∈ bodies1.map Body.ICELL := List.mem_map_of_mem _ ha
    rw [hkeys] at hm
    obtain ⟨b, hb, e⟩ := List.mem_map.1 hm
    have hb8 : b % 8 < 8 := Nat.mod_lt _ (by decide)
    have := ho8 (b % 8) hb8
    rw [← e]
    constructor <;> omega
  have hlen1 : bodies1.length = 9 := by
    have := congrArg List.length hkeys
    simpa using this
  have hne1 : bodies1 ≠ [] := by
    intro h
    rw [h] at hlen1
    exact absurd hlen1 (by decide)
  have hp := sortBodies_perm bodies1
  have hneS : sortBodies bodies1 ≠ [] := by
    intro h
    rw [h] at hp
    exact hne1 (List.Perm.nil_eq hp).symm
  have h0S : ∀ b ∈ sortBodies bodies1, 0 ≤ b.ICELL := by
    intro b hb
    have := (hrange b (hp.mem_iff.1 hb)).1
    omega
  have hancS : ∀ a ∈ sortBodies bodies1, ∀ b ∈ sortBodies bodies1,
      ¬ IsProperAncestor a.ICELL b.ICELL := by
    intro a ha b hb
    exact depth_one_not_ancestor a.ICELL b.ICELL (hrange a (hp.mem_iff.1 ha)).1
      (hrange b (hp.mem_iff.1 hb)).1 (hrange b (hp.mem_iff.1 hb)).2
  obtain ⟨twigs, cells, sticks, root, t1, t2, t3, t4, t5, t6⟩ :=
    assemble_root X0 R0 (sortBodies bodies1) hneS h0S (sortBodies_sorted bodies1) hancS
  obtain ⟨twigs', cells', p1, p2, -⟩ := assemble_plain X0 R0 bodies1 hne1
    (fun b hb => by have := (hrange b hb).1; omega)
    (fun a ha b hb => depth_one_not_ancestor a.ICELL b.ICELL (hrange a ha).1 (hrange b hb).1
      (hrange b hb).2)
  rw [t1] at p1
  have := Option.some.inj p1
  subst this
  rw [t2] at p2
  have hst : sticks = [] := congrArg Prod.snd (Option.some.inj p2)
  subst hst
  have hsk := nine_sorted o hinj ho8 ((sortBodies bodies1).map Body.ICELL)
    (sortBodies_sorted bodies1) (by rw [← hkeys]; exact hp.map _)
  obtain ⟨B0, rest, hBr⟩ := List.exists_cons_of_ne_nil hneS
  have hrl := bodies2twigs_runLengths X0 R0 B0 rest twigs (by rw [← hBr]; exact t1)
  rw [← hBr, hsk] at hrl
  have hhead : B0.ICELL
      = (List.orderedInsert (· ≤ ·) (1 + (o 0 : Int)) [1, 2, 3, 4, 5, 6, 7, 8]).head?.getD 0 := by
    rw [← hsk, hBr]
    rfl
  rw [hhead] at hrl
  obtain ⟨q1, q2, q3, q4⟩ := nine_twigs twigs (o 0) (ho8 0 (by decide)) hrl
  refine ⟨sortBodies bodies1, cells, twigs, root, ?_, q1, q2, q3, q4, t3, t4, ?_, t6⟩
  · simp only [topdown, hg, hset, t1, t2, Option.some_bind]
  · rw [t5, hp.length_eq, hlen1]

theorem nine_points_assembly_witness :
    ∃ (sorted : List Body) (cells twigs : List Cell) (root : Cell),
      topdown 4 [0, 0, 0] 1 9 ninePoints [] = some (sorted, cells, twigs, []) ∧
      twigs.map Cell.ICELL = [1, 2, 3, 4, 5, 6, 7, 8] ∧
      (∀ t ∈ twigs, t.NCLEAF
        = if t.ICELL = 1 + (getOctant (ninePoints.getD 0 default).X 0 [rootNode 4 [0, 0, 0] 1] : Int)
          then 2 else 1) ∧
      (twigs.filter (fun t => decide (t.NCLEAF = 2))).length = 1 ∧
      (twigs.filter (fun t => decide (t.NCLEAF = 1))).length = 7 ∧
      cells.getLast? = some root ∧ root.ICELL = 0 ∧ root.NDLEAF = 9 ∧
      ∀ (p : Nat) (x : Cell), cells[p]? = some x → getLevel x.ICELL = 0 →
        p + 1 = cells.length :=
  nine_points_assembly [0, 0, 0] 1 ninePoints (by decide)
    (by
      have h : ∀ a : Nat, a < 8 →
          getOctant (ninePoints.getD a default).X 0 [rootNode 4 [0, 0, 0] 1] = a := by
        with_unfolding_all decide
      intro a b ha hb hab
      rw [h a ha, h b hb]
      exact hab)
    rfl 9 (by decide)

end TreeStructure
